import Mathlib

/-!
The `ta` spelling-correction engine: edit distances, hashing and the symmetric-delete index.

A shallow embedding of the Go sources (`utils/utils.go`, `utils/demarau.go`,
`utils/leveshtein.go`, `utils/dictionary.go`, `utils/library.go`, `ta.go`) followed by
theorems about them.

Conventions of the embedding.

* A Go `int` is an `Int`.  Every integer the edit-distance code computes is bounded by a
  slice length plus two, so 64-bit wrap-around cannot occur there; unsigned counters that can
  wrap (`uint32` hashes, `uint64` frequencies) carry an explicit modulus.
* A slice is a `List`; a `nil` slice that the code tests for is an `Option`.
* A run-time panic (index out of range) is `none`.
* Runes are only ever compared for equality, so the rune type is a parameter `α`.
-/

namespace Ta

/-! ## Slices and loops -/

section Slices

variable {α σ : Type}

/-- Slice read `xs[i]`; `none` is the panic on an index out of range. -/
def idx (xs : List α) (i : Int) : Option α :=
  if i < 0 then none else xs[i.toNat]?

/-- Slice write `xs[i] = v`; `none` is the panic on an index out of range. -/
def upd (xs : List α) (i : Int) (v : α) : Option (List α) :=
  if 0 ≤ i ∧ i.toNat < xs.length then some (xs.set i.toNat v) else none

/-- Slice expression `xs[lo:hi]`; `none` is the panic on bounds out of range. -/
def slice (xs : List α) (lo hi : Int) : Option (List α) :=
  if 0 ≤ lo ∧ lo ≤ hi ∧ hi ≤ xs.length then some ((xs.drop lo.toNat).take (hi - lo).toNat)
  else none

/-- Allocation `make([]int, n)`: a zeroed slice; `none` is the panic on a negative length. -/
def makeInts (n : Int) : Option (List Int) :=
  if n < 0 then none else some (List.replicate n.toNat 0)

/-- The statement `if buf == nil { buf = make([]int, n) }`. -/
def allocIfNil (buf : Option (List Int)) (n : Int) : Option (List Int) :=
  match buf with
  | none => makeInts n
  | some b => some b

/-- Iterations `i, i+1, ...` of a counting loop, `n` of them. -/
def forLoop (body : Int → σ → Option σ) : Nat → Int → σ → Option σ
  | 0, _, s => some s
  | n + 1, i, s => (body i s).bind (forLoop body n (i + 1))

/-- The loop `for i := lo; i < hi; i++ { body }` whose body leaves `i` and `hi` alone. -/
def forRange (lo hi : Int) (body : Int → σ → Option σ) (s : σ) : Option σ :=
  forLoop body (hi - lo).toNat lo s

/-- The loop `for cond { body }` run for at most `fuel` iterations: `none` when the guard or
the body panics, and also when the guard still holds after `fuel` iterations. -/
def whileLoop (cond : σ → Option Bool) (body : σ → Option σ) : Nat → σ → Option σ
  | 0, s => (cond s).bind fun c => if c then none else some s
  | n + 1, s => (cond s).bind fun c => if c then (body s).bind (whileLoop cond body n) else some s

end Slices

/-! ## `utils/utils.go` -/

section Utils

variable {α : Type} [DecidableEq α]

/-- `Abs`. -/
def Abs (arg : Int) : Int := if arg < 0 then -arg else arg

/-- `findMin`; `none` is the panic of `a[0]` on an empty argument list. -/
def findMin (a : List Int) : Option Int :=
  (idx a 0).map fun m => a.foldl (fun min arg => if min > arg then arg else min) m

/-- `Min`. -/
def Min (arg : List Int) : Option Int := findMin arg

/-- `findMax`, which seeds the maximum with `0`. -/
def findMax (a : List Int) : Int :=
  a.foldl (fun max arg => if max < arg then arg else max) 0

/-- `Max`. -/
def Max (arg : List Int) : Int := findMax arg

/-- The element loop of `CompareSlices`, entered with slices of equal length. -/
def compareLoop : List α → List α → Bool
  | x :: xs, y :: ys => if x ≠ y then false else compareLoop xs ys
  | _, _ => true

/-- `CompareSlices`.  The embedding does not tell a `nil` slice from an empty one, so the
first test of the source (exactly one argument is `nil`) has no counterpart. -/
def CompareSlices (a b : List α) : Bool :=
  if a.length ≠ b.length then false else compareLoop a b

/-- `GetCharCosts`: the first cost row, `i + 1` below `maxDist` and `maxDist + 2` from there
on.  The second loop resumes at the counter the first loop stopped at. -/
def GetCharCosts (length maxDist : Int) (x : Option (List Int)) : Option (List Int) := do
  let x ← allocIfNil x length
  let x ← forRange 0 maxDist (fun i x => upd x i (i + 1)) x
  forRange (max 0 maxDist) length (fun i x => upd x i (maxDist + 2)) x

/-- `GetLenDiff`: returns `(lenDiff, maxDist, toReturn)`. -/
def GetLenDiff (s1Len s2Len maxDist : Int) : Int × Int × Option Int :=
  let lenDiff := s2Len - s1Len
  let toReturn : Int := -1
  if maxDist > s2Len then (lenDiff, s2Len, none)
  else if lenDiff > maxDist then (lenDiff, maxDist, some toReturn)
  else (lenDiff, maxDist, none)

/-- `SwapRunes`: returns `(r1, r2, r1Len, r2Len, toReturn)` with the shorter slice first. -/
def SwapRunes (r1 r2 : List α) (maxDist : Int) :
    List α × List α × Int × Int × Option Int :=
  let toReturn : Int := -1
  let r1Len : Int := r1.length
  let r2Len : Int := r2.length
  if maxDist < 0 then (r1, r2, r1Len, r2Len, some toReturn)
  else
    let sw : List α × List α × Int × Int :=
      if r1Len > r2Len then (r2, r1, r2Len, r1Len) else (r1, r2, r1Len, r2Len)
    if sw.2.2.1 = 0 then
      if sw.2.2.2 ≤ maxDist then (sw.1, sw.2.1, sw.2.2.1, sw.2.2.2, some sw.2.2.2)
      else (sw.1, sw.2.1, sw.2.2.1, sw.2.2.2, some toReturn)
    else (sw.1, sw.2.1, sw.2.2.1, sw.2.2.2, none)

/-- `IgnoreSuffix`: drops the common suffix; the loop runs at most `s1Len` times. -/
def IgnoreSuffix (s1 s2 : List α) (s1Len s2Len : Int) : Option (Int × Int) :=
  whileLoop
    (fun (p : Int × Int) =>
      if p.1 > 0 then
        (idx s1 (p.1 - 1)).bind fun c1 => (idx s2 (p.2 - 1)).map fun c2 => decide (c1 = c2)
      else some false)
    (fun p => some (p.1 - 1, p.2 - 1))
    s1Len.toNat (s1Len, s2Len)

/-- The loop `for start < r1Len && r1[start] == r2[start] { start++ }` shared by both
distance functions; it runs at most `r1Len` times. -/
def ignorePrefix (r1 r2 : List α) (r1Len : Int) (start : Int) : Option Int :=
  whileLoop
    (fun (start : Int) =>
      if start < r1Len then
        (idx r1 start).bind fun c1 => (idx r2 start).map fun c2 => decide (c1 = c2)
      else some false)
    (fun start => some (start + 1))
    r1Len.toNat start

/-- The statements both distance functions run between `SwapRunes` and the slicing of `r2`:
the call of `IgnoreSuffix` and the block that skips the common prefix.  Returns
`(start, r1Len, r2Len, stripped)`, where `stripped` tells whether the block was entered,
in which case both lengths have been reduced by `start`. -/
def stripCommon (r1 r2 : List α) (r1Len r2Len : Int) : Option (Int × Int × Int × Bool) := do
  let (r1Len, r2Len) ← IgnoreSuffix r1 r2 r1Len r2Len
  let start : Int := 0
  let c1 ← idx r1 start
  let c2 ← idx r2 start
  if c1 = c2 ∨ r1Len = 0 then do
    let start ← ignorePrefix r1 r2 r1Len start
    pure (start, r1Len - start, r2Len - start, true)
  else pure (start, r1Len, r2Len, false)

end Utils

/-! ## `utils/demarau.go` -/

section Damerau

variable {α : Type} [DecidableEq α]

/-- The variables the inner loop of `DamerauLevenshteinRunesBuffer` carries over `j`. -/
structure DLCell (α : Type) where
  x : List Int
  y : List Int
  left : Int
  current : Int
  nextTransCost : Int
  s2Char : α

/-- One iteration of the loop over `j` of `DamerauLevenshteinRunesBuffer`. -/
def dlCell (r2 : List α) (i : Int) (s1Char prevS1Char : α) (j : Int) (c : DLCell α) :
    Option (DLCell α) := do
  let above := c.current
  let thisTransCost := c.nextTransCost
  let nextTransCost ← idx c.y j
  let current := c.left
  let y ← upd c.y j current
  let left ← idx c.x j
  let prevS2Char := c.s2Char
  let s2Char ← idx r2 j
  let current :=
    if s1Char ≠ s2Char then
      let current := if left < current then left else current
      let current := if above < current then above else current
      let current := current + 1
      if i ≠ 0 ∧ j ≠ 0 ∧ s1Char = prevS2Char ∧ prevS1Char = s2Char then
        let thisTransCost := thisTransCost + 1
        if thisTransCost < current then thisTransCost else current
      else current
    else current
  let x ← upd c.x j current
  pure ⟨x, y, left, current, nextTransCost, s2Char⟩

/-- The variables the loop over `i` of `DamerauLevenshteinRunesBuffer` carries. -/
structure DLRow (α : Type) where
  x : List Int
  y : List Int
  jStart : Int
  jEnd : Int
  s1Char : α
  current : Int

/-- The loop over `i` of `DamerauLevenshteinRunesBuffer`, `n` iterations from `i` on, and the
final `return current`. -/
def dlRows (r1 r2 : List α) (start r2Len lenDiff maxDist jStartOffset : Int)
    (haveMax : Bool) : Nat → Int → DLRow α → Option Int
  | 0, _, st => some st.current
  | n + 1, i, st => do
    let prevS1Char := st.s1Char
    let s1Char ← idx r1 (start + i)
    let s2Char ← idx r2 0
    let left := i
    let current := left + 1
    let nextTransCost : Int := 0
    let jStart := if i > jStartOffset then st.jStart + 1 else st.jStart
    let jEnd := if st.jEnd < r2Len then st.jEnd + 1 else st.jEnd
    let c ← forRange jStart jEnd (dlCell r2 i s1Char prevS1Char)
      ⟨st.x, st.y, left, current, nextTransCost, s2Char⟩
    let stop ← (if haveMax then (idx c.x (i + lenDiff)).map fun v => decide (v > maxDist)
      else some false)
    let st : DLRow α := ⟨c.x, c.y, jStart, jEnd, s1Char, c.current⟩
    if stop then pure (-1)
    else dlRows r1 r2 start r2Len lenDiff maxDist jStartOffset haveMax n (i + 1) st

/-- The banded computation of `DamerauLevenshteinRunesBuffer`: the function body from the
slicing of `r2` on. -/
def dlBanded (r1 r2 : List α) (start r1Len r2Len maxDist : Int) (x y : Option (List Int)) :
    Option Int := do
  let r2 ← slice r2 start (start + r2Len)
  match GetLenDiff r1Len r2Len maxDist with
  | (_, _, some toReturn) => pure toReturn
  | (lenDiff, maxDist, none) => do
    let x ← GetCharCosts r2Len maxDist x
    let y ← allocIfNil y r2Len
    let jStartOffset := maxDist - lenDiff
    let haveMax := decide (maxDist < r2Len)
    let jStart : Int := 0
    let jEnd := maxDist
    let s1Char ← idx r1 0
    let current : Int := 0
    dlRows r1 r2 start r2Len lenDiff maxDist jStartOffset haveMax r1Len.toNat 0
      ⟨x, y, jStart, jEnd, s1Char, current⟩

/-- The body of `DamerauLevenshteinRunesBuffer` after the call of `SwapRunes`, with the
values that call returned; the early return sits inside the prefix block of the source. -/
def dlBody (r1 r2 : List α) (r1Len r2Len maxDist : Int) (x y : Option (List Int)) :
    Option Int := do
  let (start, r1Len, r2Len, stripped) ← stripCommon r1 r2 r1Len r2Len
  if stripped = true ∧ r1Len = 0 then
    if r2Len ≤ maxDist then pure r2Len else pure (-1)
  else dlBanded r1 r2 start r1Len r2Len maxDist x y

/-- `DamerauLevenshteinRunesBuffer`; the buffers `x` and `y` are `none` for `nil`. -/
def DamerauLevenshteinRunesBuffer (r1 r2 : List α) (maxDist : Int)
    (x y : Option (List Int)) : Option Int :=
  if CompareSlices r1 r2 then some 0
  else
    match SwapRunes r1 r2 maxDist with
    | (_, _, _, _, some toReturn) => some toReturn
    | (r1, r2, r1Len, r2Len, none) => dlBody r1 r2 r1Len r2Len maxDist x y

/-- `DamerauLevenshteinRunes`. -/
def DamerauLevenshteinRunes (r1 r2 : List α) (maxDist : Int) : Option Int :=
  DamerauLevenshteinRunesBuffer r1 r2 maxDist none none

end Damerau

/-! ## `utils/leveshtein.go` -/

section Levenshtein

variable {α : Type} [DecidableEq α]

/-- The variables the inner loop of `LevenshteinRunesBuffer` carries over `j`. -/
structure LevCell where
  x : List Int
  left : Int
  current : Int

/-- One iteration of the loop over `j` of `LevenshteinRunesBuffer`. -/
def levCell (r2 : List α) (c : α) (j : Int) (s : LevCell) : Option LevCell := do
  let above := s.current
  let current := s.left
  let left ← idx s.x j
  let r2j ← idx r2 j
  let current :=
    if c ≠ r2j then
      let current := current + 1
      let del := above + 1
      let current := if del < current then del else current
      let ins := left + 1
      if ins < current then ins else current
    else current
  let x ← upd s.x j current
  pure ⟨x, left, current⟩

/-- The variables the loop over `i` of `LevenshteinRunesBuffer` carries. -/
structure LevRow where
  x : List Int
  jStart : Int
  jEnd : Int
  current : Int

/-- The loop over `i` of `LevenshteinRunesBuffer`, `n` iterations from `i` on, and the final
`return current`. -/
def levRows (r1 r2 : List α) (start r2Len lenDiff maxDist jStartOffset : Int)
    (haveMax : Bool) : Nat → Int → LevRow → Option Int
  | 0, _, st => some st.current
  | n + 1, i, st => do
    let c ← idx r1 (start + i)
    let left := i
    let current := i
    let jStart := if i > jStartOffset then st.jStart + 1 else st.jStart
    let jEnd := if st.jEnd < r2Len then st.jEnd + 1 else st.jEnd
    let s ← forRange jStart jEnd (levCell r2 c) ⟨st.x, left, current⟩
    let stop ← (if haveMax then (idx s.x (i + lenDiff)).map fun v => decide (v > maxDist)
      else some false)
    let st : LevRow := ⟨s.x, jStart, jEnd, s.current⟩
    if stop then pure (-1)
    else levRows r1 r2 start r2Len lenDiff maxDist jStartOffset haveMax n (i + 1) st

/-- The banded computation of `LevenshteinRunesBuffer`: the function body from the slicing
of `r2` on. -/
def levBanded (r1 r2 : List α) (start r1Len r2Len maxDist : Int) (x : Option (List Int)) :
    Option Int := do
  let r2 ← slice r2 start (start + r2Len)
  match GetLenDiff r1Len r2Len maxDist with
  | (_, _, some toReturn) => pure toReturn
  | (lenDiff, maxDist, none) => do
    let x ← allocIfNil x r2Len
    let x ← GetCharCosts r2Len maxDist (some x)
    let jStartOffset := maxDist - lenDiff
    let haveMax := decide (maxDist < r2Len)
    let jStart : Int := 0
    let jEnd := maxDist
    let current : Int := 0
    levRows r1 r2 start r2Len lenDiff maxDist jStartOffset haveMax r1Len.toNat 0
      ⟨x, jStart, jEnd, current⟩

/-- The body of `LevenshteinRunesBuffer` after the call of `SwapRunes`, with the values that
call returned; the early return sits inside the prefix block of the source. -/
def levBody (r1 r2 : List α) (r1Len r2Len maxDist : Int) (x : Option (List Int)) :
    Option Int := do
  let (start, r1Len, r2Len, stripped) ← stripCommon r1 r2 r1Len r2Len
  if stripped = true ∧ r1Len = 0 then
    if r2Len ≤ maxDist then pure r2Len else pure (-1)
  else levBanded r1 r2 start r1Len r2Len maxDist x

/-- `LevenshteinRunesBuffer`; the buffer `x` is `none` for `nil`. -/
def LevenshteinRunesBuffer (r1 r2 : List α) (maxDist : Int) (x : Option (List Int)) :
    Option Int :=
  if CompareSlices r1 r2 then some 0
  else
    match SwapRunes r1 r2 maxDist with
    | (_, _, _, _, some toReturn) => some toReturn
    | (r1, r2, r1Len, r2Len, none) => levBody r1 r2 r1Len r2Len maxDist x

/-- `LevenshteinRunes`. -/
def LevenshteinRunes (r1 r2 : List α) (maxDist : Int) : Option Int :=
  LevenshteinRunesBuffer r1 r2 maxDist none

end Levenshtein

/-! ## The reference recurrence -/

section Reference

variable {α : Type} [DecidableEq α]

/-- The full dynamic-programming table of the edit distance between prefixes:
`editTable tr a b i j` is the cost of turning the first `i` elements of `a` into the first
`j` elements of `b` with unit-cost insertion, deletion and substitution, and, when `tr` is
set, unit-cost transposition of two adjacent elements. -/
def editTable (tr : Bool) (a b : List α) : Nat → Nat → Nat
  | 0, j => j
  | i + 1, 0 => i + 1
  | i + 1, j + 1 =>
    let best := min (min (editTable tr a b i (j + 1) + 1) (editTable tr a b (i + 1) j + 1))
      (editTable tr a b i j + if a[i]? = b[j]? then 0 else 1)
    if tr = true ∧ 1 ≤ i ∧ 1 ≤ j ∧ a[i]? = b[j - 1]? ∧ a[i - 1]? = b[j]? then
      min best (editTable tr a b (i - 1) (j - 1) + 1)
    else best
termination_by i j => i + j

/-- Damerau-Levenshtein distance by the full recurrence (with adjacent transposition). -/
def dlDistance (a b : List α) : Nat := editTable true a b a.length b.length

/-- Levenshtein distance by the full recurrence (no transposition). -/
def levDistance (a b : List α) : Nat := editTable false a b a.length b.length

/-- The contract of the capped distance functions: the distance when within the cap,
`-1` otherwise. -/
def capped (d : Nat) (cap : Int) : Int := if (d : Int) ≤ cap then d else -1

end Reference

/-! ## Invariants of the banded computation -/

section Invariants

variable {α : Type} [DecidableEq α]

/-- Accuracy of a stored cost `v` for the table cell `(I, J)` whose true value is `t`, under
the cap `K` and the length difference `L`: `v` is never below `t` unless it is already so
large that, together with the insertions still needed to come back to the final diagonal,
it exceeds the cap; and `v` is exact whenever `t` plus the distance to the final diagonal
is within the cap. -/
def Good (K L : Int) (t I J : Nat) (v : Int) : Prop :=
  min (t : Int) (K + 1 - max 0 ((I : Int) - J + L)) ≤ v ∧
  ((t : Int) + ((J : Int) - I - L) ≤ K → (t : Int) + ((I : Int) + L - J) ≤ K → v = t)

/-- `Good` for the cell `(I, J)` of the table of `A` and `B`. -/
def GoodAt (tr : Bool) (A B : List α) (K L : Int) (I J : Nat) (v : Int) : Prop :=
  Good K L (editTable tr A B I J) I J v

/-- What the loop over `j` of `DamerauLevenshteinRunesBuffer` maintains in row `i`, before
column `j`: `x0` and `y0` are the buffers at the start of the row and `jS` its first
column, `jP` the end of the previous row. -/
structure DLCellInv (A B : List α) (K L : Int) (x0 y0 : List Int) (i jS jP j : Nat)
    (c : DLCell α) : Prop where
  lenx : c.x.length = x0.length
  leny : c.y.length = y0.length
  xrest : ∀ t, j ≤ t → c.x[t]? = x0[t]?
  yrest : ∀ t, j ≤ t → c.y[t]? = y0[t]?
  xdone : ∀ t, jS ≤ t → t < j → ∃ v, c.x[t]? = some v ∧ GoodAt true A B K L (i + 1) (t + 1) v
  ydone : ∀ t, jS ≤ t → t < j → ∃ v, c.y[t]? = some v ∧ GoodAt true A B K L i t v
  left : GoodAt true A B K L i j c.left
  cur : GoodAt true A B K L (i + 1) j c.current
  ntc : jS < j → 1 ≤ i → j ≤ jP → GoodAt true A B K L (i - 1) (j - 1) c.nextTransCost
  ntc0 : j = jS → c.nextTransCost = 0
  ch : jS < j → B[j - 1]? = some c.s2Char
  ch0 : j = jS → B[0]? = some c.s2Char
  last : jS < j → c.x[j - 1]? = some c.current

end Invariants

section RowInvariants

variable {α : Type} [DecidableEq α]

/-- What the loop over `i` of `DamerauLevenshteinRunesBuffer` maintains, before row `i`:
the band of the previous row holds accurate costs in `x` (for row `i - 1`) and in `y` (for
row `i - 2`), the columns beyond it still hold the sentinel, and the last check of the
band-edge cell passed. -/
structure DLRowInv (A B : List α) (n : Nat) (K L : Int) (haveMax : Bool) (i : Nat)
    (st : DLRow α) : Prop where
  lenx : n ≤ st.x.length
  leny : n ≤ st.y.length
  jStart : st.jStart = max 0 ((i : Int) - 1 - (K - L))
  jEnd : st.jEnd = min (n : Int) (K + i)
  s1c : 1 ≤ i → A[i - 1]? = some st.s1Char
  xband : ∀ t : Nat, st.jStart ≤ t → (t : Int) < st.jEnd →
    ∃ v, st.x[t]? = some v ∧ GoodAt true A B K L i (t + 1) v
  xout : ∀ t : Nat, st.jEnd ≤ t → t < n → st.x[t]? = some (K + 2)
  yband : 1 ≤ i → ∀ t : Nat, st.jStart ≤ t → (t : Int) < st.jEnd →
    ∃ v, st.y[t]? = some v ∧ GoodAt true A B K L (i - 1) t v
  cur : 1 ≤ i → ∃ t : Nat, (t : Int) + 1 = st.jEnd ∧ st.x[t]? = some st.current
  chk : 1 ≤ i → haveMax = true → (editTable true A B i (i + L.toNat) : Int) ≤ K

end RowInvariants

section LevInvariants

variable {α : Type} [DecidableEq α]

/-- What the loop over `j` of `LevenshteinRunesBuffer` maintains in row `i`, before column
`j`: `x0` is the buffer at the start of the row and `jS` its first column. -/
structure LevCellInv (A B : List α) (K L : Int) (x0 : List Int) (i jS j : Nat)
    (c : LevCell) : Prop where
  lenx : c.x.length = x0.length
  xrest : ∀ t, j ≤ t → c.x[t]? = x0[t]?
  xdone : ∀ t, jS ≤ t → t < j → ∃ v, c.x[t]? = some v ∧ GoodAt false A B K L (i + 1) (t + 1) v
  left : GoodAt false A B K L i j c.left
  cur : jS < j → GoodAt false A B K L (i + 1) j c.current
  cur0 : j = jS → c.current = (i : Int) ∧ c.left = (i : Int)
  last : jS < j → c.x[j - 1]? = some c.current

/-- What the loop over `i` of `LevenshteinRunesBuffer` maintains, before row `i`. -/
structure LevRowInv (A B : List α) (n : Nat) (K L : Int) (haveMax : Bool) (i : Nat)
    (st : LevRow) : Prop where
  lenx : n ≤ st.x.length
  jStart : st.jStart = max 0 ((i : Int) - 1 - (K - L))
  jEnd : st.jEnd = min (n : Int) (K + i)
  xband : ∀ t : Nat, st.jStart ≤ t → (t : Int) < st.jEnd →
    ∃ v, st.x[t]? = some v ∧ GoodAt false A B K L i (t + 1) v
  xout : ∀ t : Nat, st.jEnd ≤ t → t < n → st.x[t]? = some (K + 2)
  cur : 1 ≤ i → ∃ t : Nat, (t : Int) + 1 = st.jEnd ∧ st.x[t]? = some st.current
  chk : 1 ≤ i → haveMax = true → (editTable false A B i (i + L.toNat) : Int) ≤ K

end LevInvariants

/-! ## Strings, maps and hashing (`utils/utils.go`) -/

section Strings

/-- A Go `string` holding valid UTF-8, as its sequence of code points: `[]rune(s)` is the
list itself and `len([]rune(s))` its length. -/
abbrev GoString := List Char

/-- The UTF-8 encoding of one code point: the bytes a Go string stores for it. -/
def utf8Bytes (c : Char) : List Nat :=
  let n := c.toNat
  if n < 128 then [n]
  else if n < 2048 then [192 + n / 64, 128 + n % 64]
  else if n < 65536 then [224 + n / 4096, 128 + n / 64 % 64, 128 + n % 64]
  else [240 + n / 262144, 128 + n / 4096 % 64, 128 + n / 64 % 64, 128 + n % 64]

/-- The conversion `[]byte(str)`. -/
def stringBytes (str : GoString) : List Nat := str.flatMap utf8Bytes

/-- The loop of `GetStringHash` over the bytes, on `uint32`: `h ^= uint32(c)` then
`h *= 16777619`. -/
def hashLoop : List Nat → Nat → Nat
  | [], h => h
  | c :: cs, h => hashLoop cs ((h ^^^ c) * 16777619 % 2 ^ 32)

/-- `GetStringHash`: the FNV-1a hash implementation of the source. -/
def GetStringHash (str : GoString) : Nat := hashLoop (stringBytes str) 2166136261

/-- The left fold the specification describes: 32-bit FNV-1a over a byte sequence. -/
def fnv1a32 (bytes : List Nat) : Nat :=
  bytes.foldl (fun h b => (h ^^^ b) * 16777619 % 2 ^ 32) 2166136261

/-- The loop `for j := range s` of `Substring`: `rest` are the code points still to visit,
`i` counts them, and `startStrIdx` is the position where the result starts (positions are
counted in code points, which is what byte offsets of a valid string stand for). -/
def substringLoop (s : GoString) (start end_ : Int) : List Char → Int → Int → GoString
  | [], _, startStrIdx => s.drop startStrIdx.toNat
  | _ :: rest, i, startStrIdx =>
    let startStrIdx := if i = start then i else startStrIdx
    if i = end_ then (s.drop startStrIdx.toNat).take (i - startStrIdx).toNat
    else substringLoop s start end_ rest (i + 1) startStrIdx

/-- `Substring`: the code points of `s` from `start` up to `end`. -/
def Substring (s : GoString) (start end_ : Int) : GoString :=
  if start ≥ (s.length : Int) then []
  else substringLoop s start end_ s 0 0

/-- `RemoveChar`: `str` without the code point at `index`. -/
def RemoveChar (str : GoString) (index : Int) : GoString :=
  Substring str 0 index ++ Substring str (index + 1) (str.length : Int)

/-- `AddKey` on a `map[string]struct{}` kept as the list of its keys: returns the map after
the call and whether the key was new. -/
def AddKey (hash : List GoString) (key : GoString) : List GoString × Bool :=
  if key ∈ hash then (hash, false) else (key :: hash, true)

/-- The library function `strings.Contains`; on valid UTF-8 a byte-wise match is a match
of code points. -/
def Contains : GoString → GoString → Bool
  | [], substr => substr.isEmpty
  | c :: cs, substr => substr.isPrefixOf (c :: cs) || Contains cs substr

end Strings

/-! ## Go maps -/

section Maps

variable {κ ν : Type} [DecidableEq κ]

/-- The lookup `v, ok := m[k]` in a map kept as a list of bindings with distinct keys. -/
def mapLoad (m : List (κ × ν)) (k : κ) : Option ν :=
  match m with
  | [] => none
  | (k2, v) :: rest => if k2 = k then some v else mapLoad rest k

/-- The removal `delete(m, k)`. -/
def mapDelete (m : List (κ × ν)) (k : κ) : List (κ × ν) :=
  m.filter fun p => decide (p.1 ≠ k)

/-- The assignment `m[k] = v`. -/
def mapStore (m : List (κ × ν)) (k : κ) (v : ν) : List (κ × ν) :=
  (k, v) :: mapDelete m k

end Maps

/-! ## `utils/dictionary.go`, `utils/library.go`, `utils/suggestion.go` -/

section Dictionaries

/-- `WordData`, a `map[string]interface{}`: `none` is the `nil` map, and the opaque values
are kept as strings. -/
abbrev WordData := Option (List (GoString × GoString))

/-- `Entry`: a word of the dictionary. -/
structure Entry where
  Frequency : Nat
  Word : GoString
  WordData : WordData
  deriving DecidableEq

/-- The zero value of `Entry`, which a failed map lookup yields. -/
def Entry.zero : Entry := ⟨0, [], none⟩

/-- `Dictionary`: a mapping of a word to its entry. -/
abbrev Dictionary := List (GoString × Entry)

/-- `DeleteEntry`: a delete word, which records the dictionary word it comes from. -/
structure DeleteEntry where
  Len : Int
  Runes : List Char
  Str : GoString
  deriving DecidableEq

/-- `deletesMap`: hash of a delete variant to the words that have it. -/
abbrev deletesMap := List (Nat × List DeleteEntry)

/-- `DictionaryDeletes`: the deletes of every dictionary (the lock is not modelled). -/
structure DictionaryDeletes where
  dictionaries : List (GoString × deletesMap)
  deriving DecidableEq

/-- `DictOptions`. -/
structure DictOptions where
  Name : GoString
  OverrideFrequency : Bool
  OverrideWordData : Bool
  deriving DecidableEq

/-- `DictionaryOption`: a function that changes the options or fails with an error. -/
abbrev DictionaryOption := DictOptions → Except String DictOptions

/-- `NewDictionaryDeletes`. -/
def NewDictionaryDeletes : DictionaryDeletes := ⟨[]⟩

/-- `DictionaryDeletes.Load`: the bucket of `key` in `dict` and whether it exists. -/
def DictionaryDeletes.Load (dd : DictionaryDeletes) (dict : GoString) (key : Nat) :
    List DeleteEntry × Bool :=
  match (mapLoad dd.dictionaries dict).bind fun m => mapLoad m key with
  | some entry => (entry, true)
  | none => ([], false)

/-- `DictionaryDeletes.Add`: appends `entry` to the bucket of `key` in `dict`. -/
def DictionaryDeletes.Add (dd : DictionaryDeletes) (dict : GoString) (key : Nat)
    (entry : DeleteEntry) : DictionaryDeletes :=
  let m := (mapLoad dd.dictionaries dict).getD []
  let bucket := (mapLoad m key).getD []
  ⟨mapStore dd.dictionaries dict (mapStore m key (bucket ++ [entry]))⟩

/-- `Library`: a collection of dictionaries (the lock is not modelled). -/
structure Library where
  Dictionaries : List (GoString × Dictionary)
  deriving DecidableEq

/-- `NewLibrary`. -/
def NewLibrary : Library := ⟨[]⟩

/-- `Library.Load`: the entry of `word` in `dict` (the zero entry when there is none) and
whether it exists. -/
def Library.Load (l : Library) (dict word : GoString) : Entry × Bool :=
  match (mapLoad l.Dictionaries dict).bind fun d => mapLoad d word with
  | some definition => (definition, true)
  | none => (Entry.zero, false)

/-- `Library.Store`. -/
def Library.Store (l : Library) (dict word : GoString) (definition : Entry) : Library :=
  let d := (mapLoad l.Dictionaries dict).getD []
  ⟨mapStore l.Dictionaries dict (mapStore d word definition)⟩

/-- `Library.Remove`: returns the library after the call and whether the word existed. -/
def Library.Remove (l : Library) (dict word : GoString) : Library × Bool :=
  match mapLoad l.Dictionaries dict with
  | some d =>
    match mapLoad d word with
    | some _ => (⟨mapStore l.Dictionaries dict (mapDelete d word)⟩, true)
    | none => (l, false)
  | none => (l, false)

/-- `Suggestion`: a suggested word with its distance to the input. -/
structure Suggestion where
  Distance : Int
  Entry : Entry
  deriving DecidableEq

/-- `SuggestionList`. -/
abbrev SuggestionList := List Suggestion

end Dictionaries

/-! ## `ta.go`: the model and `AddEntry` -/

section Model

/-- `suggestionLevel`, with its three constants. -/
inductive suggestionLevel where
  | BEST
  | CLOSEST
  | ALL
  deriving DecidableEq

/-- `SpellModel`. -/
structure SpellModel where
  MaxEditDistance : Nat
  PrefixLength : Nat
  cumulativeFreq : Nat
  dictionaryDeletes : DictionaryDeletes
  longestWord : Nat
  library : Library
  deriving DecidableEq

/-- The constant `defaultDict`. -/
def defaultDict : GoString := "default".toList

/-- The constant `defaultEditDistance`. -/
def defaultEditDistance : Nat := 2

/-- The constant `defaultPrefixLength`. -/
def defaultPrefixLength : Nat := 7

/-- `NewSpellModel` (through `Init`). -/
def NewSpellModel : SpellModel :=
  { cumulativeFreq := 0
    dictionaryDeletes := NewDictionaryDeletes
    longestWord := 0
    MaxEditDistance := defaultEditDistance
    PrefixLength := defaultPrefixLength
    library := NewLibrary }

/-- `defaultDictOptions`. -/
def defaultDictOptions : DictOptions := ⟨defaultDict, false, false⟩

/-- `DictionaryName`. -/
def DictionaryName (name : GoString) : DictionaryOption :=
  fun opts => .ok { opts with Name := name }

/-- `OverrideWordData`. -/
def OverrideWordData (override : Bool) : DictionaryOption :=
  fun opts => .ok { opts with OverrideWordData := override }

/-- `OverrideFrequency`. -/
def OverrideFrequency (override : Bool) : DictionaryOption :=
  fun opts => .ok { opts with OverrideFrequency := override }

/-- The loop `for _, opt := range opts` that applies dictionary options and stops at the
first error. -/
def applyDictOptions : List DictionaryOption → DictOptions → Except String DictOptions
  | [], o => .ok o
  | opt :: rest, o =>
    match opt o with
    | .ok o2 => applyDictOptions rest o2
    | .error e => .error e

/-- `generateDeletes`: adds to `deletes` the hashes of the strings obtained from `word` by
deleting code points, one more per level of the recursion.  The set `deletes`, a
`map[uint32]struct{}`, is the list of its keys.  The recursion is on `fuel`, an upper bound
of the length of `word`: a word of length at most one produces nothing. -/
def generateDeletes (MaxEditDistance : Nat) : Nat → GoString → Nat → List Nat → List Nat
  | 0, _, _, deletes => deletes
  | fuel + 1, word, editDistance, deletes =>
    let editDistance := editDistance + 1
    let wordLen := word.length
    if wordLen > 1 then
      (List.range wordLen).foldl
        (fun deletes i =>
          let deleteWord := RemoveChar word (i : Int)
          let deleteHash := GetStringHash deleteWord
          if deleteHash ∈ deletes then deletes
          else
            let deletes := deletes ++ [deleteHash]
            if editDistance < MaxEditDistance then
              generateDeletes MaxEditDistance fuel deleteWord editDistance deletes
            else deletes)
        deletes
    else deletes

/-- `getDeletes`. -/
def SpellModel.getDeletes (model : SpellModel) (word : GoString) : List Nat :=
  let wordLen : Int := word.length
  let word := if wordLen > (model.PrefixLength : Int) then
    Substring word 0 (model.PrefixLength : Int) else word
  let wordHash := GetStringHash word
  generateDeletes model.MaxEditDistance word.length word 0 [wordHash]

/-- `AddEntry`: returns whether a new word was added, and the model after the call; an
error of an option leaves the model as it was.  The two atomic additions are on
`uint64`; the second one adds `^(de.Frequency - 1)`, the two's complement of the
frequency. -/
def SpellModel.AddEntry (model : SpellModel) (de : Entry) (opts : List DictionaryOption) :
    Except String (Bool × SpellModel) :=
  match applyDictOptions opts defaultDictOptions with
  | .error e => .error e
  | .ok dictOptions =>
    let word := de.Word
    let model := { model with
      cumulativeFreq := (model.cumulativeFreq + de.Frequency) % 2 ^ 64 }
    match model.library.Load dictOptions.Name word with
    | (entry, true) =>
      let model := { model with
        cumulativeFreq := (model.cumulativeFreq +
          (2 ^ 64 - 1 - (de.Frequency + 2 ^ 64 - 1) % 2 ^ 64)) % 2 ^ 64 }
      let de := if !dictOptions.OverrideFrequency then
        { de with Frequency := (de.Frequency + entry.Frequency) % 2 ^ 64 } else de
      let de := if !dictOptions.OverrideWordData then
        { de with WordData := entry.WordData } else de
      .ok (false, { model with library := model.library.Store dictOptions.Name word de })
    | (_, false) =>
      let model := { model with library := model.library.Store dictOptions.Name word de }
      let wordLength := word.length % 2 ^ 32
      let model := if wordLength > model.longestWord then
        { model with longestWord := wordLength } else model
      let deletes := model.getDeletes word
      let model := if deletes.length > 0 then
        let wordRunes := word
        let de : DeleteEntry := ⟨(wordRunes.length : Int), wordRunes, word⟩
        let dd := deletes.foldl (fun dd deleteHash => dd.Add dictOptions.Name deleteHash de)
          model.dictionaryDeletes
        { model with dictionaryDeletes := dd }
        else model
      .ok (true, model)

/-- `GetEntry`: the entry of `word`, or `none` for the `nil` pointer. -/
def SpellModel.GetEntry (model : SpellModel) (word : GoString)
    (opts : List DictionaryOption) : Except String (Option Entry) :=
  match applyDictOptions opts defaultDictOptions with
  | .error e => .error e
  | .ok dictOpts =>
    match model.library.Load dictOpts.Name word with
    | (entry, true) => .ok (some entry)
    | (_, false) => .ok none

/-- `RemoveEntry`: returns whether the entry was removed, and the model after the call. -/
def SpellModel.RemoveEntry (model : SpellModel) (word : GoString)
    (opts : List DictionaryOption) : Except String (Bool × SpellModel) :=
  match applyDictOptions opts defaultDictOptions with
  | .error e => .error e
  | .ok dictOpts =>
    let r := model.library.Remove dictOpts.Name word
    .ok (r.2, { model with library := r.1 })

end Model

/-! ## `ta.go`: `Lookup` -/

section LookupModel

/-- How a call that returns `(value, error)` can end without a value. -/
inductive Fault where
  /-- The call returned this error. -/
  | error (msg : String)
  /-- The call stopped in a run-time panic. -/
  | crash
  /-- The embedding ran out of fuel; `lookupLoop_total` shows that this does not happen. -/
  | fuel
  deriving DecidableEq

/-- `lookupParams`.  The distance function returns `none` when it panics; `sortFunc`
returns the slice it has reordered in place. -/
structure lookupParams where
  dictOpts : DictOptions
  distanceFunction : List Char → List Char → Int → Option Int
  editDistance : Nat
  prefixLength : Nat
  sortFunc : SuggestionList → SuggestionList
  suggestionLevel : suggestionLevel

/-- `LookupOption`: a function that changes the parameters or fails with an error. -/
abbrev LookupOption := lookupParams → Except String lookupParams

/-- The comparison `less` that the default `sortFunc` hands to `sort.Slice`. -/
def defaultLess (s1 s2 : Suggestion) : Bool :=
  if s1.Distance < s2.Distance then true
  else if s1.Distance = s2.Distance then decide (s1.Entry.Frequency > s2.Entry.Frequency)
  else false

/-- The library function `sort.Slice`: the slice sorted by `less`.  The library promises a
sorted permutation and no stability; the embedding takes the insertion sort the library
runs on short slices. -/
def sortSlice (less : Suggestion → Suggestion → Bool) (results : SuggestionList) :
    SuggestionList :=
  results.insertionSort fun a b => less b a = false

/-- `defaultLookupParams`. -/
def SpellModel.defaultLookupParams (model : SpellModel) : lookupParams :=
  { dictOpts := defaultDictOptions
    distanceFunction := fun r1 r2 maxDist => DamerauLevenshteinRunes r1 r2 maxDist
    editDistance := model.MaxEditDistance
    prefixLength := model.PrefixLength
    sortFunc := sortSlice defaultLess
    suggestionLevel := suggestionLevel.BEST }

/-- `DictionaryOpts`. -/
def DictionaryOpts (opts : List DictionaryOption) : LookupOption :=
  fun params =>
    match applyDictOptions opts params.dictOpts with
    | .ok o => .ok { params with dictOpts := o }
    | .error e => .error e

/-- `DistanceFunc`. -/
def DistanceFunc (df : List Char → List Char → Int → Option Int) : LookupOption :=
  fun lp => .ok { lp with distanceFunction := df }

/-- `EditDistance`. -/
def EditDistance (dist : Nat) : LookupOption :=
  fun lp => .ok { lp with editDistance := dist }

/-- `SortFunc`. -/
def SortFunc (sf : SuggestionList → SuggestionList) : LookupOption :=
  fun lp => .ok { lp with sortFunc := sf }

/-- `SuggestionLevel`. -/
def SuggestionLevel (level : suggestionLevel) : LookupOption :=
  fun lp => .ok { lp with suggestionLevel := level }

/-- `PrefixLength`. -/
def PrefixLength (prefixLength : Nat) : LookupOption :=
  fun lp =>
    if prefixLength < 1 then .error "prefix length must be greater than 0"
    else .ok { lp with prefixLength := prefixLength }

/-- The loop `for _, opt := range opts` that applies lookup options and stops at the first
error. -/
def applyLookupOptions : List LookupOption → lookupParams → Except String lookupParams
  | [], lp => .ok lp
  | opt :: rest, lp =>
    match opt lp with
    | .ok lp2 => applyLookupOptions rest lp2
    | .error e => .error e

/-- `newDictSuggestion`: the library load may fail, and then the entry is the zero value. -/
def SpellModel.newDictSuggestion (model : SpellModel) (input : GoString) (dist : Int)
    (dp : DictOptions) : Suggestion :=
  ⟨dist, (model.library.Load dp.Name input).1⟩

/-- The variables of `Lookup` that the loops change. -/
structure LookupState where
  results : SuggestionList
  editDistance : Int
  consideredDeletes : List GoString
  consideredSuggestions : List GoString
  candidates : List GoString

/-- The statements of `Lookup` that decide how a suggestion at distance `dist`, within the
current `editDistance`, enters the results. -/
def lookupAdd (model : SpellModel) (lp : lookupParams) (suggestion : DeleteEntry) (dist : Int)
    (st : LookupState) : Except Fault LookupState :=
  if dist ≤ st.editDistance then
    if st.results.length > 0 ∧ lp.suggestionLevel = suggestionLevel.BEST then
      let entry := (model.library.Load lp.dictOpts.Name suggestion.Str).1
      let curFreq := entry.Frequency
      match st.results with
      | [] => .error Fault.crash
      | r0 :: rest =>
        let closestFreq := r0.Entry.Frequency
        if dist < st.editDistance ∨ curFreq > closestFreq then
          .ok { st with
            editDistance := dist
            results := model.newDictSuggestion suggestion.Str dist lp.dictOpts :: rest }
        else .ok st
    else
      let results :=
        if st.results.length > 0 ∧ lp.suggestionLevel = suggestionLevel.CLOSEST ∧
            dist < st.editDistance then [] else st.results
      let editDistance :=
        if lp.suggestionLevel ≠ suggestionLevel.ALL then dist else st.editDistance
      .ok { st with
        editDistance := editDistance
        results := results ++ [model.newDictSuggestion suggestion.Str dist lp.dictOpts] }
  else .ok st

/-- The body of the loop `for _, suggestion := range suggestions` of `Lookup`. -/
def lookupSuggestion (model : SpellModel) (lp : lookupParams) (input : GoString)
    (inputLen inputPrefixLen prefixLength : Int) (candidate : GoString) (candidateLen : Int)
    (st : LookupState) (suggestion : DeleteEntry) : Except Fault LookupState :=
  let suggestionLen := suggestion.Len
  if suggestion.Str = input then .ok st
  else if Abs (suggestionLen - inputLen) > st.editDistance ∨ suggestionLen < candidateLen ∨
      (suggestionLen = candidateLen ∧ suggestion.Str ≠ candidate) then .ok st
  else
    match Min [suggestionLen, prefixLength] with
    | none => .error Fault.crash
    | some suggPrefixLen =>
      if suggPrefixLen > inputPrefixLen ∧ suggPrefixLen - candidateLen > st.editDistance then
        .ok st
      else if candidateLen = 0 then
        let dist := Max [inputLen, suggestionLen]
        if dist > st.editDistance then .ok st
        else
          let r := AddKey st.consideredSuggestions suggestion.Str
          if r.2 = false then .ok { st with consideredSuggestions := r.1 }
          else lookupAdd model lp suggestion dist { st with consideredSuggestions := r.1 }
      else if suggestionLen = 1 then
        let dist := if Contains input suggestion.Str then inputLen - 1 else inputLen
        if dist > st.editDistance then .ok st
        else
          let r := AddKey st.consideredSuggestions suggestion.Str
          if r.2 = false then .ok { st with consideredSuggestions := r.1 }
          else lookupAdd model lp suggestion dist { st with consideredSuggestions := r.1 }
      else
        let r := AddKey st.consideredSuggestions suggestion.Str
        if r.2 = false then .ok { st with consideredSuggestions := r.1 }
        else
          match lp.distanceFunction input suggestion.Runes st.editDistance with
          | none => .error Fault.crash
          | some dist =>
            if dist < 1 then .ok { st with consideredSuggestions := r.1 }
            else lookupAdd model lp suggestion dist { st with consideredSuggestions := r.1 }

/-- The loop `for _, suggestion := range suggestions` of `Lookup`. -/
def lookupSuggestions (model : SpellModel) (lp : lookupParams) (input : GoString)
    (inputLen inputPrefixLen prefixLength : Int) (candidate : GoString) (candidateLen : Int) :
    List DeleteEntry → LookupState → Except Fault LookupState
  | [], st => .ok st
  | suggestion :: rest, st =>
    match lookupSuggestion model lp input inputLen inputPrefixLen prefixLength candidate
        candidateLen st suggestion with
    | .ok st2 => lookupSuggestions model lp input inputLen inputPrefixLen prefixLength candidate
        candidateLen rest st2
    | .error e => .error e

/-- The loop of `Lookup` that appends the deletes of `candidate` to the candidates. -/
def lookupExpand (candidate : GoString) : List Nat → LookupState → LookupState
  | [], st => st
  | i :: rest, st =>
    let deleteWord := RemoveChar candidate (i : Int)
    let r := AddKey st.consideredDeletes deleteWord
    let st := if r.2 then
      { st with consideredDeletes := r.1, candidates := st.candidates ++ [deleteWord] }
      else { st with consideredDeletes := r.1 }
    lookupExpand candidate rest st

/-- The loop `for i := 0; i < len(candidates); i++` of `Lookup`, for at most `fuel`
iterations. -/
def lookupLoop (model : SpellModel) (lp : lookupParams) (input : GoString)
    (inputLen inputPrefixLen prefixLength : Int) :
    Nat → Nat → LookupState → Except Fault LookupState
  | 0, i, st => if i < st.candidates.length then .error Fault.fuel else .ok st
  | fuel + 1, i, st =>
    match st.candidates[i]? with
    | none => .ok st
    | some candidate =>
      let candidateLen : Int := candidate.length
      let lengthDiff := inputPrefixLen - candidateLen
      if lengthDiff > st.editDistance then
        if lp.suggestionLevel = suggestionLevel.ALL then
          lookupLoop model lp input inputLen inputPrefixLen prefixLength fuel (i + 1) st
        else .ok st
      else
        let candidateHash := GetStringHash candidate
        let bucket := model.dictionaryDeletes.Load lp.dictOpts.Name candidateHash
        match (if bucket.2 then
            lookupSuggestions model lp input inputLen inputPrefixLen prefixLength candidate
              candidateLen bucket.1 st
          else .ok st) with
        | .error e => .error e
        | .ok st =>
          if lengthDiff < st.editDistance ∧ candidateLen ≤ prefixLength then
            if lp.suggestionLevel ≠ suggestionLevel.ALL ∧ lengthDiff > st.editDistance then
              lookupLoop model lp input inputLen inputPrefixLen prefixLength fuel (i + 1) st
            else
              lookupLoop model lp input inputLen inputPrefixLen prefixLength fuel (i + 1)
                (lookupExpand candidate (List.range candidate.length) st)
          else lookupLoop model lp input inputLen inputPrefixLen prefixLength fuel (i + 1) st

/-- The number of strings that repeated single deletions can produce from a string of
length `n`, counted with multiplicity: a bound on the iterations of the candidate loop. -/
def deleteTreeSize : Nat → Nat
  | 0 => 1
  | n + 1 => 1 + (n + 1) * deleteTreeSize n

/-- The body of `Lookup` once the options have been applied. -/
def SpellModel.lookupBody (model : SpellModel) (lookupParams : lookupParams)
    (input : GoString) : Except Fault SuggestionList :=
  let results : SuggestionList := []
  let dict := lookupParams.dictOpts.Name
  let exists_ := (model.library.Load dict input).2
  let results := if exists_ then
    results ++ [model.newDictSuggestion input 0 lookupParams.dictOpts] else results
  if exists_ ∧ lookupParams.suggestionLevel ≠ suggestionLevel.ALL then .ok results
  else
    let editDistance : Int := lookupParams.editDistance
    if editDistance = 0 then .ok results
    else
      let inputRunes := input
      let inputLen : Int := inputRunes.length
      let prefixLength : Int := lookupParams.prefixLength
      match Min [inputLen, prefixLength] with
      | none => .error Fault.crash
      | some inputPrefixLen =>
        let st : LookupState :=
          { results := results
            editDistance := editDistance
            consideredDeletes := []
            consideredSuggestions := [input]
            candidates := [Substring input 0 inputPrefixLen] }
        match lookupLoop model lookupParams input inputLen inputPrefixLen prefixLength
            (deleteTreeSize inputPrefixLen.toNat + 1) 0 st with
        | .error e => .error e
        | .ok st => .ok (lookupParams.sortFunc st.results)

/-- `Lookup`: the options are applied to the default parameters, and an error of an option
is returned. -/
def SpellModel.Lookup (model : SpellModel) (input : GoString) (opts : List LookupOption) :
    Except Fault SuggestionList :=
  match applyLookupOptions opts model.defaultLookupParams with
  | .error e => .error (Fault.error e)
  | .ok lookupParams => model.lookupBody lookupParams input

end LookupModel

/-! ## Predicates on the run of `Lookup` -/

section LookupPredicates

/-- The iterations of the candidate loop of `Lookup` that a list of pending candidates can
still cause: every candidate counts with the deletes it can produce. -/
def candWeight (cs : List GoString) : Nat :=
  (cs.map fun c => deleteTreeSize c.length).sum

/-- A step of `Lookup` on the state `st` ends without a fault in a state that satisfies `R`
on the results and the current edit distance, and leaves the candidates and the considered
deletes as they are. -/
def LookupKeeps (R : SuggestionList → Int → Prop) (st : LookupState)
    (r : Except Fault LookupState) : Prop :=
  ∃ st2, r = .ok st2 ∧ R st2.results st2.editDistance ∧ st2.candidates = st.candidates ∧
    st2.consideredDeletes = st.consideredDeletes

end LookupPredicates

/-! ## `ta.go`: `Segment` -/

section SegmentModel

/-- The `float64` computations of `Segment`, which the embedding leaves open: the type of
the logarithmic probabilities, the constant `0.0`, the two logarithms, the sum and the
comparison `<`. -/
structure FloatOps where
  /-- The values of type `float64`. -/
  F : Type
  /-- The constant `0.0`. -/
  zero : F
  /-- The value `math.Log10(float64(freq) / cumulativeFreq)`, from `freq` and the counter
  `cumulativeFreq`. -/
  logWord : Nat → Nat → F
  /-- The value `math.Log10(10.0 / (cumulativeFreq * math.Pow(10.0, float64(n))))`, from
  `cumulativeFreq` and `n`. -/
  logUnknown : Nat → Int → F
  /-- The sum of two values. -/
  add : F → F → F
  /-- The comparison `<`. -/
  lt : F → F → Bool

/-- `segmentParams`. -/
structure segmentParams where
  lookupOptions : List LookupOption

/-- `defaultSegmentParams`. -/
def defaultSegmentParams : segmentParams :=
  { lookupOptions := [SuggestionLevel suggestionLevel.BEST] }

/-- `SegmentOption`: a function that changes the parameters or fails with an error. -/
abbrev SegmentOption := segmentParams → Except String segmentParams

/-- `SegmentLookupOpts`. -/
def SegmentLookupOpts (opt : List LookupOption) : SegmentOption :=
  fun sp => .ok { sp with lookupOptions := opt }

/-- The loop `for _, opt := range opts` that applies segment options and stops at the first
error. -/
def applySegmentOptions : List SegmentOption → segmentParams → Except String segmentParams
  | [], sp => .ok sp
  | opt :: rest, sp =>
    match opt sp with
    | .ok sp2 => applySegmentOptions rest sp2
    | .error e => .error e

/-- `Segment`: the details of an individual segment; `Entry` is `none` for the `nil`
pointer. -/
structure Segment where
  Input : GoString
  Entry : Option Entry
  Word : GoString

/-- `SegmentResult`. -/
structure SegmentResult where
  Distance : Int
  Segments : List Segment

/-- The local type `composition` of `Segment`. -/
structure composition (F : Type) where
  segmentedString : GoString
  correctedString : GoString
  distanceSum : Int
  probability : F

/-- The test `unicode.Is(unicode.White_Space, rune(b))` for a byte `b`: the white space
below `256` is `U+0009` to `U+000D`, `U+0020`, `U+0085` and `U+00A0`. -/
def isWhiteSpaceByte (b : Nat) : Bool :=
  decide ((9 ≤ b ∧ b ≤ 13) ∨ b = 32 ∨ b = 133 ∨ b = 160)

/-- The library call `strings.Replace(s, " ", "", -1)`: `s` without its spaces. -/
def removeSpaces (s : GoString) : GoString :=
  s.filter fun c => decide (c ≠ ' ')

/-- The library call `strings.Split(s, " ")`: the pieces of `s` between spaces, one piece
for a string without a space (the empty string included). -/
def splitSpaces : GoString → List GoString
  | [] => [[]]
  | c :: cs =>
    if c = ' ' then [] :: splitSpaces cs
    else
      match splitSpaces cs with
      | [] => [[c]]
      | w :: ws => (c :: w) :: ws

/-- Iterations `i, i+1, ...` of a counting loop whose body can end the call, `n` of them. -/
def forLoopE {σ : Type} (body : Int → σ → Except Fault σ) : Nat → Int → σ → Except Fault σ
  | 0, _, s => .ok s
  | n + 1, i, s =>
    match body i s with
    | .ok s2 => forLoopE body n (i + 1) s2
    | .error e => .error e

/-- The body of the loop over `j` of `Segment`: the part of the input from `i` of length
`j` is looked up, and the cell of the circular buffer for it is updated. -/
def segmentPart (fl : FloatOps) (model : SpellModel) (lookupOptions : List LookupOption)
    (input : GoString) (longestWord arraySize : Int) (cumulativeFreq : Nat)
    (i circularIdx : Int) (j : Int) (compositions : List (composition fl.F)) :
    Except Fault (List (composition fl.F)) :=
  let part := Substring input i (i + j)
  match (stringBytes part)[0]? with
  | none => .error Fault.crash
  | some part0 =>
    let white := isWhiteSpaceByte part0
    let part := if white then Substring input (i + 1) (i + j) else part
    let separatorLength : Int := if white then 0 else 1
    let topEd : Int := part.length
    let part := removeSpaces part
    let topEd : Int := topEd - part.length
    match model.Lookup part lookupOptions with
    | .error e => .error e
    | .ok suggestions =>
      let top : GoString × Int × fl.F :=
        match suggestions with
        | s0 :: _ =>
          (s0.Entry.Word, topEd + s0.Distance, fl.logWord s0.Entry.Frequency cumulativeFreq)
        | [] => (part, topEd + part.length, fl.logUnknown cumulativeFreq part.length)
      let topResult := top.1
      let topEd := top.2.1
      let topProbabilityLog := top.2.2
      if arraySize = 0 then .error Fault.crash
      else
        let destinationIdx := Int.tmod (j + circularIdx) arraySize
        if i = 0 then
          match upd compositions destinationIdx
              ⟨part, topResult, topEd, topProbabilityLog⟩ with
          | some cs => .ok cs
          | none => .error Fault.crash
        else
          match idx compositions circularIdx, idx compositions destinationIdx with
          | some cc, some cd =>
            if j = longestWord ∨
                ((cc.distanceSum + topEd = cd.distanceSum ∨
                    cc.distanceSum + separatorLength + topEd = cd.distanceSum) ∧
                  fl.lt cd.probability (fl.add cc.probability topProbabilityLog) = true) ∨
                cc.distanceSum + separatorLength + topEd < cd.distanceSum then
              match upd compositions destinationIdx
                  ⟨cc.segmentedString ++ " ".toList ++ part,
                    cc.correctedString ++ " ".toList ++ topResult,
                    cc.distanceSum + separatorLength + topEd,
                    fl.add cc.probability topProbabilityLog⟩ with
              | some cs => .ok cs
              | none => .error Fault.crash
            else .ok compositions
          | _, _ => .error Fault.crash

/-- The body of the loop over `i` of `Segment`, on the pair of `compositions` and
`circularIdx`. -/
def segmentRow (fl : FloatOps) (model : SpellModel) (lookupOptions : List LookupOption)
    (input : GoString) (inputLen longestWord arraySize : Int) (cumulativeFreq : Nat)
    (i : Int) (st : List (composition fl.F) × Int) :
    Except Fault (List (composition fl.F) × Int) :=
  match Min [inputLen - i, longestWord] with
  | none => .error Fault.crash
  | some jMax =>
    match forLoopE
        (segmentPart fl model lookupOptions input longestWord arraySize cumulativeFreq i st.2)
        jMax.toNat 1 st.1 with
    | .error e => .error e
    | .ok compositions =>
      let circularIdx := st.2 + 1
      let circularIdx := if circularIdx = arraySize then 0 else circularIdx
      .ok (compositions, circularIdx)

/-- The loop `for i, word := range correctedWords` of `Segment`. -/
def segmentEntries (model : SpellModel) (segmentedWords : List GoString) :
    List GoString → Int → Except Fault (List Segment)
  | [], _ => .ok []
  | word :: rest, i =>
    match model.GetEntry word [] with
    | .error e => .error (Fault.error e)
    | .ok e =>
      match idx segmentedWords i with
      | none => .error Fault.crash
      | some inputWord =>
        match segmentEntries model segmentedWords rest (i + 1) with
        | .error err => .error err
        | .ok segments => .ok (⟨inputWord, e, word⟩ :: segments)

/-- `Segment`.  The test `cumulativeFreq == 0` on the `float64` of the counter is the test
on the counter itself, since the conversion of a non-zero `uint64` is not zero. -/
def SpellModel.Segment (fl : FloatOps) (model : SpellModel) (input : GoString)
    (opts : List SegmentOption) : Except Fault SegmentResult :=
  match applySegmentOptions opts defaultSegmentParams with
  | .error e => .error (Fault.error e)
  | .ok segmentParams =>
    let longestWord : Int := model.longestWord
    if longestWord = 0 then
      .error (Fault.error "longest word in dictionary has zero length")
    else
      let cumulativeFreq := model.cumulativeFreq
      if cumulativeFreq = 0 then .error (Fault.error "cumulative frequency is zero")
      else
        let inputLen : Int := input.length
        match Min [inputLen, longestWord] with
        | none => .error Fault.crash
        | some arraySize =>
          let circularIdx : Int := -1
          let compositions : List (composition fl.F) :=
            List.replicate arraySize.toNat ⟨[], [], 0, fl.zero⟩
          match forLoopE
              (segmentRow fl model segmentParams.lookupOptions input inputLen longestWord
                arraySize cumulativeFreq)
              inputLen.toNat 0 (compositions, circularIdx) with
          | .error e => .error e
          | .ok (compositions, circularIdx) =>
            match idx compositions circularIdx with
            | none => .error Fault.crash
            | some c =>
              let segmentedWords := splitSpaces c.segmentedString
              let correctedWords := splitSpaces c.correctedString
              match segmentEntries model segmentedWords correctedWords 0 with
              | .error e => .error e
              | .ok segments => .ok ⟨c.distanceSum, segments⟩

end SegmentModel

/-! ## Sequences of calls -/

section CallSequences

/-- The sum of the stored frequencies of all entries of the library. -/
def Library.frequencySum (l : Library) : Nat :=
  (l.Dictionaries.map fun d => (d.2.map fun e => e.2.Frequency).sum).sum

/-- The model after one `AddEntry` call per entry of a list, in order and with the same
options; `none` when a call returns an error. -/
def addEntryCalls (opts : List DictionaryOption) : SpellModel → List Entry → Option SpellModel
  | model, [] => some model
  | model, de :: rest =>
    match model.AddEntry de opts with
    | .ok (_, model2) => addEntryCalls opts model2 rest
    | .error _ => none

/-- The model states that `AddEntry` calls, and with `removals = true` also `RemoveEntry`
calls, reach from a new model whose `MaxEditDistance` and `PrefixLength` are `M` and `P`. -/
inductive Reachable (M P : Nat) (removals : Bool) : SpellModel → Prop where
  /-- The new model. -/
  | new : Reachable M P removals { NewSpellModel with MaxEditDistance := M, PrefixLength := P }
  /-- A call of `AddEntry`. -/
  | add (model model2 : SpellModel) (de : Entry) (opts : List DictionaryOption)
      (added : Bool) : Reachable M P removals model →
      model.AddEntry de opts = .ok (added, model2) → Reachable M P removals model2
  /-- A call of `RemoveEntry`. -/
  | remove (model model2 : SpellModel) (word : GoString) (opts : List DictionaryOption)
      (removed : Bool) : removals = true → Reachable M P removals model →
      model.RemoveEntry word opts = .ok (removed, model2) → Reachable M P removals model2

/-- The number of descriptors of the word `w` in the bucket of the hash `h` of the
dictionary `d`. -/
def descriptorCount (model : SpellModel) (d : GoString) (h : Nat) (w : GoString) : Nat :=
  (model.dictionaryDeletes.Load d h).1.countP fun de => decide (de.Str = w)

end CallSequences

/-! ## `ta.go`: `AddEntries`, white space, and the cells of `Segment` -/

section Batch

/-- `Entries`: multiple entries with the same word data. -/
structure Entries where
  Words : List GoString
  WordsData : WordData

/-- The loop `for index, word := range entries.Words` of `AddEntries`: each word goes
through `AddEntry` with the override options only, and the results of the calls are
dropped. -/
def addEntriesLoop (dictOptions : DictOptions) (WordsData : WordData) :
    List GoString → Nat → SpellModel → SpellModel
  | [], _, model => model
  | word :: rest, index, model =>
    let r := if index = 0 then
      model.AddEntry ⟨1, word, WordsData⟩
        [OverrideFrequency dictOptions.OverrideFrequency,
          OverrideWordData dictOptions.OverrideWordData]
      else
      model.AddEntry ⟨1, word, WordsData⟩ [OverrideWordData dictOptions.OverrideWordData]
    let model := match r with
      | .ok (_, model2) => model2
      | .error _ => model
    addEntriesLoop dictOptions WordsData rest (index + 1) model

/-- `AddEntries`: returns the model after the call. -/
def SpellModel.AddEntries (model : SpellModel) (entries : Entries)
    (opts : List DictionaryOption) : Except String (Bool × SpellModel) :=
  match applyDictOptions opts defaultDictOptions with
  | .error e => .error e
  | .ok dictOptions =>
    .ok (true, addEntriesLoop dictOptions entries.WordsData entries.Words 0 model)

/-- The code points with the Unicode property `White_Space`. -/
def isWhiteSpace (c : Char) : Bool :=
  let n := c.toNat
  decide ((9 ≤ n ∧ n ≤ 13) ∨ n = 32 ∨ n = 133 ∨ n = 160 ∨ n = 5760 ∨
    (8192 ≤ n ∧ n ≤ 8202) ∨ n = 8232 ∨ n = 8233 ∨ n = 8239 ∨ n = 8287 ∨ n = 12288)

/-- The word that `Segment` takes for a part after the lookup: the part itself, or the word
of an entry that the library loads from the default dictionary (the zero entry included). -/
def IsTop (model : SpellModel) (part topResult : GoString) : Prop :=
  topResult = part ∨ ∃ w, topResult = (model.library.Load defaultDict w).1.Word

/-- The compositions that the loops of `Segment` write for the first `L` code points of an
input: one part that is the whole prefix, or a composition for a shorter prefix, a
separator and one more part; each part adds its edits, and each separator adds one. -/
inductive SegCell (model : SpellModel) (input : GoString) :
    Nat → GoString → GoString → Int → Prop where
  /-- The first part. -/
  | first (j : Nat) (topResult : GoString) (topEd : Int) :
      1 ≤ j → j ≤ input.length → 0 ≤ topEd → IsTop model (input.take j) topResult →
      SegCell model input j (input.take j) topResult topEd
  /-- One more part. -/
  | next (i j : Nat) (seg corr : GoString) (d : Int) (topResult : GoString) (topEd : Int) :
      SegCell model input i seg corr d → 1 ≤ j → i + j ≤ input.length → 0 ≤ topEd →
      IsTop model ((input.drop i).take j) topResult →
      SegCell model input (i + j) (seg ++ " ".toList ++ (input.drop i).take j)
        (corr ++ " ".toList ++ topResult) (d + 1 + topEd)

/-- The cell `c` of the buffer of `Segment` holds a composition for the first `L` code points
of `input`. -/
def IsCell {F : Type} (model : SpellModel) (input : GoString) (L : Nat) (c : composition F) :
    Prop :=
  SegCell model input L c.segmentedString c.correctedString c.distanceSum

/-- Float operations that keep no value and answer `b` to every comparison. -/
def unitFloatOps (b : Bool) : FloatOps :=
  ⟨Unit, (), fun _ _ => (), fun _ _ => (), fun _ _ => (), fun _ _ => b⟩

/-- The entries the (100), quick (50), brown (40) and fox (30). -/
def quickEntries : List Entry :=
  [⟨100, "the".toList, none⟩, ⟨50, "quick".toList, none⟩, ⟨40, "brown".toList, none⟩,
    ⟨30, "fox".toList, none⟩]

/-- The model after `AddEntry` of the entries of `quickEntries` on a new model. -/
def quickModel : SpellModel :=
  (addEntryCalls [] NewSpellModel quickEntries).getD NewSpellModel

/-- The word and the edits that the body of the loop over `j` of `Segment` takes for a part
without spaces from `Lookup` with the default options of `Segment`. -/
def segmentTop (model : SpellModel) (part : GoString) : GoString × Int :=
  match model.Lookup part defaultSegmentParams.lookupOptions with
  | .ok (s0 :: _) => (s0.Entry.Word, s0.Distance)
  | _ => (part, part.length)

/-- A composition without its probability: the segmented string, the corrected string and
the distance. -/
abbrev Cell := GoString × GoString × Int

/-- The composition `c` without its probability. -/
def eraseCell {F : Type} (c : composition F) : Cell :=
  (c.segmentedString, c.correctedString, c.distanceSum)

/-- The update of the buffer by the body of the loop over `j` of `Segment` in a row after
the first one, on compositions without probabilities, when the comparison of the
probabilities answers `b`. -/
def cellStep (b : Bool) (longestWord circularIdx destinationIdx j : Nat) (part : GoString)
    (top : GoString × Int) (cells : List Cell) : List Cell :=
  match cells[circularIdx]?, cells[destinationIdx]? with
  | some cc, some cd =>
    if j = longestWord ∨
        ((cc.2.2 + top.2 = cd.2.2 ∨ cc.2.2 + 1 + top.2 = cd.2.2) ∧ b = true) ∨
        cc.2.2 + 1 + top.2 < cd.2.2 then
      cells.set destinationIdx
        (cc.1 ++ " ".toList ++ part, cc.2.1 ++ " ".toList ++ top.1, cc.2.2 + 1 + top.2)
    else cells
  | _, _ => cells

/-- The buffers that the body of the loop over `j` can leave from the buffers `states`,
for both answers of the comparison of the probabilities. -/
def partStates (top : Nat → Nat → GoString × Int) (input : GoString)
    (longestWord arraySize i j : Nat) (states : List (List Cell)) : List (List Cell) :=
  (states.flatMap fun cells =>
    if i = 0 then [cells.set (j - 1) ((input.drop i).take j, (top i j).1, (top i j).2)]
    else
      [cellStep true longestWord ((i - 1) % arraySize) ((i + j - 1) % arraySize) j
          ((input.drop i).take j) (top i j) cells,
        cellStep false longestWord ((i - 1) % arraySize) ((i + j - 1) % arraySize) j
          ((input.drop i).take j) (top i j) cells]).dedup

/-- The buffers that `m` iterations of the loop over `j`, from `j` on, can leave. -/
def rowStates (top : Nat → Nat → GoString × Int) (input : GoString)
    (longestWord arraySize i : Nat) : Nat → Nat → List (List Cell) → List (List Cell)
  | 0, _, states => states
  | m + 1, j, states =>
    rowStates top input longestWord arraySize i m (j + 1)
      (partStates top input longestWord arraySize i j states)

/-- The buffers that `m` iterations of the loop over `i`, from `i` on, can leave. -/
def segStates (top : Nat → Nat → GoString × Int) (input : GoString)
    (longestWord arraySize : Nat) : Nat → Nat → List (List Cell) → List (List Cell)
  | 0, _, states => states
  | m + 1, i, states =>
    segStates top input longestWord arraySize m (i + 1)
      (rowStates top input longestWord arraySize i (min (input.length - i) longestWord) 1
        states)

/-- A table of the words and the edits for the parts of an input, by `i` and `j - 1`. -/
def tableTop (table : List (List (GoString × Int))) (i j : Nat) : GoString × Int :=
  ((table[i]?.getD [])[j - 1]?).getD ([], 0)

/-- The table of `segmentTop` for the parts of `input`. -/
def segmentTops (model : SpellModel) (input : GoString) (longestWord : Nat) :
    List (List (GoString × Int)) :=
  (List.range input.length).map fun i =>
    (List.range (min (input.length - i) longestWord)).map fun j =>
      segmentTop model ((input.drop i).take (j + 1))


/-- The words and the edits for the parts of `thequickbrownfox` in `quickModel`. -/
def quickTable : List (List (GoString × Int)) :=
  [[("the".toList, 2), ("the".toList, 1), ("the".toList, 0), ("the".toList, 1), ("the".toList, 2)],
    [("the".toList, 2), ("the".toList, 1), ("the".toList, 2), ("hequ".toList, 4), ("hequi".toList, 5)],
    [("the".toList, 2), ("eq".toList, 2), ("equ".toList, 3), ("equi".toList, 4), ("quick".toList, 2)],
    [("q".toList, 1), ("qu".toList, 2), ("quick".toList, 2), ("quick".toList, 1), ("quick".toList, 0)],
    [("u".toList, 1), ("ui".toList, 2), ("quick".toList, 2), ("quick".toList, 1), ("quick".toList, 2)],
    [("i".toList, 1), ("ic".toList, 2), ("quick".toList, 2), ("ickb".toList, 4), ("ickbr".toList, 5)],
    [("c".toList, 1), ("ck".toList, 2), ("ckb".toList, 3), ("ckbr".toList, 4), ("ckbro".toList, 5)],
    [("k".toList, 1), ("kb".toList, 2), ("kbr".toList, 3), ("kbro".toList, 4), ("brown".toList, 2)],
    [("b".toList, 1), ("br".toList, 2), ("brown".toList, 2), ("brown".toList, 1), ("brown".toList, 0)],
    [("r".toList, 1), ("fox".toList, 2), ("brown".toList, 2), ("brown".toList, 1), ("brown".toList, 2)],
    [("fox".toList, 2), ("fox".toList, 2), ("brown".toList, 2), ("ownf".toList, 4), ("ownfo".toList, 5)],
    [("w".toList, 1), ("wn".toList, 2), ("wnf".toList, 3), ("wnfo".toList, 4), ("fox".toList, 2)],
    [("n".toList, 1), ("nf".toList, 2), ("fox".toList, 2), ("fox".toList, 1)],
    [("fox".toList, 2), ("fox".toList, 1), ("fox".toList, 0)],
    [("fox".toList, 2), ("fox".toList, 1)],
    [("fox".toList, 2)]]

end Batch

/-! ## Properties of the reference recurrence -/

section ReferenceFacts

variable {α : Type} [DecidableEq α]

theorem editTable_zero_left (tr : Bool) (a b : List α) (j : Nat) :
    editTable tr a b 0 j = j := by
  rw [editTable]

theorem editTable_zero_right (tr : Bool) (a b : List α) (i : Nat) :
    editTable tr a b i 0 = i := by
  cases i <;> rw [editTable]

theorem editTable_succ_succ (tr : Bool) (a b : List α) (i j : Nat) :
    editTable tr a b (i + 1) (j + 1) =
      if tr = true ∧ 1 ≤ i ∧ 1 ≤ j ∧ a[i]? = b[j - 1]? ∧ a[i - 1]? = b[j]? then
        min (min (min (editTable tr a b i (j + 1) + 1) (editTable tr a b (i + 1) j + 1))
          (editTable tr a b i j + if a[i]? = b[j]? then 0 else 1))
          (editTable tr a b (i - 1) (j - 1) + 1)
      else
        min (min (editTable tr a b i (j + 1) + 1) (editTable tr a b (i + 1) j + 1))
          (editTable tr a b i j + if a[i]? = b[j]? then 0 else 1) := by
  rw [editTable]

/-- The value of a cell is at most each of the three classical candidates. -/
theorem editTable_le (tr : Bool) (a b : List α) (i j : Nat) :
    editTable tr a b (i + 1) (j + 1) ≤ editTable tr a b i (j + 1) + 1 ∧
    editTable tr a b (i + 1) (j + 1) ≤ editTable tr a b (i + 1) j + 1 ∧
    editTable tr a b (i + 1) (j + 1) ≤ editTable tr a b i j + 1 ∧
    (a[i]? = b[j]? → editTable tr a b (i + 1) (j + 1) ≤ editTable tr a b i j) := by
  rw [editTable_succ_succ]
  refine ⟨by split_ifs <;> omega, by split_ifs <;> omega, by split_ifs <;> omega, ?_⟩
  intro h
  rw [if_pos h]
  split_ifs <;> omega

/-- The value of a cell is one of its candidates. -/
theorem editTable_cases (tr : Bool) (a b : List α) (i j : Nat) :
    editTable tr a b (i + 1) (j + 1) = editTable tr a b i (j + 1) + 1 ∨
    editTable tr a b (i + 1) (j + 1) = editTable tr a b (i + 1) j + 1 ∨
    (a[i]? = b[j]? ∧ editTable tr a b (i + 1) (j + 1) = editTable tr a b i j) ∨
    (a[i]? ≠ b[j]? ∧ editTable tr a b (i + 1) (j + 1) = editTable tr a b i j + 1) ∨
    (tr = true ∧ 1 ≤ i ∧ 1 ≤ j ∧ a[i]? = b[j - 1]? ∧ a[i - 1]? = b[j]? ∧
      editTable tr a b (i + 1) (j + 1) = editTable tr a b (i - 1) (j - 1) + 1) := by
  rw [editTable_succ_succ]
  have m3 : ∀ A B C : Nat, min (min A B) C = A ∨ min (min A B) C = B ∨ min (min A B) C = C := by
    intro A B C; omega
  have m4 : ∀ A B C D : Nat, min (min (min A B) C) D = A ∨ min (min (min A B) C) D = B ∨
      min (min (min A B) C) D = C ∨ min (min (min A B) C) D = D := by
    intro A B C D; omega
  by_cases hc : a[i]? = b[j]?
  · rw [if_pos hc]
    split_ifs with h
    · rcases m4 (editTable tr a b i (j + 1) + 1) (editTable tr a b (i + 1) j + 1)
        (editTable tr a b i j + 0) (editTable tr a b (i - 1) (j - 1) + 1) with e | e | e | e
      · exact Or.inl e
      · exact Or.inr (Or.inl e)
      · exact Or.inr (Or.inr (Or.inl ⟨hc, by omega⟩))
      · exact Or.inr (Or.inr (Or.inr (Or.inr ⟨h.1, h.2.1, h.2.2.1, h.2.2.2.1, h.2.2.2.2, e⟩)))
    · rcases m3 (editTable tr a b i (j + 1) + 1) (editTable tr a b (i + 1) j + 1)
        (editTable tr a b i j + 0) with e | e | e
      · exact Or.inl e
      · exact Or.inr (Or.inl e)
      · exact Or.inr (Or.inr (Or.inl ⟨hc, by omega⟩))
  · rw [if_neg hc]
    split_ifs with h
    · rcases m4 (editTable tr a b i (j + 1) + 1) (editTable tr a b (i + 1) j + 1)
        (editTable tr a b i j + 1) (editTable tr a b (i - 1) (j - 1) + 1) with e | e | e | e
      · exact Or.inl e
      · exact Or.inr (Or.inl e)
      · exact Or.inr (Or.inr (Or.inr (Or.inl ⟨hc, e⟩)))
      · exact Or.inr (Or.inr (Or.inr (Or.inr ⟨h.1, h.2.1, h.2.2.1, h.2.2.2.1, h.2.2.2.2, e⟩)))
    · rcases m3 (editTable tr a b i (j + 1) + 1) (editTable tr a b (i + 1) j + 1)
        (editTable tr a b i j + 1) with e | e | e
      · exact Or.inl e
      · exact Or.inr (Or.inl e)
      · exact Or.inr (Or.inr (Or.inr (Or.inl ⟨hc, e⟩)))

/-- Transposition candidate. -/
theorem editTable_le_trans (a b : List α) (i j : Nat)
    (h1 : a[i + 1]? = b[j]?) (h2 : a[i]? = b[j + 1]?) :
    editTable true a b (i + 2) (j + 2) ≤ editTable true a b i j + 1 := by
  rw [editTable_succ_succ]
  have h : (true = true ∧ 1 ≤ i + 1 ∧ 1 ≤ j + 1 ∧ a[i + 1]? = b[j + 1 - 1]? ∧
      a[i + 1 - 1]? = b[j + 1]?) := ⟨rfl, by omega, by omega, by simpa using h1, by simpa using h2⟩
  rw [if_pos h]
  simp only [Nat.add_sub_cancel]
  omega

theorem editTable_right_le (tr : Bool) (a b : List α) (i j : Nat) :
    editTable tr a b i (j + 1) ≤ editTable tr a b i j + 1 := by
  cases i with
  | zero => simp [editTable_zero_left]
  | succ i => exact (editTable_le tr a b i j).2.1

theorem editTable_left_le (tr : Bool) (a b : List α) (i j : Nat) :
    editTable tr a b (i + 1) j ≤ editTable tr a b i j + 1 := by
  cases j with
  | zero => simp [editTable_zero_right]
  | succ j => exact (editTable_le tr a b i j).1

theorem editTable_diag_le (tr : Bool) (a b : List α) (i j : Nat) :
    editTable tr a b (i + 1) (j + 1) ≤ editTable tr a b i j + 1 :=
  (editTable_le tr a b i j).2.2.1

/-- Dropping the last element of the second prefix lowers the distance by at most one. -/
theorem editTable_le_right (tr : Bool) (a b : List α) (i j : Nat) :
    editTable tr a b i j ≤ editTable tr a b i (j + 1) + 1 := by
  induction i with
  | zero => simp only [editTable_zero_left]; omega
  | succ i ih =>
    have hl := editTable_left_le tr a b i j
    rcases editTable_cases tr a b i j with h | h | ⟨_, h⟩ | ⟨_, h⟩ | ⟨_, hi, hj, _, _, h⟩
    · omega
    · omega
    · omega
    · omega
    · have hd := editTable_diag_le tr a b (i - 1) (j - 1)
      have e1 : i - 1 + 1 = i := by omega
      have e2 : j - 1 + 1 = j := by omega
      rw [e1, e2] at hd
      omega

/-- Dropping the last element of the first prefix lowers the distance by at most one. -/
theorem editTable_le_left (tr : Bool) (a b : List α) (i j : Nat) :
    editTable tr a b i j ≤ editTable tr a b (i + 1) j + 1 := by
  induction j with
  | zero => simp only [editTable_zero_right]; omega
  | succ j ih =>
    have hl := editTable_right_le tr a b i j
    rcases editTable_cases tr a b i j with h | h | ⟨_, h⟩ | ⟨_, h⟩ | ⟨_, hi, hj, _, _, h⟩
    · omega
    · omega
    · omega
    · omega
    · have hd := editTable_diag_le tr a b (i - 1) (j - 1)
      have e1 : i - 1 + 1 = i := by omega
      have e2 : j - 1 + 1 = j := by omega
      rw [e1, e2] at hd
      omega

/-- The table does not decrease along a diagonal. -/
theorem editTable_diag_mono (tr : Bool) (a b : List α) (i j : Nat) :
    editTable tr a b i j ≤ editTable tr a b (i + 1) (j + 1) := by
  have h1 := editTable_le_right tr a b i j
  have h2 := editTable_le_left tr a b i j
  rcases editTable_cases tr a b i j with h | h | ⟨_, h⟩ | ⟨_, h⟩ | ⟨_, hi, hj, _, _, h⟩
  · omega
  · omega
  · omega
  · omega
  · have hd := editTable_diag_le tr a b (i - 1) (j - 1)
    have e1 : i - 1 + 1 = i := by omega
    have e2 : j - 1 + 1 = j := by omega
    rw [e1, e2] at hd
    omega

theorem editTable_diag_mono_add (tr : Bool) (a b : List α) (i j k : Nat) :
    editTable tr a b i j ≤ editTable tr a b (i + k) (j + k) := by
  induction k with
  | zero => simp
  | succ k ih => exact le_trans ih (editTable_diag_mono tr a b (i + k) (j + k))

/-- Equal last elements cost nothing. -/
theorem editTable_match (tr : Bool) (a b : List α) (i j : Nat) (h : a[i]? = b[j]?) :
    editTable tr a b (i + 1) (j + 1) = editTable tr a b i j :=
  le_antisymm ((editTable_le tr a b i j).2.2.2 h) (editTable_diag_mono tr a b i j)

theorem editTable_ge_sub_right (tr : Bool) (a b : List α) (i j : Nat) :
    j ≤ editTable tr a b i j + i := by
  induction i with
  | zero => simp [editTable_zero_left]
  | succ i ih => have := editTable_le_left tr a b i j; omega

theorem editTable_ge_sub_left (tr : Bool) (a b : List α) (i j : Nat) :
    i ≤ editTable tr a b i j + j := by
  induction j with
  | zero => simp [editTable_zero_right]
  | succ j ih => have := editTable_le_right tr a b i j; omega

theorem editTable_le_max (tr : Bool) (a b : List α) (i j : Nat) :
    editTable tr a b i j ≤ max i j := by
  induction i generalizing j with
  | zero => simp [editTable_zero_left]
  | succ i ih =>
    cases j with
    | zero => simp [editTable_zero_right]
    | succ j => have := editTable_diag_le tr a b i j; have := ih j; omega

/-- When the first elements differ every proper cell is positive. -/
theorem editTable_pos (tr : Bool) (a b : List α) (h0 : a[0]? ≠ b[0]?) (i j : Nat) :
    1 ≤ editTable tr a b (i + 1) (j + 1) := by
  induction i generalizing j with
  | zero =>
    cases j with
    | zero =>
      rcases editTable_cases tr a b 0 0 with h | h | ⟨hc, _⟩ | ⟨_, h⟩ | ⟨_, hi, _⟩
      · omega
      · omega
      · exact absurd hc h0
      · omega
      · omega
    | succ j => have := editTable_ge_sub_right tr a b (0 + 1) (j + 1 + 1); omega
  | succ i ih =>
    cases j with
    | zero => have := editTable_ge_sub_left tr a b (i + 1 + 1) (0 + 1); omega
    | succ j => exact le_trans (ih j) (editTable_diag_mono tr a b (i + 1) (j + 1))

end ReferenceFacts
section ReferenceSymmetry

variable {α : Type} [DecidableEq α]

theorem editTable_symm_aux (tr : Bool) (a b : List α) :
    ∀ n i j : Nat, i + j ≤ n → editTable tr a b i j = editTable tr b a j i := by
  intro n
  induction n with
  | zero =>
    intro i j h
    have hi : i = 0 := by omega
    have hj : j = 0 := by omega
    subst hi; subst hj; rw [editTable_zero_left, editTable_zero_right]
  | succ n ih =>
    intro i j h
    cases i with
    | zero => rw [editTable_zero_left, editTable_zero_right]
    | succ i =>
      cases j with
      | zero => rw [editTable_zero_left, editTable_zero_right]
      | succ j =>
        rw [editTable_succ_succ tr a b i j, editTable_succ_succ tr b a j i]
        have e1 := ih i (j + 1) (by omega)
        have e2 := ih (i + 1) j (by omega)
        have e3 := ih i j (by omega)
        have e4 := ih (i - 1) (j - 1) (by omega)
        have hc : (a[i]? = b[j]?) ↔ (b[j]? = a[i]?) := eq_comm
        have ht : (tr = true ∧ 1 ≤ i ∧ 1 ≤ j ∧ a[i]? = b[j - 1]? ∧ a[i - 1]? = b[j]?) ↔
            (tr = true ∧ 1 ≤ j ∧ 1 ≤ i ∧ b[j]? = a[i - 1]? ∧ b[j - 1]? = a[i]?) := by
          constructor
          · rintro ⟨h1, h2, h3, h4, h5⟩; exact ⟨h1, h3, h2, h5.symm, h4.symm⟩
          · rintro ⟨h1, h2, h3, h4, h5⟩; exact ⟨h1, h3, h2, h5.symm, h4.symm⟩
        rw [e1, e2, e3, e4]
        simp only [hc, ht]
        split_ifs <;> omega

/-- The table of `(b, a)` is the transpose of the table of `(a, b)`. -/
theorem editTable_symm (tr : Bool) (a b : List α) (i j : Nat) :
    editTable tr a b i j = editTable tr b a j i :=
  editTable_symm_aux tr a b (i + j) i j le_rfl

theorem editTable_congr_aux (tr : Bool) (a b a2 b2 : List α) :
    ∀ n i j : Nat, i + j ≤ n → (∀ k, k < i → a[k]? = a2[k]?) → (∀ k, k < j → b[k]? = b2[k]?) →
      editTable tr a b i j = editTable tr a2 b2 i j := by
  intro n
  induction n with
  | zero =>
    intro i j h _ _
    have hi : i = 0 := by omega
    have hj : j = 0 := by omega
    subst hi; subst hj; rw [editTable_zero_left, editTable_zero_left]
  | succ n ih =>
    intro i j h ha hb
    cases i with
    | zero => rw [editTable_zero_left, editTable_zero_left]
    | succ i =>
      cases j with
      | zero => rw [editTable_zero_right, editTable_zero_right]
      | succ j =>
        rw [editTable_succ_succ tr a b i j, editTable_succ_succ tr a2 b2 i j]
        have e1 := ih i (j + 1) (by omega) (fun k hk => ha k (by omega)) hb
        have e2 := ih (i + 1) j (by omega) ha (fun k hk => hb k (by omega))
        have e3 := ih i j (by omega) (fun k hk => ha k (by omega)) (fun k hk => hb k (by omega))
        have e4 := ih (i - 1) (j - 1) (by omega) (fun k hk => ha k (by omega))
          (fun k hk => hb k (by omega))
        have ai := ha i (by omega)
        have bj := hb j (by omega)
        have ai1 := ha (i - 1) (by omega)
        have bj1 := hb (j - 1) (by omega)
        rw [e1, e2, e3, e4, ai, bj, ai1, bj1]

/-- A cell depends only on the prefixes it compares. -/
theorem editTable_congr (tr : Bool) (a b a2 b2 : List α) (i j : Nat)
    (ha : ∀ k, k < i → a[k]? = a2[k]?) (hb : ∀ k, k < j → b[k]? = b2[k]?) :
    editTable tr a b i j = editTable tr a2 b2 i j :=
  editTable_congr_aux tr a b a2 b2 (i + j) i j le_rfl ha hb

theorem editTable_cons_row (tr : Bool) (x : α) (a b : List α) (j : Nat) :
    editTable tr (x :: a) (x :: b) 1 (j + 1) = j := by
  induction j with
  | zero =>
    have := editTable_match tr (x :: a) (x :: b) 0 0 (by simp)
    simpa [editTable_zero_left] using this
  | succ j ih =>
    have h1 := editTable_ge_sub_right tr (x :: a) (x :: b) 1 (j + 1 + 1)
    have h2 := editTable_right_le tr (x :: a) (x :: b) 1 (j + 1)
    omega

theorem editTable_cons_col (tr : Bool) (x : α) (a b : List α) (i : Nat) :
    editTable tr (x :: a) (x :: b) (i + 1) 1 = i := by
  rw [editTable_symm, editTable_cons_row]

theorem editTable_cons_aux (tr : Bool) (x : α) (a b : List α) :
    ∀ n i j : Nat, i + j ≤ n →
      editTable tr (x :: a) (x :: b) (i + 1) (j + 1) = editTable tr a b i j := by
  intro n
  induction n with
  | zero =>
    intro i j h
    have hi : i = 0 := by omega
    have hj : j = 0 := by omega
    subst hi; subst hj
    rw [editTable_cons_row, editTable_zero_left]
  | succ n ih =>
    intro i j h
    cases i with
    | zero => rw [editTable_cons_row, editTable_zero_left]
    | succ i =>
      cases j with
      | zero => rw [editTable_cons_col, editTable_zero_right]
      | succ j =>
        rw [editTable_succ_succ tr (x :: a) (x :: b) (i + 1) (j + 1),
          editTable_succ_succ tr a b i j]
        have e1 := ih i (j + 1) (by omega)
        have e2 := ih (i + 1) j (by omega)
        have e3 := ih i j (by omega)
        rw [e1, e2, e3]
        have c1 : (x :: a)[i + 1]? = a[i]? := by simp
        have c2 : (x :: b)[j + 1]? = b[j]? := by simp
        have c3 : (x :: b)[j + 1 - 1]? = (x :: b)[j]? := by simp
        have c4 : (x :: a)[i + 1 - 1]? = (x :: a)[i]? := by simp
        rw [c1, c2, c3, c4]
        have s1 : i + 1 - 1 = i := by omega
        have s2 : j + 1 - 1 = j := by omega
        rw [s1, s2]
        cases i with
        | zero =>
          have r := editTable_zero_left tr (x :: a) (x :: b) j
          have r2 := editTable_zero_left tr a b (j + 1)
          have r3 := editTable_zero_left tr a b j
          have r4 := editTable_le tr a b 0 j
          rw [r]
          have hn : ¬ (tr = true ∧ 1 ≤ 0 ∧ 1 ≤ j ∧ a[0]? = b[j - 1]? ∧ a[0 - 1]? = b[j]?) := by
            rintro ⟨_, h, _⟩; omega
          rw [if_neg hn]
          split_ifs <;> omega
        | succ i =>
          cases j with
          | zero =>
            have r := editTable_zero_right tr (x :: a) (x :: b) (i + 1)
            have r2 := editTable_zero_right tr a b (i + 1 + 1)
            have r3 := editTable_zero_right tr a b (i + 1)
            rw [r]
            have hn : ¬ (tr = true ∧ 1 ≤ i + 1 ∧ 1 ≤ 0 ∧ a[i + 1]? = b[0 - 1]? ∧
                a[i + 1 - 1]? = b[0]?) := by
              rintro ⟨_, _, h, _⟩; omega
            rw [if_neg hn]
            split_ifs <;> omega
          | succ j =>
            have e4 := ih i j (by omega)
            have c5 : (x :: b)[j + 1]? = b[j]? := by simp
            have c6 : (x :: a)[i + 1]? = a[i]? := by simp
            rw [e4, c5, c6]
            have s3 : i + 1 - 1 = i := by omega
            have s4 : j + 1 - 1 = j := by omega
            simp only [s3, s4]
            have ht : (tr = true ∧ 1 ≤ i + 1 + 1 ∧ 1 ≤ j + 1 + 1 ∧ a[i + 1]? = b[j]? ∧
                a[i]? = b[j + 1]?) ↔ (tr = true ∧ 1 ≤ i + 1 ∧ 1 ≤ j + 1 ∧ a[i + 1]? = b[j]? ∧
                a[i]? = b[j + 1]?) := by
              constructor
              · rintro ⟨h1, _, _, h4, h5⟩; exact ⟨h1, by omega, by omega, h4, h5⟩
              · rintro ⟨h1, _, _, h4, h5⟩; exact ⟨h1, by omega, by omega, h4, h5⟩
            simp only [ht]

/-- A common first element can be dropped. -/
theorem editTable_cons (tr : Bool) (x : α) (a b : List α) (i j : Nat) :
    editTable tr (x :: a) (x :: b) (i + 1) (j + 1) = editTable tr a b i j :=
  editTable_cons_aux tr x a b (i + j) i j le_rfl

/-- A common prefix of length `s` can be dropped. -/
theorem editTable_drop (tr : Bool) (s : Nat) :
    ∀ (a b : List α), (∀ k, k < s → a[k]? = b[k]?) → s ≤ a.length → ∀ i j : Nat,
      editTable tr a b (s + i) (s + j) = editTable tr (a.drop s) (b.drop s) i j := by
  induction s with
  | zero => intro a b _ _ i j; simp
  | succ s ih =>
    intro a b h hs i j
    cases a with
    | nil => simp at hs
    | cons x a =>
      cases b with
      | nil => have := h 0 (by omega); simp at this
      | cons y b =>
        have hxy : x = y := by have := h 0 (by omega); simpa using this
        subst hxy
        have e1 : s + 1 + i = (s + i) + 1 := by omega
        have e2 : s + 1 + j = (s + j) + 1 := by omega
        rw [e1, e2, editTable_cons, List.drop_succ_cons, List.drop_succ_cons]
        apply ih
        · intro k hk
          have := h (k + 1) (by omega)
          simpa using this
        · simpa using hs

/-- A common run of elements at the end of both prefixes can be dropped. -/
theorem editTable_strip_suffix (tr : Bool) (a b : List α) (i j k : Nat)
    (h : ∀ t, t < k → a[i + t]? = b[j + t]?) :
    editTable tr a b (i + k) (j + k) = editTable tr a b i j := by
  induction k with
  | zero => rfl
  | succ k ih =>
    have := editTable_match tr a b (i + k) (j + k) (h k (by omega))
    rw [← ih (fun t ht => h t (by omega)), ← this]
    rfl

/-- A zero cell compares equal prefixes. -/
theorem editTable_eq_zero (tr : Bool) (a b : List α) :
    ∀ i j : Nat, editTable tr a b i j = 0 → i = j ∧ ∀ k, k < i → a[k]? = b[k]? := by
  intro i
  induction i with
  | zero =>
    intro j h
    rw [editTable_zero_left] at h
    exact ⟨h.symm, fun k hk => by omega⟩
  | succ i ih =>
    intro j h
    cases j with
    | zero => rw [editTable_zero_right] at h; omega
    | succ j =>
      rcases editTable_cases tr a b i j with e | e | ⟨hc, e⟩ | ⟨_, e⟩ | ⟨_, _, _, _, _, e⟩
      · omega
      · omega
      · have := ih j (by omega)
        refine ⟨by omega, fun k hk => ?_⟩
        by_cases hk2 : k < i
        · exact this.2 k hk2
        · have hki : k = i := by omega
          have hij : i = j := this.1
          subst hki
          rw [hc, hij]
      · omega
      · omega

theorem editTable_self (tr : Bool) (a : List α) (i : Nat) : editTable tr a a i i = 0 := by
  induction i with
  | zero => rw [editTable_zero_left]
  | succ i ih => rw [editTable_match tr a a i i rfl, ih]

end ReferenceSymmetry
/-! ## Slices and loops: basic facts -/

section LoopFacts

variable {α σ : Type}

theorem idx_natCast (xs : List α) (k : Nat) : idx xs (k : Int) = xs[k]? := by
  simp [idx]

theorem idx_of_eq (xs : List α) (i : Int) (k : Nat) (h : i = k) : idx xs i = xs[k]? := by
  subst h; exact idx_natCast xs k

theorem upd_of_eq (xs : List α) (i : Int) (k : Nat) (v : α) (h : i = k) (hk : k < xs.length) :
    upd xs i v = some (xs.set k v) := by
  subst h
  simp [upd, hk]

theorem allocIfNil_spec (buf : Option (List Int)) (n : Nat)
    (h : ∀ b, buf = some b → n ≤ b.length) :
    ∃ b, allocIfNil buf (n : Int) = some b ∧ n ≤ b.length := by
  cases buf with
  | none => exact ⟨List.replicate n 0, by simp [allocIfNil, makeInts], by simp⟩
  | some b => exact ⟨b, rfl, h b rfl⟩

/-- Invariant rule for counting loops. -/
theorem forLoop_inv (body : Int → σ → Option σ) (P : Nat → σ → Prop) (lo : Int) :
    ∀ (n k : Nat) (s : σ), P k s →
      (∀ t s, k ≤ t → t < k + n → P t s → ∃ s2, body (lo + t) s = some s2 ∧ P (t + 1) s2) →
      ∃ s2, forLoop body n (lo + k) s = some s2 ∧ P (k + n) s2 := by
  intro n
  induction n with
  | zero => intro k s h _; exact ⟨s, rfl, h⟩
  | succ n ih =>
    intro k s h hstep
    obtain ⟨s1, e1, p1⟩ := hstep k s le_rfl (by omega) h
    obtain ⟨s2, e2, p2⟩ := ih (k + 1) s1 p1 (fun t s ht1 ht2 hp => hstep t s (by omega) (by omega) hp)
    refine ⟨s2, ?_, ?_⟩
    · simp only [forLoop, e1, Option.bind_some]
      have : lo + (k : Int) + 1 = lo + ((k + 1 : Nat) : Int) := by push_cast; ring
      rw [this]; exact e2
    · have : k + (n + 1) = k + 1 + n := by omega
      rw [this]; exact p2

/-- Invariant rule for `forRange` between two natural bounds. -/
theorem forRange_inv (body : Int → σ → Option σ) (P : Nat → σ → Prop) (lo hi : Nat)
    (hle : lo ≤ hi) (s : σ) (h0 : P lo s)
    (hstep : ∀ t s, lo ≤ t → t < hi → P t s → ∃ s2, body (t : Int) s = some s2 ∧ P (t + 1) s2) :
    ∃ s2, forRange (lo : Int) (hi : Int) body s = some s2 ∧ P hi s2 := by
  have h := forLoop_inv body (fun k s => P k s) 0 (hi - lo) lo s h0
    (fun t s ht1 ht2 hp => by
      have := hstep t s ht1 (by omega) hp
      simpa using this)
  obtain ⟨s2, e, p⟩ := h
  refine ⟨s2, ?_, ?_⟩
  · unfold forRange
    have e1 : ((hi : Int) - (lo : Int)).toNat = hi - lo := by omega
    rw [e1]
    simpa using e
  · have : lo + (hi - lo) = hi := by omega
    rw [this] at p; exact p

/-- Invariant rule for fuel-bounded `while` loops with a decreasing measure. -/
theorem whileLoop_inv (cond : σ → Option Bool) (body : σ → Option σ) (P : σ → Prop)
    (μ : σ → Nat)
    (hc : ∀ s, P s → ∃ c, cond s = some c)
    (hb : ∀ s, P s → cond s = some true → ∃ s2, body s = some s2 ∧ P s2 ∧ μ s2 < μ s) :
    ∀ (n : Nat) (s : σ), P s → μ s ≤ n →
      ∃ s2, whileLoop cond body n s = some s2 ∧ P s2 ∧ cond s2 = some false := by
  intro n
  induction n with
  | zero =>
    intro s hp hμ
    obtain ⟨c, ec⟩ := hc s hp
    cases c with
    | false => exact ⟨s, by simp [whileLoop, ec], hp, ec⟩
    | true =>
      obtain ⟨s2, _, _, hlt⟩ := hb s hp ec
      omega
  | succ n ih =>
    intro s hp hμ
    obtain ⟨c, ec⟩ := hc s hp
    cases c with
    | false => exact ⟨s, by simp [whileLoop, ec], hp, ec⟩
    | true =>
      obtain ⟨s1, e1, p1, hlt⟩ := hb s hp ec
      obtain ⟨s2, e2, p2, c2⟩ := ih s1 p1 (by omega)
      exact ⟨s2, by simp [whileLoop, ec, e1, e2], p2, c2⟩

end LoopFacts
/-! ## The Damerau-Levenshtein loops -/

section DamerauFacts

variable {α : Type} [DecidableEq α]

/-- The sentinel of a column the band has not reached yet is accurate. -/
theorem good_sentinel (K L : Int) (t I J : Nat) (hLK : L ≤ K)
    (hlow : (J : Int) ≤ t + I) (hout : K + 1 ≤ (J : Int) - I) : Good K L t I J (K + 2) := by
  unfold Good
  constructor
  · omega
  · intro h1 h2; omega

/-- A candidate built from an accurate neighbour is not too small. -/
theorem Good.lower {K L : Int} {t I J : Nat} {v : Int} (g : Good K L t I J v)
    (t2 I2 J2 : Nat) (c : Int) (ht : (t2 : Int) ≤ t + c)
    (hs : max 0 ((I : Int) - J + L) ≤ max 0 ((I2 : Int) - J2 + L) + c) :
    min (t2 : Int) (K + 1 - max 0 ((I2 : Int) - J2 + L)) ≤ v + c := by
  have h := g.1
  omega

/-- A candidate built from the neighbour that realises the minimum is exact within the
cap. -/
theorem Good.exact {K L : Int} {t I J : Nat} {v : Int} (g : Good K L t I J v)
    (t2 I2 J2 : Nat) (c : Int) (ht : (t2 : Int) = t + c)
    (hd1 : (J : Int) - I - L ≤ (J2 : Int) - I2 - L + c)
    (hd2 : (I : Int) + L - J ≤ (I2 : Int) + L - J2 + c)
    (h1 : (t2 : Int) + ((J2 : Int) - I2 - L) ≤ K) (h2 : (t2 : Int) + ((I2 : Int) + L - J2) ≤ K) :
    v + c = t2 := by
  have h := g.2 (by omega) (by omega)
  omega

theorem good_intro (K L : Int) (t I J : Nat) (v : Int)
    (hA : min (t : Int) (K + 1 - max 0 ((I : Int) - J + L)) ≤ v)
    (hB : (t : Int) + ((J : Int) - I - L) ≤ K → (t : Int) + ((I : Int) + L - J) ≤ K → v ≤ t) :
    Good K L t I J v := by
  refine ⟨hA, fun h1 h2 => ?_⟩
  have := hB h1 h2
  omega

/-- The cost the loop body of `DamerauLevenshteinRunesBuffer` stores at `(i, j)`. -/
theorem dl_new_good (A B : List α) (K L : Int) (i j : Nat) (s1 p1 s2c ps2 : α)
    (left up above ntc : Int)
    (h0 : A[0]? ≠ B[0]?) (hL : 0 ≤ L) (hLK : L ≤ K)
    (hs1 : A[i]? = some s1) (hp1 : 1 ≤ i → A[i - 1]? = some p1) (hs2 : B[j]? = some s2c)
    (gl : GoodAt true A B K L i j left) (gu : GoodAt true A B K L i (j + 1) up)
    (ga : GoodAt true A B K L (i + 1) j above)
    (hedge : ((i : Int) - j = K - L ∧ 1 ≤ j ∧ ntc = 0) ∨
      ((1 ≤ j → B[j - 1]? = some ps2) ∧
        (1 ≤ i → 1 ≤ j → GoodAt true A B K L (i - 1) (j - 1) ntc))) :
    GoodAt true A B K L (i + 1) (j + 1)
      (if s1 ≠ s2c then
        if (i : Int) ≠ 0 ∧ (j : Int) ≠ 0 ∧ s1 = ps2 ∧ p1 = s2c then
          min (ntc + 1) (min above (min up left) + 1)
        else min above (min up left) + 1
      else left) := by
  have hle := editTable_le true A B i j
  have hcs := editTable_cases true A B i j
  have hpos := editTable_pos true A B h0 i j
  have hc : (A[i]? = B[j]?) ↔ s1 = s2c := by rw [hs1, hs2]; simp
  have hli := editTable_ge_sub_left true A B i j
  have hlj := editTable_ge_sub_right true A B i j
  rcases hedge with ⟨he1, he2, he3⟩ | ⟨hps, hntc⟩
  · -- lower edge of the band
    have hi : 1 ≤ i := by omega
    have p00 := editTable_pos true A B h0 (i - 1) (j - 1)
    have p01 := editTable_pos true A B h0 (i - 1) j
    have ei : i - 1 + 1 = i := by omega
    have ej : j - 1 + 1 = j := by omega
    rw [ei, ej] at p00
    rw [ei] at p01
    have l1 : 1 ≤ left := by
      have h := gl.1; omega
    have l2 : 1 ≤ up := by
      have h := gu.1; omega
    have l3 : 0 ≤ above := by
      have h := ga.1; omega
    subst he3
    apply good_intro
    · split_ifs <;> omega
    · intro h1 h2; omega
  · by_cases hch : s1 = s2c
    · have hm := editTable_match true A B i j (hc.2 hch)
      rw [if_neg (not_not.2 hch)]
      unfold GoodAt Good at gl ⊢
      rw [hm]
      constructor
      · have := gl.1; omega
      · intro h1 h2; exact gl.2 (by omega) (by omega)
    · rw [if_pos hch]
      have hcn : ¬ (A[i]? = B[j]?) := fun h => hch (hc.1 h)
      have a1 := Good.lower gl (editTable true A B (i + 1) (j + 1)) (i + 1) (j + 1) 1
        (by omega) (by push_cast; omega)
      have a2 := Good.lower gu (editTable true A B (i + 1) (j + 1)) (i + 1) (j + 1) 1
        (by omega) (by push_cast; omega)
      have a3 := Good.lower ga (editTable true A B (i + 1) (j + 1)) (i + 1) (j + 1) 1
        (by omega) (by push_cast; omega)
      have b1 := Good.exact gl (editTable true A B (i + 1) (j + 1)) (i + 1) (j + 1) 1
      have b2 := Good.exact gu (editTable true A B (i + 1) (j + 1)) (i + 1) (j + 1) 1
      have b3 := Good.exact ga (editTable true A B (i + 1) (j + 1)) (i + 1) (j + 1) 1
      by_cases htc : (i : Int) ≠ 0 ∧ (j : Int) ≠ 0 ∧ s1 = ps2 ∧ p1 = s2c
      · rw [if_pos htc]
        obtain ⟨hi0, hj0, hc1, hc2⟩ := htc
        have hi : 1 ≤ i := by omega
        have hj : 1 ≤ j := by omega
        have gn := hntc hi hj
        have t1 : A[i - 1 + 1]? = B[j - 1]? := by
          have ei : i - 1 + 1 = i := by omega
          rw [ei, hs1, hps hj, hc1]
        have t2 : A[i - 1]? = B[j - 1 + 1]? := by
          have ej : j - 1 + 1 = j := by omega
          rw [ej, hp1 hi, hs2, hc2]
        have htr := editTable_le_trans A B (i - 1) (j - 1) t1 t2
        have ei : i - 1 + 2 = i + 1 := by omega
        have ej : j - 1 + 2 = j + 1 := by omega
        rw [ei, ej] at htr
        have a4 := Good.lower gn (editTable true A B (i + 1) (j + 1)) (i + 1) (j + 1) 1
          (by omega) (by push_cast; omega)
        have b4 := Good.exact gn (editTable true A B (i + 1) (j + 1)) (i + 1) (j + 1) 1
        apply good_intro
        · omega
        · intro h1 h2
          rcases hcs with e | e | ⟨e0, _⟩ | ⟨_, e⟩ | ⟨_, _, _, _, _, e⟩
          · have := b2 (by omega) (by push_cast; omega) (by push_cast; omega) h1 h2
            omega
          · have := b3 (by omega) (by push_cast; omega) (by push_cast; omega) h1 h2
            omega
          · exact absurd e0 hcn
          · have := b1 (by omega) (by push_cast; omega) (by push_cast; omega) h1 h2
            omega
          · have := b4 (by omega) (by push_cast; omega) (by push_cast; omega) h1 h2
            omega
      · rw [if_neg htc]
        apply good_intro
        · omega
        · intro h1 h2
          rcases hcs with e | e | ⟨e0, _⟩ | ⟨_, e⟩ | ⟨_, hi, hj, c1, c2, e⟩
          · have := b2 (by omega) (by push_cast; omega) (by push_cast; omega) h1 h2
            omega
          · have := b3 (by omega) (by push_cast; omega) (by push_cast; omega) h1 h2
            omega
          · exact absurd e0 hcn
          · have := b1 (by omega) (by push_cast; omega) (by push_cast; omega) h1 h2
            omega
          · exfalso
            apply htc
            refine ⟨by omega, by omega, ?_, ?_⟩
            · rw [hs1, hps hj] at c1; simpa using c1
            · rw [hp1 hi, hs2] at c2; simpa using c2

theorem ite_lt_eq_min (a b : Int) : (if a < b then a else b) = min a b := by
  split_ifs <;> omega

/-- One iteration of the loop over `j` keeps the row invariant. -/
theorem dlCell_step (A B : List α) (n : Nat) (K L : Int) (x0 y0 : List Int)
    (i jS jP j : Nat) (s1 p1 : α) (c : DLCell α)
    (hB : B.length = n) (h0 : A[0]? ≠ B[0]?) (hL : 0 ≤ L) (hLK : L ≤ K)
    (hjS : (jS : Int) = max 0 ((i : Int) - (K - L)))
    (hs1 : A[i]? = some s1) (hp1 : 1 ≤ i → A[i - 1]? = some p1)
    (hx0 : n ≤ x0.length) (hy0 : n ≤ y0.length)
    (hX : ∀ t, jS ≤ t → t < n → ∃ v, x0[t]? = some v ∧ GoodAt true A B K L i (t + 1) v)
    (hY : 1 ≤ i → ∀ t, jS ≤ t → t < jP →
      ∃ v, y0[t]? = some v ∧ GoodAt true A B K L (i - 1) t v)
    (hj1 : jS ≤ j) (hj2 : j < n) (hj3 : j ≤ jP)
    (inv : DLCellInv A B K L x0 y0 i jS jP j c) :
    ∃ c2, dlCell B (i : Int) s1 p1 (j : Int) c = some c2 ∧
      DLCellInv A B K L x0 y0 i jS jP (j + 1) c2 := by
  obtain ⟨up, hup, gup⟩ := hX j hj1 hj2
  have hyj : y0[j]? = some (y0[j]) := List.getElem?_eq_getElem (by omega)
  have hBj : B[j]? = some (B[j]) := List.getElem?_eq_getElem (by omega)
  have e1 : idx c.y (j : Int) = some (y0[j]) := by
    rw [idx_natCast, inv.yrest j le_rfl, hyj]
  have e2 : upd c.y (j : Int) c.left = some (c.y.set j c.left) :=
    upd_of_eq _ _ _ _ rfl (by rw [inv.leny]; omega)
  have e3 : idx c.x (j : Int) = some up := by
    rw [idx_natCast, inv.xrest j le_rfl, hup]
  have e4 : idx B (j : Int) = some (B[j]) := by rw [idx_natCast, hBj]
  have hedge : ((i : Int) - j = K - L ∧ 1 ≤ j ∧ c.nextTransCost = 0) ∨
      ((1 ≤ j → B[j - 1]? = some c.s2Char) ∧
        (1 ≤ i → 1 ≤ j → GoodAt true A B K L (i - 1) (j - 1) c.nextTransCost)) := by
    by_cases hjj : j = jS
    · by_cases hz : 1 ≤ j
      · left; exact ⟨by omega, hz, inv.ntc0 hjj⟩
      · right
        exact ⟨fun h => absurd h hz, fun _ h => absurd h hz⟩
    · right
      have hlt : jS < j := by omega
      refine ⟨fun _ => inv.ch hlt, fun hi _ => ?_⟩
      exact inv.ntc hlt hi hj3
  have hnew := dl_new_good A B K L i j s1 p1 (B[j]) c.s2Char c.left up c.current
    c.nextTransCost h0 hL hLK hs1 hp1 hBj inv.left gup inv.cur hedge
  obtain ⟨new, hdef⟩ : ∃ new : Int, new = (if s1 ≠ B[j] then
      if (i : Int) ≠ 0 ∧ (j : Int) ≠ 0 ∧ s1 = c.s2Char ∧ p1 = B[j] then
        min (c.nextTransCost + 1) (min c.current (min up c.left) + 1)
      else min c.current (min up c.left) + 1
    else c.left) := ⟨_, rfl⟩
  rw [← hdef] at hnew
  have e5 : upd c.x (j : Int) new = some (c.x.set j new) :=
    upd_of_eq _ _ _ _ rfl (by rw [inv.lenx]; omega)
  refine ⟨⟨c.x.set j new, c.y.set j c.left, up, new, y0[j], B[j]⟩, ?_, ?_⟩
  rotate_left
  · exact
      { lenx := by simp [inv.lenx]
        leny := by simp [inv.leny]
        xrest := fun t ht => by
          simp only
          rw [List.getElem?_set_ne (by omega)]; exact inv.xrest t (by omega)
        yrest := fun t ht => by
          simp only
          rw [List.getElem?_set_ne (by omega)]; exact inv.yrest t (by omega)
        xdone := fun t ht1 ht2 => by
          simp only
          by_cases htj : t = j
          · subst htj
            exact ⟨_, List.getElem?_set_self (by rw [inv.lenx]; omega), hnew⟩
          · rw [List.getElem?_set_ne (by omega)]; exact inv.xdone t ht1 (by omega)
        ydone := fun t ht1 ht2 => by
          simp only
          by_cases htj : t = j
          · subst htj
            exact ⟨_, List.getElem?_set_self (by rw [inv.leny]; omega), inv.left⟩
          · rw [List.getElem?_set_ne (by omega)]; exact inv.ydone t ht1 (by omega)
        left := gup
        cur := hnew
        ntc := fun _ hi hjp => by
          obtain ⟨v, hv, gv⟩ := hY hi j hj1 (by omega)
          simp only [Nat.add_sub_cancel]
          rw [hyj] at hv
          cases hv
          exact gv
        ntc0 := fun h => by omega
        ch := fun _ => by simp only [Nat.add_sub_cancel]; exact hBj
        ch0 := fun h => by omega
        last := fun _ => by
          simp only [Nat.add_sub_cancel]
          exact List.getElem?_set_self (by rw [inv.lenx]; omega) }
  · have hn2 : (if s1 ≠ B[j] then
        if (i : Int) ≠ 0 ∧ (j : Int) ≠ 0 ∧ s1 = c.s2Char ∧ p1 = B[j] then
          if c.nextTransCost + 1 < (if c.current < (if up < c.left then up else c.left)
              then c.current else (if up < c.left then up else c.left)) + 1 then
            c.nextTransCost + 1
          else (if c.current < (if up < c.left then up else c.left)
              then c.current else (if up < c.left then up else c.left)) + 1
        else (if c.current < (if up < c.left then up else c.left)
              then c.current else (if up < c.left then up else c.left)) + 1
      else c.left) = new := by
      rw [hdef]
      simp only [ite_lt_eq_min]
    simp only [dlCell, e1, e2, e3, e4, Option.bind_eq_bind, Option.some_bind, Option.pure_def,
      hn2, e5]

end DamerauFacts
section DamerauRows

variable {α : Type} [DecidableEq α]

theorem capped_of_le (d : Nat) (cap : Int) (h : (d : Int) ≤ cap) : capped d cap = d := by
  simp [capped, h]

theorem capped_of_gt (d : Nat) (cap : Int) (h : cap < (d : Int)) : capped d cap = -1 := by
  simp [capped, not_le.2 h]

/-- The boundary costs `i` and `i + 1` a row starts from are accurate for the first column
of its band. -/
theorem dl_row_start_good (A B : List α) (K L : Int) (i jS : Nat)
    (h0 : A[0]? ≠ B[0]?) (hL : 0 ≤ L) (hLK : L ≤ K)
    (hjS : (jS : Int) = max 0 ((i : Int) - (K - L))) :
    GoodAt true A B K L i jS (i : Int) ∧ GoodAt true A B K L (i + 1) jS ((i : Int) + 1) := by
  rcases Nat.eq_zero_or_pos jS with hz | hp
  · subst hz
    unfold GoodAt Good
    rw [editTable_zero_right, editTable_zero_right]
    push_cast
    refine ⟨⟨by omega, fun _ _ => rfl⟩, ⟨by omega, fun _ _ => rfl⟩⟩
  · have hi : 1 ≤ i := by omega
    have u1 := editTable_le_max true A B i jS
    have u2 := editTable_le_max true A B (i + 1) jS
    have p1 := editTable_pos true A B h0 (i - 1) (jS - 1)
    have ei : i - 1 + 1 = i := by omega
    have ej : jS - 1 + 1 = jS := by omega
    rw [ei, ej] at p1
    unfold GoodAt Good
    refine ⟨⟨by omega, fun h1 h2 => ?_⟩, ⟨by push_cast; omega, fun h1 h2 => ?_⟩⟩
    · omega
    · push_cast at h2; omega

/-- The loop over `j` of row `i` succeeds and establishes the cell invariant up to the
end of the band. -/
theorem dl_row_inner (A B : List α) (n : Nat) (K L : Int) (haveMax : Bool)
    (i jS jE : Nat) (s1 c0 : α) (st : DLRow α)
    (hB : B.length = n) (h0 : A[0]? ≠ B[0]?) (hL : 0 ≤ L) (hLK : L ≤ K)
    (hB0 : B[0]? = some c0) (hin : i < n)
    (hjS : (jS : Int) = max 0 ((i : Int) - (K - L)))
    (hjE : (jE : Int) = min (n : Int) (K + i + 1))
    (hs1 : A[i]? = some s1)
    (inv : DLRowInv A B n K L haveMax i st) :
    ∃ c, forRange (jS : Int) (jE : Int) (dlCell B (i : Int) s1 st.s1Char)
        ⟨st.x, st.y, (i : Int), (i : Int) + 1, 0, c0⟩ = some c ∧
      DLCellInv A B K L st.x st.y i jS st.jEnd.toNat jE c := by
  have hjj := inv.jStart
  have hje := inv.jEnd
  have hSE : jS ≤ jE := by omega
  have hX : ∀ t, jS ≤ t → t < n →
      ∃ v, st.x[t]? = some v ∧ GoodAt true A B K L i (t + 1) v := by
    intro t ht1 ht2
    by_cases hb : (t : Int) < st.jEnd
    · exact inv.xband t (by omega) hb
    · refine ⟨K + 2, inv.xout t (by omega) ht2, ?_⟩
      have := editTable_ge_sub_right true A B i (t + 1)
      exact good_sentinel K L _ i (t + 1) hLK (by push_cast; omega) (by push_cast; omega)
  have hY : 1 ≤ i → ∀ t, jS ≤ t → t < st.jEnd.toNat →
      ∃ v, st.y[t]? = some v ∧ GoodAt true A B K L (i - 1) t v := by
    intro h1 t ht1 ht2
    exact inv.yband h1 t (by omega) (by omega)
  have hstart := dl_row_start_good A B K L i jS h0 hL hLK hjS
  have inv0 : DLCellInv A B K L st.x st.y i jS st.jEnd.toNat jS
      ⟨st.x, st.y, (i : Int), (i : Int) + 1, 0, c0⟩ :=
    { lenx := rfl
      leny := rfl
      xrest := fun _ _ => rfl
      yrest := fun _ _ => rfl
      xdone := fun t h1 h2 => by omega
      ydone := fun t h1 h2 => by omega
      left := hstart.1
      cur := hstart.2
      ntc := fun h => by omega
      ntc0 := fun _ => rfl
      ch := fun h => by omega
      ch0 := fun _ => hB0
      last := fun h => by omega }
  have hstep : ∀ (t : Nat) (c : DLCell α), jS ≤ t → t < jE →
      DLCellInv A B K L st.x st.y i jS st.jEnd.toNat t c →
      ∃ c2, dlCell B (i : Int) s1 st.s1Char (t : Int) c = some c2 ∧
        DLCellInv A B K L st.x st.y i jS st.jEnd.toNat (t + 1) c2 := by
    intro t c ht1 ht2 hinv
    have h2 : t < n := by omega
    have h3 : t ≤ st.jEnd.toNat := by omega
    exact dlCell_step A B n K L st.x st.y i jS st.jEnd.toNat t s1 st.s1Char c hB h0 hL hLK hjS
      hs1 inv.s1c inv.lenx inv.leny hX hY ht1 h2 h3 hinv
  exact forRange_inv (dlCell B (i : Int) s1 st.s1Char)
    (fun j c => DLCellInv A B K L st.x st.y i jS st.jEnd.toNat j c) jS jE hSE _ inv0 hstep

/-- The state a completed row hands to the next one satisfies the row invariant. -/
theorem dl_next_row (A B : List α) (n m : Nat) (K L : Int) (haveMax : Bool)
    (i jS jE : Nat) (s1 : α) (st : DLRow α) (c : DLCell α)
    (hL : L = (n : Int) - m) (hmn : m ≤ n) (hLK : L ≤ K) (hi : i < m)
    (hjS : (jS : Int) = max 0 ((i : Int) - (K - L)))
    (hjE : (jE : Int) = min (n : Int) (K + i + 1))
    (hs1 : A[i]? = some s1)
    (inv : DLRowInv A B n K L haveMax i st)
    (cinv : DLCellInv A B K L st.x st.y i jS st.jEnd.toNat jE c)
    (hchk : haveMax = true → (editTable true A B (i + 1) (i + 1 + L.toNat) : Int) ≤ K) :
    DLRowInv A B n K L haveMax (i + 1) ⟨c.x, c.y, (jS : Int), (jE : Int), s1, c.current⟩ := by
  have hjj := inv.jStart
  have hje := inv.jEnd
  have lenx2 : n ≤ c.x.length := by rw [cinv.lenx]; exact inv.lenx
  have leny2 : n ≤ c.y.length := by rw [cinv.leny]; exact inv.leny
  have hlt : jS < jE := by omega
  refine ⟨lenx2, leny2, ?_, ?_, fun _ => by simpa using hs1, ?_, ?_, ?_, ?_, fun _ h => hchk h⟩
  · dsimp only; push_cast; omega
  · dsimp only; push_cast; omega
  · intro t h1 h2
    dsimp only at h1 h2 ⊢
    exact cinv.xdone t (by omega) (by omega)
  · intro t h1 h2
    dsimp only at h1 ⊢
    rw [cinv.xrest t (by omega)]
    exact inv.xout t (by omega) h2
  · intro _ t h1 h2
    dsimp only at h1 h2 ⊢
    simpa using cinv.ydone t (by omega) (by omega)
  · intro _
    refine ⟨jE - 1, ?_, cinv.last hlt⟩
    dsimp only; omega

/-- The loop over `i`, from any row on: it returns the last cell of the table when that is
within the cap, and `-1` otherwise. -/
theorem dlRows_spec (r1 B : List α) (s m n : Nat) (K L : Int) (haveMax : Bool)
    (hB : B.length = n) (h0 : (r1.drop s)[0]? ≠ B[0]?)
    (hL : L = (n : Int) - m) (hmn : m ≤ n) (hLK : L ≤ K) (hKn : K ≤ n) (hm : 1 ≤ m)
    (hA : s + m ≤ r1.length) (hmax : haveMax = decide (K < (n : Int))) :
    ∀ (rem i : Nat) (st : DLRow α), i + rem = m →
      DLRowInv (r1.drop s) B n K L haveMax i st →
      dlRows r1 B (s : Int) (n : Int) L K (K - L) haveMax rem (i : Int) st =
        some (capped (editTable true (r1.drop s) B m n) K) := by
  intro rem
  induction rem with
  | zero =>
    intro i st him inv
    have hi : i = m := by omega
    subst hi
    obtain ⟨t, ht1, ht2⟩ := inv.cur hm
    have hjE := inv.jEnd
    have htn : t + 1 = n := by omega
    obtain ⟨v, hv, gv⟩ := inv.xband t (by rw [inv.jStart]; omega) (by omega)
    rw [ht2] at hv
    cases hv
    rw [htn] at gv
    have hle : (editTable true (r1.drop s) B i n : Int) ≤ K := by
      by_cases hh : haveMax = true
      · have := inv.chk hm hh
        have e : i + L.toNat = n := by omega
        rw [e] at this; exact this
      · have hKn2 : K = n := by
          rw [hmax] at hh
          simp at hh
          omega
        have := editTable_le_max true (r1.drop s) B i n
        omega
    have := gv.2 (by omega) (by omega)
    simp only [dlRows]
    rw [capped_of_le _ _ hle, this]
  | succ rem ih =>
    intro i st him inv
    have hi : i < m := by omega
    have hn : 1 ≤ n := by omega
    have hL0 : 0 ≤ L := by omega
    obtain ⟨s1, hs1⟩ : ∃ s1, (r1.drop s)[i]? = some s1 :=
      ⟨_, List.getElem?_eq_getElem (by simp; omega)⟩
    have e1 : idx r1 ((s : Int) + (i : Int)) = some s1 := by
      rw [idx_of_eq r1 _ (s + i) (by push_cast; ring), ← hs1, List.getElem?_drop]
    obtain ⟨c0, hB0⟩ : ∃ c0, B[0]? = some c0 := ⟨_, List.getElem?_eq_getElem (by omega)⟩
    have e2 : idx B 0 = some c0 := by
      rw [idx_of_eq B 0 0 (by simp)]; exact hB0
    obtain ⟨jS, hjS⟩ : ∃ jS : Nat, (jS : Int) = max 0 ((i : Int) - (K - L)) :=
      ⟨(max 0 ((i : Int) - (K - L))).toNat, by omega⟩
    obtain ⟨jE, hjE⟩ : ∃ jE : Nat, (jE : Int) = min (n : Int) (K + i + 1) :=
      ⟨(min (n : Int) (K + i + 1)).toNat, by omega⟩
    have ejS : (if (i : Int) > K - L then st.jStart + 1 else st.jStart) = (jS : Int) := by
      rw [inv.jStart]; split_ifs <;> omega
    have ejE : (if st.jEnd < (n : Int) then st.jEnd + 1 else st.jEnd) = (jE : Int) := by
      rw [inv.jEnd]; split_ifs <;> omega
    obtain ⟨c, hc, cinv⟩ := dl_row_inner (r1.drop s) B n K L haveMax i jS jE s1 c0 st hB h0 hL0
      hLK hB0 (by omega) hjS hjE hs1 inv
    have hiL : jS ≤ i + L.toNat ∧ i + L.toNat < jE := by omega
    obtain ⟨v, hv, gv⟩ := cinv.xdone (i + L.toNat) hiL.1 hiL.2
    have e3 : idx c.x ((i : Int) + L) = some v := by
      rw [idx_of_eq c.x _ (i + L.toNat) (by push_cast; omega), hv]
    have hdiag : editTable true (r1.drop s) B (i + 1) (i + L.toNat + 1) ≤
        editTable true (r1.drop s) B m n := by
      have := editTable_diag_mono_add true (r1.drop s) B (i + 1) (i + L.toNat + 1) (m - (i + 1))
      have e1 : i + 1 + (m - (i + 1)) = m := by omega
      have e2 : i + L.toNat + 1 + (m - (i + 1)) = n := by omega
      rw [e1, e2] at this; exact this
    have hi2 : ((i : Int) + 1) = ((i + 1 : Nat) : Int) := by push_cast; ring
    have eL : i + 1 + L.toNat = i + L.toNat + 1 := by omega
    simp only [dlRows, e1, e2, ejS, ejE, hc, Option.bind_eq_bind, Option.some_bind,
      Option.pure_def]
    rcases Bool.eq_false_or_eq_true haveMax with hh | hh
    · subst hh
      simp only [if_true, e3, Option.map_some', Option.some_bind]
      by_cases hvK : v > K
      · simp only [hvK, decide_True, if_true]
        have hT : K < (editTable true (r1.drop s) B (i + 1) (i + L.toNat + 1) : Int) := by
          by_contra hcon
          have := gv.2 (by push_cast; omega) (by push_cast; omega)
          omega
        rw [capped_of_gt _ _ (by omega)]
      · simp only [hvK, decide_False]
        have hb : ¬ (false = true) := by simp
        rw [if_neg hb, hi2]
        apply ih (i + 1) _ (by omega)
        apply dl_next_row (r1.drop s) B n m K L true i jS jE s1 st c hL hmn hLK hi hjS hjE
          hs1 inv cinv
        intro _
        have := gv.1
        rw [eL]
        push_cast at this ⊢
        omega
    · subst hh
      simp only [Bool.false_eq_true, if_false, Option.some_bind]
      rw [hi2]
      apply ih (i + 1) _ (by omega)
      apply dl_next_row (r1.drop s) B n m K L false i jS jE s1 st c hL hmn hLK hi hjS hjE
        hs1 inv cinv
      intro h
      simp at h

end DamerauRows
/-! ## The shared prelude of the two distance functions -/

section Prelude

variable {α : Type} [DecidableEq α]

theorem compareLoop_iff (a b : List α) (h : a.length = b.length) :
    compareLoop a b = true ↔ a = b := by
  induction a generalizing b with
  | nil =>
    cases b with
    | nil => simp [compareLoop]
    | cons y ys => simp at h
  | cons x xs ih =>
    cases b with
    | nil => simp at h
    | cons y ys =>
      simp only [List.length_cons, Nat.add_right_cancel_iff] at h
      by_cases hxy : x = y
      · subst hxy
        simp [compareLoop, ih ys h]
      · simp [compareLoop, hxy]

theorem CompareSlices_iff (a b : List α) : CompareSlices a b = true ↔ a = b := by
  unfold CompareSlices
  by_cases h : a.length = b.length
  · simp only [h, ne_eq, not_true_eq_false, if_false]
    exact compareLoop_iff a b h
  · simp only [ne_eq, h, not_false_eq_true, if_true]
    constructor
    · intro h2; cases h2
    · intro h2; subst h2; exact absurd rfl h

/-- `IgnoreSuffix` removes a common suffix of some length `k`, and stops at a mismatch or
when the shorter slice is used up. -/
theorem IgnoreSuffix_spec (s1 s2 : List α) (h12 : s1.length ≤ s2.length) :
    ∃ k : Nat, k ≤ s1.length ∧
      IgnoreSuffix s1 s2 (s1.length : Int) (s2.length : Int) =
        some (((s1.length - k : Nat) : Int), ((s2.length - k : Nat) : Int)) ∧
      (∀ t, t < k → s1[s1.length - k + t]? = s2[s2.length - k + t]?) ∧
      (k < s1.length → s1[s1.length - k - 1]? ≠ s2[s2.length - k - 1]?) := by
  have h := whileLoop_inv
    (fun (p : Int × Int) =>
      if p.1 > 0 then
        (idx s1 (p.1 - 1)).bind fun c1 => (idx s2 (p.2 - 1)).map fun c2 => decide (c1 = c2)
      else some false)
    (fun p => some (p.1 - 1, p.2 - 1))
    (fun p => ∃ k : Nat, k ≤ s1.length ∧ p = (((s1.length - k : Nat) : Int),
      ((s2.length - k : Nat) : Int)) ∧
      ∀ t, t < k → s1[s1.length - k + t]? = s2[s2.length - k + t]?)
    (fun p => p.1.toNat)
    (by
      rintro p ⟨k, hk, rfl, _⟩
      dsimp only
      by_cases hpos : ((s1.length - k : Nat) : Int) > 0
      · rw [if_pos hpos]
        have e1 : idx s1 (((s1.length - k : Nat) : Int) - 1) = s1[s1.length - k - 1]? :=
          idx_of_eq _ _ _ (by omega)
        have e2 : idx s2 (((s2.length - k : Nat) : Int) - 1) = s2[s2.length - k - 1]? :=
          idx_of_eq _ _ _ (by omega)
        rw [e1, e2, List.getElem?_eq_getElem (by omega), List.getElem?_eq_getElem (by omega)]
        exact ⟨_, rfl⟩
      · rw [if_neg hpos]; exact ⟨_, rfl⟩)
    (by
      rintro p ⟨k, hk, rfl, hs⟩ hc
      dsimp only at hc ⊢
      by_cases hpos : ((s1.length - k : Nat) : Int) > 0
      · rw [if_pos hpos] at hc
        have e1 : idx s1 (((s1.length - k : Nat) : Int) - 1) = s1[s1.length - k - 1]? :=
          idx_of_eq _ _ _ (by omega)
        have e2 : idx s2 (((s2.length - k : Nat) : Int) - 1) = s2[s2.length - k - 1]? :=
          idx_of_eq _ _ _ (by omega)
        rw [e1, e2, List.getElem?_eq_getElem (by omega), List.getElem?_eq_getElem (by omega)]
          at hc
        simp only [Option.some_bind, Option.map_some', Option.some.injEq, decide_eq_true_eq] at hc
        refine ⟨_, rfl, ⟨k + 1, by omega, ?_, ?_⟩, by omega⟩
        · ext <;> simp <;> omega
        · intro t ht
          rcases Nat.eq_zero_or_pos t with h0 | hp
          · subst h0
            have a1 : s1.length - (k + 1) + 0 = s1.length - k - 1 := by omega
            have a2 : s2.length - (k + 1) + 0 = s2.length - k - 1 := by omega
            rw [a1, a2, List.getElem?_eq_getElem (by omega), List.getElem?_eq_getElem (by omega),
              hc]
          · have := hs (t - 1) (by omega)
            have a1 : s1.length - (k + 1) + t = s1.length - k + (t - 1) := by omega
            have a2 : s2.length - (k + 1) + t = s2.length - k + (t - 1) := by omega
            rw [a1, a2]; exact this
      · rw [if_neg hpos] at hc; simp at hc)
    s1.length (((s1.length : Nat) : Int), ((s2.length : Nat) : Int))
    ⟨0, by omega, by simp, fun t ht => by omega⟩ (by simp)
  obtain ⟨p, hp, ⟨k, hk, rfl, hs⟩, hc⟩ := h
  refine ⟨k, hk, ?_, hs, ?_⟩
  · unfold IgnoreSuffix
    simpa using hp
  · intro hlt
    dsimp only at hc
    have hpos : ((s1.length - k : Nat) : Int) > 0 := by omega
    rw [if_pos hpos] at hc
    have e1 : idx s1 (((s1.length - k : Nat) : Int) - 1) = s1[s1.length - k - 1]? :=
      idx_of_eq _ _ _ (by omega)
    have e2 : idx s2 (((s2.length - k : Nat) : Int) - 1) = s2[s2.length - k - 1]? :=
      idx_of_eq _ _ _ (by omega)
    rw [e1, e2] at hc
    rw [List.getElem?_eq_getElem (by omega), List.getElem?_eq_getElem (by omega)] at hc ⊢
    simpa using hc

/-- The prefix loop advances over a common prefix and stops at a mismatch or at `r1Len`. -/
theorem ignorePrefix_spec (r1 r2 : List α) (l1 : Nat) (h1 : l1 ≤ r1.length)
    (h2 : l1 ≤ r2.length) :
    ∃ s : Nat, s ≤ l1 ∧ ignorePrefix r1 r2 (l1 : Int) 0 = some (s : Int) ∧
      (∀ t, t < s → r1[t]? = r2[t]?) ∧ (s < l1 → r1[s]? ≠ r2[s]?) := by
  have h := whileLoop_inv
    (fun (start : Int) =>
      if start < (l1 : Int) then
        (idx r1 start).bind fun c1 => (idx r2 start).map fun c2 => decide (c1 = c2)
      else some false)
    (fun start => some (start + 1))
    (fun p => ∃ s : Nat, s ≤ l1 ∧ p = (s : Int) ∧ ∀ t, t < s → r1[t]? = r2[t]?)
    (fun p => (l1 - p).toNat)
    (by
      rintro p ⟨s, hs, rfl, _⟩
      dsimp only
      by_cases hlt : (s : Int) < l1
      · rw [if_pos hlt, idx_natCast, idx_natCast, List.getElem?_eq_getElem (by omega),
          List.getElem?_eq_getElem (by omega)]
        exact ⟨_, rfl⟩
      · rw [if_neg hlt]; exact ⟨_, rfl⟩)
    (by
      rintro p ⟨s, hs, rfl, hpre⟩ hc
      dsimp only at hc ⊢
      by_cases hlt : (s : Int) < l1
      · rw [if_pos hlt, idx_natCast, idx_natCast, List.getElem?_eq_getElem (by omega),
          List.getElem?_eq_getElem (by omega)] at hc
        simp only [Option.some_bind, Option.map_some', Option.some.injEq, decide_eq_true_eq] at hc
        refine ⟨_, rfl, ⟨s + 1, by omega, by push_cast; ring, ?_⟩, by omega⟩
        intro t ht
        by_cases hts : t < s
        · exact hpre t hts
        · have : t = s := by omega
          subst this
          rw [List.getElem?_eq_getElem (by omega), List.getElem?_eq_getElem (by omega), hc]
      · rw [if_neg hlt] at hc; simp at hc)
    l1 (0 : Int) ⟨0, by omega, by simp, fun t ht => by omega⟩ (by simp)
  obtain ⟨p, hp, ⟨s, hs, rfl, hpre⟩, hc⟩ := h
  refine ⟨s, hs, ?_, hpre, ?_⟩
  · unfold ignorePrefix
    simpa using hp
  · intro hlt
    dsimp only at hc
    have hlt2 : (s : Int) < l1 := by omega
    rw [if_pos hlt2, idx_natCast, idx_natCast] at hc
    rw [List.getElem?_eq_getElem (by omega), List.getElem?_eq_getElem (by omega)] at hc ⊢
    simpa using hc

theorem GetCharCosts_loops (n : Nat) (K : Int) (hK0 : 0 ≤ K) (hKn : K ≤ n)
    (x0 : List Int) (hlen0 : n ≤ x0.length) :
    ∃ xs : List Int,
      (forRange 0 K (fun i (x : List Int) => upd x i (i + 1)) x0).bind
        (forRange (max 0 K) (n : Int) (fun i (x : List Int) => upd x i (K + 2))) = some xs ∧
      xs.length = x0.length ∧
      (∀ t : Nat, (t : Int) < K → xs[t]? = some ((t : Int) + 1)) ∧
      (∀ t : Nat, K ≤ (t : Int) → t < n → xs[t]? = some (K + 2)) := by
  obtain ⟨k, hk⟩ : ∃ k : Nat, (k : Int) = K := ⟨K.toNat, by omega⟩
  subst hk
  obtain ⟨x1, e1, len1, p1⟩ := forRange_inv (fun i (x : List Int) => upd x i (i + 1))
    (fun j (x : List Int) => x.length = x0.length ∧
      ∀ t : Nat, t < j → x[t]? = some ((t : Int) + 1)) 0 k (by omega) x0
    ⟨rfl, fun t ht => by omega⟩
    (fun t x _ ht2 hinv => by
      refine ⟨x.set t ((t : Int) + 1), upd_of_eq _ _ _ _ rfl (by rw [hinv.1]; omega), ?_, ?_⟩
      · simp [hinv.1]
      · intro u hu
        by_cases hut : u = t
        · subst hut
          exact List.getElem?_set_self (by rw [hinv.1]; omega)
        · rw [List.getElem?_set_ne (by omega)]; exact hinv.2 u (by omega))
  obtain ⟨x2, e2, len2, p2, q2⟩ := forRange_inv (fun i (x : List Int) => upd x i ((k : Int) + 2))
    (fun j (x : List Int) => x.length = x0.length ∧
      (∀ t : Nat, t < k → x[t]? = some ((t : Int) + 1)) ∧
      ∀ t : Nat, k ≤ t → t < j → x[t]? = some ((k : Int) + 2)) k n (by omega) x1
    ⟨len1, p1, fun t h1 h2 => by omega⟩
    (fun t x ht1 ht2 hinv => by
      refine ⟨x.set t ((k : Int) + 2), upd_of_eq _ _ _ _ rfl (by rw [hinv.1]; omega), ?_, ?_, ?_⟩
      · simp [hinv.1]
      · intro u hu
        rw [List.getElem?_set_ne (by omega)]; exact hinv.2.1 u hu
      · intro u hu1 hu2
        by_cases hut : u = t
        · subst hut
          exact List.getElem?_set_self (by rw [hinv.1]; omega)
        · rw [List.getElem?_set_ne (by omega)]; exact hinv.2.2 u hu1 (by omega))
  refine ⟨x2, ?_, len2, fun t ht => p2 t (by omega), fun t h1 h2 => q2 t (by omega) h2⟩
  have hmax : max 0 (k : Int) = ((k : Nat) : Int) := by omega
  have e1b : forRange 0 (k : Int) (fun i (x : List Int) => upd x i (i + 1)) x0 = some x1 := by
    simpa using e1
  rw [e1b, hmax, Option.some_bind]
  exact e2

/-- `GetCharCosts` on a buffer that is long enough: `i + 1` below `K`, the sentinel `K + 2`
from there to `n`. -/
theorem GetCharCosts_spec (n : Nat) (K : Int) (hK0 : 0 ≤ K) (hKn : K ≤ n)
    (x : Option (List Int)) (hx : ∀ xs, x = some xs → n ≤ xs.length) :
    ∃ xs : List Int, GetCharCosts (n : Int) K x = some xs ∧ n ≤ xs.length ∧
      (∀ t : Nat, (t : Int) < K → xs[t]? = some ((t : Int) + 1)) ∧
      (∀ t : Nat, K ≤ (t : Int) → t < n → xs[t]? = some (K + 2)) := by
  obtain ⟨x0, hx0, hlen0⟩ := allocIfNil_spec x n hx
  obtain ⟨xs, e, len, p, q⟩ := GetCharCosts_loops n K hK0 hKn x0 hlen0
  refine ⟨xs, ?_, by rw [len]; exact hlen0, p, q⟩
  simp only [GetCharCosts, hx0, Option.bind_eq_bind, Option.some_bind]
  exact e

/-- What `stripCommon` returns: a common prefix of length `s` and a common suffix of length
`k` are cut off, and either the shorter slice is used up or what is left starts with a
mismatch. -/
theorem stripCommon_spec (a b : List α) (h1 : 1 ≤ a.length) (h2 : a.length ≤ b.length) :
    ∃ (s m n k : Nat) (st : Bool),
      stripCommon a b (a.length : Int) (b.length : Int) = some ((s : Int), (m : Int), (n : Int), st) ∧
      s + m + k = a.length ∧ s + n + k = b.length ∧
      (∀ t, t < k → a[a.length - k + t]? = b[b.length - k + t]?) ∧
      (∀ t, t < s → a[t]? = b[t]?) ∧
      ((st = true ∧ m = 0) ∨ (1 ≤ m ∧ a[s]? ≠ b[s]?)) := by
  obtain ⟨k, hk, eS, hsuf, hstop⟩ := IgnoreSuffix_spec a b h2
  obtain ⟨ca, ha0⟩ : ∃ ca, a[0]? = some ca := ⟨_, List.getElem?_eq_getElem (by omega)⟩
  obtain ⟨cb, hb0⟩ : ∃ cb, b[0]? = some cb := ⟨_, List.getElem?_eq_getElem (by omega)⟩
  have ea0 : idx a 0 = some ca := by
    rw [idx_of_eq a 0 0 (by simp)]; exact ha0
  have eb0 : idx b 0 = some cb := by
    rw [idx_of_eq b 0 0 (by simp)]; exact hb0
  obtain ⟨s, hs, eP, hpre, hpstop⟩ := ignorePrefix_spec a b (a.length - k) (by omega) (by omega)
  by_cases hst : ca = cb ∨ ((a.length - k : Nat) : Int) = 0
  · refine ⟨s, a.length - k - s, b.length - k - s, k, true, ?_, by omega, by omega, hsuf, hpre, ?_⟩
    · simp only [stripCommon, eS, ea0, eb0, Option.bind_eq_bind, Option.some_bind, hst, if_true,
        eP, Option.pure_def]
      have q1 : ((a.length - k : Nat) : Int) - (s : Int) = ((a.length - k - s : Nat) : Int) := by
        omega
      have q2 : ((b.length - k : Nat) : Int) - (s : Int) = ((b.length - k - s : Nat) : Int) := by
        omega
      rw [q1, q2]
    · by_cases hm : a.length - k - s = 0
      · exact Or.inl ⟨rfl, hm⟩
      · exact Or.inr ⟨by omega, hpstop (by omega)⟩
  · refine ⟨0, a.length - k, b.length - k, k, false, ?_, by omega, by omega, hsuf,
      fun t ht => by omega, Or.inr ⟨?_, ?_⟩⟩
    · simp only [stripCommon, eS, ea0, eb0, Option.bind_eq_bind, Option.some_bind, hst, if_false,
        Option.pure_def]
      rfl
    · by_contra hcon
      exact hst (Or.inr (by omega))
    · rw [ha0, hb0]
      intro hcon
      exact hst (Or.inl (by simpa using hcon))

end Prelude
section DamerauTop

variable {α : Type} [DecidableEq α]

/-- The table cell of the full slices equals the table cell of what is left once a common
suffix of length `k` and a common prefix of length `s` are cut off. -/
theorem editTable_strip (tr : Bool) (a b : List α) (k s m n : Nat)
    (hm : s + m + k = a.length) (hn : s + n + k = b.length)
    (hsuf : ∀ t, t < k → a[a.length - k + t]? = b[b.length - k + t]?)
    (hpre : ∀ t, t < s → a[t]? = b[t]?) :
    editTable tr a b a.length b.length =
      editTable tr (a.drop s) ((b.drop s).take n) m n := by
  have e1 : editTable tr a b a.length b.length = editTable tr a b (s + m) (s + n) := by
    rw [← hm, ← hn]
    apply editTable_strip_suffix
    intro t ht
    have := hsuf t ht
    have a1 : a.length - k + t = s + m + t := by omega
    have a2 : b.length - k + t = s + n + t := by omega
    rw [a1, a2] at this; exact this
  rw [e1, editTable_drop tr s a b hpre (by omega) m n]
  apply editTable_congr
  · intro _ _; rfl
  · intro j hj
    rw [List.getElem?_take, if_pos hj]

/-- The initial state of the loop over `i` satisfies the row invariant. -/
theorem dl_row_init (A B : List α) (n : Nat) (K L : Int) (haveMax : Bool)
    (xs ys : List Int) (c : α) (hLK : L ≤ K) (hKn : K ≤ n)
    (hx : n ≤ xs.length) (hy : n ≤ ys.length)
    (p : ∀ t : Nat, (t : Int) < K → xs[t]? = some ((t : Int) + 1))
    (q : ∀ t : Nat, K ≤ (t : Int) → t < n → xs[t]? = some (K + 2)) :
    DLRowInv A B n K L haveMax 0 ⟨xs, ys, 0, K, c, 0⟩ := by
  refine ⟨hx, hy, ?_, ?_, fun h => by omega, ?_, ?_, fun h => by omega, fun h => by omega,
    fun h => by omega⟩
  · dsimp only; push_cast; omega
  · dsimp only; push_cast; omega
  · intro t h1 h2
    dsimp only at h1 h2 ⊢
    refine ⟨_, p t h2, ?_⟩
    unfold GoodAt Good
    rw [editTable_zero_left]
    push_cast
    exact ⟨by omega, fun _ _ => rfl⟩
  · intro t h1 h2
    dsimp only at h1 ⊢
    exact q t h1 h2

omit [DecidableEq α] in
theorem slice_spec (b : List α) (s n : Nat) (hb : s + n ≤ b.length) :
    slice b (s : Int) ((s : Int) + (n : Int)) = some ((b.drop s).take n) := by
  unfold slice
  have h : 0 ≤ (s : Int) ∧ (s : Int) ≤ (s : Int) + (n : Int) ∧
      (s : Int) + (n : Int) ≤ (b.length : Int) := by omega
  rw [if_pos h]
  have e1 : ((s : Int) + (n : Int) - (s : Int)).toNat = n := by omega
  simp [e1]

theorem capped_clamp (d n : Nat) (cap : Int) (hd : d ≤ n) (hcap : (n : Int) < cap) :
    capped d (n : Int) = capped d cap := by
  rw [capped_of_le _ _ (by omega), capped_of_le _ _ (by omega)]

/-- The banded computation returns the last table cell of the stripped slices, capped. -/
theorem dlBanded_spec (a b : List α) (s m n : Nat) (cap : Int) (x y : Option (List Int))
    (hm1 : 1 ≤ m) (hmn : m ≤ n) (ha : s + m ≤ a.length) (hb : s + n ≤ b.length)
    (h0 : a[s]? ≠ b[s]?) (hcap : 0 ≤ cap)
    (hx : ∀ xs, x = some xs → n ≤ xs.length) (hy : ∀ ys, y = some ys → n ≤ ys.length) :
    dlBanded a b (s : Int) (m : Int) (n : Int) cap x y =
      some (capped (editTable true (a.drop s) ((b.drop s).take n) m n) cap) := by
  have hBlen : ((b.drop s).take n).length = n := by simp; omega
  have h0b : (a.drop s)[0]? ≠ ((b.drop s).take n)[0]? := by
    rw [List.getElem?_take, if_pos (by omega), List.getElem?_drop, List.getElem?_drop]
    simpa using h0
  obtain ⟨ca, ha0⟩ : ∃ ca, a[0]? = some ca := ⟨_, List.getElem?_eq_getElem (by omega)⟩
  have ea0 : idx a 0 = some ca := by
    rw [idx_of_eq a 0 0 (by simp)]; exact ha0
  obtain ⟨ys, hys, hylen⟩ := allocIfNil_spec y n hy
  have hlow := editTable_ge_sub_right true (a.drop s) ((b.drop s).take n) m n
  have hup := editTable_le_max true (a.drop s) ((b.drop s).take n) m n
  simp only [dlBanded, slice_spec b s n hb, Option.bind_eq_bind, Option.some_bind]
  unfold GetLenDiff
  by_cases hc1 : cap > (n : Int)
  · simp only [hc1, if_true]
    obtain ⟨xs, hxs, hxlen, p, q⟩ := GetCharCosts_spec n (n : Int) (by omega) le_rfl x hx
    have hrows := dlRows_spec a ((b.drop s).take n) s m n (n : Int) ((n : Int) - (m : Int))
      (decide ((n : Int) < (n : Int))) hBlen h0b rfl hmn (by omega) le_rfl hm1 ha rfl 
      m 0 ⟨xs, ys, 0, (n : Int), ca, 0⟩ (by omega)
      (dl_row_init _ _ n (n : Int) _ _ xs ys _ (by omega) le_rfl hxlen hylen p q)
    simp only [hxs, hys, ea0, Option.some_bind, Option.pure_def, Int.toNat_ofNat]
    rw [← capped_clamp _ n cap (by omega) hc1]
    exact hrows
  · simp only [hc1, if_false]
    by_cases hc2 : (n : Int) - (m : Int) > cap
    · simp only [hc2, if_true, Option.pure_def]
      rw [capped_of_gt _ _ (by omega)]
    · simp only [hc2, if_false]
      obtain ⟨xs, hxs, hxlen, p, q⟩ := GetCharCosts_spec n cap hcap (by omega) x hx
      have hrows := dlRows_spec a ((b.drop s).take n) s m n cap ((n : Int) - (m : Int))
        (decide (cap < (n : Int))) hBlen h0b rfl hmn (by omega) (by omega) hm1 ha rfl
        m 0 ⟨xs, ys, 0, cap, ca, 0⟩ (by omega)
        (dl_row_init _ _ n cap _ _ xs ys _ (by omega) (by omega) hxlen hylen p q)
      simp only [hxs, hys, ea0, Option.some_bind, Option.pure_def, Int.toNat_ofNat]
      exact hrows

/-- The body after `SwapRunes`, on two different slices with the shorter one first and not
empty, returns their capped Damerau-Levenshtein distance. -/
theorem dlBody_spec (a b : List α) (cap : Int) (x y : Option (List Int))
    (h1 : 1 ≤ a.length) (h2 : a.length ≤ b.length) (hcap : 0 ≤ cap)
    (hx : ∀ xs, x = some xs → b.length ≤ xs.length)
    (hy : ∀ ys, y = some ys → b.length ≤ ys.length) :
    dlBody a b (a.length : Int) (b.length : Int) cap x y =
      some (capped (dlDistance a b) cap) := by
  obtain ⟨s, m, n, k, st, e, hm, hn, hsuf, hpre, hcase⟩ := stripCommon_spec a b h1 h2
  have hT := editTable_strip true a b k s m n hm hn hsuf hpre
  unfold dlDistance
  rw [hT]
  simp only [dlBody, e, Option.bind_eq_bind, Option.some_bind]
  rcases hcase with ⟨hst, hm0⟩ | ⟨hm1, h0⟩
  · subst hst
    subst hm0
    simp only [Nat.cast_zero, and_self, if_true, Option.pure_def, editTable_zero_left]
    unfold capped
    split_ifs <;> rfl
  · have hneg : ¬ (st = true ∧ (m : Int) = 0) := by
      rintro ⟨_, h⟩; omega
    rw [if_neg hneg]
    exact dlBanded_spec a b s m n cap x y hm1 (by omega) (by omega) (by omega) h0 hcap
      (fun xs h => le_trans (by omega) (hx xs h)) (fun ys h => le_trans (by omega) (hy ys h))

/-- `DamerauLevenshteinRunesBuffer` with buffers that are `nil` or at least as long as the
longer argument returns the capped Damerau-Levenshtein distance. -/
theorem DamerauLevenshteinRunesBuffer_spec (a b : List α) (cap : Int)
    (x y : Option (List Int)) (hcap : 0 ≤ cap)
    (hx : ∀ xs, x = some xs → max a.length b.length ≤ xs.length)
    (hy : ∀ ys, y = some ys → max a.length b.length ≤ ys.length) :
    DamerauLevenshteinRunesBuffer a b cap x y = some (capped (dlDistance a b) cap) := by
  unfold DamerauLevenshteinRunesBuffer
  by_cases hab : a = b
  · subst hab
    rw [if_pos ((CompareSlices_iff a a).2 rfl)]
    unfold dlDistance
    rw [editTable_self, capped_of_le _ _ (by simpa using hcap)]
    rfl
  · have hcmp : ¬ (CompareSlices a b = true) := fun h => hab ((CompareSlices_iff a b).1 h)
    rw [if_neg hcmp]
    have hsym : dlDistance a b = dlDistance b a := by
      unfold dlDistance; exact editTable_symm true a b _ _
    unfold SwapRunes
    have hneg : ¬ (cap < 0) := by omega
    simp only [hneg, if_false]
    by_cases hgt : (a.length : Int) > (b.length : Int)
    · simp only [hgt, if_true]
      by_cases hz : (b.length : Int) = 0
      · simp only [hz, if_true]
        have hb : b = [] := by
          have : b.length = 0 := by omega
          exact List.length_eq_zero.1 this
        subst hb
        unfold dlDistance capped
        simp only [List.length_nil, editTable_zero_right]
        split_ifs <;> rfl
      · simp only [hz, if_false]
        rw [hsym]
        exact dlBody_spec b a cap x y (by omega) (by omega) hcap
          (fun xs h => le_trans (le_max_left _ _) (hx xs h))
          (fun ys h => le_trans (le_max_left _ _) (hy ys h))
    · simp only [hgt, if_false]
      by_cases hz : (a.length : Int) = 0
      · simp only [hz, if_true]
        have ha : a = [] := by
          have : a.length = 0 := by omega
          exact List.length_eq_zero.1 this
        subst ha
        unfold dlDistance capped
        simp only [List.length_nil, editTable_zero_left]
        split_ifs <;> rfl
      · simp only [hz, if_false]
        exact dlBody_spec a b cap x y (by omega) (by omega) hcap
          (fun xs h => le_trans (le_max_right _ _) (hx xs h))
          (fun ys h => le_trans (le_max_right _ _) (hy ys h))

end DamerauTop
/-! ## The Levenshtein loops -/

section LevenshteinFacts

variable {α : Type} [DecidableEq α]

/-- The cost the loop body of `LevenshteinRunesBuffer` stores at `(i, j)`. -/
theorem lev_new_good (A B : List α) (K L : Int) (i j : Nat) (s1 s2c : α)
    (left up above : Int)
    (h0 : A[0]? ≠ B[0]?) (hL : 0 ≤ L) (hLK : L ≤ K)
    (hs1 : A[i]? = some s1) (hs2 : B[j]? = some s2c)
    (gl : GoodAt false A B K L i j left) (gu : GoodAt false A B K L i (j + 1) up)
    (hab : GoodAt false A B K L (i + 1) j above ∨
      (above = (i : Int) ∧ left = (i : Int) ∧ (j = 0 ∨ ((i : Int) - j = K - L ∧ 1 ≤ j)))) :
    GoodAt false A B K L (i + 1) (j + 1)
      (if s1 ≠ s2c then min (up + 1) (min (above + 1) (left + 1)) else left) := by
  have hle := editTable_le false A B i j
  have hcs := editTable_cases false A B i j
  have hpos := editTable_pos false A B h0 i j
  have hc : (A[i]? = B[j]?) ↔ s1 = s2c := by rw [hs1, hs2]; simp
  by_cases hch : s1 = s2c
  · have hm := editTable_match false A B i j (hc.2 hch)
    rw [if_neg (not_not.2 hch)]
    unfold GoodAt Good at gl ⊢
    rw [hm]
    constructor
    · have := gl.1; omega
    · intro h1 h2; exact gl.2 (by omega) (by omega)
  · rw [if_pos hch]
    have hcn : ¬ (A[i]? = B[j]?) := fun h => hch (hc.1 h)
    have a1 := Good.lower gl (editTable false A B (i + 1) (j + 1)) (i + 1) (j + 1) 1
      (by omega) (by push_cast; omega)
    have a2 := Good.lower gu (editTable false A B (i + 1) (j + 1)) (i + 1) (j + 1) 1
      (by omega) (by push_cast; omega)
    have b1 := Good.exact gl (editTable false A B (i + 1) (j + 1)) (i + 1) (j + 1) 1
    have b2 := Good.exact gu (editTable false A B (i + 1) (j + 1)) (i + 1) (j + 1) 1
    rcases hab with ga | ⟨hab1, hab2, hj0 | ⟨he1, he2⟩⟩
    · have a3 := Good.lower ga (editTable false A B (i + 1) (j + 1)) (i + 1) (j + 1) 1
        (by omega) (by push_cast; omega)
      have b3 := Good.exact ga (editTable false A B (i + 1) (j + 1)) (i + 1) (j + 1) 1
      apply good_intro
      · omega
      · intro h1 h2
        rcases hcs with e | e | ⟨e0, _⟩ | ⟨_, e⟩ | ⟨ht, _⟩
        · have := b2 (by omega) (by push_cast; omega) (by push_cast; omega) h1 h2
          omega
        · have := b3 (by omega) (by push_cast; omega) (by push_cast; omega) h1 h2
          omega
        · exact absurd e0 hcn
        · have := b1 (by omega) (by push_cast; omega) (by push_cast; omega) h1 h2
          omega
        · cases ht
    · subst hj0
      have z0 := editTable_zero_right false A B i
      have z1 := editTable_zero_right false A B (i + 1)
      apply good_intro
      · omega
      · intro h1 h2
        rcases hcs with e | e | ⟨e0, _⟩ | ⟨_, e⟩ | ⟨ht, _⟩
        · have := b2 (by omega) (by push_cast; omega) (by push_cast; omega) h1 h2
          omega
        · omega
        · exact absurd e0 hcn
        · omega
        · cases ht
    · have l2 : 0 ≤ up := by
        have hi : 1 ≤ i := by omega
        have p01 := editTable_pos false A B h0 (i - 1) j
        have ei : i - 1 + 1 = i := by omega
        rw [ei] at p01
        have h := gu.1; omega
      apply good_intro
      · omega
      · intro h1 h2; omega

/-- One iteration of the loop over `j` keeps the row invariant. -/
theorem levCell_step (A B : List α) (n : Nat) (K L : Int) (x0 : List Int)
    (i jS j : Nat) (s1 : α) (c : LevCell)
    (hB : B.length = n) (h0 : A[0]? ≠ B[0]?) (hL : 0 ≤ L) (hLK : L ≤ K)
    (hjS : (jS : Int) = max 0 ((i : Int) - (K - L)))
    (hs1 : A[i]? = some s1) (hx0 : n ≤ x0.length)
    (hX : ∀ t, jS ≤ t → t < n → ∃ v, x0[t]? = some v ∧ GoodAt false A B K L i (t + 1) v)
    (hj1 : jS ≤ j) (hj2 : j < n)
    (inv : LevCellInv A B K L x0 i jS j c) :
    ∃ c2, levCell B s1 (j : Int) c = some c2 ∧ LevCellInv A B K L x0 i jS (j + 1) c2 := by
  obtain ⟨up, hup, gup⟩ := hX j hj1 hj2
  have hBj : B[j]? = some (B[j]) := List.getElem?_eq_getElem (by omega)
  have e3 : idx c.x (j : Int) = some up := by
    rw [idx_natCast, inv.xrest j le_rfl, hup]
  have e4 : idx B (j : Int) = some (B[j]) := by rw [idx_natCast, hBj]
  have hab : GoodAt false A B K L (i + 1) j c.current ∨
      (c.current = (i : Int) ∧ c.left = (i : Int) ∧ (j = 0 ∨ ((i : Int) - j = K - L ∧ 1 ≤ j))) := by
    by_cases hjj : j = jS
    · right
      refine ⟨(inv.cur0 hjj).1, (inv.cur0 hjj).2, ?_⟩
      omega
    · left
      exact inv.cur (by omega)
  have hnew := lev_new_good A B K L i j s1 (B[j]) c.left up c.current h0 hL hLK hs1 hBj
    inv.left gup hab
  obtain ⟨new, hdef⟩ : ∃ new : Int, new = (if s1 ≠ B[j] then
      min (up + 1) (min (c.current + 1) (c.left + 1)) else c.left) := ⟨_, rfl⟩
  rw [← hdef] at hnew
  have e5 : upd c.x (j : Int) new = some (c.x.set j new) :=
    upd_of_eq _ _ _ _ rfl (by rw [inv.lenx]; omega)
  refine ⟨⟨c.x.set j new, up, new⟩, ?_, ?_⟩
  rotate_left
  · exact
      { lenx := by simp [inv.lenx]
        xrest := fun t ht => by
          simp only
          rw [List.getElem?_set_ne (by omega)]; exact inv.xrest t (by omega)
        xdone := fun t ht1 ht2 => by
          simp only
          by_cases htj : t = j
          · subst htj
            exact ⟨_, List.getElem?_set_self (by rw [inv.lenx]; omega), hnew⟩
          · rw [List.getElem?_set_ne (by omega)]; exact inv.xdone t ht1 (by omega)
        left := gup
        cur := fun _ => hnew
        cur0 := fun h => by omega
        last := fun _ => by
          simp only [Nat.add_sub_cancel]
          exact List.getElem?_set_self (by rw [inv.lenx]; omega) }
  · have hn2 : (if s1 ≠ B[j] then
        if up + 1 < (if c.current + 1 < c.left + 1 then c.current + 1 else c.left + 1) then
          up + 1
        else (if c.current + 1 < c.left + 1 then c.current + 1 else c.left + 1)
      else c.left) = new := by
      rw [hdef]
      simp only [ite_lt_eq_min]
    simp only [levCell, e3, e4, Option.bind_eq_bind, Option.some_bind, Option.pure_def,
      hn2, e5]

/-- The boundary cost `i` a row starts from is accurate for the first column of its band. -/
theorem lev_row_start_good (A B : List α) (K L : Int) (i jS : Nat)
    (h0 : A[0]? ≠ B[0]?) (hL : 0 ≤ L) (hLK : L ≤ K)
    (hjS : (jS : Int) = max 0 ((i : Int) - (K - L))) :
    GoodAt false A B K L i jS (i : Int) := by
  rcases Nat.eq_zero_or_pos jS with hz | hp
  · subst hz
    unfold GoodAt Good
    rw [editTable_zero_right]
    exact ⟨by omega, fun _ _ => rfl⟩
  · have hi : 1 ≤ i := by omega
    have u1 := editTable_le_max false A B i jS
    have p1 := editTable_pos false A B h0 (i - 1) (jS - 1)
    have ei : i - 1 + 1 = i := by omega
    have ej : jS - 1 + 1 = jS := by omega
    rw [ei, ej] at p1
    unfold GoodAt Good
    exact ⟨by omega, fun h1 h2 => by omega⟩

/-- The loop over `j` of row `i` succeeds and establishes the cell invariant up to the
end of the band. -/
theorem lev_row_inner (A B : List α) (n : Nat) (K L : Int) (haveMax : Bool)
    (i jS jE : Nat) (s1 : α) (st : LevRow)
    (hB : B.length = n) (h0 : A[0]? ≠ B[0]?) (hL : 0 ≤ L) (hLK : L ≤ K)
    (hin : i < n)
    (hjS : (jS : Int) = max 0 ((i : Int) - (K - L)))
    (hjE : (jE : Int) = min (n : Int) (K + i + 1))
    (hs1 : A[i]? = some s1)
    (inv : LevRowInv A B n K L haveMax i st) :
    ∃ c, forRange (jS : Int) (jE : Int) (levCell B s1) ⟨st.x, (i : Int), (i : Int)⟩ = some c ∧
      LevCellInv A B K L st.x i jS jE c := by
  have hjj := inv.jStart
  have hje := inv.jEnd
  have hSE : jS ≤ jE := by omega
  have hX : ∀ t, jS ≤ t → t < n →
      ∃ v, st.x[t]? = some v ∧ GoodAt false A B K L i (t + 1) v := by
    intro t ht1 ht2
    by_cases hb : (t : Int) < st.jEnd
    · exact inv.xband t (by omega) hb
    · refine ⟨K + 2, inv.xout t (by omega) ht2, ?_⟩
      have := editTable_ge_sub_right false A B i (t + 1)
      exact good_sentinel K L _ i (t + 1) hLK (by push_cast; omega) (by push_cast; omega)
  have hstart := lev_row_start_good A B K L i jS h0 hL hLK hjS
  have inv0 : LevCellInv A B K L st.x i jS jS ⟨st.x, (i : Int), (i : Int)⟩ :=
    { lenx := rfl
      xrest := fun _ _ => rfl
      xdone := fun t h1 h2 => by omega
      left := hstart
      cur := fun h => by omega
      cur0 := fun _ => ⟨rfl, rfl⟩
      last := fun h => by omega }
  have hstep : ∀ (t : Nat) (c : LevCell), jS ≤ t → t < jE →
      LevCellInv A B K L st.x i jS t c →
      ∃ c2, levCell B s1 (t : Int) c = some c2 ∧ LevCellInv A B K L st.x i jS (t + 1) c2 := by
    intro t c ht1 ht2 hinv
    have h2 : t < n := by omega
    exact levCell_step A B n K L st.x i jS t s1 c hB h0 hL hLK hjS hs1 inv.lenx hX ht1 h2 hinv
  exact forRange_inv (levCell B s1)
    (fun j c => LevCellInv A B K L st.x i jS j c) jS jE hSE _ inv0 hstep

/-- The state a completed row hands to the next one satisfies the row invariant. -/
theorem lev_next_row (A B : List α) (n m : Nat) (K L : Int) (haveMax : Bool)
    (i jS jE : Nat) (st : LevRow) (c : LevCell)
    (hL : L = (n : Int) - m) (hmn : m ≤ n) (hLK : L ≤ K) (hi : i < m)
    (hjS : (jS : Int) = max 0 ((i : Int) - (K - L)))
    (hjE : (jE : Int) = min (n : Int) (K + i + 1))
    (inv : LevRowInv A B n K L haveMax i st)
    (cinv : LevCellInv A B K L st.x i jS jE c)
    (hchk : haveMax = true → (editTable false A B (i + 1) (i + 1 + L.toNat) : Int) ≤ K) :
    LevRowInv A B n K L haveMax (i + 1) ⟨c.x, (jS : Int), (jE : Int), c.current⟩ := by
  have hjj := inv.jStart
  have hje := inv.jEnd
  have lenx2 : n ≤ c.x.length := by rw [cinv.lenx]; exact inv.lenx
  have hlt : jS < jE := by omega
  refine ⟨lenx2, ?_, ?_, ?_, ?_, ?_, fun _ h => hchk h⟩
  · dsimp only; push_cast; omega
  · dsimp only; push_cast; omega
  · intro t h1 h2
    dsimp only at h1 h2 ⊢
    exact cinv.xdone t (by omega) (by omega)
  · intro t h1 h2
    dsimp only at h1 ⊢
    rw [cinv.xrest t (by omega)]
    exact inv.xout t (by omega) h2
  · intro _
    refine ⟨jE - 1, ?_, cinv.last hlt⟩
    dsimp only; omega

/-- The loop over `i`, from any row on: it returns the last cell of the table when that is
within the cap, and `-1` otherwise. -/
theorem levRows_spec (r1 B : List α) (s m n : Nat) (K L : Int) (haveMax : Bool)
    (hB : B.length = n) (h0 : (r1.drop s)[0]? ≠ B[0]?)
    (hL : L = (n : Int) - m) (hmn : m ≤ n) (hLK : L ≤ K) (hKn : K ≤ n) (hm : 1 ≤ m)
    (hA : s + m ≤ r1.length) (hmax : haveMax = decide (K < (n : Int))) :
    ∀ (rem i : Nat) (st : LevRow), i + rem = m →
      LevRowInv (r1.drop s) B n K L haveMax i st →
      levRows r1 B (s : Int) (n : Int) L K (K - L) haveMax rem (i : Int) st =
        some (capped (editTable false (r1.drop s) B m n) K) := by
  intro rem
  induction rem with
  | zero =>
    intro i st him inv
    have hi : i = m := by omega
    subst hi
    obtain ⟨t, ht1, ht2⟩ := inv.cur hm
    have hjE := inv.jEnd
    have htn : t + 1 = n := by omega
    obtain ⟨v, hv, gv⟩ := inv.xband t (by rw [inv.jStart]; omega) (by omega)
    rw [ht2] at hv
    cases hv
    rw [htn] at gv
    have hle : (editTable false (r1.drop s) B i n : Int) ≤ K := by
      by_cases hh : haveMax = true
      · have := inv.chk hm hh
        have e : i + L.toNat = n := by omega
        rw [e] at this; exact this
      · have hKn2 : K = n := by
          rw [hmax] at hh
          simp at hh
          omega
        have := editTable_le_max false (r1.drop s) B i n
        omega
    have := gv.2 (by omega) (by omega)
    simp only [levRows]
    rw [capped_of_le _ _ hle, this]
  | succ rem ih =>
    intro i st him inv
    have hi : i < m := by omega
    have hL0 : 0 ≤ L := by omega
    obtain ⟨s1, hs1⟩ : ∃ s1, (r1.drop s)[i]? = some s1 :=
      ⟨_, List.getElem?_eq_getElem (by simp; omega)⟩
    have e1 : idx r1 ((s : Int) + (i : Int)) = some s1 := by
      rw [idx_of_eq r1 _ (s + i) (by push_cast; ring), ← hs1, List.getElem?_drop]
    obtain ⟨jS, hjS⟩ : ∃ jS : Nat, (jS : Int) = max 0 ((i : Int) - (K - L)) :=
      ⟨(max 0 ((i : Int) - (K - L))).toNat, by omega⟩
    obtain ⟨jE, hjE⟩ : ∃ jE : Nat, (jE : Int) = min (n : Int) (K + i + 1) :=
      ⟨(min (n : Int) (K + i + 1)).toNat, by omega⟩
    have ejS : (if (i : Int) > K - L then st.jStart + 1 else st.jStart) = (jS : Int) := by
      rw [inv.jStart]; split_ifs <;> omega
    have ejE : (if st.jEnd < (n : Int) then st.jEnd + 1 else st.jEnd) = (jE : Int) := by
      rw [inv.jEnd]; split_ifs <;> omega
    obtain ⟨c, hc, cinv⟩ := lev_row_inner (r1.drop s) B n K L haveMax i jS jE s1 st hB h0 hL0 hLK
      (by omega) hjS hjE hs1 inv
    have hiL : jS ≤ i + L.toNat ∧ i + L.toNat < jE := by omega
    obtain ⟨v, hv, gv⟩ := cinv.xdone (i + L.toNat) hiL.1 hiL.2
    have e3 : idx c.x ((i : Int) + L) = some v := by
      rw [idx_of_eq c.x _ (i + L.toNat) (by push_cast; omega), hv]
    have hdiag : editTable false (r1.drop s) B (i + 1) (i + L.toNat + 1) ≤
        editTable false (r1.drop s) B m n := by
      have := editTable_diag_mono_add false (r1.drop s) B (i + 1) (i + L.toNat + 1) (m - (i + 1))
      have e1 : i + 1 + (m - (i + 1)) = m := by omega
      have e2 : i + L.toNat + 1 + (m - (i + 1)) = n := by omega
      rw [e1, e2] at this; exact this
    have hi2 : ((i : Int) + 1) = ((i + 1 : Nat) : Int) := by push_cast; ring
    have eL : i + 1 + L.toNat = i + L.toNat + 1 := by omega
    simp only [levRows, e1, ejS, ejE, hc, Option.bind_eq_bind, Option.some_bind,
      Option.pure_def]
    rcases Bool.eq_false_or_eq_true haveMax with hh | hh
    · subst hh
      simp only [if_true, e3, Option.map_some', Option.some_bind]
      by_cases hvK : v > K
      · simp only [hvK, decide_True, if_true]
        have hT : K < (editTable false (r1.drop s) B (i + 1) (i + L.toNat + 1) : Int) := by
          by_contra hcon
          have := gv.2 (by push_cast; omega) (by push_cast; omega)
          omega
        rw [capped_of_gt _ _ (by omega)]
      · simp only [hvK, decide_False]
        have hb : ¬ (false = true) := by simp
        rw [if_neg hb, hi2]
        apply ih (i + 1) _ (by omega)
        apply lev_next_row (r1.drop s) B n m K L true i jS jE st c hL hmn hLK hi hjS hjE
          inv cinv
        intro _
        have := gv.1
        rw [eL]
        push_cast at this ⊢
        omega
    · subst hh
      simp only [Bool.false_eq_true, if_false, Option.some_bind]
      rw [hi2]
      apply ih (i + 1) _ (by omega)
      apply lev_next_row (r1.drop s) B n m K L false i jS jE st c hL hmn hLK hi hjS hjE
        inv cinv
      intro h
      simp at h

end LevenshteinFacts
section LevenshteinTop

variable {α : Type} [DecidableEq α]

/-- The initial state of the loop over `i` satisfies the row invariant. -/
theorem lev_row_init (A B : List α) (n : Nat) (K L : Int) (haveMax : Bool)
    (xs : List Int) (hLK : L ≤ K) (hKn : K ≤ n) (hx : n ≤ xs.length)
    (p : ∀ t : Nat, (t : Int) < K → xs[t]? = some ((t : Int) + 1))
    (q : ∀ t : Nat, K ≤ (t : Int) → t < n → xs[t]? = some (K + 2)) :
    LevRowInv A B n K L haveMax 0 ⟨xs, 0, K, 0⟩ := by
  refine ⟨hx, ?_, ?_, ?_, ?_, fun h => by omega, fun h => by omega⟩
  · dsimp only; push_cast; omega
  · dsimp only; push_cast; omega
  · intro t h1 h2
    dsimp only at h1 h2 ⊢
    refine ⟨_, p t h2, ?_⟩
    unfold GoodAt Good
    rw [editTable_zero_left]
    push_cast
    exact ⟨by omega, fun _ _ => rfl⟩
  · intro t h1 h2
    dsimp only at h1 ⊢
    exact q t h1 h2

/-- The banded computation returns the last table cell of the stripped slices, capped. -/
theorem levBanded_spec (a b : List α) (s m n : Nat) (cap : Int) (x : Option (List Int))
    (hm1 : 1 ≤ m) (hmn : m ≤ n) (ha : s + m ≤ a.length) (hb : s + n ≤ b.length)
    (h0 : a[s]? ≠ b[s]?) (hcap : 0 ≤ cap)
    (hx : ∀ xs, x = some xs → n ≤ xs.length) :
    levBanded a b (s : Int) (m : Int) (n : Int) cap x =
      some (capped (editTable false (a.drop s) ((b.drop s).take n) m n) cap) := by
  have hBlen : ((b.drop s).take n).length = n := by simp; omega
  have h0b : (a.drop s)[0]? ≠ ((b.drop s).take n)[0]? := by
    rw [List.getElem?_take, if_pos (by omega), List.getElem?_drop, List.getElem?_drop]
    simpa using h0
  obtain ⟨x0, hx0, hx0len⟩ := allocIfNil_spec x n hx
  have hlow := editTable_ge_sub_right false (a.drop s) ((b.drop s).take n) m n
  have hup := editTable_le_max false (a.drop s) ((b.drop s).take n) m n
  simp only [levBanded, slice_spec b s n hb, Option.bind_eq_bind, Option.some_bind]
  unfold GetLenDiff
  by_cases hc1 : cap > (n : Int)
  · simp only [hc1, if_true]
    obtain ⟨xs, hxs, hxlen, p, q⟩ := GetCharCosts_spec n (n : Int) (by omega) le_rfl (some x0)
      (fun xs h => by cases h; exact hx0len)
    have hrows := levRows_spec a ((b.drop s).take n) s m n (n : Int) ((n : Int) - (m : Int))
      (decide ((n : Int) < (n : Int))) hBlen h0b rfl hmn (by omega) le_rfl hm1 ha rfl
      m 0 ⟨xs, 0, (n : Int), 0⟩ (by omega)
      (lev_row_init _ _ n (n : Int) _ _ xs (by omega) le_rfl hxlen p q)
    simp only [hx0, hxs, Option.some_bind, Option.pure_def, Int.toNat_ofNat]
    rw [← capped_clamp _ n cap (by omega) hc1]
    exact hrows
  · simp only [hc1, if_false]
    by_cases hc2 : (n : Int) - (m : Int) > cap
    · simp only [hc2, if_true, Option.pure_def]
      rw [capped_of_gt _ _ (by omega)]
    · simp only [hc2, if_false]
      obtain ⟨xs, hxs, hxlen, p, q⟩ := GetCharCosts_spec n cap hcap (by omega) (some x0)
        (fun xs h => by cases h; exact hx0len)
      have hrows := levRows_spec a ((b.drop s).take n) s m n cap ((n : Int) - (m : Int))
        (decide (cap < (n : Int))) hBlen h0b rfl hmn (by omega) (by omega) hm1 ha rfl
        m 0 ⟨xs, 0, cap, 0⟩ (by omega)
        (lev_row_init _ _ n cap _ _ xs (by omega) (by omega) hxlen p q)
      simp only [hx0, hxs, Option.some_bind, Option.pure_def, Int.toNat_ofNat]
      exact hrows

/-- The body after `SwapRunes`, on two different slices with the shorter one first and not
empty, returns their capped Levenshtein distance. -/
theorem levBody_spec (a b : List α) (cap : Int) (x : Option (List Int))
    (h1 : 1 ≤ a.length) (h2 : a.length ≤ b.length) (hcap : 0 ≤ cap)
    (hx : ∀ xs, x = some xs → b.length ≤ xs.length) :
    levBody a b (a.length : Int) (b.length : Int) cap x =
      some (capped (levDistance a b) cap) := by
  obtain ⟨s, m, n, k, st, e, hm, hn, hsuf, hpre, hcase⟩ := stripCommon_spec a b h1 h2
  have hT := editTable_strip false a b k s m n hm hn hsuf hpre
  unfold levDistance
  rw [hT]
  simp only [levBody, e, Option.bind_eq_bind, Option.some_bind]
  rcases hcase with ⟨hst, hm0⟩ | ⟨hm1, h0⟩
  · subst hst
    subst hm0
    simp only [Nat.cast_zero, and_self, if_true, Option.pure_def, editTable_zero_left]
    unfold capped
    split_ifs <;> rfl
  · have hneg : ¬ (st = true ∧ (m : Int) = 0) := by
      rintro ⟨_, h⟩; omega
    rw [if_neg hneg]
    exact levBanded_spec a b s m n cap x hm1 (by omega) (by omega) (by omega) h0 hcap
      (fun xs h => le_trans (by omega) (hx xs h))

/-- `LevenshteinRunesBuffer` with a buffer that is `nil` or at least as long as the longer
argument returns the capped Levenshtein distance. -/
theorem LevenshteinRunesBuffer_spec (a b : List α) (cap : Int)
    (x : Option (List Int)) (hcap : 0 ≤ cap)
    (hx : ∀ xs, x = some xs → max a.length b.length ≤ xs.length) :
    LevenshteinRunesBuffer a b cap x = some (capped (levDistance a b) cap) := by
  unfold LevenshteinRunesBuffer
  by_cases hab : a = b
  · subst hab
    rw [if_pos ((CompareSlices_iff a a).2 rfl)]
    unfold levDistance
    rw [editTable_self, capped_of_le _ _ (by simpa using hcap)]
    rfl
  · have hcmp : ¬ (CompareSlices a b = true) := fun h => hab ((CompareSlices_iff a b).1 h)
    rw [if_neg hcmp]
    have hsym : levDistance a b = levDistance b a := by
      unfold levDistance; exact editTable_symm false a b _ _
    unfold SwapRunes
    have hneg : ¬ (cap < 0) := by omega
    simp only [hneg, if_false]
    by_cases hgt : (a.length : Int) > (b.length : Int)
    · simp only [hgt, if_true]
      by_cases hz : (b.length : Int) = 0
      · simp only [hz, if_true]
        have hb : b = [] := by
          have : b.length = 0 := by omega
          exact List.length_eq_zero.1 this
        subst hb
        unfold levDistance capped
        simp only [List.length_nil, editTable_zero_right]
        split_ifs <;> rfl
      · simp only [hz, if_false]
        rw [hsym]
        exact levBody_spec b a cap x (by omega) (by omega) hcap
          (fun xs h => le_trans (le_max_left _ _) (hx xs h))
    · simp only [hgt, if_false]
      by_cases hz : (a.length : Int) = 0
      · simp only [hz, if_true]
        have ha : a = [] := by
          have : a.length = 0 := by omega
          exact List.length_eq_zero.1 this
        subst ha
        unfold levDistance capped
        simp only [List.length_nil, editTable_zero_left]
        split_ifs <;> rfl
      · simp only [hz, if_false]
        exact levBody_spec a b cap x (by omega) (by omega) hcap
          (fun xs h => le_trans (le_max_right _ _) (hx xs h))

end LevenshteinTop
/-! ## Comparing the two recurrences -/

section Metric

variable {α : Type} [DecidableEq α]

/-- Allowing transpositions can only lower the distance. -/
theorem editTable_true_le_false (a b : List α) (i j : Nat) :
    editTable true a b i j ≤ editTable false a b i j := by
  induction i generalizing j with
  | zero => simp [editTable_zero_left]
  | succ i ih =>
    induction j with
    | zero => simp [editTable_zero_right]
    | succ j ihj =>
      have hle := editTable_le true a b i j
      have h1 := ih (j + 1)
      have h3 := ih j
      rcases editTable_cases false a b i j with e | e | ⟨c, e⟩ | ⟨_, e⟩ | ⟨ht, _⟩
      · omega
      · omega
      · have := hle.2.2.2 c; omega
      · omega
      · cases ht

theorem editTable_false_le_two_aux (a b : List α) :
    ∀ n i j : Nat, i + j ≤ n → editTable false a b i j ≤ 2 * editTable true a b i j := by
  intro n
  induction n with
  | zero =>
    intro i j h
    have hi : i = 0 := by omega
    subst hi
    simp only [editTable_zero_left]; omega
  | succ n ih =>
    intro i j h
    cases i with
    | zero => simp only [editTable_zero_left]; omega
    | succ i =>
      cases j with
      | zero => simp only [editTable_zero_right]; omega
      | succ j =>
        have hle := editTable_le false a b i j
        have h1 := ih i (j + 1) (by omega)
        have h2 := ih (i + 1) j (by omega)
        have h3 := ih i j (by omega)
        rcases editTable_cases true a b i j with e | e | ⟨c, e⟩ | ⟨_, e⟩ | ⟨_, hi, hj, _, _, e⟩
        · omega
        · omega
        · have := hle.2.2.2 c; omega
        · omega
        · have h4 := ih (i - 1) (j - 1) (by omega)
          have hd := editTable_diag_le false a b (i - 1) (j - 1)
          have e1 : i - 1 + 1 = i := by omega
          have e2 : j - 1 + 1 = j := by omega
          rw [e1, e2] at hd
          omega

/-- A transposition is worth at most two plain edits. -/
theorem editTable_false_le_two (a b : List α) (i j : Nat) :
    editTable false a b i j ≤ 2 * editTable true a b i j :=
  editTable_false_le_two_aux a b (i + j) i j le_rfl

theorem lev_triangle_aux (a b c : List α) :
    ∀ n i j k : Nat, i + j + k ≤ n →
      editTable false a c i k ≤ editTable false a b i j + editTable false b c j k := by
  intro n
  induction n with
  | zero =>
    intro i j k h
    have hi : i = 0 := by omega
    have hj : j = 0 := by omega
    have hk : k = 0 := by omega
    subst hi; subst hj; subst hk
    simp [editTable_zero_left]
  | succ n ih =>
    intro i j k h
    cases i with
    | zero =>
      have := editTable_ge_sub_right false b c j k
      simp only [editTable_zero_left]; omega
    | succ i =>
      cases k with
      | zero =>
        have := editTable_ge_sub_left false a b (i + 1) j
        simp only [editTable_zero_right]; omega
      | succ k =>
        cases j with
        | zero =>
          have := editTable_le_max false a c (i + 1) (k + 1)
          simp only [editTable_zero_left, editTable_zero_right]; omega
        | succ j =>
          have hac := editTable_le false a c i k
          rcases editTable_cases false a b i j with e | e | ⟨c1, e⟩ | ⟨_, e⟩ | ⟨ht, _⟩
          · have := ih i (j + 1) (k + 1) (by omega); omega
          · rcases editTable_cases false b c j k with f | f | ⟨c2, f⟩ | ⟨_, f⟩ | ⟨ht, _⟩
            · have := ih (i + 1) j (k + 1) (by omega); omega
            · have := ih (i + 1) (j + 1) k (by omega); omega
            · have := ih (i + 1) j k (by omega)
              have := editTable_right_le false a c (i + 1) k
              omega
            · have := ih (i + 1) j k (by omega)
              have := editTable_right_le false a c (i + 1) k
              omega
            · cases ht
          · rcases editTable_cases false b c j k with f | f | ⟨c2, f⟩ | ⟨_, f⟩ | ⟨ht, _⟩
            · have := ih i j (k + 1) (by omega)
              have := editTable_left_le false a c i (k + 1)
              omega
            · have := ih (i + 1) (j + 1) k (by omega); omega
            · have := ih i j k (by omega)
              have := hac.2.2.2 (c1.trans c2)
              omega
            · have := ih i j k (by omega); omega
            · cases ht
          · rcases editTable_cases false b c j k with f | f | ⟨c2, f⟩ | ⟨_, f⟩ | ⟨ht, _⟩
            · have := ih i j (k + 1) (by omega)
              have := editTable_left_le false a c i (k + 1)
              omega
            · have := ih (i + 1) (j + 1) k (by omega); omega
            · have := ih i j k (by omega); omega
            · have := ih i j k (by omega); omega
            · cases ht
          · cases ht

/-- The Levenshtein distance satisfies the triangle inequality. -/
theorem levDistance_triangle (a b c : List α) :
    levDistance a c ≤ levDistance a b + levDistance b c :=
  lev_triangle_aux a b c _ _ _ _ le_rfl

/-- The relaxed triangle inequality of the distance with transpositions. -/
theorem dlDistance_triangle_two (a b c : List α) :
    dlDistance a c ≤ 2 * (dlDistance a b + dlDistance b c) := by
  have h1 := editTable_true_le_false a c a.length c.length
  have h2 := levDistance_triangle a b c
  have h3 := editTable_false_le_two a b a.length b.length
  have h4 := editTable_false_le_two b c b.length c.length
  unfold levDistance at h2
  unfold dlDistance
  omega

theorem dlDistance_le_max (a b : List α) : dlDistance a b ≤ max a.length b.length :=
  editTable_le_max true a b _ _

theorem dlDistance_comm (a b : List α) : dlDistance a b = dlDistance b a :=
  editTable_symm true a b _ _

theorem dlDistance_eq_zero_iff (a b : List α) : dlDistance a b = 0 ↔ a = b := by
  constructor
  · intro h
    obtain ⟨hl, hk⟩ := editTable_eq_zero true a b _ _ h
    apply List.ext_getElem? 
    intro k
    by_cases hka : k < a.length
    · exact hk k hka
    · rw [List.getElem?_eq_none (by omega), List.getElem?_eq_none (by omega)]
  · intro h
    subst h
    exact editTable_self true a _

end Metric
/-! ## The claims on the edit distances -/

section DistanceClaims

variable {α : Type} [DecidableEq α]

/-- C1. For every pair of code-point sequences `a`, `b` and every cap `cap ≥ 0`,
`DamerauLevenshteinRunes a b cap` returns (without a panic) the distance `d` of the full
recurrence with insertion, deletion, substitution and adjacent transposition when
`d ≤ cap`, and `-1` otherwise. -/
theorem DamerauLevenshteinRunes_correct (a b : List α) (cap : Int) (hcap : 0 ≤ cap) :
    DamerauLevenshteinRunes a b cap =
      some (if (dlDistance a b : Int) ≤ cap then (dlDistance a b : Int) else -1) :=
  DamerauLevenshteinRunesBuffer_spec a b cap none none hcap
    (fun _ h => by cases h) (fun _ h => by cases h)

/-- Witness of C1 at `"salt"`, `"slat"` and cap `10`. -/
theorem DamerauLevenshteinRunes_correct_witness :
    (0 : Int) ≤ 10 ∧ DamerauLevenshteinRunes "salt".toList "slat".toList 10 =
      some (if (dlDistance "salt".toList "slat".toList : Int) ≤ 10 then
        (dlDistance "salt".toList "slat".toList : Int) else -1) :=
  ⟨by decide, DamerauLevenshteinRunes_correct "salt".toList "slat".toList 10 (by decide)⟩

/-- C2. For every pair of code-point sequences `a`, `b` and every cap `cap ≥ 0`,
`LevenshteinRunes a b cap` returns (without a panic) the Levenshtein distance `d` of the
full recurrence with insertion, deletion and substitution when `d ≤ cap`, and `-1`
otherwise. -/
theorem LevenshteinRunes_correct (a b : List α) (cap : Int) (hcap : 0 ≤ cap) :
    LevenshteinRunes a b cap =
      some (if (levDistance a b : Int) ≤ cap then (levDistance a b : Int) else -1) :=
  LevenshteinRunesBuffer_spec a b cap none hcap (fun _ h => by cases h)

/-- Witness of C2 at `"salt"`, `"slat"` and cap `10`. -/
theorem LevenshteinRunes_correct_witness :
    (0 : Int) ≤ 10 ∧ LevenshteinRunes "salt".toList "slat".toList 10 =
      some (if (levDistance "salt".toList "slat".toList : Int) ≤ 10 then
        (levDistance "salt".toList "slat".toList : Int) else -1) :=
  ⟨by decide, LevenshteinRunes_correct "salt".toList "slat".toList 10 (by decide)⟩

/-- C3. `DamerauLevenshteinRunes` is symmetric in its two slices, for every cap (negative
caps included) and also when the slices have equal length, where `SwapRunes` leaves them
in place. -/
theorem DamerauLevenshteinRunes_symm (a b : List α) (cap : Int) :
    DamerauLevenshteinRunes a b cap = DamerauLevenshteinRunes b a cap := by
  by_cases hcap : 0 ≤ cap
  · unfold DamerauLevenshteinRunes
    rw [DamerauLevenshteinRunesBuffer_spec a b cap none none hcap
        (fun _ h => by cases h) (fun _ h => by cases h),
      DamerauLevenshteinRunesBuffer_spec b a cap none none hcap
        (fun _ h => by cases h) (fun _ h => by cases h), dlDistance_comm]
  · have hneg : cap < 0 := by omega
    unfold DamerauLevenshteinRunes DamerauLevenshteinRunesBuffer SwapRunes
    by_cases hab : a = b
    · subst hab; rfl
    · have h1 : ¬ (CompareSlices a b = true) := fun h => hab ((CompareSlices_iff a b).1 h)
      have h2 : ¬ (CompareSlices b a = true) := fun h => hab ((CompareSlices_iff b a).1 h).symm
      simp only [h1, h2, hneg, if_true, if_false]

/-- C4. For every `a`, `b` and every cap `cap ≥ 0` the result `r` of
`DamerauLevenshteinRunes a b cap` is `-1` or lies in `[0, cap]`, and it is `0` exactly
when `a = b`. -/
theorem DamerauLevenshteinRunes_range (a b : List α) (cap : Int) (hcap : 0 ≤ cap) :
    ∃ r : Int, DamerauLevenshteinRunes a b cap = some r ∧
      (r = -1 ∨ (0 ≤ r ∧ r ≤ cap)) ∧ (r = 0 ↔ a = b) := by
  refine ⟨capped (dlDistance a b) cap,
    DamerauLevenshteinRunesBuffer_spec a b cap none none hcap
      (fun _ h => by cases h) (fun _ h => by cases h), ?_, ?_⟩
  · unfold capped
    split_ifs with h
    · right; omega
    · left; rfl
  · rw [← dlDistance_eq_zero_iff]
    unfold capped
    split_ifs with h
    · omega
    · constructor
      · intro h0; simp at h0
      · intro h0; rw [h0] at h; exact absurd (by simpa using hcap) h

/-- Witness of C4 at `"ab"`, `"ba"` and cap `0`. -/
theorem DamerauLevenshteinRunes_range_witness :
    (0 : Int) ≤ 0 ∧ ∃ r : Int, DamerauLevenshteinRunes "ab".toList "ba".toList 0 = some r ∧
      (r = -1 ∨ (0 ≤ r ∧ r ≤ 0)) ∧ (r = 0 ↔ "ab".toList = "ba".toList) :=
  ⟨by decide, DamerauLevenshteinRunes_range "ab".toList "ba".toList 0 (by decide)⟩

/-- C5, counterexample. With `a = "CA"`, `b = "AC"`, `c = "ABC"` and the cap `3` (the
longest length) the code returns `DL(a, c) = 3`, `DL(a, b) = 1` and `DL(b, c) = 1`, so the
triangle inequality fails. -/
theorem DamerauLevenshteinRunes_triangle_counterexample :
    ¬ (∀ dac dab dbc : Int,
      DamerauLevenshteinRunes "CA".toList "ABC".toList 3 = some dac →
      DamerauLevenshteinRunes "CA".toList "AC".toList 3 = some dab →
      DamerauLevenshteinRunes "AC".toList "ABC".toList 3 = some dbc →
      dac ≤ dab + dbc) := by
  intro h
  have := h 3 1 1 (by decide) (by decide) (by decide)
  omega

/-- C5, amended. With caps that cannot apply (each at least the longer length of its two
slices) the three calls return distances that satisfy the triangle inequality up to a
factor of two: `DL(a, c) ≤ 2 * (DL(a, b) + DL(b, c))`. -/
theorem DamerauLevenshteinRunes_triangle_relaxed (a b c : List α) (k1 k2 k3 : Int)
    (h1 : (max a.length c.length : Int) ≤ k1) (h2 : (max a.length b.length : Int) ≤ k2)
    (h3 : (max b.length c.length : Int) ≤ k3) :
    ∃ dac dab dbc : Int,
      DamerauLevenshteinRunes a c k1 = some dac ∧
      DamerauLevenshteinRunes a b k2 = some dab ∧
      DamerauLevenshteinRunes b c k3 = some dbc ∧
      0 ≤ dac ∧ 0 ≤ dab ∧ 0 ≤ dbc ∧ dac ≤ 2 * (dab + dbc) := by
  have u1 := dlDistance_le_max a c
  have u2 := dlDistance_le_max a b
  have u3 := dlDistance_le_max b c
  have t := dlDistance_triangle_two a b c
  refine ⟨dlDistance a c, dlDistance a b, dlDistance b c, ?_, ?_, ?_, by omega, by omega,
    by omega, by omega⟩
  · have := DamerauLevenshteinRunesBuffer_spec a c k1 none none (by omega)
      (fun _ h => by cases h) (fun _ h => by cases h)
    rw [capped_of_le _ _ (by omega)] at this
    exact this
  · have := DamerauLevenshteinRunesBuffer_spec a b k2 none none (by omega)
      (fun _ h => by cases h) (fun _ h => by cases h)
    rw [capped_of_le _ _ (by omega)] at this
    exact this
  · have := DamerauLevenshteinRunesBuffer_spec b c k3 none none (by omega)
      (fun _ h => by cases h) (fun _ h => by cases h)
    rw [capped_of_le _ _ (by omega)] at this
    exact this

/-- Witness of the amended C5 at the slices of the counterexample. -/
theorem DamerauLevenshteinRunes_triangle_relaxed_witness :
    ((max "CA".toList.length "ABC".toList.length : Nat) : Int) ≤ 3 ∧
    ((max "CA".toList.length "AC".toList.length : Nat) : Int) ≤ 3 ∧
    ((max "AC".toList.length "ABC".toList.length : Nat) : Int) ≤ 3 ∧
    ∃ dac dab dbc : Int,
      DamerauLevenshteinRunes "CA".toList "ABC".toList 3 = some dac ∧
      DamerauLevenshteinRunes "CA".toList "AC".toList 3 = some dab ∧
      DamerauLevenshteinRunes "AC".toList "ABC".toList 3 = some dbc ∧
      0 ≤ dac ∧ 0 ≤ dab ∧ 0 ≤ dbc ∧ dac ≤ 2 * (dab + dbc) :=
  ⟨by decide, by decide, by decide,
    DamerauLevenshteinRunes_triangle_relaxed "CA".toList "AC".toList "ABC".toList 3 3 3
      (by decide) (by decide) (by decide)⟩

end DistanceClaims
/-! ## Maps and the library -/

section MapFacts

variable {κ ν : Type} [DecidableEq κ]

theorem mapLoad_mapDelete (m : List (κ × ν)) (k k2 : κ) :
    mapLoad (mapDelete m k) k2 = if k2 = k then none else mapLoad m k2 := by
  induction m with
  | nil => simp [mapDelete, mapLoad]
  | cons p rest ih =>
    obtain ⟨pk, pv⟩ := p
    unfold mapDelete at ih ⊢
    by_cases h1 : pk = k
    · subst h1
      simp only [List.filter_cons, ne_eq, not_true_eq_false, decide_False, Bool.false_eq_true,
        if_false, ih]
      by_cases h2 : k2 = pk
      · simp [h2]
      · have h3 : ¬ pk = k2 := fun h => h2 h.symm
        simp [mapLoad, h2, h3]
    · simp only [List.filter_cons, ne_eq, h1, not_false_eq_true, decide_True, if_true, mapLoad]
      by_cases h2 : pk = k2
      · subst h2
        simp [h1]
      · simp only [h2, if_false]
        exact ih

theorem mapLoad_mapStore_self (m : List (κ × ν)) (k : κ) (v : ν) :
    mapLoad (mapStore m k v) k = some v := by
  simp [mapStore, mapLoad]

theorem mapLoad_mapStore_ne (m : List (κ × ν)) (k k2 : κ) (v : ν) (h : k2 ≠ k) :
    mapLoad (mapStore m k v) k2 = mapLoad m k2 := by
  have h3 : ¬ k = k2 := fun e => h e.symm
  simp [mapStore, mapLoad, h3, mapLoad_mapDelete, h]

end MapFacts

section LibraryFacts

theorem Library.Load_Store_self (l : Library) (dict word : GoString) (e : Entry) :
    (l.Store dict word e).Load dict word = (e, true) := by
  simp [Library.Load, Library.Store, mapLoad_mapStore_self]

theorem applyDictOptions_three (d : GoString) (f g : Bool) (o : DictOptions) :
    applyDictOptions [DictionaryName d, OverrideFrequency f, OverrideWordData g] o =
      .ok ⟨d, f, g⟩ := rfl

/-- After `AddEntry` the library holds, for the word of the entry, an entry with that
word. -/
theorem AddEntry_library (model : SpellModel) (de : Entry) (d : GoString) (f g : Bool) :
    ∃ (added : Bool) (m2 : SpellModel) (e : Entry),
      model.AddEntry de [DictionaryName d, OverrideFrequency f, OverrideWordData g] =
        .ok (added, m2) ∧
      m2.library.Load d de.Word = (e, true) ∧ e.Word = de.Word := by
  unfold SpellModel.AddEntry
  rw [applyDictOptions_three]
  dsimp only
  rcases hload : model.library.Load d de.Word with ⟨entry, ex⟩
  cases ex with
  | true =>
    refine ⟨false, _, _, rfl, Library.Load_Store_self _ _ _ _, ?_⟩
    cases f <;> cases g <;> rfl
  | false =>
    refine ⟨true, _, de, rfl, ?_, rfl⟩
    dsimp only
    split_ifs <;> exact Library.Load_Store_self _ _ _ _

end LibraryFacts

/-! ## The claims on the hash and on the exact match -/

section HashClaims

theorem hashLoop_eq_foldl (bytes : List Nat) (h : Nat) :
    hashLoop bytes h = bytes.foldl (fun h b => (h ^^^ b) * 16777619 % 2 ^ 32) h := by
  induction bytes generalizing h with
  | nil => rfl
  | cons c cs ih => simp only [hashLoop, List.foldl_cons]; exact ih _

/-- C6. `GetStringHash` is 32-bit FNV-1a over the UTF-8 bytes of the string: it equals the
left fold of `h ↦ ((h xor b) * 16777619) mod 2^32` from `2166136261`; in particular the
hash of the empty string is `2166136261` and the hash of `"a"` is `3826002220`. -/
theorem GetStringHash_fnv1a :
    (∀ s : GoString, GetStringHash s = fnv1a32 (stringBytes s)) ∧
    GetStringHash "".toList = 2166136261 ∧ GetStringHash "a".toList = 3826002220 :=
  ⟨fun s => hashLoop_eq_foldl (stringBytes s) 2166136261, by decide, by decide⟩

end HashClaims

section ExactMatchClaims

/-- C7. For every model state, dictionary name and entry: right after `AddEntry` of the
entry, `Lookup` of its word in the same dictionary with `EditDistance(0)`, under any
suggestion level, returns exactly one suggestion, at distance `0` and with the word of the
entry. -/
theorem Lookup_after_AddEntry (model : SpellModel) (de : Entry) (d : GoString) (f g : Bool)
    (level : suggestionLevel) :
    ∃ (added : Bool) (m2 : SpellModel) (s : Suggestion),
      model.AddEntry de [DictionaryName d, OverrideFrequency f, OverrideWordData g] =
        .ok (added, m2) ∧
      m2.Lookup de.Word [DictionaryOpts [DictionaryName d], EditDistance 0,
        SuggestionLevel level] = .ok [s] ∧
      s.Distance = 0 ∧ s.Entry.Word = de.Word := by
  obtain ⟨added, m2, e, hadd, hload, hword⟩ := AddEntry_library model de d f g
  refine ⟨added, m2, ⟨0, e⟩, hadd, ?_, rfl, hword⟩
  have hopts : applyLookupOptions [DictionaryOpts [DictionaryName d], EditDistance 0,
      SuggestionLevel level] m2.defaultLookupParams =
      .ok { m2.defaultLookupParams with
        dictOpts := ⟨d, false, false⟩, editDistance := 0, suggestionLevel := level } := rfl
  unfold SpellModel.Lookup
  rw [hopts]
  unfold SpellModel.lookupBody
  simp only [hload, SpellModel.newDictSuggestion, List.nil_append, if_true, true_and,
    Nat.cast_zero]
  split_ifs <;> rfl

end ExactMatchClaims
/-! ## `Substring` and `RemoveChar` -/

section SubstringFacts

theorem substringLoop_from_zero (s : GoString) (e : Int) :
    ∀ (rest : List Char) (i : Int), 0 < i →
      substringLoop s 0 e rest i 0 =
        if i ≤ e ∧ e < i + rest.length then s.take e.toNat else s := by
  intro rest
  induction rest with
  | nil =>
    intro i hi
    have h : ¬ (i ≤ e ∧ e < i + (([] : List Char).length : Int)) := by
      simp only [List.length_nil, Nat.cast_zero]; omega
    rw [if_neg h]
    simp [substringLoop]
  | cons c rest ih =>
    intro i hi
    have hi0 : ¬ i = 0 := by omega
    simp only [substringLoop, hi0, if_false]
    by_cases hie : i = e
    · subst hie
      have h : i ≤ i ∧ i < i + ((c :: rest).length : Int) := by
        simp only [List.length_cons, Nat.cast_add, Nat.cast_one]; omega
      rw [if_pos rfl, if_pos h]
      simp
    · rw [if_neg hie, ih (i + 1) (by omega)]
      have hiff : (i + 1 ≤ e ∧ e < i + 1 + (rest.length : Int)) ↔
          (i ≤ e ∧ e < i + ((c :: rest).length : Int)) := by
        simp only [List.length_cons, Nat.cast_add, Nat.cast_one]; omega
      simp only [hiff]

/-- `Substring s 0 e` is the first `e` code points of `s`. -/
theorem Substring_zero (s : GoString) (e : Int) (he : 0 ≤ e) :
    Substring s 0 e = s.take e.toNat := by
  unfold Substring
  cases s with
  | nil => simp
  | cons c rest =>
    have h : ¬ ((0 : Int) ≥ ((c :: rest).length : Int)) := by
      simp only [List.length_cons, Nat.cast_add, Nat.cast_one]; omega
    rw [if_neg h]
    simp only [substringLoop, if_true]
    by_cases h0 : (0 : Int) = e
    · subst h0
      simp
    · rw [if_neg h0, substringLoop_from_zero _ _ _ _ (by omega)]
      split_ifs with h2
      · rfl
      · symm
        apply List.take_of_length_le
        simp only [List.length_cons]
        omega

theorem substringLoop_to_end (s : GoString) (start : Int) (hs : start < s.length) :
    ∀ (rest : List Char) (i sIdx : Int), i + rest.length = s.length →
      (start < i → sIdx = start) →
      substringLoop s start s.length rest i sIdx = s.drop start.toNat := by
  intro rest
  induction rest with
  | nil =>
    intro i sIdx hi hsi
    simp only [List.length_nil, Nat.cast_zero, add_zero] at hi
    simp only [substringLoop]
    rw [hsi (by omega)]
  | cons c rest ih =>
    intro i sIdx hi hsi
    simp only [List.length_cons, Nat.cast_add, Nat.cast_one] at hi
    have hne : ¬ i = (s.length : Int) := by omega
    simp only [substringLoop, hne, if_false]
    apply ih
    · omega
    · intro h
      by_cases h2 : i = start
      · rw [if_pos h2]; exact h2
      · rw [if_neg h2]; exact hsi (by omega)

/-- `Substring s start len(s)` is `s` from `start` on. -/
theorem Substring_to_end (s : GoString) (start : Int) (h0 : 0 < start) :
    Substring s start s.length = s.drop start.toNat := by
  unfold Substring
  split_ifs with h
  · symm
    apply List.drop_of_length_le
    omega
  · apply substringLoop_to_end s start (by omega)
    · simp
    · intro h2; omega

/-- `RemoveChar` drops the code point at the index. -/
theorem RemoveChar_eq (s : GoString) (k : Nat) :
    RemoveChar s (k : Int) = s.take k ++ s.drop (k + 1) := by
  unfold RemoveChar
  rw [Substring_zero s k (by omega), Substring_to_end s (k + 1) (by omega)]
  have h1 : ((k : Int)).toNat = k := by omega
  have h2 : ((k : Int) + 1).toNat = k + 1 := by omega
  rw [h1, h2]

theorem RemoveChar_length (s : GoString) (k : Nat) (hk : k < s.length) :
    (RemoveChar s (k : Int)).length + 1 = s.length := by
  rw [RemoveChar_eq]
  simp only [List.length_append, List.length_take, List.length_drop]
  omega

end SubstringFacts

/-! ## The loops of `Lookup` -/

section LookupLoops

theorem deleteTreeSize_pos (n : Nat) : 1 ≤ deleteTreeSize n := by
  cases n with
  | zero => simp [deleteTreeSize]
  | succ n => simp only [deleteTreeSize]; omega

theorem deleteTreeSize_mono {m n : Nat} (h : m ≤ n) : deleteTreeSize m ≤ deleteTreeSize n := by
  induction n with
  | zero =>
    have : m = 0 := by omega
    subst this
    exact le_refl _
  | succ n ih =>
    by_cases hm : m = n + 1
    · subst hm; exact le_refl _
    · have h1 := ih (by omega)
      have h2 := deleteTreeSize_pos n
      have h3 : deleteTreeSize n ≤ (n + 1) * deleteTreeSize n := Nat.le_mul_of_pos_left _ (by omega)
      simp only [deleteTreeSize]
      omega

theorem candWeight_nil : candWeight [] = 0 := rfl

theorem candWeight_cons (c : GoString) (cs : List GoString) :
    candWeight (c :: cs) = deleteTreeSize c.length + candWeight cs := by
  simp [candWeight]

theorem candWeight_append (cs ds : List GoString) :
    candWeight (cs ++ ds) = candWeight cs + candWeight ds := by
  simp [candWeight]

theorem candWeight_eq_zero (cs : List GoString) (h : candWeight cs = 0) : cs = [] := by
  cases cs with
  | nil => rfl
  | cons c cs =>
    rw [candWeight_cons] at h
    have := deleteTreeSize_pos c.length
    omega

theorem candWeight_deletes (n : Nat) (extra : List GoString)
    (h : ∀ c ∈ extra, c.length = n) : candWeight extra = extra.length * deleteTreeSize n := by
  induction extra with
  | nil => simp [candWeight]
  | cons c cs ih =>
    rw [candWeight_cons, ih (fun c hc => h c (List.mem_cons_of_mem _ hc)),
      h c (List.mem_cons_self _ _), List.length_cons]
    ring

/-- The loop that appends the deletes of a candidate leaves the results alone and appends
at most one string per index, each one code point shorter than the candidate. -/
theorem lookupExpand_spec (candidate : GoString) :
    ∀ (idxs : List Nat) (st : LookupState), (∀ k ∈ idxs, k < candidate.length) →
      ∃ extra : List GoString,
        (lookupExpand candidate idxs st).candidates = st.candidates ++ extra ∧
        extra.length ≤ idxs.length ∧ (∀ c ∈ extra, c.length + 1 = candidate.length) ∧
        (lookupExpand candidate idxs st).results = st.results ∧
        (lookupExpand candidate idxs st).editDistance = st.editDistance := by
  intro idxs
  induction idxs with
  | nil => intro st _; exact ⟨[], by simp [lookupExpand], by simp, by simp, rfl, rfl⟩
  | cons k rest ih =>
    intro st hk
    have hk0 := hk k (List.mem_cons_self _ _)
    have hrest : ∀ j ∈ rest, j < candidate.length :=
      fun j hj => hk j (List.mem_cons_of_mem _ hj)
    simp only [lookupExpand]
    split_ifs with hnew
    · obtain ⟨extra, h1, h2, h3, h4, h5⟩ := ih
        { st with
          consideredDeletes := (AddKey st.consideredDeletes (RemoveChar candidate (k : Int))).1
          candidates := st.candidates ++ [RemoveChar candidate (k : Int)] } hrest
      refine ⟨RemoveChar candidate (k : Int) :: extra, ?_, ?_, ?_, h4, h5⟩
      · rw [h1]; simp
      · simp only [List.length_cons]; omega
      · intro c hc
        rcases List.mem_cons.1 hc with hc | hc
        · subst hc; exact RemoveChar_length candidate k hk0
        · exact h3 c hc
    · obtain ⟨extra, h1, h2, h3, h4, h5⟩ := ih
        { st with
          consideredDeletes := (AddKey st.consideredDeletes (RemoveChar candidate (k : Int))).1 }
        hrest
      exact ⟨extra, h1, by simp only [List.length_cons]; omega, h3, h4, h5⟩

theorem Min_pair (a b : Int) : Min [a, b] = some (min a b) := by
  simp only [Min, findMin, idx]
  simp only [le_refl, if_true, Int.toNat_zero, List.getElem?_cons_zero, Option.map_some',
    List.foldl_cons, List.foldl_nil, gt_iff_lt, lt_self_iff_false, if_false]
  congr 1
  split_ifs with h
  · exact (min_eq_right (le_of_lt h)).symm
  · exact (min_eq_left (not_lt.1 h)).symm

end LookupLoops

section LookupSteps

variable (model : SpellModel) (lp : lookupParams) (R : SuggestionList → Int → Prop)

theorem LookupKeeps.self {R : SuggestionList → Int → Prop} {st : LookupState}
    (h : R st.results st.editDistance) : LookupKeeps R st (.ok st) :=
  ⟨st, rfl, h, rfl, rfl⟩

theorem LookupKeeps.considered {R : SuggestionList → Int → Prop} {st : LookupState}
    (h : R st.results st.editDistance) (cs : List GoString) :
    LookupKeeps R st (.ok { st with consideredSuggestions := cs }) :=
  ⟨_, rfl, h, rfl, rfl⟩

/-- The statements that add a suggestion end without a fault and touch only the results
and the current edit distance. -/
theorem lookupAdd_total (suggestion : DeleteEntry) (dist : Int) (st : LookupState) :
    ∃ st2, lookupAdd model lp suggestion dist st = .ok st2 ∧
      st2.candidates = st.candidates ∧ st2.consideredDeletes = st.consideredDeletes := by
  unfold lookupAdd
  by_cases h1 : dist ≤ st.editDistance
  · rw [if_pos h1]
    by_cases h2 : st.results.length > 0 ∧ lp.suggestionLevel = suggestionLevel.BEST
    · rw [if_pos h2]
      rcases hres : st.results with _ | ⟨r0, rest⟩
      · rw [hres] at h2; simp at h2
      · dsimp only
        split_ifs
        · exact ⟨_, rfl, rfl, rfl⟩
        · exact ⟨_, rfl, rfl, rfl⟩
    · rw [if_neg h2]
      exact ⟨_, rfl, rfl, rfl⟩
  · rw [if_neg h1]
    exact ⟨_, rfl, rfl, rfl⟩

theorem LookupKeeps.add {R : SuggestionList → Int → Prop}
    (hadd : ∀ sug dist st st2, lookupAdd model lp sug dist st = .ok st2 →
      R st.results st.editDistance → R st2.results st2.editDistance)
    {st : LookupState} (h : R st.results st.editDistance) (cs : List GoString)
    (suggestion : DeleteEntry) (dist : Int) :
    LookupKeeps R st
      (lookupAdd model lp suggestion dist { st with consideredSuggestions := cs }) := by
  obtain ⟨st2, h1, h2, h3⟩ :=
    lookupAdd_total model lp suggestion dist { st with consideredSuggestions := cs }
  exact ⟨st2, h1, hadd _ _ _ _ h1 h, h2, h3⟩

/-- One suggestion of a bucket is handled without a fault, and `R` is kept when adding a
suggestion keeps it. -/
theorem lookupSuggestion_keeps (input : GoString)
    (inputLen inputPrefixLen prefixLength : Int) (candidate : GoString) (candidateLen : Int)
    (hdf : ∀ a b c, ∃ r, lp.distanceFunction a b c = some r)
    (hadd : ∀ sug dist st st2, lookupAdd model lp sug dist st = .ok st2 →
      R st.results st.editDistance → R st2.results st2.editDistance)
    (st : LookupState) (suggestion : DeleteEntry) (h : R st.results st.editDistance) :
    LookupKeeps R st (lookupSuggestion model lp input inputLen inputPrefixLen prefixLength
      candidate candidateLen st suggestion) := by
  unfold lookupSuggestion
  simp only [Min_pair]
  obtain ⟨d, hd⟩ := hdf input suggestion.Runes st.editDistance
  simp only [hd]
  split_ifs
  all_goals first
    | exact LookupKeeps.self h
    | exact LookupKeeps.considered h _
    | exact LookupKeeps.add model lp hadd h _ _ _

/-- A bucket of suggestions is handled without a fault. -/
theorem lookupSuggestions_keeps (input : GoString)
    (inputLen inputPrefixLen prefixLength : Int) (candidate : GoString) (candidateLen : Int)
    (hdf : ∀ a b c, ∃ r, lp.distanceFunction a b c = some r)
    (hadd : ∀ sug dist st st2, lookupAdd model lp sug dist st = .ok st2 →
      R st.results st.editDistance → R st2.results st2.editDistance) :
    ∀ (bucket : List DeleteEntry) (st : LookupState), R st.results st.editDistance →
      LookupKeeps R st (lookupSuggestions model lp input inputLen inputPrefixLen prefixLength
        candidate candidateLen bucket st) := by
  intro bucket
  induction bucket with
  | nil => intro st h; exact LookupKeeps.self h
  | cons suggestion rest ih =>
    intro st h
    obtain ⟨st2, h1, h2, h3, h4⟩ := lookupSuggestion_keeps model lp R input inputLen
      inputPrefixLen prefixLength candidate candidateLen hdf hadd st suggestion h
    simp only [lookupSuggestions, h1]
    obtain ⟨st3, k1, k2, k3, k4⟩ := ih st2 h2
    exact ⟨st3, k1, k2, k3.trans h3, k4.trans h4⟩

/-- The candidate loop ends without a fault when the fuel covers the weight of the pending
candidates. -/
theorem lookupLoop_total (input : GoString) (inputLen inputPrefixLen prefixLength : Int)
    (hdf : ∀ a b c, ∃ r, lp.distanceFunction a b c = some r)
    (hadd : ∀ sug dist st st2, lookupAdd model lp sug dist st = .ok st2 →
      R st.results st.editDistance → R st2.results st2.editDistance) :
    ∀ (fuel i : Nat) (st : LookupState), R st.results st.editDistance →
      candWeight (st.candidates.drop i) ≤ fuel →
      ∃ st2, lookupLoop model lp input inputLen inputPrefixLen prefixLength fuel i st =
        .ok st2 ∧ R st2.results st2.editDistance := by
  intro fuel
  induction fuel with
  | zero =>
    intro i st h hw
    have hnil := candWeight_eq_zero _ (Nat.le_zero.1 hw)
    have hlen : ¬ i < st.candidates.length := by
      have := List.drop_eq_nil_iff.1 hnil
      omega
    exact ⟨st, by simp [lookupLoop, hlen], h⟩
  | succ fuel ih =>
    intro i st h hw
    unfold lookupLoop
    rcases hc : st.candidates[i]? with _ | candidate
    · exact ⟨st, rfl, h⟩
    · have hi : i < st.candidates.length := (List.getElem?_eq_some_iff.1 hc).1
      have hdrop : st.candidates.drop i = candidate :: st.candidates.drop (i + 1) := by
        rw [List.drop_eq_getElem_cons hi]
        congr 1
        exact (List.getElem?_eq_some_iff.1 hc).2
      rw [hdrop, candWeight_cons] at hw
      have hpos := deleteTreeSize_pos candidate.length
      dsimp only
      obtain ⟨st2, e2, r2, c2, -⟩ : LookupKeeps R st
          (if (model.dictionaryDeletes.Load lp.dictOpts.Name (GetStringHash candidate)).2 = true
            then lookupSuggestions model lp input inputLen inputPrefixLen prefixLength candidate
              candidate.length
              (model.dictionaryDeletes.Load lp.dictOpts.Name (GetStringHash candidate)).1 st
            else .ok st) := by
        split_ifs
        · exact lookupSuggestions_keeps model lp R input inputLen inputPrefixLen prefixLength
            candidate candidate.length hdf hadd _ st h
        · exact LookupKeeps.self h
      by_cases g1 : inputPrefixLen - (candidate.length : Int) > st.editDistance
      · rw [if_pos g1]
        split_ifs
        · exact ih (i + 1) st h (by omega)
        · exact ⟨st, rfl, h⟩
      · rw [if_neg g1, e2]
        dsimp only
        have hw2 : candWeight (st2.candidates.drop (i + 1)) ≤ fuel := by rw [c2]; omega
        split_ifs with g3 g4
        · exact ih (i + 1) st2 r2 hw2
        · obtain ⟨extra, x1, x2, x3, x4, x5⟩ := lookupExpand_spec candidate
            (List.range candidate.length) st2 (fun k hk => List.mem_range.1 hk)
          apply ih
          · rw [x4, x5]; exact r2
          · rw [x1, List.drop_append_of_le_length (by rw [c2]; omega), candWeight_append, c2]
            rw [List.length_range] at x2
            rcases Nat.eq_zero_or_pos candidate.length with hz | hp
            · have : extra = [] := List.length_eq_zero.1 (by omega)
              subst this
              rw [candWeight_nil]
              omega
            · obtain ⟨n, hn⟩ : ∃ n, candidate.length = n + 1 := ⟨candidate.length - 1, by omega⟩
              have hx : candWeight extra = extra.length * deleteTreeSize n :=
                candWeight_deletes n extra (fun c hc => by have := x3 c hc; omega)
              have hle : extra.length * deleteTreeSize n ≤ (n + 1) * deleteTreeSize n :=
                Nat.mul_le_mul_right _ (by omega)
              rw [hn] at hw
              simp only [deleteTreeSize] at hw
              omega
        · exact ih (i + 1) st2 r2 hw2

end LookupSteps

section LookupLevels

variable (model : SpellModel) (lp : lookupParams)

/-- Under `BEST` adding a suggestion keeps the results at one suggestion at most. -/
theorem lookupAdd_BEST (hl : lp.suggestionLevel = suggestionLevel.BEST)
    (sug : DeleteEntry) (dist : Int) (st st2 : LookupState)
    (h : lookupAdd model lp sug dist st = .ok st2) (hR : st.results.length ≤ 1) :
    st2.results.length ≤ 1 := by
  unfold lookupAdd at h
  by_cases h1 : dist ≤ st.editDistance
  · rw [if_pos h1] at h
    by_cases h2 : st.results.length > 0 ∧ lp.suggestionLevel = suggestionLevel.BEST
    · rw [if_pos h2] at h
      rcases hres : st.results with _ | ⟨r0, rest⟩
      · rw [hres] at h2; simp at h2
      · rw [hres] at h hR
        dsimp only at h
        split_ifs at h
        · cases h
          simpa using hR
        · cases h
          rw [hres]
          exact hR
    · rw [if_neg h2] at h
      have hnil : st.results = [] := by
        rcases hres : st.results with _ | ⟨r0, rest⟩
        · rfl
        · exact absurd ⟨by rw [hres]; simp, hl⟩ h2
      cases h
      simp [hnil]
  · rw [if_neg h1] at h
    cases h
    exact hR

/-- Under `CLOSEST` every suggestion of the results is at the current edit distance. -/
theorem lookupAdd_CLOSEST (hl : lp.suggestionLevel = suggestionLevel.CLOSEST)
    (sug : DeleteEntry) (dist : Int) (st st2 : LookupState)
    (h : lookupAdd model lp sug dist st = .ok st2)
    (hR : ∀ s ∈ st.results, s.Distance = st.editDistance) :
    ∀ s ∈ st2.results, s.Distance = st2.editDistance := by
  unfold lookupAdd at h
  by_cases h1 : dist ≤ st.editDistance
  · rw [if_pos h1] at h
    have h2 : ¬ (st.results.length > 0 ∧ lp.suggestionLevel = suggestionLevel.BEST) := by
      rw [hl]; simp
    have h3 : lp.suggestionLevel ≠ suggestionLevel.ALL := by rw [hl]; simp
    rw [if_neg h2] at h
    simp only [if_pos h3] at h
    cases h
    intro s hs
    dsimp only at hs ⊢
    rcases List.mem_append.1 hs with hs | hs
    · split_ifs at hs with h4
      · simp at hs
      · have h5 := hR s hs
        have h6 : st.results.length > 0 := List.length_pos_of_mem hs
        have h7 : ¬ dist < st.editDistance := fun h8 => h4 ⟨h6, hl, h8⟩
        omega
    · rw [List.mem_singleton.1 hs]
      rfl
  · rw [if_neg h1] at h
    cases h
    exact hR

/-- Under `ALL` the edit distance stays the cap and every suggestion of the results is
within it. -/
theorem lookupAdd_ALL (hl : lp.suggestionLevel = suggestionLevel.ALL) (cap : Int)
    (sug : DeleteEntry) (dist : Int) (st st2 : LookupState)
    (h : lookupAdd model lp sug dist st = .ok st2)
    (hR : st.editDistance = cap ∧ ∀ s ∈ st.results, s.Distance ≤ cap) :
    st2.editDistance = cap ∧ ∀ s ∈ st2.results, s.Distance ≤ cap := by
  unfold lookupAdd at h
  by_cases h1 : dist ≤ st.editDistance
  · rw [if_pos h1] at h
    have h2 : ¬ (st.results.length > 0 ∧ lp.suggestionLevel = suggestionLevel.BEST) := by
      rw [hl]; simp
    have h3 : ¬ (st.results.length > 0 ∧ lp.suggestionLevel = suggestionLevel.CLOSEST ∧
        dist < st.editDistance) := by
      rw [hl]; simp
    have h4 : ¬ lp.suggestionLevel ≠ suggestionLevel.ALL := by rw [hl]; simp
    rw [if_neg h2] at h
    simp only [if_neg h3, if_neg h4] at h
    cases h
    refine ⟨hR.1, ?_⟩
    intro s hs
    dsimp only at hs
    rcases List.mem_append.1 hs with hs | hs
    · exact hR.2 s hs
    · rw [List.mem_singleton.1 hs]
      have : (model.newDictSuggestion sug.Str dist lp.dictOpts).Distance = dist := rfl
      rw [this, ← hR.1]
      exact h1
  · rw [if_neg h1] at h
    cases h
    exact hR

/-- `DamerauLevenshteinRunes` returns a value for every cap, negative ones included. -/
theorem DamerauLevenshteinRunes_total (a b : List Char) (cap : Int) :
    ∃ r, DamerauLevenshteinRunes a b cap = some r := by
  by_cases hcap : 0 ≤ cap
  · exact ⟨_, DamerauLevenshteinRunesBuffer_spec a b cap none none hcap
      (fun _ h => by cases h) (fun _ h => by cases h)⟩
  · unfold DamerauLevenshteinRunes DamerauLevenshteinRunesBuffer
    split_ifs
    · exact ⟨_, rfl⟩
    · have : SwapRunes a b cap = (a, b, (a.length : Int), (b.length : Int), some (-1)) := by
        unfold SwapRunes
        rw [if_pos (by omega)]
      rw [this]
      exact ⟨_, rfl⟩

/-- The candidate loop of `Lookup`, started as `Lookup` starts it, and the sort that
follows it end without a fault. -/
theorem lookupRun_keeps (input : GoString) (R : SuggestionList → Int → Prop)
    (Q : SuggestionList → Prop)
    (hdf : ∀ a b c, ∃ r, lp.distanceFunction a b c = some r)
    (hadd : ∀ sug dist st st2, lookupAdd model lp sug dist st = .ok st2 →
      R st.results st.editDistance → R st2.results st2.editDistance)
    (hRQ : ∀ results ed, R results ed → Q (lp.sortFunc results))
    (results0 : SuggestionList) (p : Int) (hp : 0 ≤ p) (hR : R results0 lp.editDistance) :
    ∃ r, (match lookupLoop model lp input input.length p lp.prefixLength
        (deleteTreeSize p.toNat + 1) 0
        { results := results0
          editDistance := lp.editDistance
          consideredDeletes := []
          consideredSuggestions := [input]
          candidates := [Substring input 0 p] } with
      | Except.error e => (Except.error e : Except Fault SuggestionList)
      | Except.ok st => Except.ok (lp.sortFunc st.results)) = Except.ok r ∧ Q r := by
  obtain ⟨st2, h1, h2⟩ := lookupLoop_total model lp R input input.length p lp.prefixLength
    hdf hadd (deleteTreeSize p.toNat + 1) 0
    { results := results0
      editDistance := lp.editDistance
      consideredDeletes := []
      consideredSuggestions := [input]
      candidates := [Substring input 0 p] } hR (by
      simp only [List.drop_zero, candWeight_cons, candWeight_nil, add_zero]
      have hlen : (Substring input 0 p).length ≤ p.toNat := by
        rw [Substring_zero input p hp, List.length_take]
        exact min_le_left _ _
      have := deleteTreeSize_mono hlen
      omega)
  rw [h1]
  exact ⟨_, rfl, hRQ _ _ h2⟩

/-- The body of `Lookup` returns a list, and the list satisfies `Q` when the results
satisfy `R` along the run and `R` gives `Q` after the sort. -/
theorem lookupBody_keeps (input : GoString) (R : SuggestionList → Int → Prop)
    (Q : SuggestionList → Prop)
    (hdf : ∀ a b c, ∃ r, lp.distanceFunction a b c = some r)
    (hadd : ∀ sug dist st st2, lookupAdd model lp sug dist st = .ok st2 →
      R st.results st.editDistance → R st2.results st2.editDistance)
    (hQ0 : Q [] ∧ Q [model.newDictSuggestion input 0 lp.dictOpts])
    (hR0 : R [] lp.editDistance ∧ (lp.suggestionLevel = suggestionLevel.ALL →
      R [model.newDictSuggestion input 0 lp.dictOpts] lp.editDistance))
    (hRQ : ∀ results ed, R results ed → Q (lp.sortFunc results)) :
    ∃ r, model.lookupBody lp input = .ok r ∧ Q r := by
  have hp : (0 : Int) ≤ min (input.length : Int) (lp.prefixLength : Int) := by omega
  unfold SpellModel.lookupBody
  simp only [Min_pair, List.nil_append]
  by_cases hex : (model.library.Load lp.dictOpts.Name input).2 = true
  · simp only [hex, if_true, true_and]
    by_cases hl : lp.suggestionLevel = suggestionLevel.ALL
    · have hl2 : ¬ lp.suggestionLevel ≠ suggestionLevel.ALL := fun h => h hl
      rw [if_neg hl2]
      split_ifs with hz
      · exact ⟨_, rfl, hQ0.2⟩
      · exact lookupRun_keeps model lp input R Q hdf hadd hRQ _ _ hp (hR0.2 hl)
    · rw [if_pos hl]
      exact ⟨_, rfl, hQ0.2⟩
  · simp only [hex, if_false, false_and, Bool.false_eq_true]
    split_ifs with hz
    · exact ⟨_, rfl, hQ0.1⟩
    · exact lookupRun_keeps model lp input R Q hdf hadd hRQ _ _ hp hR0.1

/-- The default sort returns a permutation of the results. -/
theorem sortSlice_perm (less : Suggestion → Suggestion → Bool) (results : SuggestionList) :
    (sortSlice less results).Perm results :=
  List.perm_insertionSort _ _

end LookupLevels

section LookupFailures

set_option maxRecDepth 100000 in
/-- C8. `Lookup` under `ALL` is not complete: in the model that `NewSpellModel` and one
`AddEntry` of the word `"a"` build (maximum edit distance `2`, prefix length `7`), the word
`"a"` is stored and is at Damerau-Levenshtein distance `1` from the query `"b"`, yet
`Lookup("b", SuggestionLevel(ALL))` returns the empty list. -/
theorem Lookup_ALL_misses_word :
    ∃ m : SpellModel,
      NewSpellModel.AddEntry ⟨1, "a".toList, none⟩ [] = .ok (true, m) ∧
      (m.library.Load defaultDict "a".toList).2 = true ∧
      DamerauLevenshteinRunes "b".toList "a".toList 2 = some 1 ∧
      m.Lookup "b".toList [SuggestionLevel suggestionLevel.ALL] = .ok [] :=
  ⟨_, rfl, by decide, by decide, by rfl⟩

set_option maxRecDepth 100000 in
/-- C9. A suggestion of `Lookup` can report a distance that is not the Damerau-Levenshtein
distance.  The word `"fayphcw"` has the hash of the empty string, so in the model that
`NewSpellModel` and one `AddEntry` of it build, `Lookup("f", EditDistance(7),
SuggestionLevel(ALL))` meets it in the bucket of the empty candidate and returns it at
distance `max(1, 7) = 7`, while `DamerauLevenshteinRunes` gives `6`.  The same happens with
the default options, where the cap is the maximum edit distance of the model: `"pe6@O"`
has the hash of the empty string too, and with `MaxEditDistance = 6` and
`PrefixLength = 5` the word `"pe6@Oz"` (indexed by its prefix `"pe6@O"`) is returned for
the query `"bbbbbz"` at distance `6`, while `DamerauLevenshteinRunes` gives `5`. -/
theorem Lookup_distance_of_collision :
    GetStringHash "fayphcw".toList = GetStringHash "".toList ∧
    (∃ (m : SpellModel) (e : Entry),
      NewSpellModel.AddEntry ⟨1, "fayphcw".toList, none⟩ [] = .ok (true, m) ∧
      m.Lookup "f".toList [EditDistance 7, SuggestionLevel suggestionLevel.ALL] =
        .ok [⟨7, e⟩] ∧
      e.Word = "fayphcw".toList ∧
      DamerauLevenshteinRunes "f".toList "fayphcw".toList 7 = some 6) ∧
    GetStringHash "pe6@O".toList = GetStringHash "".toList ∧
    (∃ (m : SpellModel) (e : Entry),
      SpellModel.AddEntry { NewSpellModel with MaxEditDistance := 6, PrefixLength := 5 }
        ⟨1, "pe6@Oz".toList, none⟩ [] = .ok (true, m) ∧
      m.Lookup "bbbbbz".toList [] = .ok [⟨6, e⟩] ∧
      e.Word = "pe6@Oz".toList ∧
      DamerauLevenshteinRunes "bbbbbz".toList "pe6@Oz".toList 6 = some 5) :=
  ⟨by decide, ⟨_, _, rfl, by rfl, rfl, by decide⟩, by decide,
    ⟨_, _, rfl, by rfl, rfl, by decide⟩⟩

end LookupFailures

section LookupLevelClaims

/-- C10. For every model state, dictionary name, query and edit-distance cap, `Lookup`
with `EditDistance(cap)` returns a list (no error, no panic, and the candidate loop ends),
and: under `BEST` the list has at most one suggestion; under `CLOSEST` all its suggestions
have the same `Distance`; under `ALL` every suggestion has `Distance ≤ cap`. -/
theorem Lookup_levels (model : SpellModel) (input d : GoString) (cap : Nat) :
    (∃ r, model.Lookup input [DictionaryOpts [DictionaryName d], EditDistance cap,
        SuggestionLevel suggestionLevel.BEST] = .ok r ∧ r.length ≤ 1) ∧
    (∃ r, model.Lookup input [DictionaryOpts [DictionaryName d], EditDistance cap,
        SuggestionLevel suggestionLevel.CLOSEST] = .ok r ∧
      ∀ s1 ∈ r, ∀ s2 ∈ r, s1.Distance = s2.Distance) ∧
    (∃ r, model.Lookup input [DictionaryOpts [DictionaryName d], EditDistance cap,
        SuggestionLevel suggestionLevel.ALL] = .ok r ∧ ∀ s ∈ r, s.Distance ≤ (cap : Int)) := by
  have hopts : ∀ level, model.Lookup input [DictionaryOpts [DictionaryName d],
      EditDistance cap, SuggestionLevel level] =
      model.lookupBody { model.defaultLookupParams with
        dictOpts := ⟨d, false, false⟩, editDistance := cap, suggestionLevel := level }
        input := fun _ => rfl
  have hdf : ∀ level, ∀ a b c, ∃ r, ({ model.defaultLookupParams with
      dictOpts := ⟨d, false, false⟩, editDistance := cap, suggestionLevel := level } :
      lookupParams).distanceFunction a b c = some r :=
    fun _ a b c => DamerauLevenshteinRunes_total a b c
  refine ⟨?_, ?_, ?_⟩
  · rw [hopts]
    apply lookupBody_keeps model _ input (fun results _ => results.length ≤ 1)
      (fun r => r.length ≤ 1) (hdf _)
    · exact fun sug dist st st2 h hR => lookupAdd_BEST model _ rfl sug dist st st2 h hR
    · exact ⟨by simp, by simp⟩
    · exact ⟨by simp, fun _ => by simp⟩
    · intro results _ h
      change (sortSlice defaultLess results).length ≤ 1
      rw [(sortSlice_perm defaultLess results).length_eq]
      exact h
  · rw [hopts]
    apply lookupBody_keeps model _ input (fun results ed => ∀ s ∈ results, s.Distance = ed)
      (fun r => ∀ s1 ∈ r, ∀ s2 ∈ r, s1.Distance = s2.Distance) (hdf _)
    · exact fun sug dist st st2 h hR => lookupAdd_CLOSEST model _ rfl sug dist st st2 h hR
    · refine ⟨by simp, ?_⟩
      intro s1 h1 s2 h2
      rw [List.mem_singleton.1 h1, List.mem_singleton.1 h2]
    · exact ⟨by simp, fun h => by cases h⟩
    · intro results ed h s1 h1 s2 h2
      change s1 ∈ sortSlice defaultLess results at h1
      change s2 ∈ sortSlice defaultLess results at h2
      rw [h s1 ((sortSlice_perm defaultLess results).mem_iff.1 h1),
        h s2 ((sortSlice_perm defaultLess results).mem_iff.1 h2)]
  · rw [hopts]
    apply lookupBody_keeps model _ input
      (fun results ed => ed = (cap : Int) ∧ ∀ s ∈ results, s.Distance ≤ (cap : Int))
      (fun r => ∀ s ∈ r, s.Distance ≤ (cap : Int)) (hdf _)
    · exact fun sug dist st st2 h hR => lookupAdd_ALL model _ rfl cap sug dist st st2 h hR
    · refine ⟨by simp, ?_⟩
      intro s hs
      rw [List.mem_singleton.1 hs]
      exact Int.natCast_nonneg cap
    · refine ⟨⟨rfl, by simp⟩, fun _ => ⟨rfl, ?_⟩⟩
      intro s hs
      rw [List.mem_singleton.1 hs]
      exact Int.natCast_nonneg cap
    · intro results ed h s hs
      change s ∈ sortSlice defaultLess results at hs
      exact h.2 s ((sortSlice_perm defaultLess results).mem_iff.1 hs)

end LookupLevelClaims

/-! ## The library, the deletes index and `AddEntry` -/

section IndexFacts

theorem Library.Load_Store (l : Library) (d w d2 w2 : GoString) (e : Entry) :
    (l.Store d w e).Load d2 w2 = if d2 = d ∧ w2 = w then (e, true) else l.Load d2 w2 := by
  unfold Library.Load Library.Store
  by_cases hd : d2 = d
  · subst hd
    simp only [mapLoad_mapStore_self, Option.some_bind, true_and]
    by_cases hw : w2 = w
    · subst hw
      simp [mapLoad_mapStore_self]
    · rw [mapLoad_mapStore_ne _ _ _ _ hw, if_neg hw]
      cases mapLoad l.Dictionaries d2 <;> simp [mapLoad]
  · rw [mapLoad_mapStore_ne _ _ _ _ hd]
    simp [hd]

theorem Library.Load_Remove (l : Library) (d w d2 w2 : GoString) :
    (l.Remove d w).1.Load d2 w2 =
      if d2 = d ∧ w2 = w then (Entry.zero, false) else l.Load d2 w2 := by
  unfold Library.Remove
  rcases hd : mapLoad l.Dictionaries d with _ | dm
  · dsimp only
    split_ifs with h
    · obtain ⟨h1, h2⟩ := h
      subst h1
      simp [Library.Load, hd]
    · rfl
  · dsimp only
    rcases hw : mapLoad dm w with _ | e
    · dsimp only
      split_ifs with h
      · obtain ⟨h1, h2⟩ := h
        subst h1 h2
        simp [Library.Load, hd, hw]
      · rfl
    · dsimp only
      unfold Library.Load
      by_cases h1 : d2 = d
      · subst h1
        simp only [mapLoad_mapStore_self, Option.some_bind, true_and, hd, mapLoad_mapDelete]
        by_cases h2 : w2 = w
        · simp [h2]
        · simp [h2]
      · rw [mapLoad_mapStore_ne _ _ _ _ h1]
        simp [h1]

theorem Library.Remove_snd (l : Library) (d w : GoString) :
    (l.Remove d w).2 = (l.Load d w).2 := by
  unfold Library.Remove Library.Load
  rcases hd : mapLoad l.Dictionaries d with _ | dm
  · rfl
  · rcases hw : mapLoad dm w with _ | e <;> simp [hw]

/-- The bucket of a hash after `Add`. -/
theorem DictionaryDeletes.Load_Add (dd : DictionaryDeletes) (d d2 : GoString) (k k2 : Nat)
    (e : DeleteEntry) :
    ((dd.Add d k e).Load d2 k2).1 =
      if d2 = d ∧ k2 = k then (dd.Load d k).1 ++ [e] else (dd.Load d2 k2).1 := by
  unfold DictionaryDeletes.Load DictionaryDeletes.Add
  by_cases hd : d2 = d
  · subst hd
    simp only [mapLoad_mapStore_self, Option.some_bind, true_and]
    by_cases hk : k2 = k
    · subst hk
      simp only [mapLoad_mapStore_self, if_true]
      cases mapLoad dd.dictionaries d2 with
      | none => simp [mapLoad]
      | some m =>
        simp only [Option.getD_some, Option.some_bind]
        split <;> simp_all
    · rw [mapLoad_mapStore_ne _ _ _ _ hk, if_neg hk]
      cases mapLoad dd.dictionaries d2 <;> simp [mapLoad]
  · rw [mapLoad_mapStore_ne _ _ _ _ hd]
    simp [hd]

/-- The bucket of a hash after the loop of `AddEntry` over the deletes of a word. -/
theorem DictionaryDeletes.Load_foldl_Add (d d2 : GoString) (e : DeleteEntry) (k2 : Nat) :
    ∀ (hs : List Nat) (dd : DictionaryDeletes),
      ((hs.foldl (fun dd h => dd.Add d h e) dd).Load d2 k2).1 =
        (dd.Load d2 k2).1 ++ if d2 = d then List.replicate (hs.count k2) e else [] := by
  intro hs
  induction hs with
  | nil => intro dd; simp
  | cons h hs ih =>
    intro dd
    rw [List.foldl_cons, ih, DictionaryDeletes.Load_Add]
    by_cases hd : d2 = d
    · subst hd
      by_cases hk : k2 = h
      · subst hk
        simp [List.replicate_succ]
      · have hk2 : ¬ h = k2 := fun e => hk e.symm
        simp [hk, List.count_cons, hk2]
    · simp [hd]

end IndexFacts

section DeletesFacts

theorem foldl_grows {ι : Type} (g : List Nat → ι → List Nat)
    (hg : ∀ deletes i, ∃ extra, g deletes i = deletes ++ extra ∧
      (deletes.Nodup → (deletes ++ extra).Nodup)) :
    ∀ (idxs : List ι) (deletes : List Nat), ∃ extra,
      idxs.foldl g deletes = deletes ++ extra ∧ (deletes.Nodup → (deletes ++ extra).Nodup) := by
  intro idxs
  induction idxs with
  | nil => intro deletes; exact ⟨[], by simp, by simp⟩
  | cons i rest ih =>
    intro deletes
    obtain ⟨x1, e1, n1⟩ := hg deletes i
    obtain ⟨x2, e2, n2⟩ := ih (deletes ++ x1)
    refine ⟨x1 ++ x2, ?_, ?_⟩
    · rw [List.foldl_cons, e1, e2, List.append_assoc]
    · intro hn
      rw [← List.append_assoc]
      exact n2 (n1 hn)

/-- The set of hashes only grows in `generateDeletes`, and stays free of repetitions. -/
theorem generateDeletes_spec (M : Nat) :
    ∀ (fuel : Nat) (word : GoString) (ed : Nat) (deletes : List Nat),
      ∃ extra, generateDeletes M fuel word ed deletes = deletes ++ extra ∧
        (deletes.Nodup → (deletes ++ extra).Nodup) := by
  intro fuel
  induction fuel with
  | zero => intro word ed deletes; exact ⟨[], by simp [generateDeletes], by simp⟩
  | succ fuel ih =>
    intro word ed deletes
    rw [generateDeletes]
    dsimp only
    by_cases hlen : word.length > 1
    · rw [if_pos hlen]
      apply foldl_grows
      intro deletes i
      by_cases hmem : GetStringHash (RemoveChar word i) ∈ deletes
      · rw [if_pos hmem]
        exact ⟨[], by simp, by simp⟩
      · rw [if_neg hmem]
        have h1 : deletes.Nodup → (deletes ++ [GetStringHash (RemoveChar word i)]).Nodup := by
          intro hn
          rw [List.nodup_append]
          exact ⟨hn, by simp, by simpa using hmem⟩
        by_cases hed : ed + 1 < M
        · rw [if_pos hed]
          obtain ⟨x1, e1, n1⟩ := ih (RemoveChar word i) (ed + 1)
            (deletes ++ [GetStringHash (RemoveChar word i)])
          refine ⟨[GetStringHash (RemoveChar word i)] ++ x1, ?_, ?_⟩
          · rw [e1, List.append_assoc]
          · intro hn
            rw [← List.append_assoc]
            exact n1 (h1 hn)
        · rw [if_neg hed]
          exact ⟨_, rfl, h1⟩
    · rw [if_neg hlen]
      exact ⟨[], by simp, by simp⟩

theorem getDeletes_nodup (model : SpellModel) (word : GoString) :
    (model.getDeletes word).Nodup := by
  unfold SpellModel.getDeletes
  dsimp only
  obtain ⟨extra, e, n⟩ := generateDeletes_spec model.MaxEditDistance
    (if (word.length : Int) > (model.PrefixLength : Int) then
      Substring word 0 (model.PrefixLength : Int) else word).length
    (if (word.length : Int) > (model.PrefixLength : Int) then
      Substring word 0 (model.PrefixLength : Int) else word) 0
    [GetStringHash (if (word.length : Int) > (model.PrefixLength : Int) then
      Substring word 0 (model.PrefixLength : Int) else word)]
  rw [e]
  exact n (by simp)

theorem getDeletes_length_pos (model : SpellModel) (word : GoString) :
    (model.getDeletes word).length > 0 := by
  unfold SpellModel.getDeletes
  dsimp only
  obtain ⟨extra, e, -⟩ := generateDeletes_spec model.MaxEditDistance
    (if (word.length : Int) > (model.PrefixLength : Int) then
      Substring word 0 (model.PrefixLength : Int) else word).length
    (if (word.length : Int) > (model.PrefixLength : Int) then
      Substring word 0 (model.PrefixLength : Int) else word) 0
    [GetStringHash (if (word.length : Int) > (model.PrefixLength : Int) then
      Substring word 0 (model.PrefixLength : Int) else word)]
  rw [e]
  simp

theorem getDeletes_congr (m1 m2 : SpellModel) (word : GoString)
    (hM : m1.MaxEditDistance = m2.MaxEditDistance) (hP : m1.PrefixLength = m2.PrefixLength) :
    m1.getDeletes word = m2.getDeletes word := by
  unfold SpellModel.getDeletes
  rw [hM, hP]

end DeletesFacts

section AddEntryFacts

/-- `AddEntry` of a word that the dictionary does not hold. -/
theorem AddEntry_new (model : SpellModel) (de : Entry) (opts : List DictionaryOption)
    (o : DictOptions) (hopts : applyDictOptions opts defaultDictOptions = .ok o)
    (hnew : (model.library.Load o.Name de.Word).2 = false) :
    model.AddEntry de opts = .ok (true,
      { model with
        cumulativeFreq := (model.cumulativeFreq + de.Frequency) % 2 ^ 64
        library := model.library.Store o.Name de.Word de
        longestWord := if de.Word.length % 2 ^ 32 > model.longestWord then
          de.Word.length % 2 ^ 32 else model.longestWord
        dictionaryDeletes := (model.getDeletes de.Word).foldl
          (fun dd h => dd.Add o.Name h ⟨(de.Word.length : Int), de.Word, de.Word⟩)
          model.dictionaryDeletes }) := by
  unfold SpellModel.AddEntry
  rw [hopts]
  dsimp only
  rcases hload : model.library.Load o.Name de.Word with ⟨entry, ex⟩
  rw [hload] at hnew
  dsimp only at hnew
  subst hnew
  dsimp only
  split_ifs with h1 h2 h2
  · rfl
  · exact absurd (getDeletes_length_pos _ _) h2
  · rfl
  · exact absurd (getDeletes_length_pos _ _) h2

/-- `AddEntry` of a word that the dictionary holds. -/
theorem AddEntry_existing (model : SpellModel) (de : Entry) (opts : List DictionaryOption)
    (o : DictOptions) (entry : Entry)
    (hopts : applyDictOptions opts defaultDictOptions = .ok o)
    (hex : model.library.Load o.Name de.Word = (entry, true)) :
    model.AddEntry de opts = .ok (false,
      { model with
        cumulativeFreq := ((model.cumulativeFreq + de.Frequency) % 2 ^ 64 +
          (2 ^ 64 - 1 - (de.Frequency + 2 ^ 64 - 1) % 2 ^ 64)) % 2 ^ 64
        library := model.library.Store o.Name de.Word
          ⟨if o.OverrideFrequency then de.Frequency
            else (de.Frequency + entry.Frequency) % 2 ^ 64,
           de.Word,
           if o.OverrideWordData then de.WordData else entry.WordData⟩ }) := by
  unfold SpellModel.AddEntry
  rw [hopts]
  dsimp only
  rw [hex]
  dsimp only
  cases o.OverrideFrequency <;> cases o.OverrideWordData <;> rfl

/-- `AddEntry` returns a model whatever the state, when the options apply. -/
theorem AddEntry_cases (model : SpellModel) (de : Entry) (opts : List DictionaryOption)
    (o : DictOptions) (hopts : applyDictOptions opts defaultDictOptions = .ok o) :
    ((model.library.Load o.Name de.Word).2 = false ∧
      model.AddEntry de opts = .ok (true,
        { model with
          cumulativeFreq := (model.cumulativeFreq + de.Frequency) % 2 ^ 64
          library := model.library.Store o.Name de.Word de
          longestWord := if de.Word.length % 2 ^ 32 > model.longestWord then
            de.Word.length % 2 ^ 32 else model.longestWord
          dictionaryDeletes := (model.getDeletes de.Word).foldl
            (fun dd h => dd.Add o.Name h ⟨(de.Word.length : Int), de.Word, de.Word⟩)
            model.dictionaryDeletes })) ∨
    (∃ entry, model.library.Load o.Name de.Word = (entry, true) ∧
      model.AddEntry de opts = .ok (false,
        { model with
          cumulativeFreq := ((model.cumulativeFreq + de.Frequency) % 2 ^ 64 +
            (2 ^ 64 - 1 - (de.Frequency + 2 ^ 64 - 1) % 2 ^ 64)) % 2 ^ 64
          library := model.library.Store o.Name de.Word
            ⟨if o.OverrideFrequency then de.Frequency
              else (de.Frequency + entry.Frequency) % 2 ^ 64,
             de.Word,
             if o.OverrideWordData then de.WordData else entry.WordData⟩ })) := by
  rcases hload : model.library.Load o.Name de.Word with ⟨entry, ex⟩
  cases ex with
  | false => exact Or.inl ⟨rfl, AddEntry_new model de opts o hopts (by rw [hload])⟩
  | true => exact Or.inr ⟨entry, rfl, AddEntry_existing model de opts o entry hopts hload⟩

/-- An `AddEntry` that returns a model has applied its options. -/
theorem AddEntry_ok_opts (model model2 : SpellModel) (de : Entry)
    (opts : List DictionaryOption) (added : Bool)
    (h : model.AddEntry de opts = .ok (added, model2)) :
    ∃ o, applyDictOptions opts defaultDictOptions = .ok o := by
  unfold SpellModel.AddEntry at h
  rcases ho : applyDictOptions opts defaultDictOptions with e | o
  · rw [ho] at h; cases h
  · exact ⟨o, rfl⟩

theorem RemoveEntry_ok (model model2 : SpellModel) (word : GoString)
    (opts : List DictionaryOption) (removed : Bool)
    (h : model.RemoveEntry word opts = .ok (removed, model2)) :
    ∃ o, applyDictOptions opts defaultDictOptions = .ok o ∧
      model2 = { model with library := (model.library.Remove o.Name word).1 } ∧
      removed = (model.library.Load o.Name word).2 := by
  unfold SpellModel.RemoveEntry at h
  rcases ho : applyDictOptions opts defaultDictOptions with e | o
  · rw [ho] at h; cases h
  · rw [ho] at h
    dsimp only at h
    cases h
    exact ⟨o, rfl, rfl, Library.Remove_snd _ _ _⟩

end AddEntryFacts

section FrequencyClaims

theorem addEntryCalls_cumulativeFreq (opts : List DictionaryOption) (o : DictOptions)
    (hopts : applyDictOptions opts defaultDictOptions = .ok o) :
    ∀ (es : List Entry) (model : SpellModel), (es.map Entry.Word).Nodup →
      (∀ e ∈ es, (model.library.Load o.Name e.Word).2 = false) →
      model.cumulativeFreq < 2 ^ 64 →
      ∃ m, addEntryCalls opts model es = some m ∧
        m.cumulativeFreq = (model.cumulativeFreq + (es.map Entry.Frequency).sum) % 2 ^ 64 := by
  intro es
  induction es with
  | nil =>
    intro model _ _ hlt
    refine ⟨model, rfl, ?_⟩
    rw [List.map_nil, List.sum_nil, Nat.add_zero, Nat.mod_eq_of_lt hlt]
  | cons de rest ih =>
    intro model hnd hnew hlt
    rw [List.map_cons, List.nodup_cons] at hnd
    obtain ⟨m2, h1, hlib, hcum⟩ : ∃ m2, model.AddEntry de opts = .ok (true, m2) ∧
        m2.library = model.library.Store o.Name de.Word de ∧
        m2.cumulativeFreq = (model.cumulativeFreq + de.Frequency) % 2 ^ 64 :=
      ⟨_, AddEntry_new model de opts o hopts (hnew de (List.mem_cons_self _ _)), rfl, rfl⟩
    simp only [addEntryCalls, h1]
    obtain ⟨m, e1, e2⟩ := ih m2 hnd.2 (by
      intro e he
      rw [hlib, Library.Load_Store]
      have hne : ¬ e.Word = de.Word := fun heq => hnd.1 (by
        rw [← heq]; exact List.mem_map_of_mem _ he)
      simp only [hne, and_false, if_false]
      exact hnew e (List.mem_cons_of_mem _ he)) (by
      rw [hcum]; exact Nat.mod_lt _ (by decide))
    refine ⟨m, e1, ?_⟩
    rw [e2, hcum, List.map_cons, List.sum_cons, Nat.mod_add_mod, Nat.add_assoc]

/-- C14. Starting from a new model, after one `AddEntry` call per entry of a list of
entries with pairwise distinct words, all with the same options (so in one dictionary),
every call has succeeded and `cumulativeFreq` is the sum of the frequencies of the entries
modulo `2^64`. -/
theorem AddEntry_cumulativeFreq_sum (opts : List DictionaryOption) (o : DictOptions)
    (es : List Entry) (hopts : applyDictOptions opts defaultDictOptions = .ok o)
    (hnd : (es.map Entry.Word).Nodup) :
    ∃ m, addEntryCalls opts NewSpellModel es = some m ∧
      m.cumulativeFreq = (es.map Entry.Frequency).sum % 2 ^ 64 := by
  obtain ⟨m, e1, e2⟩ := addEntryCalls_cumulativeFreq opts o hopts es NewSpellModel hnd
    (fun e _ => rfl) (by decide)
  refine ⟨m, e1, ?_⟩
  rw [e2]
  simp [NewSpellModel]

/-- Witness of C14 at the entries `cat` (frequency 3) and `dog` (frequency 2) in the
dictionary `pets`. -/
theorem AddEntry_cumulativeFreq_sum_witness :
    applyDictOptions [DictionaryName "pets".toList] defaultDictOptions =
      .ok ⟨"pets".toList, false, false⟩ ∧
    (([⟨3, "cat".toList, none⟩, ⟨2, "dog".toList, none⟩] : List Entry).map Entry.Word).Nodup ∧
    ∃ m, addEntryCalls [DictionaryName "pets".toList] NewSpellModel
        [⟨3, "cat".toList, none⟩, ⟨2, "dog".toList, none⟩] = some m ∧
      m.cumulativeFreq = (([⟨3, "cat".toList, none⟩, ⟨2, "dog".toList, none⟩] :
        List Entry).map Entry.Frequency).sum % 2 ^ 64 :=
  ⟨rfl, by decide,
    AddEntry_cumulativeFreq_sum [DictionaryName "pets".toList] ⟨"pets".toList, false, false⟩
      [⟨3, "cat".toList, none⟩, ⟨2, "dog".toList, none⟩] rfl (by decide)⟩

set_option maxRecDepth 100000 in
/-- C15. The counter `cumulativeFreq` is not the sum of the stored frequencies.  After
`AddEntry(cat, 3)` and `AddEntry(cat, 2)` on a new model the library stores the frequency
`5` (and `2` with `OverrideFrequency(true)`) while `cumulativeFreq` is `3`: the call on an
existing word subtracts the frequency it has just added.  After `AddEntry(cat, 3)` and
`RemoveEntry(cat)` the library is empty while `cumulativeFreq` is still `3`. -/
theorem cumulativeFreq_not_stored_sum :
    ∃ m1 m2 m3 m4 : SpellModel,
      NewSpellModel.AddEntry ⟨3, "cat".toList, none⟩ [] = .ok (true, m1) ∧
      m1.AddEntry ⟨2, "cat".toList, none⟩ [] = .ok (false, m2) ∧
      m2.library.frequencySum = 5 ∧ m2.cumulativeFreq = 3 ∧
      m1.AddEntry ⟨2, "cat".toList, none⟩ [OverrideFrequency true] = .ok (false, m3) ∧
      m3.library.frequencySum = 2 ∧ m3.cumulativeFreq = 3 ∧
      m1.RemoveEntry "cat".toList [] = .ok (true, m4) ∧
      m4.library.frequencySum = 0 ∧ m4.cumulativeFreq = 3 :=
  ⟨_, _, _, _, rfl, rfl, by decide, by decide, rfl, by decide, by decide, rfl, by decide,
    by decide⟩

end FrequencyClaims

section OverrideClaims

/-- C16. `AddEntry` on a dictionary and word that already hold the entry `entry` returns
`false` and stores an entry with the word whose `Frequency` is the new one plus the
existing one (on `uint64`, so modulo `2^64`) when `OverrideFrequency` is `false` and the
new one when it is `true`, and whose `WordData` is the existing one when `OverrideWordData`
is `false` and the new one when it is `true`. -/
theorem AddEntry_existing_stored (model : SpellModel) (de : Entry)
    (opts : List DictionaryOption) (o : DictOptions) (entry : Entry)
    (hopts : applyDictOptions opts defaultDictOptions = .ok o)
    (hex : model.library.Load o.Name de.Word = (entry, true)) :
    ∃ m2, model.AddEntry de opts = .ok (false, m2) ∧
      m2.library.Load o.Name de.Word =
        (⟨if o.OverrideFrequency then de.Frequency
            else (de.Frequency + entry.Frequency) % 2 ^ 64,
          de.Word,
          if o.OverrideWordData then de.WordData else entry.WordData⟩, true) := by
  refine ⟨_, AddEntry_existing model de opts o entry hopts hex, ?_⟩
  dsimp only
  rw [Library.Load_Store]
  simp

end OverrideClaims

section OverrideWitness

/-- Witness of C16 at a model that holds `cat` with frequency `3`, for `AddEntry(cat, 2)`
with the default options: the stored frequency is `5`. -/
theorem AddEntry_existing_stored_witness :
    applyDictOptions [] defaultDictOptions = .ok defaultDictOptions ∧
    ({ NewSpellModel with
        library := NewLibrary.Store defaultDict "cat".toList ⟨3, "cat".toList, none⟩ } :
      SpellModel).library.Load defaultDictOptions.Name
        (⟨2, "cat".toList, none⟩ : Entry).Word = (⟨3, "cat".toList, none⟩, true) ∧
    ∃ m2, ({ NewSpellModel with
        library := NewLibrary.Store defaultDict "cat".toList ⟨3, "cat".toList, none⟩ } :
      SpellModel).AddEntry ⟨2, "cat".toList, none⟩ [] = .ok (false, m2) ∧
      m2.library.Load defaultDictOptions.Name (⟨2, "cat".toList, none⟩ : Entry).Word =
        (⟨if defaultDictOptions.OverrideFrequency then (⟨2, "cat".toList, none⟩ : Entry).Frequency
            else ((⟨2, "cat".toList, none⟩ : Entry).Frequency +
              (⟨3, "cat".toList, none⟩ : Entry).Frequency) % 2 ^ 64,
          (⟨2, "cat".toList, none⟩ : Entry).Word,
          if defaultDictOptions.OverrideWordData then (⟨2, "cat".toList, none⟩ : Entry).WordData
            else (⟨3, "cat".toList, none⟩ : Entry).WordData⟩, true) :=
  ⟨rfl, by decide,
    AddEntry_existing_stored _ ⟨2, "cat".toList, none⟩ [] defaultDictOptions
      ⟨3, "cat".toList, none⟩ rfl (by decide)⟩

end OverrideWitness

section AddedClaims

/-- C17. `AddEntry` returns `added = true` exactly when the dictionary did not hold the
word before the call; when it returns `false` the deletes index and `longestWord` are the
ones before the call. -/
theorem AddEntry_added_iff (model : SpellModel) (de : Entry) (opts : List DictionaryOption)
    (o : DictOptions) (hopts : applyDictOptions opts defaultDictOptions = .ok o) :
    ∃ (added : Bool) (m2 : SpellModel), model.AddEntry de opts = .ok (added, m2) ∧
      (added = true ↔ (model.library.Load o.Name de.Word).2 = false) ∧
      (added = false → m2.dictionaryDeletes = model.dictionaryDeletes ∧
        m2.longestWord = model.longestWord) := by
  rcases AddEntry_cases model de opts o hopts with ⟨h1, h2⟩ | ⟨entry, h1, h2⟩
  · exact ⟨true, _, h2, by simp [h1], by simp⟩
  · exact ⟨false, _, h2, by simp [h1], fun _ => ⟨rfl, rfl⟩⟩

/-- Witness of C17 at a model that holds `cat`, for `AddEntry(cat, 2)` with the default
options. -/
theorem AddEntry_added_iff_witness :
    applyDictOptions [] defaultDictOptions = .ok defaultDictOptions ∧
    ∃ (added : Bool) (m2 : SpellModel),
      ({ NewSpellModel with
          library := NewLibrary.Store defaultDict "cat".toList ⟨3, "cat".toList, none⟩ } :
        SpellModel).AddEntry ⟨2, "cat".toList, none⟩ [] = .ok (added, m2) ∧
      (added = true ↔ (({ NewSpellModel with
          library := NewLibrary.Store defaultDict "cat".toList ⟨3, "cat".toList, none⟩ } :
        SpellModel).library.Load defaultDictOptions.Name
        (⟨2, "cat".toList, none⟩ : Entry).Word).2 = false) ∧
      (added = false → m2.dictionaryDeletes = ({ NewSpellModel with
          library := NewLibrary.Store defaultDict "cat".toList ⟨3, "cat".toList, none⟩ } :
        SpellModel).dictionaryDeletes ∧
        m2.longestWord = ({ NewSpellModel with
          library := NewLibrary.Store defaultDict "cat".toList ⟨3, "cat".toList, none⟩ } :
        SpellModel).longestWord) :=
  ⟨rfl, AddEntry_added_iff _ ⟨2, "cat".toList, none⟩ [] defaultDictOptions rfl⟩

end AddedClaims

section DescriptorClaims

theorem countP_replicate_str (n : Nat) (e : DeleteEntry) (w : GoString) :
    (List.replicate n e).countP (fun de => decide (de.Str = w)) =
      if e.Str = w then n else 0 := by
  induction n with
  | zero => simp
  | succ n ih =>
    rw [List.replicate_succ, List.countP_cons, ih]
    split_ifs <;> simp_all

theorem descriptorCount_congr (m1 m2 : SpellModel) (d : GoString) (h : Nat) (w : GoString)
    (hdd : m1.dictionaryDeletes = m2.dictionaryDeletes) :
    descriptorCount m1 d h w = descriptorCount m2 d h w := by
  unfold descriptorCount
  rw [hdd]

/-- The descriptors of a word after the loop of `AddEntry` over the deletes of a word. -/
theorem descriptorCount_foldl_Add (model m2 : SpellModel) (d0 w0 : GoString) (hs : List Nat)
    (hdd : m2.dictionaryDeletes =
      hs.foldl (fun dd k => dd.Add d0 k ⟨(w0.length : Int), w0, w0⟩) model.dictionaryDeletes)
    (d : GoString) (h : Nat) (w : GoString) :
    descriptorCount m2 d h w =
      descriptorCount model d h w + if d = d0 ∧ w0 = w then hs.count h else 0 := by
  unfold descriptorCount
  rw [hdd, DictionaryDeletes.Load_foldl_Add, List.countP_append]
  congr 1
  by_cases hd : d = d0
  · rw [if_pos hd, countP_replicate_str]
    simp [hd]
  · simp [hd]

/-- What a successful `AddEntry` does to the fields of the model. -/
theorem AddEntry_fields (model model2 : SpellModel) (de : Entry)
    (opts : List DictionaryOption) (added : Bool)
    (hadd : model.AddEntry de opts = .ok (added, model2)) :
    ∃ o, applyDictOptions opts defaultDictOptions = .ok o ∧
      model2.MaxEditDistance = model.MaxEditDistance ∧
      model2.PrefixLength = model.PrefixLength ∧
      (((model.library.Load o.Name de.Word).2 = false ∧ added = true ∧
          model2.library = model.library.Store o.Name de.Word de ∧
          model2.dictionaryDeletes = (model.getDeletes de.Word).foldl
            (fun dd h => dd.Add o.Name h ⟨(de.Word.length : Int), de.Word, de.Word⟩)
            model.dictionaryDeletes ∧
          model2.cumulativeFreq = (model.cumulativeFreq + de.Frequency) % 2 ^ 64 ∧
          model2.longestWord = (if de.Word.length % 2 ^ 32 > model.longestWord then
            de.Word.length % 2 ^ 32 else model.longestWord)) ∨
        (∃ entry, model.library.Load o.Name de.Word = (entry, true) ∧ added = false ∧
          model2.library = model.library.Store o.Name de.Word
            ⟨if o.OverrideFrequency then de.Frequency
              else (de.Frequency + entry.Frequency) % 2 ^ 64,
             de.Word,
             if o.OverrideWordData then de.WordData else entry.WordData⟩ ∧
          model2.dictionaryDeletes = model.dictionaryDeletes ∧
          model2.cumulativeFreq = ((model.cumulativeFreq + de.Frequency) % 2 ^ 64 +
            (2 ^ 64 - 1 - (de.Frequency + 2 ^ 64 - 1) % 2 ^ 64)) % 2 ^ 64 ∧
          model2.longestWord = model.longestWord)) := by
  obtain ⟨o, hopts⟩ := AddEntry_ok_opts model model2 de opts added hadd
  refine ⟨o, hopts, ?_⟩
  rcases AddEntry_cases model de opts o hopts with ⟨h1, h2⟩ | ⟨entry, h1, h2⟩
  · rw [h2] at hadd
    cases hadd
    exact ⟨rfl, rfl, Or.inl ⟨h1, rfl, rfl, rfl, rfl, rfl⟩⟩
  · rw [h2] at hadd
    cases hadd
    exact ⟨rfl, rfl, Or.inr ⟨entry, h1, rfl, rfl, rfl, rfl, rfl⟩⟩

/-- The invariant of the deletes index along the calls of `AddEntry` and `RemoveEntry`. -/
theorem Reachable_invariant (M P : Nat) (removals : Bool) (m : SpellModel)
    (hr : Reachable M P removals m) :
    m.MaxEditDistance = M ∧ m.PrefixLength = P ∧
    (∀ d w, (m.library.Load d w).2 = true → (m.library.Load d w).1.Word = w) ∧
    (∀ d w h, (m.library.Load d w).2 = true → h ∈ m.getDeletes w →
      1 ≤ descriptorCount m d h w) ∧
    (removals = false → ∀ d w h, descriptorCount m d h w =
      if (m.library.Load d w).2 = true ∧ h ∈ m.getDeletes w then 1 else 0) := by
  induction hr with
  | new =>
    refine ⟨rfl, rfl, ?_, ?_, ?_⟩
    · intro d w h; cases h
    · intro d w h hl; cases hl
    · intro _ d w h
      have : ¬ ((({ NewSpellModel with MaxEditDistance := M, PrefixLength := P } :
          SpellModel).library.Load d w).2 = true ∧
          h ∈ ({ NewSpellModel with MaxEditDistance := M, PrefixLength := P } :
            SpellModel).getDeletes w) := fun hh => by cases hh.1
      rw [if_neg this]
      rfl
  | add model model2 de opts added _ hadd ih =>
    obtain ⟨hM, hP, hword, hone, hexact⟩ := ih
    obtain ⟨o, hopts, hMM, hPP, hcase⟩ := AddEntry_fields model model2 de opts added hadd
    have hg : ∀ w, model2.getDeletes w = model.getDeletes w :=
      fun w => getDeletes_congr model2 model w hMM hPP
    rcases hcase with ⟨h1, -, hlib, hdd, -, -⟩ | ⟨entry, h1, -, hlib, hdd, -, -⟩
    · have hc := descriptorCount_foldl_Add model model2 o.Name de.Word _ hdd
      refine ⟨hMM.trans hM, hPP.trans hP, ?_, ?_, ?_⟩
      · intro d w
        rw [hlib, Library.Load_Store]
        by_cases hk : d = o.Name ∧ w = de.Word
        · rw [if_pos hk]
          intro _; exact hk.2.symm
        · rw [if_neg hk]
          exact hword d w
      · intro d w h
        rw [hg, hc, hlib, Library.Load_Store]
        by_cases hk : d = o.Name ∧ w = de.Word
        · have hk2 : d = o.Name ∧ de.Word = w := ⟨hk.1, hk.2.symm⟩
          rw [if_pos hk, if_pos hk2]
          intro _ hmem
          rw [hk.2] at hmem
          have := List.count_pos_iff.2 hmem
          omega
        · have hk2 : ¬ (d = o.Name ∧ de.Word = w) := fun hh => hk ⟨hh.1, hh.2.symm⟩
          rw [if_neg hk, if_neg hk2]
          intro hl hmem
          have := hone d w h hl hmem
          omega
      · intro hrem d w h
        rw [hg, hc, hexact hrem, hlib, Library.Load_Store]
        have hnd := getDeletes_nodup model de.Word
        by_cases hk : d = o.Name ∧ w = de.Word
        · have hk2 : d = o.Name ∧ de.Word = w := ⟨hk.1, hk.2.symm⟩
          rw [if_pos hk, if_pos hk2, hk.1, hk.2, h1]
          simp only [Bool.false_eq_true, false_and, if_false, true_and, Nat.zero_add]
          by_cases hmem : h ∈ model.getDeletes de.Word
          · rw [if_pos hmem, List.count_eq_one_of_mem hnd hmem]
          · rw [if_neg hmem, List.count_eq_zero_of_not_mem hmem]
        · have hk2 : ¬ (d = o.Name ∧ de.Word = w) := fun hh => hk ⟨hh.1, hh.2.symm⟩
          rw [if_neg hk, if_neg hk2, Nat.add_zero]
    · have hl2 : ∀ d w, (model2.library.Load d w).2 = (model.library.Load d w).2 := by
        intro d w
        rw [hlib, Library.Load_Store]
        by_cases hk : d = o.Name ∧ w = de.Word
        · rw [if_pos hk, hk.1, hk.2, h1]
        · rw [if_neg hk]
      have hc : ∀ d h w, descriptorCount model2 d h w = descriptorCount model d h w :=
        fun d h w => descriptorCount_congr model2 model d h w hdd
      refine ⟨hMM.trans hM, hPP.trans hP, ?_, ?_, ?_⟩
      · intro d w
        rw [hlib, Library.Load_Store]
        by_cases hk : d = o.Name ∧ w = de.Word
        · rw [if_pos hk]
          intro _; exact hk.2.symm
        · rw [if_neg hk]
          exact hword d w
      · intro d w h
        rw [hl2, hg, hc]
        exact hone d w h
      · intro hrem d w h
        rw [hl2, hg, hc]
        exact hexact hrem d w h
  | remove model model2 word opts removed hrem _ hremove ih =>
    obtain ⟨hM, hP, hword, hone, hexact⟩ := ih
    obtain ⟨o, hopts, hm2, -⟩ := RemoveEntry_ok model model2 word opts removed hremove
    have hMM : model2.MaxEditDistance = model.MaxEditDistance := by rw [hm2]
    have hPP : model2.PrefixLength = model.PrefixLength := by rw [hm2]
    have hdd : model2.dictionaryDeletes = model.dictionaryDeletes := by rw [hm2]
    have hlib : model2.library = (model.library.Remove o.Name word).1 := by rw [hm2]
    refine ⟨hMM.trans hM, hPP.trans hP, ?_, ?_, ?_⟩
    · intro d w
      rw [hlib, Library.Load_Remove]
      by_cases hk : d = o.Name ∧ w = word
      · rw [if_pos hk]
        intro hh; cases hh
      · rw [if_neg hk]
        exact hword d w
    · intro d w h
      rw [hlib, Library.Load_Remove, getDeletes_congr model2 model w hMM hPP,
        descriptorCount_congr model2 model d h w hdd]
      by_cases hk : d = o.Name ∧ w = word
      · rw [if_pos hk]
        intro hh; cases hh
      · rw [if_neg hk]
        exact hone d w h
    · intro hf
      rw [hrem] at hf
      cases hf

end DescriptorClaims

section DescriptorClaimTheorems

set_option maxRecDepth 100000 in
/-- C18, as stated, fails: after `AddEntry(a)`, `RemoveEntry(a)` and `AddEntry(a)` on a new
model the library holds `a`, and the bucket of the hash of `a` holds two descriptors of
`a`, since the removal leaves the index alone and the second `AddEntry` finds a new
word. -/
theorem deletes_descriptors_counterexample :
    ¬ ∀ m : SpellModel, Reachable 2 7 true m →
      ∀ (d w : GoString) (e : Entry), m.library.Load d w = (e, true) →
        ∀ h ∈ m.getDeletes w, descriptorCount m d h w = 1 := by
  intro H
  obtain ⟨m1, h1⟩ : ∃ m1, NewSpellModel.AddEntry ⟨1, "a".toList, none⟩ [] = .ok (true, m1) :=
    ⟨_, rfl⟩
  obtain ⟨m2, h2⟩ : ∃ m2, m1.RemoveEntry "a".toList [] = .ok (true, m2) := by
    cases h1; exact ⟨_, rfl⟩
  obtain ⟨m3, h3, h4, h5, h6⟩ : ∃ m3, m2.AddEntry ⟨1, "a".toList, none⟩ [] = .ok (true, m3) ∧
      m3.library.Load defaultDict "a".toList = (⟨1, "a".toList, none⟩, true) ∧
      GetStringHash "a".toList ∈ m3.getDeletes "a".toList ∧
      descriptorCount m3 defaultDict (GetStringHash "a".toList) "a".toList = 2 := by
    cases h1; cases h2; exact ⟨_, rfl, by decide, by decide, by decide⟩
  have hr : Reachable 2 7 true m3 :=
    Reachable.add _ _ _ _ _
      (Reachable.remove _ _ _ _ _ rfl (Reachable.add _ _ _ _ _ Reachable.new h1) h2) h3
  have h7 := H m3 hr _ _ _ h4 _ h5
  rw [h6] at h7
  exact absurd h7 (by decide)

/-- C18, amended. In every model state that `AddEntry` and `RemoveEntry` calls reach from a
new model with fixed `MaxEditDistance` and `PrefixLength`, every entry of the library is
stored under its word, and for every hash of `getDeletes` of the word the bucket of the
dictionary and the hash holds at least one descriptor of the word; it holds exactly one
when only `AddEntry` calls were made. -/
theorem deletes_descriptors (M P : Nat) (removals : Bool) (m : SpellModel)
    (d w : GoString) (e : Entry) (h : Nat) (hr : Reachable M P removals m)
    (hload : m.library.Load d w = (e, true)) (hh : h ∈ m.getDeletes w) :
    e.Word = w ∧ 1 ≤ descriptorCount m d h w ∧
      (removals = false → descriptorCount m d h w = 1) := by
  obtain ⟨-, -, hword, hone, hexact⟩ := Reachable_invariant M P removals m hr
  have hl2 : (m.library.Load d w).2 = true := by rw [hload]
  refine ⟨?_, hone d w h hl2 hh, ?_⟩
  · have := hword d w hl2
    rw [hload] at this
    exact this
  · intro hrem
    rw [hexact hrem d w h, if_pos ⟨hl2, hh⟩]

set_option maxRecDepth 100000 in
/-- Witness of the amended C18 at the state after `AddEntry(ab)` on a new model, for the
hash of the delete `a`. -/
theorem deletes_descriptors_witness :
    ∃ m : SpellModel, Reachable 2 7 false m ∧
      m.library.Load defaultDict "ab".toList = (⟨1, "ab".toList, none⟩, true) ∧
      GetStringHash "a".toList ∈ m.getDeletes "ab".toList ∧
      ((⟨1, "ab".toList, none⟩ : Entry).Word = "ab".toList ∧
        1 ≤ descriptorCount m defaultDict (GetStringHash "a".toList) "ab".toList ∧
        (false = false →
          descriptorCount m defaultDict (GetStringHash "a".toList) "ab".toList = 1)) := by
  obtain ⟨m1, h1, h2, h3⟩ : ∃ m1,
      NewSpellModel.AddEntry ⟨1, "ab".toList, none⟩ [] = .ok (true, m1) ∧
      m1.library.Load defaultDict "ab".toList = (⟨1, "ab".toList, none⟩, true) ∧
      GetStringHash "a".toList ∈ m1.getDeletes "ab".toList :=
    ⟨_, rfl, by decide, by decide⟩
  have hr : Reachable 2 7 false m1 := Reachable.add _ _ _ _ _ Reachable.new h1
  exact ⟨m1, hr, h2, h3,
    deletes_descriptors 2 7 false m1 defaultDict "ab".toList ⟨1, "ab".toList, none⟩
      (GetStringHash "a".toList) hr h2 h3⟩

end DescriptorClaimTheorems

section DeletesClaims

set_option maxRecDepth 100000 in
/-- C19. The set `getDeletes` returns is not the set of hashes of the delete variants the
claim describes.  For the word `ab` on a new model (maximum edit distance `2`, prefix
length `7`) it holds the hashes of `ab`, `b` and `a` but not the hash of the empty string,
which `ab` yields by two deletions: `generateDeletes` deletes nothing from a word of one
code point.  With `MaxEditDistance = 0` it still holds the hash of `bc` for the word `abc`,
a delete of depth one: the depth is counted before it is compared. -/
theorem getDeletes_not_delete_variants :
    NewSpellModel.getDeletes "ab".toList =
      [GetStringHash "ab".toList, GetStringHash "b".toList, GetStringHash "a".toList] ∧
    GetStringHash "".toList ∉ NewSpellModel.getDeletes "ab".toList ∧
    GetStringHash "bc".toList ∈
      ({ NewSpellModel with MaxEditDistance := 0 } : SpellModel).getDeletes "abc".toList :=
  ⟨by decide, by decide, by decide⟩

end DeletesClaims

section LookupExamples

set_option maxRecDepth 100000 in
/-- C11. `BEST` does not agree with `ALL`.  On a new model with the entries `aaaaaa`
(frequency `1`) and `aaaaaaba` (frequency `2`), `Lookup("aaaaaaa", PrefixLength(8),
SuggestionLevel(BEST))` returns `aaaaaa` at distance `1`, while the same call under `ALL`
also returns `aaaaaaba` at distance `1`, whose frequency is higher: once `BEST` has the
first suggestion at distance `1`, the test on the prefix lengths skips the second one. -/
theorem Lookup_BEST_not_best :
    ∃ m1 m2 : SpellModel,
      NewSpellModel.AddEntry ⟨1, "aaaaaa".toList, none⟩ [] = .ok (true, m1) ∧
      m1.AddEntry ⟨2, "aaaaaaba".toList, none⟩ [] = .ok (true, m2) ∧
      m2.Lookup "aaaaaaa".toList [PrefixLength 8, SuggestionLevel suggestionLevel.BEST] =
        .ok [⟨1, ⟨1, "aaaaaa".toList, none⟩⟩] ∧
      m2.Lookup "aaaaaaa".toList [PrefixLength 8, SuggestionLevel suggestionLevel.ALL] =
        .ok [⟨1, ⟨2, "aaaaaaba".toList, none⟩⟩, ⟨1, ⟨1, "aaaaaa".toList, none⟩⟩] :=
  ⟨_, _, rfl, rfl, by rfl, by rfl⟩

set_option maxRecDepth 100000 in
/-- C13, as stated, fails: on a new model with `hello` (frequency `10`), `help` (`5`) and
`world` (`1`), no suggestion of `Lookup("helo", SuggestionLevel(ALL))` is `help` at
distance `2`. -/
theorem Lookup_helo_counterexample :
    ∃ (m1 m2 m3 : SpellModel) (r : SuggestionList),
      NewSpellModel.AddEntry ⟨10, "hello".toList, none⟩ [] = .ok (true, m1) ∧
      m1.AddEntry ⟨5, "help".toList, none⟩ [] = .ok (true, m2) ∧
      m2.AddEntry ⟨1, "world".toList, none⟩ [] = .ok (true, m3) ∧
      m3.Lookup "helo".toList [SuggestionLevel suggestionLevel.ALL] = .ok r ∧
      ¬ ∃ s ∈ r, s.Entry.Word = "help".toList ∧ s.Distance = 2 :=
  ⟨_, _, _, [⟨1, ⟨10, "hello".toList, none⟩⟩, ⟨1, ⟨5, "help".toList, none⟩⟩], rfl, rfl, rfl,
    by rfl, by decide⟩

set_option maxRecDepth 100000 in
/-- C13, amended. On a new model (maximum edit distance `2`, prefix length `7`) with
`hello` (frequency `10`), `help` (`5`) and `world` (`1`): `Lookup("helo", BEST)` returns
exactly `hello` at distance `1`; `Lookup("helo", ALL)` returns exactly `hello` at distance
`1` and `help` at distance `1`, in this order; `Lookup("world", BEST)` returns exactly
`world` at distance `0`. -/
theorem Lookup_helo_example :
    ∃ m1 m2 m3 : SpellModel,
      NewSpellModel.AddEntry ⟨10, "hello".toList, none⟩ [] = .ok (true, m1) ∧
      m1.AddEntry ⟨5, "help".toList, none⟩ [] = .ok (true, m2) ∧
      m2.AddEntry ⟨1, "world".toList, none⟩ [] = .ok (true, m3) ∧
      m3.Lookup "helo".toList [SuggestionLevel suggestionLevel.BEST] =
        .ok [⟨1, ⟨10, "hello".toList, none⟩⟩] ∧
      m3.Lookup "helo".toList [SuggestionLevel suggestionLevel.ALL] =
        .ok [⟨1, ⟨10, "hello".toList, none⟩⟩, ⟨1, ⟨5, "help".toList, none⟩⟩] ∧
      m3.Lookup "world".toList [SuggestionLevel suggestionLevel.BEST] =
        .ok [⟨0, ⟨1, "world".toList, none⟩⟩] ∧
      DamerauLevenshteinRunes "helo".toList "help".toList 2 = some 1 :=
  ⟨_, _, _, rfl, rfl, rfl, by rfl, by rfl, by rfl, by decide⟩

end LookupExamples

section SortClaims

theorem defaultLess_eq_false_iff (a b : Suggestion) :
    defaultLess b a = false ↔
      (a.Distance ≤ b.Distance ∧
        (a.Distance = b.Distance → b.Entry.Frequency ≤ a.Entry.Frequency)) := by
  unfold defaultLess
  split_ifs with h1 h2
  · simp only [Bool.true_eq_false, false_iff, not_and]
    intro h; omega
  · simp only [gt_iff_lt, decide_eq_false_iff_not, not_lt]
    constructor
    · intro h; exact ⟨by omega, fun _ => h⟩
    · intro h; exact h.2 h2.symm
  · simp only [true_iff]
    exact ⟨by omega, fun h => absurd h.symm h2⟩

/-- The default sort returns a list that is sorted by the default comparison. -/
theorem sortSlice_defaultLess_sorted (results : SuggestionList) :
    (sortSlice defaultLess results).Chain' (fun a b => a.Distance ≤ b.Distance ∧
      (a.Distance = b.Distance → b.Entry.Frequency ≤ a.Entry.Frequency)) := by
  have htotal : IsTotal Suggestion (fun a b => defaultLess b a = false) :=
    ⟨fun a b => by
      rw [defaultLess_eq_false_iff, defaultLess_eq_false_iff]
      rcases lt_trichotomy a.Distance b.Distance with h | h | h
      · left; exact ⟨by omega, fun h2 => by omega⟩
      · rcases le_total a.Entry.Frequency b.Entry.Frequency with h2 | h2
        · right; exact ⟨by omega, fun _ => h2⟩
        · left; exact ⟨by omega, fun _ => h2⟩
      · right; exact ⟨by omega, fun h2 => by omega⟩⟩
  have htrans : IsTrans Suggestion (fun a b => defaultLess b a = false) :=
    ⟨fun a b c => by
      rw [defaultLess_eq_false_iff, defaultLess_eq_false_iff, defaultLess_eq_false_iff]
      intro h1 h2
      refine ⟨by omega, fun h3 => ?_⟩
      have e1 : a.Distance = b.Distance := by omega
      have e2 : b.Distance = c.Distance := by omega
      exact le_trans (h2.2 e2) (h1.2 e1)⟩
  have hs := @List.sorted_insertionSort Suggestion (fun a b => defaultLess b a = false) _
    htotal htrans results
  have hc : (sortSlice defaultLess results).Chain' (fun a b => defaultLess b a = false) :=
    List.Pairwise.chain' hs
  exact hc.imp fun a b h => (defaultLess_eq_false_iff a b).1 h

/-- C12. With the default `sortFunc`, for every model state, dictionary name, query, cap
and suggestion level, `Lookup` returns a list in which every adjacent pair has
non-decreasing `Distance` and, when the two distances are equal, non-increasing
`Frequency`. -/
theorem Lookup_sorted (model : SpellModel) (input d : GoString) (cap : Nat)
    (level : suggestionLevel) :
    ∃ r, model.Lookup input [DictionaryOpts [DictionaryName d], EditDistance cap,
        SuggestionLevel level] = .ok r ∧
      r.Chain' (fun a b => a.Distance ≤ b.Distance ∧
        (a.Distance = b.Distance → b.Entry.Frequency ≤ a.Entry.Frequency)) := by
  have hopts : model.Lookup input [DictionaryOpts [DictionaryName d],
      EditDistance cap, SuggestionLevel level] =
      model.lookupBody { model.defaultLookupParams with
        dictOpts := ⟨d, false, false⟩, editDistance := cap, suggestionLevel := level }
        input := rfl
  rw [hopts]
  apply lookupBody_keeps model _ input (fun _ _ => True)
    (fun r => r.Chain' (fun a b => a.Distance ≤ b.Distance ∧
      (a.Distance = b.Distance → b.Entry.Frequency ≤ a.Entry.Frequency)))
    (fun a b c => DamerauLevenshteinRunes_total a b c)
  · exact fun _ _ _ _ _ _ => trivial
  · exact ⟨List.chain'_nil, List.chain'_singleton _⟩
  · exact ⟨trivial, fun _ => trivial⟩
  · intro results _ _
    exact sortSlice_defaultLess_sorted results

end SortClaims

section SegmentClaims

/-- C20. When the options apply, `Segment` returns the error `longest word in dictionary
has zero length` for every input when `longestWord` is `0`, and the error `cumulative
frequency is zero`, which is a different one, when `longestWord` is not `0` and
`cumulativeFreq` is `0`: in both cases it returns before the segmentation loop. -/
theorem Segment_fails_fast (fl : FloatOps) (model : SpellModel) (input : GoString)
    (opts : List SegmentOption) (sp : segmentParams)
    (hopts : applySegmentOptions opts defaultSegmentParams = .ok sp)
    (hpre : model.longestWord = 0 ∨ model.cumulativeFreq = 0) :
    model.Segment fl input opts =
      .error (Fault.error (if model.longestWord = 0 then
        "longest word in dictionary has zero length" else "cumulative frequency is zero")) ∧
    "longest word in dictionary has zero length" ≠ "cumulative frequency is zero" := by
  refine ⟨?_, by decide⟩
  unfold SpellModel.Segment
  rw [hopts]
  dsimp only
  by_cases h0 : model.longestWord = 0
  · have h1 : (model.longestWord : Int) = 0 := by rw [h0]; rfl
    rw [if_pos h1, if_pos h0]
  · have h1 : ¬ (model.longestWord : Int) = 0 := by omega
    have h2 : model.cumulativeFreq = 0 := by
      rcases hpre with h | h
      · exact absurd h h0
      · exact h
    rw [if_neg h1, if_pos h2, if_neg h0]

/-- Witness of C20 at a new model, whose `longestWord` is `0`, and at a model whose
`longestWord` is `3` and whose `cumulativeFreq` is `0`. -/
theorem Segment_fails_fast_witness :
    applySegmentOptions [] defaultSegmentParams = .ok defaultSegmentParams ∧
    (NewSpellModel.longestWord = 0 ∨ NewSpellModel.cumulativeFreq = 0) ∧
    (NewSpellModel.Segment ⟨Unit, (), fun _ _ => (), fun _ _ => (), fun _ _ => (),
        fun _ _ => false⟩ "abc".toList [] =
      .error (Fault.error (if NewSpellModel.longestWord = 0 then
        "longest word in dictionary has zero length" else "cumulative frequency is zero")) ∧
      "longest word in dictionary has zero length" ≠ "cumulative frequency is zero") ∧
    (({ NewSpellModel with longestWord := 3 } : SpellModel).Segment ⟨Unit, (), fun _ _ => (),
        fun _ _ => (), fun _ _ => (), fun _ _ => false⟩ "abc".toList [] =
      .error (Fault.error (if ({ NewSpellModel with longestWord := 3 } : SpellModel).longestWord
          = 0 then
        "longest word in dictionary has zero length" else "cumulative frequency is zero")) ∧
      "longest word in dictionary has zero length" ≠ "cumulative frequency is zero") :=
  ⟨rfl, Or.inl rfl,
    Segment_fails_fast _ NewSpellModel "abc".toList [] defaultSegmentParams rfl (Or.inl rfl),
    Segment_fails_fast _ { NewSpellModel with longestWord := 3 } "abc".toList []
      defaultSegmentParams rfl (Or.inr rfl)⟩

end SegmentClaims

/-! ## Facts for `Segment` -/

section SegmentStrings

/-- The loop of `Substring` from a start inside the string returns the code points from
`start` up to `e`. -/
theorem substringLoop_mid (s : GoString) (start e : Int) (h0 : 0 ≤ start) (hse : start ≤ e)
    (hlt : start < s.length) :
    ∀ (rest : List Char) (i sIdx : Int), i + rest.length = s.length →
      (i ≤ start ∨ (sIdx = start ∧ i ≤ e)) →
      substringLoop s start e rest i sIdx = (s.drop start.toNat).take (e - start).toNat := by
  intro rest
  induction rest with
  | nil =>
    intro i sIdx hi hc
    simp only [List.length_nil, Nat.cast_zero, add_zero] at hi
    rcases hc with hc | ⟨hc, hie⟩
    · omega
    · simp only [substringLoop]
      rw [hc]
      symm
      apply List.take_of_length_le
      rw [List.length_drop]
      omega
  | cons c rest ih =>
    intro i sIdx hi hc
    simp only [List.length_cons, Nat.cast_add, Nat.cast_one] at hi
    simp only [substringLoop]
    have hs : (if i = start then i else sIdx) = start ∨ i < start := by
      by_cases h1 : i = start
      · left; rw [if_pos h1]; exact h1
      · rw [if_neg h1]
        rcases hc with hc | ⟨hc, _⟩
        · right; omega
        · left; exact hc
    by_cases h2 : i = e
    · rw [if_pos h2]
      rcases hs with hs | hs
      · rw [hs, h2]
      · omega
    · rw [if_neg h2]
      apply ih
      · omega
      · rcases hs with hs | hs
        · rcases hc with hc | ⟨_, hie⟩
          · by_cases h3 : i + 1 ≤ start
            · left; exact h3
            · right; exact ⟨hs, by omega⟩
          · right; exact ⟨hs, by omega⟩
        · left; omega

/-- `Substring s start end` is the code points of `s` from `start` up to `end`. -/
theorem Substring_eq (s : GoString) (start e : Nat) (hse : start ≤ e) :
    Substring s (start : Int) (e : Int) = (s.drop start).take (e - start) := by
  unfold Substring
  split_ifs with h
  · have : s.drop start = [] := List.drop_of_length_le (by omega)
    rw [this, List.take_nil]
  · have h1 := substringLoop_mid s (start : Int) (e : Int) (by omega) (by omega) (by omega)
      s 0 0 (by simp) (Or.inl (by omega))
    rw [h1]
    have e1 : ((start : Int)).toNat = start := by omega
    have e2 : ((e : Int) - (start : Int)).toNat = e - start := by omega
    rw [e1, e2]

/-- The first byte of the encoding of a code point that is no white space is no white space
byte. -/
theorem utf8Bytes_head (c : Char) (hc : isWhiteSpace c = false) :
    ∃ b rest, utf8Bytes c = b :: rest ∧ isWhiteSpaceByte b = false := by
  unfold isWhiteSpace at hc
  simp only [decide_eq_false_iff_not] at hc
  unfold utf8Bytes
  dsimp only
  split_ifs with h1 h2 h3
  · refine ⟨_, _, rfl, ?_⟩
    unfold isWhiteSpaceByte
    simp only [decide_eq_false_iff_not]
    omega
  · refine ⟨_, _, rfl, ?_⟩
    unfold isWhiteSpaceByte
    simp only [decide_eq_false_iff_not]
    omega
  · refine ⟨_, _, rfl, ?_⟩
    unfold isWhiteSpaceByte
    simp only [decide_eq_false_iff_not]
    omega
  · refine ⟨_, _, rfl, ?_⟩
    unfold isWhiteSpaceByte
    simp only [decide_eq_false_iff_not]
    omega

/-- A code point that is no white space is no space. -/
theorem not_space_of_not_white (c : Char) (hc : isWhiteSpace c = false) : c ≠ ' ' := by
  intro h
  subst h
  revert hc
  decide

/-- The first byte of a string whose first code point is no white space is no white space
byte. -/
theorem stringBytes_head (c : Char) (cs : GoString) (hc : isWhiteSpace c = false) :
    ∃ b, (stringBytes (c :: cs))[0]? = some b ∧ isWhiteSpaceByte b = false := by
  obtain ⟨b, rest, h1, h2⟩ := utf8Bytes_head c hc
  refine ⟨b, ?_, h2⟩
  simp [stringBytes, h1]

/-- Removing the spaces of a string without a space returns the string. -/
theorem removeSpaces_of_no_space (s : GoString) (h : ∀ c ∈ s, c ≠ ' ') :
    removeSpaces s = s := by
  unfold removeSpaces
  rw [List.filter_eq_self]
  intro c hc
  simpa using h c hc

/-- Splitting a string returns one piece at least. -/
theorem splitSpaces_ne_nil (s : GoString) : splitSpaces s ≠ [] := by
  induction s with
  | nil => simp [splitSpaces]
  | cons c cs ih =>
    simp only [splitSpaces]
    split_ifs
    · simp
    · split <;> simp

/-- Splitting a string without a space returns the string as the only piece. -/
theorem splitSpaces_of_no_space (s : GoString) (h : ∀ c ∈ s, c ≠ ' ') :
    splitSpaces s = [s] := by
  induction s with
  | nil => rfl
  | cons c cs ih =>
    have h1 : c ≠ ' ' := h c (List.mem_cons_self _ _)
    have h2 := ih (fun d hd => h d (List.mem_cons_of_mem _ hd))
    simp only [splitSpaces, h1, if_false, h2]

/-- Splitting two strings joined by a space returns the pieces of the first and then the
pieces of the second. -/
theorem splitSpaces_append (s p : GoString) :
    splitSpaces (s ++ ' ' :: p) = splitSpaces s ++ splitSpaces p := by
  induction s with
  | nil => simp [splitSpaces]
  | cons c cs ih =>
    rw [List.cons_append]
    simp only [splitSpaces]
    split_ifs with h
    · rw [ih]; rfl
    · rw [ih]
      rcases hs : splitSpaces cs with _ | ⟨w, ws⟩
      · exact absurd hs (splitSpaces_ne_nil cs)
      · simp

/-- `Max` is not negative, since `findMax` seeds the maximum with `0`. -/
theorem Max_nonneg (arg : List Int) : 0 ≤ Max arg := by
  unfold Max findMax
  have : ∀ (l : List Int) (m : Int), 0 ≤ m →
      0 ≤ l.foldl (fun max arg => if max < arg then arg else max) m := by
    intro l
    induction l with
    | nil => intro m hm; exact hm
    | cons a l ih =>
      intro m hm
      rw [List.foldl_cons]
      apply ih
      split_ifs with h
      · omega
      · exact hm
  exact this arg 0 (le_refl _)

end SegmentStrings

section LookupNonneg

variable (model : SpellModel) (lp : lookupParams) (R : SuggestionList → Int → Prop)

/-- A bucket of suggestions is handled without a fault when each suggestion is. -/
theorem lookupSuggestions_keeps_of (input : GoString)
    (inputLen inputPrefixLen prefixLength : Int) (candidate : GoString) (candidateLen : Int)
    (hsug : ∀ st suggestion, R st.results st.editDistance →
      LookupKeeps R st (lookupSuggestion model lp input inputLen inputPrefixLen prefixLength
        candidate candidateLen st suggestion)) :
    ∀ (bucket : List DeleteEntry) (st : LookupState), R st.results st.editDistance →
      LookupKeeps R st (lookupSuggestions model lp input inputLen inputPrefixLen prefixLength
        candidate candidateLen bucket st) := by
  intro bucket
  induction bucket with
  | nil => intro st h; exact LookupKeeps.self h
  | cons suggestion rest ih =>
    intro st h
    obtain ⟨st2, h1, h2, h3, h4⟩ := hsug st suggestion h
    simp only [lookupSuggestions, h1]
    obtain ⟨st3, k1, k2, k3, k4⟩ := ih st2 h2
    exact ⟨st3, k1, k2, k3.trans h3, k4.trans h4⟩

/-- The candidate loop ends without a fault when each suggestion is handled without one
and the fuel covers the weight of the pending candidates. -/
theorem lookupLoop_total_of (input : GoString) (inputLen inputPrefixLen prefixLength : Int)
    (hsug : ∀ candidate candidateLen st suggestion, R st.results st.editDistance →
      LookupKeeps R st (lookupSuggestion model lp input inputLen inputPrefixLen prefixLength
        candidate candidateLen st suggestion)) :
    ∀ (fuel i : Nat) (st : LookupState), R st.results st.editDistance →
      candWeight (st.candidates.drop i) ≤ fuel →
      ∃ st2, lookupLoop model lp input inputLen inputPrefixLen prefixLength fuel i st =
        .ok st2 ∧ R st2.results st2.editDistance := by
  intro fuel
  induction fuel with
  | zero =>
    intro i st h hw
    have hnil := candWeight_eq_zero _ (Nat.le_zero.1 hw)
    have hlen : ¬ i < st.candidates.length := by
      have := List.drop_eq_nil_iff.1 hnil
      omega
    exact ⟨st, by simp [lookupLoop, hlen], h⟩
  | succ fuel ih =>
    intro i st h hw
    unfold lookupLoop
    rcases hc : st.candidates[i]? with _ | candidate
    · exact ⟨st, rfl, h⟩
    · have hi : i < st.candidates.length := (List.getElem?_eq_some_iff.1 hc).1
      have hdrop : st.candidates.drop i = candidate :: st.candidates.drop (i + 1) := by
        rw [List.drop_eq_getElem_cons hi]
        congr 1
        exact (List.getElem?_eq_some_iff.1 hc).2
      rw [hdrop, candWeight_cons] at hw
      have hpos := deleteTreeSize_pos candidate.length
      dsimp only
      obtain ⟨st2, e2, r2, c2, -⟩ : LookupKeeps R st
          (if (model.dictionaryDeletes.Load lp.dictOpts.Name (GetStringHash candidate)).2 = true
            then lookupSuggestions model lp input inputLen inputPrefixLen prefixLength candidate
              candidate.length
              (model.dictionaryDeletes.Load lp.dictOpts.Name (GetStringHash candidate)).1 st
            else .ok st) := by
        split_ifs
        · exact lookupSuggestions_keeps_of model lp R input inputLen inputPrefixLen
            prefixLength candidate candidate.length (hsug candidate candidate.length) _ st h
        · exact LookupKeeps.self h
      by_cases g1 : inputPrefixLen - (candidate.length : Int) > st.editDistance
      · rw [if_pos g1]
        split_ifs
        · exact ih (i + 1) st h (by omega)
        · exact ⟨st, rfl, h⟩
      · rw [if_neg g1, e2]
        dsimp only
        have hw2 : candWeight (st2.candidates.drop (i + 1)) ≤ fuel := by rw [c2]; omega
        split_ifs with g3 g4
        · exact ih (i + 1) st2 r2 hw2
        · obtain ⟨extra, x1, x2, x3, x4, x5⟩ := lookupExpand_spec candidate
            (List.range candidate.length) st2 (fun k hk => List.mem_range.1 hk)
          apply ih
          · rw [x4, x5]; exact r2
          · rw [x1, List.drop_append_of_le_length (by rw [c2]; omega), candWeight_append, c2]
            rw [List.length_range] at x2
            rcases Nat.eq_zero_or_pos candidate.length with hz | hp
            · have : extra = [] := List.length_eq_zero.1 (by omega)
              subst this
              rw [candWeight_nil]
              omega
            · obtain ⟨n, hn⟩ : ∃ n, candidate.length = n + 1 := ⟨candidate.length - 1, by omega⟩
              have hx : candWeight extra = extra.length * deleteTreeSize n :=
                candWeight_deletes n extra (fun c hc => by have := x3 c hc; omega)
              have hle : extra.length * deleteTreeSize n ≤ (n + 1) * deleteTreeSize n :=
                Nat.mul_le_mul_right _ (by omega)
              rw [hn] at hw
              simp only [deleteTreeSize] at hw
              omega
        · exact ih (i + 1) st2 r2 hw2

/-- The body of `Lookup` returns a list when each suggestion is handled without a fault,
and the list satisfies `Q` when the results satisfy `R` along the run. -/
theorem lookupBody_keeps_of (input : GoString) (Q : SuggestionList → Prop)
    (hsug : ∀ candidate candidateLen st suggestion, R st.results st.editDistance →
      LookupKeeps R st (lookupSuggestion model lp input input.length
        (min (input.length : Int) (lp.prefixLength : Int)) lp.prefixLength
        candidate candidateLen st suggestion))
    (hQ0 : Q [] ∧ Q [model.newDictSuggestion input 0 lp.dictOpts])
    (hR0 : R [] lp.editDistance ∧ (lp.suggestionLevel = suggestionLevel.ALL →
      R [model.newDictSuggestion input 0 lp.dictOpts] lp.editDistance))
    (hRQ : ∀ results ed, R results ed → Q (lp.sortFunc results)) :
    ∃ r, model.lookupBody lp input = .ok r ∧ Q r := by
  have hp : (0 : Int) ≤ min (input.length : Int) (lp.prefixLength : Int) := by omega
  have hrun : ∀ results0, R results0 lp.editDistance →
      ∃ r, (match lookupLoop model lp input input.length
          (min (input.length : Int) (lp.prefixLength : Int)) lp.prefixLength
          (deleteTreeSize (min (input.length : Int) (lp.prefixLength : Int)).toNat + 1) 0
          { results := results0
            editDistance := lp.editDistance
            consideredDeletes := []
            consideredSuggestions := [input]
            candidates := [Substring input 0
              (min (input.length : Int) (lp.prefixLength : Int))] } with
        | Except.error e => (Except.error e : Except Fault SuggestionList)
        | Except.ok st => Except.ok (lp.sortFunc st.results)) = Except.ok r ∧ Q r := by
    intro results0 hR
    obtain ⟨st2, h1, h2⟩ := lookupLoop_total_of model lp R input input.length
      (min (input.length : Int) (lp.prefixLength : Int)) lp.prefixLength hsug
      (deleteTreeSize (min (input.length : Int) (lp.prefixLength : Int)).toNat + 1) 0
      { results := results0
        editDistance := lp.editDistance
        consideredDeletes := []
        consideredSuggestions := [input]
        candidates := [Substring input 0
          (min (input.length : Int) (lp.prefixLength : Int))] } hR (by
        simp only [List.drop_zero, candWeight_cons, candWeight_nil, add_zero]
        have hlen : (Substring input 0
            (min (input.length : Int) (lp.prefixLength : Int))).length ≤
            (min (input.length : Int) (lp.prefixLength : Int)).toNat := by
          rw [Substring_zero input _ hp, List.length_take]
          exact min_le_left _ _
        have := deleteTreeSize_mono hlen
        omega)
    rw [h1]
    exact ⟨_, rfl, hRQ _ _ h2⟩
  unfold SpellModel.lookupBody
  simp only [Min_pair, List.nil_append]
  by_cases hex : (model.library.Load lp.dictOpts.Name input).2 = true
  · simp only [hex, if_true, true_and]
    by_cases hl : lp.suggestionLevel = suggestionLevel.ALL
    · have hl2 : ¬ lp.suggestionLevel ≠ suggestionLevel.ALL := fun h => h hl
      rw [if_neg hl2]
      split_ifs with hz
      · exact ⟨_, rfl, hQ0.2⟩
      · exact hrun _ (hR0.2 hl)
    · rw [if_pos hl]
      exact ⟨_, rfl, hQ0.2⟩
  · simp only [hex, if_false, false_and, Bool.false_eq_true]
    split_ifs with hz
    · exact ⟨_, rfl, hQ0.1⟩
    · exact hrun _ hR0.1

/-- The suggestions after the statements that add a suggestion are old ones or the new
one. -/
theorem lookupAdd_mem (sug : DeleteEntry) (dist : Int) (st st2 : LookupState)
    (h : lookupAdd model lp sug dist st = .ok st2) :
    ∀ s ∈ st2.results, s ∈ st.results ∨ s = model.newDictSuggestion sug.Str dist lp.dictOpts := by
  unfold lookupAdd at h
  by_cases h1 : dist ≤ st.editDistance
  · rw [if_pos h1] at h
    by_cases h2 : st.results.length > 0 ∧ lp.suggestionLevel = suggestionLevel.BEST
    · rw [if_pos h2] at h
      rcases hres : st.results with _ | ⟨r0, rest⟩
      · rw [hres] at h2; simp at h2
      · rw [hres] at h
        dsimp only at h
        split_ifs at h
        · cases h
          intro s hs
          rcases List.mem_cons.1 hs with hs | hs
          · right; exact hs
          · left; exact List.mem_cons_of_mem _ hs
        · cases h
          intro s hs
          left
          rw [hres] at hs
          exact hs
    · rw [if_neg h2] at h
      cases h
      intro s hs
      dsimp only at hs
      rcases List.mem_append.1 hs with hs | hs
      · left
        split_ifs at hs
        · simp at hs
        · exact hs
      · right
        exact List.mem_singleton.1 hs
  · rw [if_neg h1] at h
    cases h
    intro s hs
    left; exact hs

/-- One suggestion of a bucket is handled without a fault for a non-empty input, and `R`
is kept when adding a suggestion at a distance that is not negative keeps it. -/
theorem lookupSuggestion_keeps_nonneg (input : GoString)
    (inputLen inputPrefixLen prefixLength : Int) (candidate : GoString) (candidateLen : Int)
    (hin : 1 ≤ inputLen)
    (hdf : ∀ a b c, ∃ r, lp.distanceFunction a b c = some r)
    (hadd : ∀ sug dist st st2, 0 ≤ dist → lookupAdd model lp sug dist st = .ok st2 →
      R st.results st.editDistance → R st2.results st2.editDistance)
    (st : LookupState) (suggestion : DeleteEntry) (h : R st.results st.editDistance) :
    LookupKeeps R st (lookupSuggestion model lp input inputLen inputPrefixLen prefixLength
      candidate candidateLen st suggestion) := by
  have hk : ∀ (cs : List GoString) (dist : Int), 0 ≤ dist → LookupKeeps R st
      (lookupAdd model lp suggestion dist { st with consideredSuggestions := cs }) := by
    intro cs dist hd
    obtain ⟨st2, h1, h2, h3⟩ :=
      lookupAdd_total model lp suggestion dist { st with consideredSuggestions := cs }
    exact ⟨st2, h1, hadd _ _ _ _ hd h1 h, h2, h3⟩
  unfold lookupSuggestion
  simp only [Min_pair]
  obtain ⟨d, hd⟩ := hdf input suggestion.Runes st.editDistance
  simp only [hd]
  have hmax := Max_nonneg [inputLen, suggestion.Len]
  split_ifs
  all_goals first
    | exact LookupKeeps.self h
    | exact LookupKeeps.considered h _
    | exact hk _ _ hmax
    | exact hk _ _ (by omega)

end LookupNonneg

section LookupSegment

/-- For a non-empty input and the options of `defaultSegmentParams`, `Lookup` returns a
list whose suggestions have a distance that is not negative and a word of the library or
the empty word. -/
theorem Lookup_default_segment (model : SpellModel) (part : GoString) (hpart : part ≠ []) :
    ∃ r, model.Lookup part defaultSegmentParams.lookupOptions = .ok r ∧
      ∀ s ∈ r, 0 ≤ s.Distance ∧ ∃ w, s.Entry = (model.library.Load defaultDict w).1 := by
  have hopts : model.Lookup part defaultSegmentParams.lookupOptions =
      model.lookupBody { model.defaultLookupParams with
        suggestionLevel := suggestionLevel.BEST } part := rfl
  rw [hopts]
  have hlen : (1 : Int) ≤ (part.length : Int) := by
    have := List.length_pos.2 hpart
    omega
  apply lookupBody_keeps_of model _
    (fun results _ => ∀ s ∈ results, 0 ≤ s.Distance ∧
      ∃ w, s.Entry = (model.library.Load defaultDict w).1) part
    (fun r => ∀ s ∈ r, 0 ≤ s.Distance ∧ ∃ w, s.Entry = (model.library.Load defaultDict w).1)
  · intro candidate candidateLen st suggestion h
    apply lookupSuggestion_keeps_nonneg model _ _ part _ _ _ candidate candidateLen hlen
      (fun a b c => DamerauLevenshteinRunes_total a b c) _ st suggestion h
    intro sug dist st1 st2 hd hadd hR s hs
    rcases lookupAdd_mem model _ sug dist st1 st2 hadd s hs with hs | hs
    · exact hR s hs
    · rw [hs]
      exact ⟨hd, sug.Str, rfl⟩
  · refine ⟨by simp, ?_⟩
    intro s hs
    rw [List.mem_singleton.1 hs]
    exact ⟨le_refl _, part, rfl⟩
  · refine ⟨by simp, fun h => by cases h⟩
  · intro results _ h s hs
    change s ∈ sortSlice defaultLess results at hs
    exact h s ((sortSlice_perm defaultLess results).mem_iff.1 hs)

end LookupSegment

section SegmentLoops

/-- A counting loop whose body keeps an invariant, and returns while it holds, returns a
state in which the invariant holds. -/
theorem forLoopE_inv {σ : Type} (body : Int → σ → Except Fault σ) :
    ∀ (m : Nat) (Inv : Nat → σ → Prop) (start : Int),
      (∀ k s, k < m → Inv k s → ∃ s2, body (start + k) s = .ok s2 ∧ Inv (k + 1) s2) →
      ∀ s, Inv 0 s → ∃ s2, forLoopE body m start s = .ok s2 ∧ Inv m s2 := by
  intro m
  induction m with
  | zero => intro Inv start _ s h; exact ⟨s, rfl, h⟩
  | succ m ih =>
    intro Inv start hstep s h
    obtain ⟨s1, h1, h2⟩ := hstep 0 s (Nat.succ_pos _) h
    rw [Nat.cast_zero, add_zero] at h1
    obtain ⟨s2, h3, h4⟩ := ih (fun k t => Inv (k + 1) t) (start + 1)
      (fun k t hk ht => by
        have := hstep (k + 1) t (by omega) ht
        rwa [Nat.cast_add, Nat.cast_one, add_comm (k : Int) 1, ← add_assoc] at this) s1 h2
    exact ⟨s2, by simp only [forLoopE, h1, h3], h4⟩

/-- A part of an input without white space has none. -/
theorem part_no_space (input : GoString) (hws : ∀ c ∈ input, isWhiteSpace c = false)
    (i j : Nat) : ∀ c ∈ (input.drop i).take j, c ≠ ' ' := fun c hc =>
  not_space_of_not_white c (hws c (List.mem_of_mem_drop (List.mem_of_mem_take hc)))

/-- The word that `Segment` takes for a non-empty part comes with a count of edits that is
not negative, and it is the part itself or a word that the library loads. -/
theorem segmentTop_ok (model : SpellModel) (part : GoString) (hne : part ≠ []) :
    0 ≤ (segmentTop model part).2 ∧ IsTop model part (segmentTop model part).1 := by
  obtain ⟨r, hr1, hr2⟩ := Lookup_default_segment model part hne
  unfold segmentTop
  rw [hr1]
  rcases r with _ | ⟨s0, rest⟩
  · exact ⟨by positivity, Or.inl rfl⟩
  · obtain ⟨h1, w, h2⟩ := hr2 s0 (List.mem_cons_self _ _)
    exact ⟨h1, Or.inr ⟨w, by rw [← h2]⟩⟩

/-- The body of the loop over `j` of `Segment` with the default options, on an input
without white space: the part is the `j` code points from `i`, the lookup returns, and
what is left is the update of the cell with the word and the edits of `segmentTop` for
the part. -/
theorem segmentPart_top (fl : FloatOps) (model : SpellModel) (input : GoString)
    (hws : ∀ c ∈ input, isWhiteSpace c = false) (longestWord arraySize : Int)
    (cumulativeFreq : Nat) (i j : Nat) (circularIdx : Int)
    (compositions : List (composition fl.F)) (hj : 1 ≤ j) (hij : i + j ≤ input.length)
    (hA : arraySize ≠ 0) :
    ∃ prob : fl.F,
      segmentPart fl model defaultSegmentParams.lookupOptions input longestWord arraySize
        cumulativeFreq i circularIdx j compositions =
      if (i : Int) = 0 then
        match upd compositions (Int.tmod (j + circularIdx) arraySize)
            ⟨(input.drop i).take j, (segmentTop model ((input.drop i).take j)).1,
              (segmentTop model ((input.drop i).take j)).2, prob⟩ with
        | some cs => .ok cs
        | none => .error Fault.crash
      else
        match idx compositions circularIdx,
            idx compositions (Int.tmod (j + circularIdx) arraySize) with
        | some cc, some cd =>
          if (j : Int) = longestWord ∨
              ((cc.distanceSum + (segmentTop model ((input.drop i).take j)).2 =
                    cd.distanceSum ∨
                  cc.distanceSum + 1 + (segmentTop model ((input.drop i).take j)).2 =
                    cd.distanceSum) ∧
                fl.lt cd.probability (fl.add cc.probability prob) = true) ∨
              cc.distanceSum + 1 + (segmentTop model ((input.drop i).take j)).2 <
                cd.distanceSum then
            match upd compositions (Int.tmod (j + circularIdx) arraySize)
                ⟨cc.segmentedString ++ " ".toList ++ (input.drop i).take j,
                  cc.correctedString ++ " ".toList ++
                    (segmentTop model ((input.drop i).take j)).1,
                  cc.distanceSum + 1 + (segmentTop model ((input.drop i).take j)).2,
                  fl.add cc.probability prob⟩ with
            | some cs => .ok cs
            | none => .error Fault.crash
          else .ok compositions
        | _, _ => .error Fault.crash := by
  have hsub : Substring input (i : Int) ((i : Int) + (j : Int)) = (input.drop i).take j := by
    have := Substring_eq input i (i + j) (by omega)
    rw [Nat.add_sub_cancel_left] at this
    rw [← this]
    push_cast
    rfl
  have hne : (input.drop i).take j ≠ [] := by
    intro h
    have := congrArg List.length h
    rw [List.length_take, List.length_drop, List.length_nil] at this
    omega
  obtain ⟨c, cs, hpart⟩ : ∃ c cs, (input.drop i).take j = c :: cs := by
    rcases hp : (input.drop i).take j with _ | ⟨c, cs⟩
    · exact absurd hp hne
    · exact ⟨c, cs, rfl⟩
  have hc : isWhiteSpace c = false :=
    hws c (List.mem_of_mem_drop (List.mem_of_mem_take (by
      rw [hpart]; exact List.mem_cons_self _ _)))
  obtain ⟨b, hb1, hb2⟩ := stringBytes_head c cs hc
  have hrem := removeSpaces_of_no_space _ (part_no_space input hws i j)
  obtain ⟨r, hr1, -⟩ := Lookup_default_segment model _ hne
  unfold segmentPart segmentTop
  simp only [hsub]
  rw [hpart] at hrem hr1 ⊢
  simp only [hb1, hb2, Bool.false_eq_true, if_false, hrem, sub_self, hr1, zero_add, hA]
  rcases r with _ | ⟨s0, rest⟩
  · exact ⟨_, rfl⟩
  · exact ⟨_, rfl⟩

/-- The body of the loop over `j` of `Segment` with the default options, on an input
without white space: the part is the `j` code points from `i`, the lookup returns, and
what is left is the update of the cell with a word for the part and a count of edits. -/
theorem segmentPart_eq (fl : FloatOps) (model : SpellModel) (input : GoString)
    (hws : ∀ c ∈ input, isWhiteSpace c = false) (longestWord arraySize : Int)
    (cumulativeFreq : Nat) (i j : Nat) (circularIdx : Int)
    (compositions : List (composition fl.F)) (hj : 1 ≤ j) (hij : i + j ≤ input.length)
    (hA : arraySize ≠ 0) :
    ∃ (topResult : GoString) (topEd : Int) (prob : fl.F), 0 ≤ topEd ∧
      IsTop model ((input.drop i).take j) topResult ∧
      segmentPart fl model defaultSegmentParams.lookupOptions input longestWord arraySize
        cumulativeFreq i circularIdx j compositions =
      if (i : Int) = 0 then
        match upd compositions (Int.tmod (j + circularIdx) arraySize)
            ⟨(input.drop i).take j, topResult, topEd, prob⟩ with
        | some cs => .ok cs
        | none => .error Fault.crash
      else
        match idx compositions circularIdx,
            idx compositions (Int.tmod (j + circularIdx) arraySize) with
        | some cc, some cd =>
          if (j : Int) = longestWord ∨
              ((cc.distanceSum + topEd = cd.distanceSum ∨
                  cc.distanceSum + 1 + topEd = cd.distanceSum) ∧
                fl.lt cd.probability (fl.add cc.probability prob) = true) ∨
              cc.distanceSum + 1 + topEd < cd.distanceSum then
            match upd compositions (Int.tmod (j + circularIdx) arraySize)
                ⟨cc.segmentedString ++ " ".toList ++ (input.drop i).take j,
                  cc.correctedString ++ " ".toList ++ topResult,
                  cc.distanceSum + 1 + topEd,
                  fl.add cc.probability prob⟩ with
            | some cs => .ok cs
            | none => .error Fault.crash
          else .ok compositions
        | _, _ => .error Fault.crash := by
  have hne : (input.drop i).take j ≠ [] := by
    intro h
    have := congrArg List.length h
    rw [List.length_take, List.length_drop, List.length_nil] at this
    omega
  obtain ⟨prob, h⟩ := segmentPart_top fl model input hws longestWord arraySize cumulativeFreq
    i j circularIdx compositions hj hij hA
  obtain ⟨h1, h2⟩ := segmentTop_ok model _ hne
  refine ⟨_, _, prob, h1, h2, ?_⟩
  rw [h]

end SegmentLoops

section SegmentRows

/-- Two numbers less than a modulus apart have different remainders. -/
theorem mod_ne_of_lt (a b A : Nat) (h1 : a < b) (h2 : b - a < A) : a % A ≠ b % A := by
  intro h
  have hd : A ∣ b - a := (Nat.modEq_iff_dvd' (le_of_lt h1)).1 h
  have := Nat.le_of_dvd (by omega) hd
  omega

/-- The step of `circularIdx` at the end of a row. -/
theorem circularIdx_step (i A : Nat) (hi : 1 ≤ i) (hA : 0 < A) :
    (if (((i - 1) % A : Nat) : Int) + 1 = (A : Int) then (0 : Int)
      else (((i - 1) % A : Nat) : Int) + 1) = ((i % A : Nat) : Int) := by
  have h := Nat.div_add_mod (i - 1) A
  have hr := Nat.mod_lt (i - 1) hA
  by_cases hc : (i - 1) % A + 1 = A
  · rw [if_pos (by exact_mod_cast hc)]
    have : i = A * ((i - 1) / A + 1) := by rw [Nat.mul_add, Nat.mul_one]; omega
    rw [this, Nat.mul_mod_right]
    rfl
  · rw [if_neg (by exact_mod_cast hc)]
    have : i = A * ((i - 1) / A) + ((i - 1) % A + 1) := by omega
    have h2 : i % A = (i - 1) % A + 1 := by
      conv_lhs => rw [this]
      rw [Nat.mul_add_mod, Nat.mod_eq_of_lt (by omega)]
    rw [h2]
    push_cast
    rfl

/-- The destination index of the part of length `j` in a row. -/
theorem destinationIdx_eq (j c A : Nat) :
    Int.tmod ((j : Int) + (c : Int)) (A : Int) = (((j + c) % A : Nat) : Int) := by
  rw [← Nat.cast_add, ← Int.ofNat_tmod]

/-- The first row of `Segment`, on an input without white space: the row returns, and
the cell for each length up to the size of the buffer holds a composition for it. -/
theorem segmentRow_zero (fl : FloatOps) (model : SpellModel) (input : GoString)
    (hws : ∀ c ∈ input, isWhiteSpace c = false) (lw A : Nat) (cf : Nat)
    (hA : A = min input.length lw) (hA0 : 0 < A)
    (comps : List (composition fl.F)) (hlen : comps.length = A) :
    ∃ comps2, segmentRow fl model defaultSegmentParams.lookupOptions input input.length lw A
        cf 0 (comps, -1) = .ok (comps2, 0) ∧ comps2.length = A ∧
      ∀ L, 1 ≤ L → L ≤ A → ∃ c, comps2[L - 1]? = some c ∧ IsCell model input L c := by
  unfold segmentRow
  rw [Min_pair]
  have hj : (min ((input.length : Int) - 0) (lw : Int)).toNat = A := by
    rw [sub_zero, hA]
    omega
  simp only [hj]
  obtain ⟨comps2, h1, h2, h3⟩ := forLoopE_inv
    (segmentPart fl model defaultSegmentParams.lookupOptions input lw A cf 0 (-1)) A
    (fun k cs => cs.length = A ∧
      ∀ L, 1 ≤ L → L ≤ k → ∃ c, cs[L - 1]? = some c ∧ IsCell model input L c) 1
    (by
      intro k cs hk ⟨hl, hc⟩
      obtain ⟨topResult, topEd, prob, t1, t2, t3⟩ := segmentPart_eq fl model input hws lw A cf
        0 (k + 1) (-1) cs (by omega) (by omega) (by omega)
      have e1 : (1 : Int) + (k : Int) = ((k + 1 : Nat) : Int) := by push_cast; ring
      have e2 : Int.tmod (((k + 1 : Nat) : Int) + -1) (A : Int) = (k : Int) := by
        have : ((k + 1 : Nat) : Int) + -1 = (k : Int) := by push_cast; ring
        rw [this, ← Int.ofNat_tmod, Nat.mod_eq_of_lt hk]
      rw [e1]
      rw [Nat.cast_zero] at t3
      rw [t3, if_pos rfl, e2, upd_of_eq _ _ k _ rfl (by omega)]
      refine ⟨_, rfl, by rw [List.length_set]; exact hl, ?_⟩
      intro L hL1 hL2
      by_cases hLk : L = k + 1
      · subst hLk
        refine ⟨_, by rw [Nat.add_sub_cancel, List.getElem?_set_self (by omega)], ?_⟩
        have := @SegCell.first model input (k + 1) topResult topEd (by omega) (by omega) t1
          (by simpa using t2)
        simpa [IsCell] using this
      · obtain ⟨c, c1, c2⟩ := hc L hL1 (by omega)
        refine ⟨c, ?_, c2⟩
        rw [List.getElem?_set_ne (by omega)]
        exact c1)
    comps ⟨hlen, fun L h1 h2 => by omega⟩
  rw [h1]
  refine ⟨comps2, ?_, h2, h3⟩
  have : ¬ ((-1 : Int) + 1 = (A : Int)) := by omega
  simp only [this, if_false]
  rfl

/-- A later row of `Segment`, on an input without white space: when the cells for the
lengths from `i` hold compositions for them, the row returns, and the cells for the
lengths from `i + 1` do. -/
theorem segmentRow_succ (fl : FloatOps) (model : SpellModel) (input : GoString)
    (hws : ∀ c ∈ input, isWhiteSpace c = false) (lw A : Nat) (cf : Nat)
    (hA : A = min input.length lw) (i : Nat) (hi : 1 ≤ i) (hin : i < input.length)
    (hlw : 0 < lw)
    (comps : List (composition fl.F)) (hlen : comps.length = A)
    (hcells : ∀ L, i ≤ L → L ≤ input.length → L < i + lw →
      ∃ c, comps[(L - 1) % A]? = some c ∧ IsCell model input L c) :
    ∃ comps2, segmentRow fl model defaultSegmentParams.lookupOptions input input.length lw A
        cf i (comps, (((i - 1) % A : Nat) : Int)) = .ok (comps2, ((i % A : Nat) : Int)) ∧
      comps2.length = A ∧
      ∀ L, i + 1 ≤ L → L ≤ input.length → L < i + 1 + lw →
        ∃ c, comps2[(L - 1) % A]? = some c ∧ IsCell model input L c := by
  have hA0 : 0 < A := by omega
  unfold segmentRow
  rw [Min_pair]
  obtain ⟨jMax, hjMax⟩ : ∃ jMax : Nat, jMax = min (input.length - i) lw := ⟨_, rfl⟩
  have hj : (min ((input.length : Int) - (i : Int)) (lw : Int)).toNat = jMax := by omega
  simp only [hj]
  obtain ⟨comps2, h1, h2, -, h3⟩ := forLoopE_inv
    (segmentPart fl model defaultSegmentParams.lookupOptions input lw A cf i
      (((i - 1) % A : Nat) : Int)) jMax
    (fun k cs => cs.length = A ∧
      (k < A → ∃ c, cs[(i - 1) % A]? = some c ∧ IsCell model input i c) ∧
      ∀ L, i + 1 ≤ L → L ≤ input.length → L ≤ i + lw → (L ≤ i + k ∨ L < i + lw) →
        ∃ c, cs[(L - 1) % A]? = some c ∧ IsCell model input L c) 1
    (by
      intro k cs hk ⟨hl, hcc, hc⟩
      obtain ⟨topResult, topEd, prob, t1, t2, t3⟩ := segmentPart_eq fl model input hws lw A cf
        i (k + 1) (((i - 1) % A : Nat) : Int) cs (by omega) (by omega) (by omega)
      have e1 : (1 : Int) + (k : Int) = ((k + 1 : Nat) : Int) := by push_cast; ring
      have e2 : (k + 1 + (i - 1) % A) % A = (i + k) % A := by
        have : i + k = k + 1 + (i - 1) := by omega
        rw [this, Nat.add_mod (k + 1) (i - 1), Nat.add_mod (k + 1) ((i - 1) % A),
          Nat.mod_mod]
      have hi0 : ¬ ((i : Int) = 0) := by omega
      obtain ⟨cc, c1, c2⟩ := hcc (by omega)
      have hd : (i + k) % A < cs.length := by rw [hl]; exact Nat.mod_lt _ hA0
      obtain ⟨cd, c3⟩ : ∃ cd, cs[(i + k) % A]? = some cd :=
        ⟨_, List.getElem?_eq_getElem hd⟩
      rw [e1, t3, if_neg hi0, destinationIdx_eq, e2, idx_natCast, idx_natCast, c1, c3]
      dsimp only
      have keep : ∀ L, i + 1 ≤ L → L ≤ input.length → L ≤ i + lw → L ≠ i + k + 1 →
          (L - 1) % A ≠ (i + k) % A := by
        intro L l1 l2 l3 l4
        rcases Nat.lt_or_gt_of_ne l4 with l5 | l5
        · exact mod_ne_of_lt _ _ _ (by omega) (by omega)
        · exact (mod_ne_of_lt _ _ _ (by omega) (by omega)).symm
      split_ifs with hcond
      · rw [upd_of_eq _ _ ((i + k) % A) _ rfl hd]
        refine ⟨_, rfl, by rw [List.length_set]; exact hl, ?_, ?_⟩
        · intro hkA
          refine ⟨cc, ?_, c2⟩
          rw [List.getElem?_set_ne (mod_ne_of_lt _ _ _ (by omega) (by omega)).symm]
          exact c1
        · intro L l1 l2 l3 l4
          by_cases hLk : L = i + k + 1
          · subst hLk
            refine ⟨_, by rw [Nat.add_sub_cancel, List.getElem?_set_self hd], ?_⟩
            exact @SegCell.next model input i (k + 1) _ _ _ topResult topEd c2 (by omega)
              (by omega) t1 t2
          · obtain ⟨c, c4, c5⟩ := hc L l1 l2 l3 (by omega)
            refine ⟨c, ?_, c5⟩
            rw [List.getElem?_set_ne (keep L l1 l2 l3 hLk).symm]
            exact c4
      · have hklw : k + 1 ≠ lw := by
          intro h
          apply hcond
          left
          exact_mod_cast h
        refine ⟨_, rfl, hl, fun hkA => hcc (by omega), ?_⟩
        intro L l1 l2 l3 l4
        exact hc L l1 l2 l3 (by omega))
    comps ⟨hlen, fun _ => hcells i (le_refl _) (by omega) (by omega),
      fun L l1 l2 l3 l4 => hcells L (by omega) l2 (by omega)⟩
  rw [h1]
  refine ⟨comps2, ?_, h2, fun L l1 l2 l3 => h3 L l1 l2 (by omega) (by omega)⟩
  dsimp only
  rw [circularIdx_step i A hi hA0]

end SegmentRows

section SegmentRun

/-- The loops of `Segment` with the default options, on a non-empty input without white
space: they return, `circularIdx` ends at the cell of the whole input, and that cell
holds a composition for the whole input. -/
theorem segment_loops (fl : FloatOps) (model : SpellModel) (input : GoString)
    (hws : ∀ c ∈ input, isWhiteSpace c = false) (lw A : Nat) (cf : Nat)
    (hA : A = min input.length lw) (hne : input ≠ []) (hlw : 0 < lw) (c0 : composition fl.F) :
    ∃ comps c, forLoopE
        (segmentRow fl model defaultSegmentParams.lookupOptions input input.length lw A cf)
        input.length 0 (List.replicate A c0, -1) =
          .ok (comps, (((input.length - 1) % A : Nat) : Int)) ∧
      comps.length = A ∧
      comps[(input.length - 1) % A]? = some c ∧ IsCell model input input.length c := by
  have hn : 0 < input.length := List.length_pos.2 hne
  have hA0 : 0 < A := by omega
  obtain ⟨m, hm⟩ : ∃ m, input.length = m + 1 := ⟨input.length - 1, by omega⟩
  obtain ⟨comps1, r1, r2, r3⟩ := segmentRow_zero fl model input hws lw A cf hA hA0
    (List.replicate A c0) (List.length_replicate _ _)
  obtain ⟨⟨comps, ci⟩, f1, f2, f3, f4⟩ := forLoopE_inv
    (segmentRow fl model defaultSegmentParams.lookupOptions input input.length lw A cf) m
    (fun k (s : List (composition fl.F) × Int) => s.2 = ((k % A : Nat) : Int) ∧
      s.1.length = A ∧
      ∀ L, k + 1 ≤ L → L ≤ input.length → L < k + 1 + lw →
        ∃ c, s.1[(L - 1) % A]? = some c ∧ IsCell model input L c) (0 + 1)
    (by
      intro k ⟨cs, ci⟩ hk ⟨k1, k2, k3⟩
      dsimp only at k1 k2 k3
      subst k1
      obtain ⟨cs2, s1, s2, s3⟩ := segmentRow_succ fl model input hws lw A cf hA (k + 1)
        (by omega) (by omega) hlw cs k2 k3
      rw [Nat.add_sub_cancel] at s1
      have e : (0 : Int) + 1 + (k : Int) = ((k + 1 : Nat) : Int) := by push_cast; ring
      rw [e, s1]
      exact ⟨_, rfl, rfl, s2, s3⟩)
    (comps1, 0) ⟨by simp, r2, fun L l1 l2 l3 => by
      obtain ⟨c, c1, c2⟩ := r3 L (by omega) (by omega)
      refine ⟨c, ?_, c2⟩
      dsimp only
      rw [Nat.mod_eq_of_lt (by omega)]
      exact c1⟩
  dsimp only at f2 f3 f4
  obtain ⟨c, c1, c2⟩ := f4 input.length (by omega) (le_refl _) (by omega)
  refine ⟨comps, c, ?_, f3, c1, c2⟩
  have key : ∀ N, N = m + 1 → forLoopE
      (segmentRow fl model defaultSegmentParams.lookupOptions input input.length lw A cf)
      N 0 (List.replicate A c0, -1) = .ok (comps, ((m % A : Nat) : Int)) := by
    intro N hN
    subst hN
    simp only [forLoopE, r1, f1, f2]
  rw [key _ hm, hm, Nat.add_sub_cancel]

/-- What a composition for the first `L` code points of an input without white space says
about the pieces of its strings: the pieces of the segmented string make up the prefix and
none is empty, the corrected string has as many pieces at least, and the distance counts
one edit per separator at least. -/
theorem SegCell_pieces (model : SpellModel) (input : GoString)
    (hws : ∀ c ∈ input, isWhiteSpace c = false) (L : Nat) (seg corr : GoString) (d : Int)
    (h : SegCell model input L seg corr d) :
    (splitSpaces seg).flatten = input.take L ∧ (∀ p ∈ splitSpaces seg, p ≠ []) ∧
      (splitSpaces seg).length ≤ (splitSpaces corr).length ∧
      ((splitSpaces seg).length : Int) - 1 ≤ d := by
  have hpart : ∀ i j, 1 ≤ j → i + j ≤ input.length → (input.drop i).take j ≠ [] := by
    intro i j h1 h2 h
    have := congrArg List.length h
    rw [List.length_take, List.length_drop, List.length_nil] at this
    omega
  have hpos : ∀ s : GoString, 1 ≤ (splitSpaces s).length := fun s =>
    List.length_pos.2 (splitSpaces_ne_nil s)
  induction h with
  | first j topResult topEd h1 h2 h3 h4 =>
    have e : splitSpaces (input.take j) = [input.take j] := by
      have := splitSpaces_of_no_space _ (part_no_space input hws 0 j)
      rwa [List.drop_zero] at this
    rw [e]
    refine ⟨by simp, ?_, by simpa using hpos topResult, by simpa using h3⟩
    intro p hp
    rw [List.mem_singleton.1 hp]
    have := hpart 0 j h1 (by omega)
    rwa [List.drop_zero] at this
  | next i j seg corr d topResult topEd _ h1 h2 h3 h4 ih =>
    obtain ⟨i1, i2, i3, i4⟩ := ih
    have e1 : seg ++ " ".toList ++ (input.drop i).take j =
        seg ++ ' ' :: (input.drop i).take j := by simp
    have e2 : corr ++ " ".toList ++ topResult = corr ++ ' ' :: topResult := by simp
    rw [e1, e2, splitSpaces_append, splitSpaces_append,
      splitSpaces_of_no_space _ (part_no_space input hws i j)]
    refine ⟨?_, ?_, ?_, ?_⟩
    · rw [List.flatten_append, i1, List.take_add]
      simp
    · intro p hp
      rcases List.mem_append.1 hp with hp | hp
      · exact i2 p hp
      · rw [List.mem_singleton.1 hp]
        exact hpart i j h1 h2
    · have := hpos topResult
      simp only [List.length_append, List.length_singleton]
      omega
    · simp only [List.length_append, List.length_singleton]
      push_cast
      omega

/-- The word that `Segment` takes for a part without a space has no space when the words
of the default dictionary have none. -/
theorem IsTop_no_space (model : SpellModel)
    (hlib : ∀ w, ' ' ∉ (model.library.Load defaultDict w).1.Word) (part topResult : GoString)
    (hp : ∀ c ∈ part, c ≠ ' ') (h : IsTop model part topResult) : ∀ c ∈ topResult, c ≠ ' ' := by
  intro c hc hcs
  subst hcs
  rcases h with h | ⟨w, h⟩
  · subst h
    exact hp _ hc rfl
  · rw [h] at hc
    exact hlib w hc

/-- The two strings of a composition for a prefix of an input without white space have as
many pieces when the words of the default dictionary have no space. -/
theorem SegCell_same_length (model : SpellModel) (input : GoString)
    (hws : ∀ c ∈ input, isWhiteSpace c = false)
    (hlib : ∀ w, ' ' ∉ (model.library.Load defaultDict w).1.Word)
    (L : Nat) (seg corr : GoString) (d : Int) (h : SegCell model input L seg corr d) :
    (splitSpaces corr).length = (splitSpaces seg).length := by
  induction h with
  | first j topResult topEd h1 h2 h3 h4 =>
    have e : splitSpaces (input.take j) = [input.take j] := by
      have := splitSpaces_of_no_space _ (part_no_space input hws 0 j)
      rwa [List.drop_zero] at this
    rw [e, splitSpaces_of_no_space _ (IsTop_no_space model hlib _ _ (by
      have := part_no_space input hws 0 j
      rwa [List.drop_zero] at this) h4)]
    rfl
  | next i j seg corr d topResult topEd _ h1 h2 h3 h4 ih =>
    have e1 : seg ++ " ".toList ++ (input.drop i).take j =
        seg ++ ' ' :: (input.drop i).take j := by simp
    have e2 : corr ++ " ".toList ++ topResult = corr ++ ' ' :: topResult := by simp
    rw [e1, e2, splitSpaces_append, splitSpaces_append,
      splitSpaces_of_no_space _ (part_no_space input hws i j),
      splitSpaces_of_no_space _ (IsTop_no_space model hlib _ _
        (part_no_space input hws i j) h4)]
    simp only [List.length_append, List.length_singleton, ih]

/-- The loop over the corrected words returns when the segmented words are enough for
them, with one segment per corrected word, which carries the segmented word at its
position, the corrected word and the entry of the corrected word. -/
theorem segmentEntries_ok (model : SpellModel) (segmentedWords : List GoString) :
    ∀ (correctedWords : List GoString) (i : Nat),
      i + correctedWords.length ≤ segmentedWords.length →
      ∃ segments, segmentEntries model segmentedWords correctedWords i = .ok segments ∧
        segments.map Segment.Input = (segmentedWords.drop i).take correctedWords.length ∧
        segments.map Segment.Word = correctedWords ∧
        ∀ s ∈ segments, model.GetEntry s.Word [] = .ok s.Entry := by
  intro correctedWords
  induction correctedWords with
  | nil => intro i _; exact ⟨[], rfl, by simp, rfl, by simp⟩
  | cons word rest ih =>
    intro i hi
    rw [List.length_cons] at hi
    obtain ⟨segments, h1, h2, h3, h4⟩ := ih (i + 1) (by omega)
    obtain ⟨e, he⟩ : ∃ e, model.GetEntry word [] = .ok e := by
      unfold SpellModel.GetEntry
      simp only [applyDictOptions]
      rcases model.library.Load defaultDictOptions.Name word with ⟨entry, _ | _⟩
      · exact ⟨_, rfl⟩
      · exact ⟨_, rfl⟩
    have hlt : i < segmentedWords.length := by omega
    have hidx : idx segmentedWords (i : Int) = some segmentedWords[i] := by
      rw [idx_natCast, List.getElem?_eq_getElem hlt]
    have h1b : segmentEntries model segmentedWords rest ((i : Int) + 1) = .ok segments := by
      rw [← h1]
      push_cast
      rfl
    refine ⟨⟨segmentedWords[i], e, word⟩ :: segments, ?_, ?_, ?_, ?_⟩
    · simp only [segmentEntries, he, hidx, h1b]
    · rw [List.map_cons, h2, List.length_cons, List.drop_eq_getElem_cons hlt, List.take_succ_cons]
    · rw [List.map_cons, h3]
    · intro s hs
      rcases List.mem_cons.1 hs with hs | hs
      · rw [hs]; exact he
      · exact h4 s hs

/-- The loop over the corrected words returns only when the segmented words are enough
for them, and then with one segment per corrected word. -/
theorem segmentEntries_length (model : SpellModel) (segmentedWords : List GoString) :
    ∀ (correctedWords : List GoString) (i : Nat) (segments : List Segment),
      segmentEntries model segmentedWords correctedWords i = .ok segments →
      segments.length = correctedWords.length ∧
        (correctedWords ≠ [] → i + correctedWords.length ≤ segmentedWords.length) := by
  intro correctedWords
  induction correctedWords with
  | nil =>
    intro i segments h
    simp only [segmentEntries] at h
    cases h
    exact ⟨rfl, fun h => absurd rfl h⟩
  | cons word rest ih =>
    intro i segments h
    simp only [segmentEntries] at h
    rcases hg : model.GetEntry word [] with e | e
    · rw [hg] at h; simp at h
    · rw [hg] at h
      dsimp only at h
      rw [idx_natCast] at h
      rcases hs : segmentedWords[i]? with _ | inputWord
      · rw [hs] at h; simp at h
      · rw [hs] at h
        dsimp only at h
        have hi : i < segmentedWords.length := (List.getElem?_eq_some_iff.1 hs).1
        rcases hr : segmentEntries model segmentedWords rest ((i : Int) + 1) with err | segs
        · rw [hr] at h; simp at h
        · rw [hr] at h
          cases h
          have hr2 : segmentEntries model segmentedWords rest ((i + 1 : Nat) : Int) =
              .ok segs := by rw [← hr]; push_cast; rfl
          obtain ⟨l1, l2⟩ := ih (i + 1) segs hr2
          refine ⟨by simp [l1], fun _ => ?_⟩
          rw [List.length_cons]
          by_cases hrest : rest = []
          · subst hrest
            simp only [List.length_nil]
            omega
          · have := l2 hrest
            omega

/-- A call of `Segment` with the default options, on a model with a longest word and a
cumulative frequency, after its loops have returned: the call returns what the loop over
the corrected words makes of the cell of the final `circularIdx`. -/
theorem Segment_eq_loops (fl : FloatOps) (model : SpellModel) (input : GoString)
    (hlw : 0 < model.longestWord) (hcf : 0 < model.cumulativeFreq) (A : Nat)
    (hA : A = min input.length model.longestWord)
    (comps : List (composition fl.F)) (circularIdx : Int) (c : composition fl.F)
    (hloop : forLoopE (segmentRow fl model defaultSegmentParams.lookupOptions input
        input.length model.longestWord A model.cumulativeFreq) input.length 0
      (List.replicate A ⟨[], [], 0, fl.zero⟩, -1) = .ok (comps, circularIdx))
    (hc : idx comps circularIdx = some c) :
    model.Segment fl input [] =
      match segmentEntries model (splitSpaces c.segmentedString)
          (splitSpaces c.correctedString) 0 with
      | .error e => .error e
      | .ok segments => .ok ⟨c.distanceSum, segments⟩ := by
  unfold SpellModel.Segment
  have e1 : ¬ ((model.longestWord : Int) = 0) := by omega
  have e2 : ¬ (model.cumulativeFreq = 0) := by omega
  have e3 : min (input.length : Int) (model.longestWord : Int) = (A : Int) := by omega
  simp only [applySegmentOptions, e1, e2, if_false, Min_pair, e3, Int.toNat_ofNat, hloop, hc]

/-- A call of `Segment` with the default options, on a model with a longest word and a
cumulative frequency and on a non-empty input without white space: the loops return, the
cell of the final `circularIdx` holds a composition for the whole input, and the call
returns what the loop over the corrected words of this cell makes of it. -/
theorem Segment_eq_cell (fl : FloatOps) (model : SpellModel) (input : GoString)
    (hlw : 0 < model.longestWord) (hcf : 0 < model.cumulativeFreq) (hne : input ≠ [])
    (hws : ∀ c ∈ input, isWhiteSpace c = false) :
    ∃ c : composition fl.F, IsCell model input input.length c ∧
      model.Segment fl input [] =
        match segmentEntries model (splitSpaces c.segmentedString)
            (splitSpaces c.correctedString) 0 with
        | .error e => .error e
        | .ok segments => .ok ⟨c.distanceSum, segments⟩ := by
  obtain ⟨A, hA⟩ : ∃ A : Nat, A = min input.length model.longestWord := ⟨_, rfl⟩
  obtain ⟨comps, c, h1, h2, h3, h4⟩ := segment_loops fl model input hws model.longestWord A
    model.cumulativeFreq hA hne hlw ⟨[], [], 0, fl.zero⟩
  exact ⟨c, h4, Segment_eq_loops fl model input hlw hcf A hA comps _ c h1
    (by rw [idx_natCast]; exact h3)⟩

end SegmentRun

section SegmentClaims

/-- A binding that a map loads is one of its bindings. -/
theorem mapLoad_mem {κ ν : Type} [DecidableEq κ] (m : List (κ × ν)) (k : κ) (v : ν)
    (h : mapLoad m k = some v) : (k, v) ∈ m := by
  induction m with
  | nil => cases h
  | cons p rest ih =>
    obtain ⟨k2, v2⟩ := p
    simp only [mapLoad] at h
    split_ifs at h with hk
    · cases h
      subst hk
      exact List.mem_cons_self _ _
    · exact List.mem_cons_of_mem _ (ih h)

/-- What holds of the zero entry and of every stored entry holds of every entry that the
library loads. -/
theorem Library.Load_of_stored (l : Library) (P : Entry → Prop) (h0 : P Entry.zero)
    (h : ∀ d ∈ l.Dictionaries, ∀ p ∈ d.2, P p.2) (dict word : GoString) :
    P (l.Load dict word).1 := by
  unfold Library.Load
  rcases hd : mapLoad l.Dictionaries dict with _ | d
  · exact h0
  · rcases hw : mapLoad d word with _ | e
    · simp only [Option.some_bind, hw]
      exact h0
    · simp only [Option.some_bind, hw]
      exact h _ (mapLoad_mem _ _ _ hd) _ (mapLoad_mem _ _ _ hw)

/-- A counting loop keeps what its body keeps. -/
theorem forLoopE_keeps {σ : Type} (body : Int → σ → Except Fault σ) (P : σ → Prop)
    (hbody : ∀ i s s2, body i s = .ok s2 → P s → P s2) :
    ∀ (m : Nat) (start : Int) (s s2 : σ), forLoopE body m start s = .ok s2 → P s → P s2 := by
  intro m
  induction m with
  | zero =>
    intro start s s2 h hP
    simp only [forLoopE] at h
    cases h
    exact hP
  | succ m ih =>
    intro start s s2 h hP
    simp only [forLoopE] at h
    rcases hb : body start s with e | s1
    · rw [hb] at h; cases h
    · rw [hb] at h
      exact ih _ _ _ h (hbody _ _ _ hb hP)

/-- A slice write keeps the length. -/
theorem upd_length {α : Type} (xs ys : List α) (i : Int) (v : α) (h : upd xs i v = some ys) :
    ys.length = xs.length := by
  unfold upd at h
  split_ifs at h
  cases h
  exact List.length_set _ _ _

/-- The body of the loop over `j` of `Segment` keeps the length of the buffer. -/
theorem segmentPart_length (fl : FloatOps) (model : SpellModel)
    (lookupOptions : List LookupOption) (input : GoString) (longestWord arraySize : Int)
    (cumulativeFreq : Nat) (i circularIdx j : Int) (comps comps2 : List (composition fl.F))
    (h : segmentPart fl model lookupOptions input longestWord arraySize cumulativeFreq i
      circularIdx j comps = .ok comps2) : comps2.length = comps.length := by
  unfold segmentPart at h
  dsimp only at h
  repeat' split at h
  all_goals first
    | (cases h; done)
    | (cases h; rfl)
    | (cases h; exact upd_length _ _ _ _ (by assumption))

/-- A row of `Segment` keeps the length of the buffer and steps `circularIdx` to the next
cell, around the end of the buffer. -/
theorem segmentRow_state (fl : FloatOps) (model : SpellModel)
    (lookupOptions : List LookupOption) (input : GoString) (inputLen longestWord arraySize : Int)
    (cumulativeFreq : Nat) (i : Int) (st st2 : List (composition fl.F) × Int)
    (h : segmentRow fl model lookupOptions input inputLen longestWord arraySize cumulativeFreq
      i st = .ok st2) :
    st2.1.length = st.1.length ∧
      st2.2 = if st.2 + 1 = arraySize then 0 else st.2 + 1 := by
  unfold segmentRow at h
  rw [Min_pair] at h
  dsimp only at h
  rcases hl : forLoopE (segmentPart fl model lookupOptions input longestWord arraySize
      cumulativeFreq i st.2) (min (inputLen - i) longestWord).toNat 1 st.1 with e | cs
  · rw [hl] at h; cases h
  · rw [hl] at h
    cases h
    exact ⟨forLoopE_keeps _ (fun (c : List (composition fl.F)) => c.length = st.1.length)
      (fun j s s2 hs hP => (segmentPart_length fl model lookupOptions input longestWord
        arraySize cumulativeFreq i st.2 j s s2 hs).trans hP) _ _ _ _ hl rfl, rfl⟩

/-- The loops of `Segment` on a non-empty input, for every choice of the options: when
they return, the final `circularIdx` is an index of the buffer. -/
theorem segment_loops_circularIdx (fl : FloatOps) (model : SpellModel)
    (lookupOptions : List LookupOption) (input : GoString) (hne : input ≠ [])
    (hlw : 0 < model.longestWord) (c0 : composition fl.F)
    (comps : List (composition fl.F)) (circularIdx : Int)
    (h : forLoopE (segmentRow fl model lookupOptions input input.length model.longestWord
        (min (input.length : Int) (model.longestWord : Int)) model.cumulativeFreq)
      input.length 0
      (List.replicate (min (input.length : Int) (model.longestWord : Int)).toNat c0, -1) =
      .ok (comps, circularIdx)) :
    0 ≤ circularIdx ∧ circularIdx < min (input.length : Int) (model.longestWord : Int) ∧
      ∃ c, idx comps circularIdx = some c := by
  have hn : 0 < input.length := List.length_pos.2 hne
  obtain ⟨A, hA⟩ : ∃ A : Nat, (A : Int) = min (input.length : Int) (model.longestWord : Int) :=
    ⟨min input.length model.longestWord, by omega⟩
  have hA0 : 0 < A := by omega
  rw [← hA] at h ⊢
  rw [Int.toNat_ofNat] at h
  obtain ⟨m, hm⟩ : ∃ m, input.length = m + 1 := ⟨input.length - 1, by omega⟩
  have key : ∀ N, N = m + 1 → forLoopE (segmentRow fl model lookupOptions input input.length
      model.longestWord A model.cumulativeFreq) N 0 (List.replicate A c0, -1) =
      .ok (comps, circularIdx) →
      comps.length = A ∧ 0 ≤ circularIdx ∧ circularIdx < A := by
    intro N hN hloop
    subst hN
    simp only [forLoopE] at hloop
    rcases hr : segmentRow fl model lookupOptions input input.length model.longestWord A
        model.cumulativeFreq 0 (List.replicate A c0, -1) with e | st1
    · rw [hr] at hloop; cases hloop
    · rw [hr] at hloop
      obtain ⟨r1, r2⟩ := segmentRow_state _ _ _ _ _ _ _ _ _ _ _ hr
      exact forLoopE_keeps _
        (fun (s : List (composition fl.F) × Int) => s.1.length = A ∧ 0 ≤ s.2 ∧ s.2 < A)
        (fun i s s2 hs ⟨p1, p2, p3⟩ => by
          obtain ⟨q1, q2⟩ := segmentRow_state _ _ _ _ _ _ _ _ _ _ _ hs
          refine ⟨q1.trans p1, ?_, ?_⟩
          · rw [q2]; split_ifs <;> omega
          · rw [q2]; split_ifs <;> omega) _ _ _ _ hloop
        ⟨by rw [r1]; exact List.length_replicate _ _, by
          rw [r2]; dsimp only; split_ifs <;> omega, by
          rw [r2]; dsimp only; split_ifs <;> omega⟩
  obtain ⟨k1, k2, k3⟩ := key _ hm h
  refine ⟨k2, k3, ?_⟩
  obtain ⟨k, hk⟩ : ∃ k : Nat, circularIdx = k := ⟨circularIdx.toNat, by omega⟩
  subst hk
  rw [idx_natCast]
  exact ⟨_, List.getElem?_eq_getElem (by omega)⟩

/-- On a model with `longestWord > 0` and
`cumulativeFreq > 0` whose words of the default dictionary contain no space, for every
non-empty input without white space and whatever the float operations compute and the
probability comparisons decide, `Segment(input)` returns a result.  The result is made
from a composition that the loops write for the whole input: its distance is the distance
of the composition, the `Input` fields of its segments are the pieces of the segmented
string and the `Word` fields are the pieces of the corrected string, so the segments are
as many as the parts, and the `Input` fields in order concatenate to the input. -/
theorem Segment_result (fl : FloatOps) (model : SpellModel) (input : GoString)
    (hlw : 0 < model.longestWord) (hcf : 0 < model.cumulativeFreq)
    (hlib : ∀ w, ' ' ∉ (model.library.Load defaultDict w).1.Word)
    (hne : input ≠ []) (hws : ∀ c ∈ input, isWhiteSpace c = false) :
    ∃ (r : SegmentResult) (c : composition fl.F), IsCell model input input.length c ∧
      model.Segment fl input [] = .ok r ∧ r.Distance = c.distanceSum ∧
      r.Segments.map Segment.Input = splitSpaces c.segmentedString ∧
      r.Segments.map Segment.Word = splitSpaces c.correctedString ∧
      (r.Segments.map Segment.Input).flatten = input ∧
      ∀ s ∈ r.Segments, s.Input ≠ [] := by
  obtain ⟨c, hc, heq⟩ := Segment_eq_cell fl model input hlw hcf hne hws
  obtain ⟨p1, p2, -, -⟩ := SegCell_pieces model input hws _ _ _ _ hc
  have p5 := SegCell_same_length model input hws hlib _ _ _ _ hc
  obtain ⟨segments, s1, s2, s3, -⟩ := segmentEntries_ok model (splitSpaces c.segmentedString)
    (splitSpaces c.correctedString) 0 (by omega)
  rw [Nat.cast_zero] at s1
  rw [s1] at heq
  rw [List.drop_zero, p5, List.take_length] at s2
  refine ⟨⟨c.distanceSum, segments⟩, c, hc, heq, rfl, s2, s3, ?_, ?_⟩
  · dsimp only
    rw [s2, p1, List.take_length]
  · intro s hs
    exact p2 _ (by rw [← s2]; exact List.mem_map_of_mem _ hs)

/-- On a model with `longestWord > 0` and `cumulativeFreq > 0`, for every non-empty input
without white space, every result of `Segment(input)` has a `Distance` of at least the
number of segments minus one. -/
theorem Segment_distance_bound (fl : FloatOps) (model : SpellModel) (input : GoString)
    (hlw : 0 < model.longestWord) (hcf : 0 < model.cumulativeFreq)
    (hne : input ≠ []) (hws : ∀ c ∈ input, isWhiteSpace c = false) (r : SegmentResult)
    (hr : model.Segment fl input [] = .ok r) : (r.Segments.length : Int) - 1 ≤ r.Distance := by
  obtain ⟨c, hc, heq⟩ := Segment_eq_cell fl model input hlw hcf hne hws
  obtain ⟨-, -, -, p4⟩ := SegCell_pieces model input hws _ _ _ _ hc
  rw [heq] at hr
  rcases hs : segmentEntries model (splitSpaces c.segmentedString)
      (splitSpaces c.correctedString) 0 with e | segments
  · rw [hs] at hr; cases hr
  · rw [hs] at hr
    cases hr
    have hs2 : segmentEntries model (splitSpaces c.segmentedString)
        (splitSpaces c.correctedString) ((0 : Nat) : Int) = .ok segments := hs
    obtain ⟨l1, l2⟩ := segmentEntries_length model _ _ 0 _ hs2
    have := l2 (splitSpaces_ne_nil _)
    dsimp only
    omega

end SegmentClaims

section SegmentTheorems

/-- The entries of `quickEntries` are stored in `quickModel`, whose longest word has five
code points and whose cumulative frequency is 220. -/
theorem quickModel_eq :
    addEntryCalls [] NewSpellModel quickEntries = some quickModel ∧
      quickModel.longestWord = 5 ∧ quickModel.cumulativeFreq = 220 := by
  refine ⟨?_, ?_, ?_⟩ <;> rfl

/-- No word of `quickModel` has a space. -/
theorem quickModel_no_space (w : GoString) :
    ' ' ∉ (quickModel.library.Load defaultDict w).1.Word :=
  Library.Load_of_stored quickModel.library (fun e => ' ' ∉ e.Word) (by decide) (by decide) _ _

/-- C28: `Segment` preserves its input.  On a model with `longestWord > 0` and
`cumulativeFreq > 0` whose words of the default dictionary contain no space, for every
non-empty input without white space and whatever the float operations compute and the
probability comparisons decide, `Segment(input)` returns a result.  The result is made
from a composition that the loops write for the whole input: its distance is the distance
of the composition, the `Input` fields of its segments are the pieces of the segmented
string and the `Word` fields are the pieces of the corrected string, so the segments are
as many as the parts, and the `Input` fields in order concatenate to the input. -/
theorem Segment_preserves_input (fl : FloatOps) (model : SpellModel) (input : GoString)
    (hlw : 0 < model.longestWord) (hcf : 0 < model.cumulativeFreq)
    (hlib : ∀ w, ' ' ∉ (model.library.Load defaultDict w).1.Word)
    (hne : input ≠ []) (hws : ∀ c ∈ input, isWhiteSpace c = false) :
    ∃ (r : SegmentResult) (c : composition fl.F), IsCell model input input.length c ∧
      model.Segment fl input [] = .ok r ∧ r.Distance = c.distanceSum ∧
      r.Segments.map Segment.Input = splitSpaces c.segmentedString ∧
      r.Segments.map Segment.Word = splitSpaces c.correctedString ∧
      (r.Segments.map Segment.Input).flatten = input ∧
      ∀ s ∈ r.Segments, s.Input ≠ [] :=
  Segment_result fl model input hlw hcf hlib hne hws

/-- Witness of C28: the model with the, quick, brown and fox, and the
input `thequickbrownfox`. -/
theorem Segment_preserves_input_witness :
    (0 < quickModel.longestWord ∧ 0 < quickModel.cumulativeFreq ∧
      "thequickbrownfox".toList ≠ [] ∧
      ∀ c ∈ "thequickbrownfox".toList, isWhiteSpace c = false) ∧
    ∃ (r : SegmentResult) (c : composition (unitFloatOps false).F),
      IsCell quickModel "thequickbrownfox".toList "thequickbrownfox".toList.length c ∧
      quickModel.Segment (unitFloatOps false) "thequickbrownfox".toList [] = .ok r ∧
      r.Distance = c.distanceSum ∧
      r.Segments.map Segment.Input = splitSpaces c.segmentedString ∧
      r.Segments.map Segment.Word = splitSpaces c.correctedString ∧
      (r.Segments.map Segment.Input).flatten = "thequickbrownfox".toList ∧
      ∀ s ∈ r.Segments, s.Input ≠ [] :=
  ⟨⟨by decide, by decide, by decide, by decide⟩,
    Segment_preserves_input (unitFloatOps false) quickModel "thequickbrownfox".toList
      (by decide) (by decide) quickModel_no_space (by decide) (by decide)⟩

/-- C29: `Segment` counts one edit per inserted separator.  On a model with
`longestWord > 0` and `cumulativeFreq > 0`, for every non-empty input without white space
and whatever the float operations compute, every result of `Segment(input)` has a
`Distance` of at least the number of segments minus one, so at least one when there are two
segments or more; and the call returns a result when the words of the default dictionary
contain no space. -/
theorem Segment_distance_separators (fl : FloatOps) (model : SpellModel) (input : GoString)
    (hlw : 0 < model.longestWord) (hcf : 0 < model.cumulativeFreq)
    (hne : input ≠ []) (hws : ∀ c ∈ input, isWhiteSpace c = false) :
    (∀ r, model.Segment fl input [] = .ok r →
      (r.Segments.length : Int) - 1 ≤ r.Distance ∧
        (2 ≤ r.Segments.length → 1 ≤ r.Distance)) ∧
    ((∀ w, ' ' ∉ (model.library.Load defaultDict w).1.Word) →
      ∃ r, model.Segment fl input [] = .ok r) := by
  refine ⟨?_, ?_⟩
  · intro r hr
    have := Segment_distance_bound fl model input hlw hcf hne hws r hr
    exact ⟨this, fun h2 => by omega⟩
  · intro hlib
    obtain ⟨r, _, _, h, _⟩ := Segment_result fl model input hlw hcf hlib hne hws
    exact ⟨r, h⟩

/-- Witness of C29: the model with the, quick, brown and fox, and
the input `thefox`. -/
theorem Segment_distance_separators_witness :
    (0 < quickModel.longestWord ∧ 0 < quickModel.cumulativeFreq ∧ "thefox".toList ≠ [] ∧
      ∀ c ∈ "thefox".toList, isWhiteSpace c = false) ∧
    (∀ r, quickModel.Segment (unitFloatOps true) "thefox".toList [] = .ok r →
      (r.Segments.length : Int) - 1 ≤ r.Distance ∧
        (2 ≤ r.Segments.length → 1 ≤ r.Distance)) ∧
    ((∀ w, ' ' ∉ (quickModel.library.Load defaultDict w).1.Word) →
      ∃ r, quickModel.Segment (unitFloatOps true) "thefox".toList [] = .ok r) :=
  ⟨⟨by decide, by decide, by decide, by decide⟩,
    Segment_distance_separators (unitFloatOps true) quickModel "thefox".toList
      (by decide) (by decide) (by decide) (by decide)⟩

/-- C30: `Segment` does not guard the empty input.  On a model with `longestWord > 0` and
`cumulativeFreq > 0`, for every choice of options that apply, `Segment("")` takes a buffer
of size zero, runs no row, so that `circularIdx` stays at `-1`, and stops in the panic of
the read `compositions[circularIdx]`: it returns no result and none of the two errors.  For
every non-empty input and every choice of options, when the loops return, the final
`circularIdx` is at least zero and less than the size of the buffer, and the read
succeeds; the loops do return with the default options on an input without white
space. -/
theorem Segment_empty_input (fl : FloatOps) (model : SpellModel)
    (hlw : 0 < model.longestWord) (hcf : 0 < model.cumulativeFreq) :
    (∀ opts sp, applySegmentOptions opts defaultSegmentParams = .ok sp →
      Min [(([] : GoString).length : Int), (model.longestWord : Int)] = some 0 ∧
      forLoopE (segmentRow fl model sp.lookupOptions [] (([] : GoString).length : Int)
          model.longestWord 0 model.cumulativeFreq) ([] : GoString).length 0
        (List.replicate (0 : Int).toNat ⟨[], [], 0, fl.zero⟩, -1) = .ok ([], -1) ∧
      idx ([] : List (composition fl.F)) (-1) = none ∧
      model.Segment fl [] opts = .error Fault.crash) ∧
    (∀ (input : GoString) opts sp comps circularIdx, input ≠ [] →
      applySegmentOptions opts defaultSegmentParams = .ok sp →
      forLoopE (segmentRow fl model sp.lookupOptions input input.length model.longestWord
          (min (input.length : Int) (model.longestWord : Int)) model.cumulativeFreq)
        input.length 0
        (List.replicate (min (input.length : Int) (model.longestWord : Int)).toNat
          ⟨[], [], 0, fl.zero⟩, -1) = .ok (comps, circularIdx) →
      0 ≤ circularIdx ∧ circularIdx < min (input.length : Int) (model.longestWord : Int) ∧
        ∃ c, idx comps circularIdx = some c) ∧
    (∀ input : GoString, input ≠ [] → (∀ c ∈ input, isWhiteSpace c = false) →
      ∃ comps circularIdx,
        forLoopE (segmentRow fl model defaultSegmentParams.lookupOptions input input.length
            model.longestWord (min (input.length : Int) (model.longestWord : Int))
            model.cumulativeFreq)
          input.length 0
          (List.replicate (min (input.length : Int) (model.longestWord : Int)).toNat
            ⟨[], [], 0, fl.zero⟩, -1) = .ok (comps, circularIdx)) := by
  refine ⟨?_, ?_, ?_⟩
  · intro opts sp hsp
    have hmin : Min [(([] : GoString).length : Int), (model.longestWord : Int)] = some 0 := by
      rw [Min_pair]
      congr 1
    refine ⟨hmin, rfl, rfl, ?_⟩
    unfold SpellModel.Segment
    have e1 : ¬ ((model.longestWord : Int) = 0) := by omega
    have e2 : ¬ (model.cumulativeFreq = 0) := by omega
    simp only [hsp, e1, e2, if_false, hmin]
    rfl
  · intro input opts sp comps circularIdx hne _ h
    exact segment_loops_circularIdx fl model sp.lookupOptions input hne hlw _ comps
      circularIdx h
  · intro input hne hws
    obtain ⟨comps, c, h, -⟩ := segment_loops fl model input hws model.longestWord
      (min input.length model.longestWord) model.cumulativeFreq rfl hne hlw
      ⟨[], [], 0, fl.zero⟩
    have e : ((min input.length model.longestWord : Nat) : Int) =
        min (input.length : Int) (model.longestWord : Int) := by omega
    rw [← e, Int.toNat_ofNat]
    exact ⟨_, _, h⟩

/-- Witness of C30: the model with the, quick, brown and fox. -/
theorem Segment_empty_input_witness :
    (0 < quickModel.longestWord ∧ 0 < quickModel.cumulativeFreq) ∧
    quickModel.Segment (unitFloatOps false) [] [] = .error Fault.crash :=
  ⟨⟨by decide, by decide⟩,
    ((Segment_empty_input (unitFloatOps false) quickModel (by decide) (by decide)).1 []
      defaultSegmentParams rfl).2.2.2⟩

end SegmentTheorems

section DictionaryFrames

/-- The bucket of a hash in another dictionary after `Add`. -/
theorem DictionaryDeletes.Load_Add_ne (dd : DictionaryDeletes) (d d2 : GoString) (k k2 : Nat)
    (e : DeleteEntry) (h : d2 ≠ d) : (dd.Add d k e).Load d2 k2 = dd.Load d2 k2 := by
  unfold DictionaryDeletes.Load DictionaryDeletes.Add
  dsimp only
  rw [mapLoad_mapStore_ne _ _ _ _ h]

/-- The bucket of a hash in another dictionary after the loop of `AddEntry` over the
deletes of a word. -/
theorem DictionaryDeletes.Load_foldl_Add_ne (d d2 : GoString) (e : DeleteEntry) (k2 : Nat)
    (h : d2 ≠ d) : ∀ (hs : List Nat) (dd : DictionaryDeletes),
      (hs.foldl (fun dd k => dd.Add d k e) dd).Load d2 k2 = dd.Load d2 k2 := by
  intro hs
  induction hs with
  | nil => intro dd; rfl
  | cons k rest ih =>
    intro dd
    rw [List.foldl_cons, ih, DictionaryDeletes.Load_Add_ne _ _ _ _ _ _ h]

/-- The body of `Lookup` reads the model only through the entries and the buckets of the
dictionary of its parameters. -/
theorem lookupBody_congr (model model2 : SpellModel) (lp : lookupParams) (input : GoString)
    (hlib : ∀ w, model2.library.Load lp.dictOpts.Name w = model.library.Load lp.dictOpts.Name w)
    (hdel : ∀ k, model2.dictionaryDeletes.Load lp.dictOpts.Name k =
      model.dictionaryDeletes.Load lp.dictOpts.Name k) :
    model2.lookupBody lp input = model.lookupBody lp input := by
  have hnew : ∀ s d, model2.newDictSuggestion s d lp.dictOpts =
      model.newDictSuggestion s d lp.dictOpts := by
    intro s d
    unfold SpellModel.newDictSuggestion
    rw [hlib]
  have hadd : lookupAdd model2 lp = lookupAdd model lp := by
    funext sug dist st
    unfold lookupAdd
    simp only [hlib, hnew]
  have hsug : lookupSuggestion model2 lp = lookupSuggestion model lp := by
    funext a b c d e f g h
    unfold lookupSuggestion
    rw [hadd]
  have hsugs : ∀ a b c d e f (bucket : List DeleteEntry) st,
      lookupSuggestions model2 lp a b c d e f bucket st =
        lookupSuggestions model lp a b c d e f bucket st := by
    intro a b c d e f bucket
    induction bucket with
    | nil => intro st; rfl
    | cons s rest ih =>
      intro st
      simp only [lookupSuggestions, hsug]
      rcases lookupSuggestion model lp a b c d e f st s with err | st2
      · rfl
      · exact ih st2
  have hloop : ∀ a b c d (fuel i : Nat) st,
      lookupLoop model2 lp a b c d fuel i st = lookupLoop model lp a b c d fuel i st := by
    intro a b c d fuel
    induction fuel with
    | zero => intro i st; rfl
    | succ fuel ih =>
      intro i st
      unfold lookupLoop
      simp only [hdel, hsugs, ih]
  unfold SpellModel.lookupBody
  simp only [hlib, hnew, hloop]

/-- `Lookup` returns the same for two models with the same parameters that agree on the
entries and the buckets of the dictionary that the options select. -/
theorem Lookup_congr (model model2 : SpellModel) (input : GoString) (opts : List LookupOption)
    (hM : model2.MaxEditDistance = model.MaxEditDistance)
    (hP : model2.PrefixLength = model.PrefixLength)
    (h : ∀ lp, applyLookupOptions opts model.defaultLookupParams = .ok lp →
      (∀ w, model2.library.Load lp.dictOpts.Name w = model.library.Load lp.dictOpts.Name w) ∧
      ∀ k, model2.dictionaryDeletes.Load lp.dictOpts.Name k =
        model.dictionaryDeletes.Load lp.dictOpts.Name k) :
    model2.Lookup input opts = model.Lookup input opts := by
  have hd : model2.defaultLookupParams = model.defaultLookupParams := by
    unfold SpellModel.defaultLookupParams
    rw [hM, hP]
  unfold SpellModel.Lookup
  rw [hd]
  rcases hl : applyLookupOptions opts model.defaultLookupParams with e | lp
  · rfl
  · exact lookupBody_congr model model2 lp input (h lp hl).1 (h lp hl).2

/-- `GetEntry` reads the model only through the entry of the word in the dictionary of its
options. -/
theorem GetEntry_congr (model model2 : SpellModel) (word : GoString)
    (opts : List DictionaryOption)
    (h : ∀ o, applyDictOptions opts defaultDictOptions = .ok o →
      model2.library.Load o.Name word = model.library.Load o.Name word) :
    model2.GetEntry word opts = model.GetEntry word opts := by
  unfold SpellModel.GetEntry
  rcases ho : applyDictOptions opts defaultDictOptions with e | o
  · rfl
  · dsimp only
    rw [h o ho]

/-- An `AddEntry` or `RemoveEntry` call on a dictionary keeps the two parameters of the
model and, for every other dictionary, its entries and buckets. -/
theorem call_frame (model model2 : SpellModel) (opts : List DictionaryOption) (o : DictOptions)
    (ho : applyDictOptions opts defaultDictOptions = .ok o)
    (hcall : (∃ de added, model.AddEntry de opts = .ok (added, model2)) ∨
      ∃ word removed, model.RemoveEntry word opts = .ok (removed, model2)) :
    model2.MaxEditDistance = model.MaxEditDistance ∧
      model2.PrefixLength = model.PrefixLength ∧
      ∀ B, B ≠ o.Name → (∀ w, model2.library.Load B w = model.library.Load B w) ∧
        ∀ k, model2.dictionaryDeletes.Load B k = model.dictionaryDeletes.Load B k := by
  rcases hcall with ⟨de, added, h⟩ | ⟨word, removed, h⟩
  · obtain ⟨o2, h1, h2, h3, h4⟩ := AddEntry_fields model model2 de opts added h
    rw [ho] at h1
    cases h1
    refine ⟨h2, h3, ?_⟩
    intro B hB
    rcases h4 with ⟨-, -, l1, l2, -⟩ | ⟨entry, -, -, l1, l2, -⟩
    · refine ⟨fun w => ?_, fun k => ?_⟩
      · rw [l1, Library.Load_Store, if_neg (fun hh => hB hh.1)]
      · rw [l2, DictionaryDeletes.Load_foldl_Add_ne _ _ _ _ hB]
    · refine ⟨fun w => ?_, fun k => by rw [l2]⟩
      rw [l1, Library.Load_Store, if_neg (fun hh => hB hh.1)]
  · obtain ⟨o2, h1, h2, -⟩ := RemoveEntry_ok model model2 word opts removed h
    rw [ho] at h1
    cases h1
    subst h2
    refine ⟨rfl, rfl, ?_⟩
    intro B hB
    refine ⟨fun w => ?_, fun k => rfl⟩
    dsimp only
    rw [Library.Load_Remove, if_neg (fun hh => hB hh.1)]

end DictionaryFrames

section FrameTheorems

/-- C22: dictionaries do not leak into each other.  After an `AddEntry` or a `RemoveEntry`
whose options select the dictionary `A` (with `DictionaryName(A)`, and whatever the other
options), `GetEntry` returns what it returned before for every word and all options that
select another dictionary, and `Lookup` returns what it returned before for every query
and all options that select another dictionary or that fail. -/
theorem dictionaries_do_not_leak (model model2 : SpellModel) (opts : List DictionaryOption)
    (o : DictOptions) (ho : applyDictOptions opts defaultDictOptions = .ok o)
    (hcall : (∃ de added, model.AddEntry de opts = .ok (added, model2)) ∨
      ∃ word removed, model.RemoveEntry word opts = .ok (removed, model2)) :
    (∀ word getOpts,
      (∀ g, applyDictOptions getOpts defaultDictOptions = .ok g → g.Name ≠ o.Name) →
      model2.GetEntry word getOpts = model.GetEntry word getOpts) ∧
    (∀ input lookupOpts,
      (∀ lp, applyLookupOptions lookupOpts model.defaultLookupParams = .ok lp →
        lp.dictOpts.Name ≠ o.Name) →
      model2.Lookup input lookupOpts = model.Lookup input lookupOpts) := by
  obtain ⟨hM, hP, hB⟩ := call_frame model model2 opts o ho hcall
  refine ⟨?_, ?_⟩
  · intro word getOpts hg
    exact GetEntry_congr model model2 word getOpts fun g h => (hB g.Name (hg g h)).1 word
  · intro input lookupOpts hl
    exact Lookup_congr model model2 input lookupOpts hM hP fun lp h => hB _ (hl lp h)

/-- Witness of C22: `AddEntry` of cat with `DictionaryName("pets")` on
a new model. -/
theorem dictionaries_do_not_leak_witness :
    (applyDictOptions [DictionaryName "pets".toList] defaultDictOptions =
        .ok ⟨"pets".toList, false, false⟩ ∧
      NewSpellModel.AddEntry ⟨1, "cat".toList, none⟩ [DictionaryName "pets".toList] =
        .ok (true, (addEntryCalls [DictionaryName "pets".toList] NewSpellModel
          [⟨1, "cat".toList, none⟩]).getD NewSpellModel)) ∧
    (∀ word getOpts,
      (∀ g, applyDictOptions getOpts defaultDictOptions = .ok g → g.Name ≠ "pets".toList) →
      ((addEntryCalls [DictionaryName "pets".toList] NewSpellModel
          [⟨1, "cat".toList, none⟩]).getD NewSpellModel).GetEntry word getOpts =
        NewSpellModel.GetEntry word getOpts) ∧
    (∀ input lookupOpts,
      (∀ lp, applyLookupOptions lookupOpts NewSpellModel.defaultLookupParams = .ok lp →
        lp.dictOpts.Name ≠ "pets".toList) →
      ((addEntryCalls [DictionaryName "pets".toList] NewSpellModel
          [⟨1, "cat".toList, none⟩]).getD NewSpellModel).Lookup input lookupOpts =
        NewSpellModel.Lookup input lookupOpts) :=
  ⟨⟨rfl, rfl⟩, dictionaries_do_not_leak NewSpellModel _ [DictionaryName "pets".toList]
    ⟨"pets".toList, false, false⟩ rfl (Or.inl ⟨⟨1, "cat".toList, none⟩, true, rfl⟩)⟩

/-- The loop of `AddEntries` reads only the two override flags of the options. -/
theorem addEntriesLoop_congr (o1 o2 : DictOptions) (WordsData : WordData)
    (h1 : o1.OverrideFrequency = o2.OverrideFrequency)
    (h2 : o1.OverrideWordData = o2.OverrideWordData) :
    ∀ (words : List GoString) (index : Nat) (model : SpellModel),
      addEntriesLoop o1 WordsData words index model =
        addEntriesLoop o2 WordsData words index model := by
  intro words
  induction words with
  | nil => intro index model; rfl
  | cons word rest ih =>
    intro index model
    simp only [addEntriesLoop, h1, h2, ih]

/-- `AddEntries` does not read the dictionary name of its options: the call with
`DictionaryName(d)` returns what the call without options returns. -/
theorem AddEntries_ignores_name (model : SpellModel) (entries : Entries) (d : GoString) :
    model.AddEntries entries [DictionaryName d] = model.AddEntries entries [] := by
  unfold SpellModel.AddEntries
  simp only [applyDictOptions, DictionaryName]
  exact congrArg (fun m => Except.ok (true, m))
    (addEntriesLoop_congr ⟨d, defaultDictOptions.OverrideFrequency,
      defaultDictOptions.OverrideWordData⟩ defaultDictOptions _ rfl rfl _ _ _)

/-- C23: `AddEntries` with `DictionaryName("pets")` and the word cat on a new model
returns `true`, and then `GetEntry("cat", DictionaryName("pets"))` returns no entry: the
word is in the default dictionary. -/
theorem AddEntries_wrong_dictionary :
    ∃ model2, NewSpellModel.AddEntries ⟨["cat".toList], none⟩ [DictionaryName "pets".toList] =
        .ok (true, model2) ∧
      model2.GetEntry "cat".toList [DictionaryName "pets".toList] = .ok none ∧
      model2.GetEntry "cat".toList [] = .ok (some ⟨1, "cat".toList, none⟩) :=
  ⟨_, rfl, rfl, rfl⟩

/-- C24: `RemoveEntry(word)` with options that select the dictionary `d` returns `true`
exactly when the library had an entry for `(d, word)` before the call; afterwards
`GetEntry(word)` on `d` returns no entry, the library has no entry for `(d, word)`, and
every other `(dictionary, word)` loads what it loaded before. -/
theorem RemoveEntry_spec (model : SpellModel) (word : GoString) (opts : List DictionaryOption)
    (o : DictOptions) (ho : applyDictOptions opts defaultDictOptions = .ok o) :
    ∃ model2, model.RemoveEntry word opts = .ok ((model.library.Load o.Name word).2, model2) ∧
      model2.GetEntry word opts = .ok none ∧
      model2.library.Load o.Name word = (Entry.zero, false) ∧
      ∀ d2 w2, ¬ (d2 = o.Name ∧ w2 = word) →
        model2.library.Load d2 w2 = model.library.Load d2 w2 := by
  refine ⟨{ model with library := (model.library.Remove o.Name word).1 }, ?_, ?_, ?_, ?_⟩
  · unfold SpellModel.RemoveEntry
    rw [ho]
    dsimp only
    rw [Library.Remove_snd]
  · unfold SpellModel.GetEntry
    rw [ho]
    dsimp only
    rw [Library.Load_Remove, if_pos ⟨rfl, rfl⟩]
  · dsimp only
    rw [Library.Load_Remove, if_pos ⟨rfl, rfl⟩]
  · intro d2 w2 h
    dsimp only
    rw [Library.Load_Remove, if_neg h]

/-- Witness of C24: `RemoveEntry("the")` on the model with the, quick, brown
and fox. -/
theorem RemoveEntry_spec_witness :
    applyDictOptions [] defaultDictOptions = .ok defaultDictOptions ∧
    ∃ model2, quickModel.RemoveEntry "the".toList [] =
        .ok ((quickModel.library.Load defaultDictOptions.Name "the".toList).2, model2) ∧
      model2.GetEntry "the".toList [] = .ok none ∧
      model2.library.Load defaultDictOptions.Name "the".toList = (Entry.zero, false) ∧
      ∀ d2 w2, ¬ (d2 = defaultDictOptions.Name ∧ w2 = "the".toList) →
        model2.library.Load d2 w2 = quickModel.library.Load d2 w2 :=
  ⟨rfl, RemoveEntry_spec quickModel "the".toList [] defaultDictOptions rfl⟩

/-- C25: removal does not purge the deletes.  After `AddEntry` of hello and `RemoveEntry`
of hello on a new model, `GetEntry("hello")` returns no entry, and `Lookup("helo")` still
returns one suggestion, at distance 1, whose entry is the zero value: an empty `Word`, the
`Frequency` 0 and no word data. -/
theorem Lookup_after_RemoveEntry :
    ∃ model1 model2, NewSpellModel.AddEntry ⟨10, "hello".toList, none⟩ [] = .ok (true, model1) ∧
      model1.RemoveEntry "hello".toList [] = .ok (true, model2) ∧
      model2.GetEntry "hello".toList [] = .ok none ∧
      model2.Lookup "helo".toList [] = .ok [⟨1, ⟨0, [], none⟩⟩] :=
  ⟨_, _, rfl, rfl, rfl, rfl⟩

/-- The options after an option that fails are not applied. -/
theorem applyLookupOptions_append (before after : List LookupOption) (opt : LookupOption) :
    ∀ lp lp2, applyLookupOptions before lp = .ok lp2 →
      applyLookupOptions (before ++ opt :: after) lp =
        match opt lp2 with
        | .ok lp3 => applyLookupOptions after lp3
        | .error e => .error e := by
  induction before with
  | nil =>
    intro lp lp2 h
    cases h
    rfl
  | cons b rest ih =>
    intro lp lp2 h
    simp only [List.cons_append, applyLookupOptions] at h ⊢
    rcases hb : b lp with e | lp1
    · rw [hb] at h; cases h
    · rw [hb] at h
      exact ih lp1 lp2 h

/-- C26: `Lookup` with the option `PrefixLength(0)`, after options that apply and before any
options, returns the error of the option and no list, for every model and every input;
the option `PrefixLength(p)` with `p >= 1` returns the parameters with the new prefix length
and no error. -/
theorem Lookup_PrefixLength (model : SpellModel) (input : GoString)
    (before after : List LookupOption) (lp : lookupParams)
    (hb : applyLookupOptions before model.defaultLookupParams = .ok lp) :
    model.Lookup input (before ++ PrefixLength 0 :: after) =
        .error (Fault.error "prefix length must be greater than 0") ∧
      ∀ (p : Nat) (lp2 : lookupParams),
        PrefixLength (p + 1) lp2 = .ok { lp2 with prefixLength := p + 1 } := by
  refine ⟨?_, fun p lp2 => ?_⟩
  · unfold SpellModel.Lookup
    rw [applyLookupOptions_append before after (PrefixLength 0) _ lp hb]
    rfl
  · unfold PrefixLength
    rw [if_neg (by omega)]

/-- Witness of C26: the option alone, on the model with the, quick, brown
and fox. -/
theorem Lookup_PrefixLength_witness :
    applyLookupOptions [] quickModel.defaultLookupParams = .ok quickModel.defaultLookupParams ∧
    (quickModel.Lookup "the".toList ([] ++ PrefixLength 0 :: []) =
        .error (Fault.error "prefix length must be greater than 0") ∧
      ∀ (p : Nat) (lp2 : lookupParams),
        PrefixLength (p + 1) lp2 = .ok { lp2 with prefixLength := p + 1 }) :=
  ⟨rfl, Lookup_PrefixLength quickModel "the".toList [] [] _ rfl⟩

end FrameTheorems

section BufferTheorems

variable {α : Type} [DecidableEq α]

/-- A negative cap: both variants of both distances return `0` for equal arguments and `-1`
otherwise, whatever the buffers. -/
theorem buffers_negative_cap (a b : List α) (cap : Int) (hcap : cap < 0)
    (x y : Option (List Int)) :
    DamerauLevenshteinRunesBuffer a b cap x y = DamerauLevenshteinRunes a b cap ∧
      LevenshteinRunesBuffer a b cap x = LevenshteinRunes a b cap ∧
      (∃ r, DamerauLevenshteinRunes a b cap = some r) ∧
      ∃ r, LevenshteinRunes a b cap = some r := by
  have hs : SwapRunes a b cap = (a, b, (a.length : Int), (b.length : Int), some (-1)) := by
    unfold SwapRunes
    rw [if_pos hcap]
  unfold DamerauLevenshteinRunes LevenshteinRunes DamerauLevenshteinRunesBuffer
    LevenshteinRunesBuffer
  rw [hs]
  split_ifs
  · exact ⟨rfl, rfl, ⟨_, rfl⟩, ⟨_, rfl⟩⟩
  · exact ⟨rfl, rfl, ⟨_, rfl⟩, ⟨_, rfl⟩⟩

/-- C27: the buffer variants agree with the allocating variants.  For all `a`, `b`, every
cap and buffers `x` and `y` at least as long as the longer argument, with any contents,
`DamerauLevenshteinRunesBuffer(a, b, cap, x, y)` returns what `DamerauLevenshteinRunes(a, b,
cap)` returns and `LevenshteinRunesBuffer(a, b, cap, x)` returns what `LevenshteinRunes(a, b,
cap)` returns, and no call panics. -/
theorem buffer_variants_agree (a b : List α) (cap : Int) (x y : List Int)
    (hx : max a.length b.length ≤ x.length) (hy : max a.length b.length ≤ y.length) :
    (∃ r, DamerauLevenshteinRunes a b cap = some r ∧
      DamerauLevenshteinRunesBuffer a b cap (some x) (some y) = some r) ∧
    ∃ r, LevenshteinRunes a b cap = some r ∧
      LevenshteinRunesBuffer a b cap (some x) = some r := by
  by_cases hcap : 0 ≤ cap
  · refine ⟨⟨capped (dlDistance a b) cap, ?_, ?_⟩, ⟨capped (levDistance a b) cap, ?_, ?_⟩⟩
    · exact DamerauLevenshteinRunesBuffer_spec a b cap none none hcap
        (fun _ h => by cases h) (fun _ h => by cases h)
    · exact DamerauLevenshteinRunesBuffer_spec a b cap (some x) (some y) hcap
        (fun _ h => by cases h; exact hx) (fun _ h => by cases h; exact hy)
    · exact LevenshteinRunesBuffer_spec a b cap none hcap (fun _ h => by cases h)
    · exact LevenshteinRunesBuffer_spec a b cap (some x) hcap (fun _ h => by cases h; exact hx)
  · obtain ⟨h1, h2, ⟨r1, h3⟩, ⟨r2, h4⟩⟩ :=
      buffers_negative_cap a b cap (by omega) (some x) (some y)
    exact ⟨⟨r1, h3, h1.trans h3⟩, ⟨r2, h4, h2.trans h4⟩⟩

/-- Witness of C27: kitten and sitting with the cap 3 and buffers of
length 7 that hold other numbers. -/
theorem buffer_variants_agree_witness :
    (max "kitten".toList.length "sitting".toList.length ≤ [9, 8, 7, 6, 5, 4, 3].length ∧
      max "kitten".toList.length "sitting".toList.length ≤ [1, 1, 1, 1, 1, 1, 1].length) ∧
    (∃ r, DamerauLevenshteinRunes "kitten".toList "sitting".toList 3 = some r ∧
      DamerauLevenshteinRunesBuffer "kitten".toList "sitting".toList 3
        (some [9, 8, 7, 6, 5, 4, 3]) (some [1, 1, 1, 1, 1, 1, 1]) = some r) ∧
    ∃ r, LevenshteinRunes "kitten".toList "sitting".toList 3 = some r ∧
      LevenshteinRunesBuffer "kitten".toList "sitting".toList 3
        (some [9, 8, 7, 6, 5, 4, 3]) = some r :=
  ⟨⟨by decide, by decide⟩,
    buffer_variants_agree "kitten".toList "sitting".toList 3 [9, 8, 7, 6, 5, 4, 3]
      [1, 1, 1, 1, 1, 1, 1] (by decide) (by decide)⟩

end BufferTheorems

section Certificate

/-- The update of `cellStep` is the update of the body of the loop over `j` without the
probabilities. -/
theorem cellStep_erase {F : Type} (b : Bool) (lw ci dest j : Nat) (part : GoString)
    (top : GoString × Int) (comps : List (composition F)) (cc cd : composition F)
    (hcc : comps[ci]? = some cc) (hcd : comps[dest]? = some cd) (prob : F) :
    cellStep b lw ci dest j part top (comps.map eraseCell) =
      (if j = lw ∨
          ((cc.distanceSum + top.2 = cd.distanceSum ∨
              cc.distanceSum + 1 + top.2 = cd.distanceSum) ∧ b = true) ∨
          cc.distanceSum + 1 + top.2 < cd.distanceSum then
        comps.set dest ⟨cc.segmentedString ++ " ".toList ++ part,
          cc.correctedString ++ " ".toList ++ top.1, cc.distanceSum + 1 + top.2, prob⟩
        else comps).map eraseCell := by
  unfold cellStep
  simp only [List.getElem?_map, hcc, hcd, Option.map_some']
  simp only [eraseCell]
  split_ifs
  · rw [List.map_set]
    rfl
  · rfl

/-- The body of the loop over `j` of `Segment` with the default options, on an input
without white space, leaves one of the buffers of `partStates`. -/
theorem segmentPart_states (fl : FloatOps) (model : SpellModel) (input : GoString)
    (hws : ∀ c ∈ input, isWhiteSpace c = false) (lw A cf : Nat)
    (hA : A = min input.length lw) (top : Nat → Nat → GoString × Int) (i j : Nat)
    (hj : 1 ≤ j) (hij : i + j ≤ input.length) (hjl : j ≤ lw)
    (htop : segmentTop model ((input.drop i).take j) = top i j)
    (comps : List (composition fl.F)) (hlen : comps.length = A)
    (states : List (List Cell)) (hS : comps.map eraseCell ∈ states) :
    ∃ comps2, segmentPart fl model defaultSegmentParams.lookupOptions input lw A cf i
        (if i = 0 then (-1 : Int) else (((i - 1) % A : Nat) : Int)) j comps = .ok comps2 ∧
      comps2.length = A ∧ comps2.map eraseCell ∈ partStates top input lw A i j states := by
  have hA0 : 0 < A := by omega
  obtain ⟨prob, heq⟩ := segmentPart_top fl model input hws lw A cf i j
    (if i = 0 then (-1 : Int) else (((i - 1) % A : Nat) : Int)) comps hj hij (by omega)
  rw [heq, htop]
  unfold partStates
  by_cases hi : i = 0
  · subst hi
    have e2 : Int.tmod ((j : Int) + -1) (A : Int) = ((j - 1 : Nat) : Int) := by
      have : (j : Int) + -1 = ((j - 1 : Nat) : Int) := by omega
      rw [this, ← Int.ofNat_tmod, Nat.mod_eq_of_lt (by omega)]
    simp only [if_true, Nat.cast_zero, e2]
    rw [upd_of_eq _ _ (j - 1) _ rfl (by omega)]
    refine ⟨_, rfl, by rw [List.length_set]; exact hlen, ?_⟩
    rw [List.mem_dedup, List.mem_flatMap]
    refine ⟨_, hS, ?_⟩
    rw [List.mem_singleton, List.map_set]
    rfl
  · have hi0 : ¬ ((i : Int) = 0) := by omega
    have e2 : (j + (i - 1) % A) % A = (i + j - 1) % A := by
      have : i + j - 1 = j + (i - 1) := by omega
      rw [this, Nat.add_mod j (i - 1), Nat.add_mod j ((i - 1) % A), Nat.mod_mod]
    have hc : (i - 1) % A < comps.length := by rw [hlen]; exact Nat.mod_lt _ hA0
    have hd : (i + j - 1) % A < comps.length := by rw [hlen]; exact Nat.mod_lt _ hA0
    obtain ⟨cc, c1⟩ : ∃ cc, comps[(i - 1) % A]? = some cc := ⟨_, List.getElem?_eq_getElem hc⟩
    obtain ⟨cd, c3⟩ : ∃ cd, comps[(i + j - 1) % A]? = some cd :=
      ⟨_, List.getElem?_eq_getElem hd⟩
    simp only [if_neg hi, if_neg hi0, destinationIdx_eq, e2, idx_natCast, c1, c3]
    have hmem : ∀ b : Bool,
        cellStep b lw ((i - 1) % A) ((i + j - 1) % A) j ((input.drop i).take j) (top i j)
          (comps.map eraseCell) ∈
        (states.flatMap fun cells =>
          [cellStep true lw ((i - 1) % A) ((i + j - 1) % A) j ((input.drop i).take j)
              (top i j) cells,
            cellStep false lw ((i - 1) % A) ((i + j - 1) % A) j ((input.drop i).take j)
              (top i j) cells]).dedup := by
      intro b
      rw [List.mem_dedup, List.mem_flatMap]
      refine ⟨_, hS, ?_⟩
      cases b
      · exact List.mem_cons_of_mem _ (List.mem_singleton.2 rfl)
      · exact List.mem_cons_self _ _
    have hstep := fun b => cellStep_erase b lw ((i - 1) % A) ((i + j - 1) % A) j
      ((input.drop i).take j) (top i j) comps cc cd c1 c3 (fl.add cc.probability prob)
    have hjlw : ((j : Int) = (lw : Int)) ↔ j = lw := Nat.cast_inj
    split_ifs with hcond
    · rw [upd_of_eq _ _ ((i + j - 1) % A) _ rfl hd]
      refine ⟨_, rfl, by rw [List.length_set]; exact hlen, ?_⟩
      have := hmem (fl.lt cd.probability (fl.add cc.probability prob))
      rw [hstep, if_pos (by rw [← hjlw]; exact hcond)] at this
      exact this
    · refine ⟨_, rfl, hlen, ?_⟩
      have := hmem (fl.lt cd.probability (fl.add cc.probability prob))
      rw [hstep, if_neg (by rw [← hjlw]; exact hcond)] at this
      exact this

/-- The iterations of the loop over `j` of `Segment` with the default options, on an input
without white space, leave one of the buffers of `rowStates`. -/
theorem segmentParts_states (fl : FloatOps) (model : SpellModel) (input : GoString)
    (hws : ∀ c ∈ input, isWhiteSpace c = false) (lw A cf : Nat)
    (hA : A = min input.length lw) (top : Nat → Nat → GoString × Int) (i : Nat) :
    ∀ (m j : Nat) (comps : List (composition fl.F)) (states : List (List Cell)),
      1 ≤ j → i + j + m ≤ input.length + 1 → j + m ≤ lw + 1 →
      (∀ k, j ≤ k → k < j + m → segmentTop model ((input.drop i).take k) = top i k) →
      comps.length = A → comps.map eraseCell ∈ states →
      ∃ comps2, forLoopE (segmentPart fl model defaultSegmentParams.lookupOptions input lw A
          cf i (if i = 0 then (-1 : Int) else (((i - 1) % A : Nat) : Int))) m j comps =
          .ok comps2 ∧
        comps2.length = A ∧ comps2.map eraseCell ∈ rowStates top input lw A i m j states := by
  intro m
  induction m with
  | zero =>
    intro j comps states _ _ _ _ hlen hS
    exact ⟨comps, rfl, hlen, hS⟩
  | succ m ih =>
    intro j comps states hj h1 h2 htop hlen hS
    obtain ⟨comps1, p1, p2, p3⟩ := segmentPart_states fl model input hws lw A cf hA top i j
      hj (by omega) (by omega) (htop j (le_refl _) (by omega)) comps hlen states hS
    obtain ⟨comps2, q1, q2, q3⟩ := ih (j + 1) comps1
      (partStates top input lw A i j states) (by omega) (by omega) (by omega)
      (fun k k1 k2 => htop k (by omega) (by omega)) p2 p3
    refine ⟨comps2, ?_, q2, q3⟩
    simp only [forLoopE, p1]
    rw [← q1]
    push_cast
    rfl

/-- The rows of `Segment` with the default options, on an input without white space, leave
one of the buffers of `segStates`, and `circularIdx` at the cell before the next row. -/
theorem segmentRows_states (fl : FloatOps) (model : SpellModel) (input : GoString)
    (hws : ∀ c ∈ input, isWhiteSpace c = false) (lw A cf : Nat)
    (hA : A = min input.length lw) (hlw : 0 < lw) (top : Nat → Nat → GoString × Int)
    (htop : ∀ i j, i < input.length → 1 ≤ j → j ≤ min (input.length - i) lw →
      segmentTop model ((input.drop i).take j) = top i j) :
    ∀ (m i : Nat) (comps : List (composition fl.F)) (states : List (List Cell)),
      i + m ≤ input.length → comps.length = A → comps.map eraseCell ∈ states →
      ∃ comps2, forLoopE (segmentRow fl model defaultSegmentParams.lookupOptions input
          input.length lw A cf) m i
          (comps, if i = 0 then (-1 : Int) else (((i - 1) % A : Nat) : Int)) =
          .ok (comps2,
            if i + m = 0 then (-1 : Int) else (((i + m - 1) % A : Nat) : Int)) ∧
        comps2.length = A ∧ comps2.map eraseCell ∈ segStates top input lw A m i states := by
  intro m
  induction m with
  | zero =>
    intro i comps states _ hlen hS
    exact ⟨comps, rfl, hlen, hS⟩
  | succ m ih =>
    intro i comps states him hlen hS
    have hA0 : 0 < A := by omega
    obtain ⟨comps1, p1, p2, p3⟩ := segmentParts_states fl model input hws lw A cf hA top i
      (min (input.length - i) lw) 1 comps states (le_refl _) (by omega) (by omega)
      (fun k k1 k2 => htop i k (by omega) k1 (by omega)) hlen hS
    have hrow : segmentRow fl model defaultSegmentParams.lookupOptions input input.length lw A
        cf i (comps, if i = 0 then (-1 : Int) else (((i - 1) % A : Nat) : Int)) =
        .ok (comps1, if i + 1 = 0 then (-1 : Int) else (((i + 1 - 1) % A : Nat) : Int)) := by
      unfold segmentRow
      rw [Min_pair]
      have hj : (min ((input.length : Int) - (i : Int)) (lw : Int)).toNat =
          min (input.length - i) lw := by omega
      simp only [hj]
      have p1b : forLoopE (segmentPart fl model defaultSegmentParams.lookupOptions input lw A
          cf i (if i = 0 then (-1 : Int) else (((i - 1) % A : Nat) : Int)))
          (min (input.length - i) lw) 1 comps = .ok comps1 := p1
      rw [p1b]
      dsimp only
      rw [if_neg (Nat.succ_ne_zero i), Nat.add_sub_cancel]
      by_cases hi : i = 0
      · subst hi
        have : ¬ ((-1 : Int) + 1 = (A : Int)) := by omega
        simp only [if_true, this, if_false]
        rfl
      · rw [if_neg hi, circularIdx_step i A (by omega) hA0]
    obtain ⟨comps2, q1, q2, q3⟩ := ih (i + 1) comps1
      (rowStates top input lw A i (min (input.length - i) lw) 1 states) (by omega) p2 p3
    refine ⟨comps2, ?_, q2, q3⟩
    simp only [forLoopE, hrow]
    rw [show i + (m + 1) = i + 1 + m by omega, ← q1]
    push_cast
    rfl

/-- The table of `segmentTop` holds the word and the edits of every part. -/
theorem tableTop_segmentTops (model : SpellModel) (input : GoString) (lw i j : Nat)
    (hi : i < input.length) (hj : 1 ≤ j) (hjm : j ≤ min (input.length - i) lw) :
    segmentTop model ((input.drop i).take j) = tableTop (segmentTops model input lw) i j := by
  unfold tableTop segmentTops
  rw [List.getElem?_map, List.getElem?_range hi]
  simp only [Option.map_some', Option.getD_some]
  rw [List.getElem?_map, List.getElem?_range (by omega)]
  simp only [Option.map_some', Option.getD_some]
  rw [Nat.sub_add_cancel hj]

/-- The loops of `Segment` with the default options, on a non-empty input without white
space, return one of the buffers of `segStates` for the table of `segmentTop`. -/
theorem segment_loops_states (fl : FloatOps) (model : SpellModel) (input : GoString)
    (hws : ∀ c ∈ input, isWhiteSpace c = false) (hne : input ≠ [])
    (hlw : 0 < model.longestWord) (table : List (List (GoString × Int)))
    (htable : segmentTops model input model.longestWord = table) :
    ∃ comps, forLoopE (segmentRow fl model defaultSegmentParams.lookupOptions input
        input.length model.longestWord (min input.length model.longestWord : Nat)
        model.cumulativeFreq) input.length 0
        (List.replicate (min input.length model.longestWord) ⟨[], [], 0, fl.zero⟩, -1) =
        .ok (comps, (((input.length - 1) % min input.length model.longestWord : Nat) : Int)) ∧
      comps.map eraseCell ∈ segStates (tableTop table) input model.longestWord
        (min input.length model.longestWord) input.length 0
        [List.replicate (min input.length model.longestWord) ([], [], 0)] := by
  have hn : 0 < input.length := List.length_pos.2 hne
  obtain ⟨comps, h1, -, h3⟩ := segmentRows_states fl model input hws model.longestWord
    (min input.length model.longestWord) model.cumulativeFreq rfl hlw (tableTop table)
    (fun i j hi h1 h2 => by
      rw [← htable]
      exact tableTop_segmentTops model input _ i j hi h1 h2)
    input.length 0 (List.replicate (min input.length model.longestWord) ⟨[], [], 0, fl.zero⟩)
    [List.replicate (min input.length model.longestWord) ([], [], 0)] (by omega)
    (List.length_replicate _ _) (by
      rw [List.map_replicate]
      exact List.mem_singleton.2 rfl)
  refine ⟨comps, ?_, h3⟩
  have e1 : (if (0 : Nat) = 0 then (-1 : Int)
      else (((0 - 1) % min input.length model.longestWord : Nat) : Int)) = -1 := if_pos rfl
  have e2 : (if 0 + input.length = 0 then (-1 : Int)
      else (((0 + input.length - 1) % min input.length model.longestWord : Nat) : Int)) =
      (((input.length - 1) % min input.length model.longestWord : Nat) : Int) := by
    rw [Nat.zero_add, if_neg (by omega)]
  rw [e1, e2, Nat.cast_zero] at h1
  exact h1

end Certificate

section QuickExample

set_option maxRecDepth 1000000 in
set_option maxHeartbeats 0 in
/-- The table `quickTable` is the table of `segmentTop` for `thequickbrownfox` in
`quickModel`. -/
theorem quickTable_eq :
    segmentTops quickModel "thequickbrownfox".toList quickModel.longestWord = quickTable := by
  decide!

set_option maxRecDepth 1000000 in
set_option maxHeartbeats 0 in
/-- Whatever the comparisons of the probabilities answer, the loops of `Segment` leave one
buffer for `thequickbrownfox` in `quickModel`. -/
theorem quickStates_eq :
    segStates (tableTop quickTable) "thequickbrownfox".toList quickModel.longestWord
        (min "thequickbrownfox".toList.length quickModel.longestWord)
        "thequickbrownfox".toList.length 0
        [List.replicate (min "thequickbrownfox".toList.length quickModel.longestWord)
          ([], [], 0)] =
      [[("the quick brown fox".toList, "the quick brown fox".toList, 3),
        ("the quick brow".toList, "the quick brown".toList, 3),
        ("the quick brown".toList, "the quick brown".toList, 2),
        ("the quick brown f".toList, "the quick brown fox".toList, 5),
        ("the quick brown fo".toList, "the quick brown fox".toList, 4)]] := by
  decide!

/-- For all float operations, `Segment("thequickbrownfox")` on `quickModel` returns the
segments the, quick, brown and fox with the distance 3. -/
theorem quickModel_Segment (fl : FloatOps) :
    quickModel.Segment fl "thequickbrownfox".toList [] =
      .ok ⟨3, [⟨"the".toList, some ⟨100, "the".toList, none⟩, "the".toList⟩,
        ⟨"quick".toList, some ⟨50, "quick".toList, none⟩, "quick".toList⟩,
        ⟨"brown".toList, some ⟨40, "brown".toList, none⟩, "brown".toList⟩,
        ⟨"fox".toList, some ⟨30, "fox".toList, none⟩, "fox".toList⟩]⟩ := by
  obtain ⟨comps, h1, h2⟩ := segment_loops_states fl quickModel "thequickbrownfox".toList
    (by decide) (by decide) (by decide) quickTable quickTable_eq
  rw [quickStates_eq, List.mem_singleton] at h2
  have h3 := congrArg (fun l => l[0]?) h2
  simp only [List.getElem?_map, List.getElem?_cons_zero] at h3
  rcases hc : comps[0]? with _ | c
  · rw [hc] at h3; cases h3
  · rw [hc] at h3
    simp only [Option.map_some', Option.some.injEq, eraseCell, Prod.mk.injEq] at h3
    obtain ⟨c1, c2, c3⟩ := h3
    have hidx : idx comps ((("thequickbrownfox".toList.length - 1) %
        min "thequickbrownfox".toList.length quickModel.longestWord : Nat) : Int) = some c := by
      rw [idx_natCast]
      exact hc
    rw [Segment_eq_loops fl quickModel "thequickbrownfox".toList (by decide) (by decide) _ rfl
      comps _ c h1 hidx, c1, c2, c3]
    rfl

end QuickExample

section QuickTheorems

/-- C21, as the code has it: on a new model after `AddEntry` of the (frequency 100), quick
(50), brown (40) and fox (30), `Segment("thequickbrownfox")` returns the four segments the,
quick, brown and fox in this order, each with its entry, and the result `Distance` 3, one
edit for each of the three separators; this holds for all float operations, so whatever
the probabilities are and their comparisons answer. -/
theorem Segment_quick_example :
    addEntryCalls [] NewSpellModel quickEntries = some quickModel ∧
      ∀ fl : FloatOps, quickModel.Segment fl "thequickbrownfox".toList [] =
        .ok ⟨3, [⟨"the".toList, some ⟨100, "the".toList, none⟩, "the".toList⟩,
          ⟨"quick".toList, some ⟨50, "quick".toList, none⟩, "quick".toList⟩,
          ⟨"brown".toList, some ⟨40, "brown".toList, none⟩, "brown".toList⟩,
          ⟨"fox".toList, some ⟨30, "fox".toList, none⟩, "fox".toList⟩]⟩ :=
  ⟨rfl, quickModel_Segment⟩

/-- C21, counterexample: on the model of the claim no float operations make
`Segment("thequickbrownfox")` return a result with the `Distance` 0, and the result it
returns has the distance 3. -/
theorem Segment_quick_counterexample :
    addEntryCalls [] NewSpellModel quickEntries = some quickModel ∧
      (¬ ∃ (fl : FloatOps) (r : SegmentResult),
        quickModel.Segment fl "thequickbrownfox".toList [] = .ok r ∧ r.Distance = 0) ∧
      ∃ r, quickModel.Segment (unitFloatOps false) "thequickbrownfox".toList [] = .ok r ∧
        r.Segments.map Segment.Word =
          ["the".toList, "quick".toList, "brown".toList, "fox".toList] ∧
        r.Distance = 3 := by
  refine ⟨rfl, ?_, _, quickModel_Segment _, rfl, rfl⟩
  rintro ⟨fl, r, h1, h2⟩
  rw [quickModel_Segment fl] at h1
  cases h1
  cases h2

end QuickTheorems

end Ta
